import Mathlib

/-!
# Lattice sieve (`sieve/las.c`): lattice reduction, bucket sieve, small sieve

A shallow embedding of the lattice-basis reducer `reduce_plattice`, of the
increment accessors `plattice_a`, `plattice_c`, `plattice_bound0`,
`plattice_bound1`, of `plattice_starting_vector`, of the per-prime body of
`fill_in_buckets` and of the ordinary-prime part of the small-prime line sieve
(`small_sieve_start`, `sieve_small_bucket_region`); of the factor base
partition (`reorder_fb`, `dispatch_fb`); of the set-up of the small sieve
(`ssp_init_oa`, `ssp_init_op`, `small_sieve_init`) and of the cursor through
the regions of a thread (`small_sieve_skip_stride`, `process_bucket_region`);
and of the filters of `factor_survivors` (`sieve_info_test_lognorm`, the
coprimality tests, the two passes over the region); of the bucket application
and the cofactorisation (`apply_one_bucket`, `divide_primes_from_bucket`,
`trial_div`, `check_leftover_norm`, `factor_leftover_norm`); of the resieve
(`init_resieve`, `resieve_small_bucket_region`); of the projective and
power-of-2 entries of the small sieve; of the Montgomery ladder `ellM_mul_ui`
of `sieve/ecm/ecm.c` on scalar indices; and of the text form of vectors in
`linalg/bwc/mpfq/abase_p16.c`.

A factor base array is the list of its entries, end marker included; a pointer
into it is the number of entries before it.

Conventions.  A conversion to `int32_t` (the cast `(int32_t)p` and the
initialisers of `int32_t` locals from unsigned values) is the reduction modulo
`2^32` into `[-2^31, 2^31)`, `to_int32`.  Arithmetic on the `int32_t` locals of
`reduce_plattice` is integer arithmetic (`Int`): signed overflow is undefined
in C, and the source states that "p is less than 32 bits".  The `int`
expression returned by `plattice_starting_vector`, whose shifted row can pass
`2^31` under `SUPPORT_I16`, is taken in 32 bits (`to_int32`) before its
conversion to `plattice_x_t`.
Unsigned quantities whose wrap-around is part of the behaviour (the walk
coordinate `plattice_x_t`, the increments, the 16-bit field `update.x`) carry an
explicit reduction modulo `2^w`.  A loop of the source is a function with a
fuel argument; `none` stands for a loop that does not return.
-/

namespace Las

/-! ## Configuration and data -/

/-- Compile-time switches used by `las.c`.  They are defined in `las-config.h`,
which is not part of the sources at hand, and are therefore parameters. -/
structure las_config where
  /-- `MOD2_CLASSES_BS`: bucket-sieve by congruence classes modulo 2. -/
  MOD2_CLASSES_BS : Bool
  /-- `SUPPORT_I16`: 64-bit walk coordinate, sentinel `UINT32_MAX`. -/
  SUPPORT_I16 : Bool
  /-- `SKIP_GCD3`: also skip updates where 3 divides both coordinates. -/
  SKIP_GCD3 : Bool
  /-- `LOG_BUCKET_REGION`: binary logarithm of the bucket region size. -/
  LOG_BUCKET_REGION : Nat
deriving DecidableEq, Repr

/-- The fields of `sieve_info` read by the functions below. -/
structure sieve_info where
  /-- `si->I`, the width of the sieve region. -/
  I : Nat
  /-- `si->J`, the number of rows. -/
  J : Nat
  /-- `si->logI`, with `I = 1 << logI`. -/
  logI : Nat
  /-- `si->q`, the special-q. -/
  q : Nat
deriving DecidableEq, Repr

/-- The struct `plattice_info_t`.  The fields hold the values of the `int32_t`
locals of `reduce_plattice` at its final assignments; the members `a1`, `b1`
are `uint32_t` in the source and their readers reduce them modulo `2^32`. -/
structure plattice_info_t where
  a0 : Int
  b0 : Int
  a1 : Int
  b1 : Int
deriving DecidableEq, Repr

/-! ## `reduce_plattice` -/

/-- The conversion of an integer value to `int32_t`: its residue modulo `2^32`
in `[-2^31, 2^31)`. -/
def to_int32 (v : Int) : Int := (v + 2 ^ 31) % 2 ^ 32 - 2 ^ 31

/-- The half width `hI` of `reduce_plattice`: `int32_t I = si->I`, halved under
`MOD2_CLASSES_BS`. -/
def hI (cfg : las_config) (si : sieve_info) : Int :=
  if cfg.MOD2_CLASSES_BS then Int.tdiv (to_int32 (si.I : Int)) 2 else to_int32 (si.I : Int)

/-- First inner loop, `for( ; a0 += b0, a1 += b1, a0 + b0 <= 0 ; );`.
Returns the new `(a0, a1)`. -/
def reduce_loop_a : Nat → Int → Int → Int → Int → Option (Int × Int)
  | 0, _, _, _, _ => none
  | fuel + 1, a0, a1, b0, b1 =>
    if (a0 + b0) + b0 ≤ 0 then reduce_loop_a fuel (a0 + b0) (a1 + b1) b0 b1
    else some (a0 + b0, a1 + b1)

/-- Second inner loop, `for( ; b0 += a0, b1 += a1, b0 + a0 >= 0 ; );`.
Returns the new `(b0, b1)`. -/
def reduce_loop_b : Nat → Int → Int → Int → Int → Option (Int × Int)
  | 0, _, _, _, _ => none
  | fuel + 1, a0, a1, b0, b1 =>
    if 0 ≤ (b0 + a0) + a0 then reduce_loop_b fuel a0 a1 (b0 + a0) (b1 + a1)
    else some (b0 + a0, b1 + a1)

/-- The outer loop `for(;;)` of `reduce_plattice` (the subtractive variant of
Euclid's algorithm); `lim` is the fuel handed to the inner loops. -/
def reduce_loop (lim : Nat) (hI : Int) : Nat → plattice_info_t → Option plattice_info_t
  | 0, _ => none
  | fuel + 1, s =>
    if s.b0 < hI then some s
    else
      match reduce_loop_a lim s.a0 s.a1 s.b0 s.b1 with
      | none => none
      | some (a0, a1) =>
        if -a0 < hI then some { s with a0 := a0, a1 := a1 }
        else
          match reduce_loop_b lim a0 a1 s.b0 s.b1 with
          | none => none
          | some (b0, b1) => reduce_loop lim hI fuel { a0 := a0, b0 := b0, a1 := a1, b1 := b1 }

/-- The closing step of `reduce_plattice` after the subtractive loop: one
classical (truncating) division.  `none` is the return value 0. -/
def reduce_finish (hI : Int) (s : plattice_info_t) : Option plattice_info_t :=
  if s.b0 > -s.a0 then
    if s.a0 = 0 then none
    else
      let k : Int := 1 + Int.tdiv (s.b0 - hI) (-s.a0)
      some { s with b0 := s.b0 + k * s.a0, b1 := s.b1 + k * s.a1 }
  else
    if s.b0 = 0 then none
    else
      let k : Int := 1 + Int.tdiv (-s.a0 - hI) s.b0
      some { s with a0 := s.a0 + k * s.b0, a1 := s.a1 + k * s.b1 }

/-- The function `reduce_plattice(pli, p, r, si)`, from its initialisers
`int32_t a0=-(int32_t)p, a1=0, b0=r, b1=1`.  The outer `none` is a run
that does not return; `some none` is the return value 0 (`pli` is not written);
`some (some pli)` is a non-zero return value with the basis written to `pli`. -/
def reduce_plattice (cfg : las_config) (p r : Nat) (si : sieve_info) :
    Option (Option plattice_info_t) :=
  match reduce_loop (p + 1) (hI cfg si) (p + 1)
      { a0 := to_int32 (-(to_int32 (p : Int))), b0 := to_int32 (r : Int), a1 := 0, b1 := 1 } with
  | none => none
  | some s => some (reduce_finish (hI cfg si) s)

/-! ## Increments and bounds of the walk -/

/-- Conversion of an integer to `uint32_t`. -/
def u32 (v : Int) : Nat := (v % 2 ^ 32).toNat

/-- Number of bits of `plattice_x_t`: `uint64_t` under `SUPPORT_I16`, else
`uint32_t`. -/
def x_bits (cfg : las_config) : Nat := if cfg.SUPPORT_I16 then 64 else 32

/-- The macro `PLI_COEFF(pli, ab01)`: the coefficient, shifted left by one under
`MOD2_CLASSES_BS`. -/
def PLI_COEFF (cfg : las_config) (v : Int) : Int :=
  if cfg.MOD2_CLASSES_BS then v * 2 else v

/-- The value returned by `plattice_a` and `plattice_c` in place of an increment
that is too large: `UINT32_MAX` under `SUPPORT_I16`, else `INT32_MAX/2`. -/
def plattice_sentinel (cfg : las_config) : Nat :=
  if cfg.SUPPORT_I16 then 2 ^ 32 - 1 else (2 ^ 31 - 1) / 2

/-- The function `plattice_a`. -/
def plattice_a (cfg : las_config) (pli : plattice_info_t) (si : sieve_info) : Nat :=
  let a0 : Int := PLI_COEFF cfg pli.a0
  let a1 : Nat := u32 (PLI_COEFF cfg pli.a1)
  if a1 > si.J % 2 ^ 32 ∨ (a1 = si.J % 2 ^ 32 ∧ a0 > 0) then plattice_sentinel cfg
  else u32 (((a1 <<< si.logI : Nat) : Int) + a0)

/-- The function `plattice_c`. -/
def plattice_c (cfg : las_config) (pli : plattice_info_t) (si : sieve_info) : Nat :=
  let b0 : Int := PLI_COEFF cfg pli.b0
  let b1 : Nat := u32 (PLI_COEFF cfg pli.b1)
  if b1 > si.J % 2 ^ 32 ∨ (b1 = si.J % 2 ^ 32 ∧ b0 > 0) then plattice_sentinel cfg
  else u32 (((b1 <<< si.logI : Nat) : Int) + b0)

/-- The function `plattice_bound0`. -/
def plattice_bound0 (cfg : las_config) (pli : plattice_info_t) (_si : sieve_info) : Nat :=
  u32 (-(PLI_COEFF cfg pli.a0))

/-- The function `plattice_bound1`. -/
def plattice_bound1 (cfg : las_config) (pli : plattice_info_t) (si : sieve_info) : Nat :=
  u32 ((si.I : Int) - PLI_COEFF cfg pli.b0)

/-- The function `plattice_starting_vector(pli, si, par)`.  In the branch for
`MOD2_CLASSES_BS` the operators `&`, `^`, `|` act on `int` values; the 32-bit
fields `a1`, `b1` and `si->J` are read as `int32_t`, and the returned
expression `(v[1] << logI) | (v[0] + (1 << (logI-1)))`, of type `int`, is taken
in 32 bits before its conversion to `plattice_x_t` (with `SUPPORT_I16` the
shifted row can pass `2^31`). -/
def plattice_starting_vector (cfg : las_config) (pli : plattice_info_t) (si : sieve_info)
    (par : Nat) : Nat :=
  if cfg.MOD2_CLASSES_BS = false then
    let x : Nat := 1 <<< (si.logI - 1)
    let i : Nat := x % 2 ^ 32
    let x1 : Nat :=
      if i ≥ plattice_bound1 cfg pli si then (x + plattice_a cfg pli si) % 2 ^ x_bits cfg else x
    if i < plattice_bound0 cfg pli si then (x1 + plattice_c cfg pli si) % 2 ^ x_bits cfg else x1
  else
    let a0 := pli.a0
    let a1 := to_int32 pli.a1
    let b0 := pli.b0
    let b1 := to_int32 pli.b1
    let k : Int := -(Int.xor (Int.land (Int.land b1 par) 1) (Int.land b0 ((par >>> 1 : Nat) : Int)))
    let l : Int := -(Int.xor (Int.land (Int.land a1 par) 1) (Int.land a0 ((par >>> 1 : Nat) : Int)))
    let exceptional : Bool :=
      decide (k ≠ 0 ∧ l ≠ 0 ∧ a0 - b0 = -((1 <<< (si.logI - 1) : Nat) : Int) ∧ a1 > b1)
    let v0 : Int := if exceptional then a0 - b0 else Int.land a0 k + Int.land b0 l
    let v1 : Int := if exceptional then a1 - b1 else Int.land a1 k + Int.land b1 l
    if v1 > to_int32 (si.J : Int) then plattice_sentinel cfg
    else
      ((to_int32 (Int.lor (v1 * 2 ^ si.logI) (v0 + ((1 <<< (si.logI - 1) : Nat) : Int))))
        % 2 ^ x_bits cfg).toNat

/-! ## `fill_in_buckets` -/

/-- A bucket update: the 16-bit position `x` inside the bucket region and the
encoded prime `p`. -/
structure bucket_update_t where
  x : Nat
  p : Nat
deriving DecidableEq, Repr

/-- Modelled from the spec: `is_divisible_3_u32` of `las-arith.h`, which is not
part of the sources at hand; by its name and its use it tests divisibility by 3
of a 32-bit value. -/
def is_divisible_3_u32 (n : Nat) : Bool := decide (n % 2 ^ 32 % 3 = 0)

/-- The test that guards the deposit inside the walking loop,
`MOD2_CLASSES_BS || (x & even_mask) [&& (!is_divisible_3_u32 (i + I) ||
!is_divisible_3_u32 (x >> logI))]`, with `even_mask = (1U << logI) | 1U`. -/
def fill_deposit_test (cfg : las_config) (si : sieve_info) (x : Nat) : Bool :=
  let I : Nat := si.I % 2 ^ 32
  let even_mask : Nat := ((1 <<< si.logI) % 2 ^ 32) ||| 1
  let maskI : Nat := (I + (2 ^ 32 - 1)) % 2 ^ 32
  let i : Nat := (x &&& maskI) % 2 ^ 32
  cfg.MOD2_CLASSES_BS ||
    (decide (x &&& even_mask ≠ 0) &&
      (!cfg.SKIP_GCD3 || (!is_divisible_3_u32 (i + I) || !is_divisible_3_u32 (x >>> si.logI))))

/-- The update of `x` at the end of one pass of the walking loop:
`if (i >= bound1) x += inc_a; if (i < bound0) x += inc_c;`. -/
def fill_walk_step (cfg : las_config) (si : sieve_info) (bound0 bound1 inc_a inc_c x : Nat) :
    Nat :=
  let maskI : Nat := (si.I % 2 ^ 32 + (2 ^ 32 - 1)) % 2 ^ 32
  let i : Nat := (x &&& maskI) % 2 ^ 32
  let x1 : Nat := if i ≥ bound1 then (x + inc_a) % 2 ^ x_bits cfg else x
  if i < bound0 then (x1 + inc_c) % 2 ^ x_bits cfg else x1

/-- The loop `while (x < IJ)` of `fill_in_buckets`.  The result lists, in order,
every value of `x` for which the body ran, with the outcome of the deposit
test. -/
def fill_walk (cfg : las_config) (si : sieve_info) (bound0 bound1 inc_a inc_c : Nat) :
    Nat → Nat → Option (List (Nat × Bool))
  | 0, _ => none
  | fuel + 1, x =>
    if x < (si.I * si.J) % 2 ^ 32 then
      match fill_walk cfg si bound0 bound1 inc_a inc_c fuel
          (fill_walk_step cfg si bound0 bound1 inc_a inc_c x) with
      | none => none
      | some rest => some ((x, fill_deposit_test cfg si x) :: rest)
    else some []

/-- The walk of `fill_in_buckets` for one congruence class `parity`: from
`plattice_starting_vector` on, through the loop `while (x < IJ)`.  A value of
`x` below `IJ` cannot recur in a run that ends, so `IJ + 1` passes are enough
for every run that ends. -/
def fill_in_buckets_walk (cfg : las_config) (si : sieve_info) (pli : plattice_info_t)
    (parity : Nat) : Option (List (Nat × Bool)) :=
  fill_walk cfg si (plattice_bound0 cfg pli si) (plattice_bound1 cfg pli si)
    (plattice_a cfg pli si) (plattice_c cfg pli si)
    ((si.I * si.J) % 2 ^ 32 + 1) (plattice_starting_vector cfg pli si parity)

/-- The bucket update pushed for the position `x`:
`push_bucket_update(BA, x >> shiftbucket, update)` with
`update.x = (uint16_t) (x & maskbucket)`.  The result is the bucket number and
the update. -/
def fill_push (cfg : las_config) (enc : Nat) (x : Nat) : Nat × bucket_update_t :=
  let maskbucket : Nat := ((1 <<< cfg.LOG_BUCKET_REGION) + (2 ^ 32 - 1)) % 2 ^ 32
  (x >>> cfg.LOG_BUCKET_REGION, { x := (x &&& maskbucket) % 2 ^ 16, p := enc })

/-- The pushes of the walks of all congruence classes,
`for (parity = MOD2_CLASSES_BS; parity < (MOD2_CLASSES_BS ? 4 : 1); parity++)`. -/
def fill_in_buckets_parities (cfg : las_config) (si : sieve_info) (pli : plattice_info_t)
    (enc : Nat) : List Nat → Option (List (Nat × bucket_update_t))
  | [] => some []
  | parity :: rest =>
    match fill_in_buckets_walk cfg si pli parity with
    | none => none
    | some trace =>
      match fill_in_buckets_parities cfg si pli enc rest with
      | none => none
      | some more =>
        some (((trace.filter (fun e => e.2)).map (fun e => fill_push cfg enc e.1)) ++ more)

/-- The body of the loop of `fill_in_buckets` over the factor base, for one
prime `p` whose root in the q-lattice is `r = fb_root_in_qlattice(...)`;
`enc` is `bucket_encode_prime (p)`.  The result is the sequence of calls of
`push_bucket_update`, each with its bucket number and its update; `none` is a
run that does not come back (`ASSERT_ALWAYS (p % 2 == 1)` fails, or a loop
does not end). -/
def fill_in_buckets_prime (cfg : las_config) (si : sieve_info) (p r enc : Nat) :
    Option (List (Nat × bucket_update_t)) :=
  if p % 2 ≠ 1 then none
  else if p = si.q then some []
  else
    let I : Nat := si.I % 2 ^ 32
    if r = 0 then
      let x : Nat := (I + I / 2) % 2 ^ 32
      some [fill_push cfg enc x]
    else if r = p then
      some [(0, { x := ((I % 2 ^ 16) / 2 + 1) % 2 ^ 16, p := enc })]
    else if r > p then some []
    else
      match reduce_plattice cfg p r si with
      | none => none
      | some none => some []
      | some (some pli) =>
        fill_in_buckets_parities cfg si pli enc
          (if cfg.MOD2_CLASSES_BS then [1, 2, 3] else [0])

/-- The position in the sieve area of an update stored in bucket `N` with local
offset `x`: `X = x + (N << LOG_BUCKET_REGION)`, as `factor_survivors` rebuilds
it. -/
def push_position (cfg : las_config) (e : Nat × bucket_update_t) : Nat :=
  e.2.x + (e.1 <<< cfg.LOG_BUCKET_REGION)

/-! ## Small-prime line sieve, ordinary entries -/

/-- The cursor written by `small_sieve_start(ssd, j0, si)` for an ordinary
entry `(p, r)`: `compensate = si->I / 2; compensate += j0 * ssp->r;
next_position[i] = compensate % ssp->p` in `unsigned int` arithmetic. -/
def small_sieve_start (si : sieve_info) (j0 p r : Nat) : Nat :=
  ((si.I / 2 + j0 * r) % 2 ^ 32) % p

/-- The innermost loop of `sieve_small_bucket_region` for an ordinary entry,
`for ( ; i < I; i += twop) sieve_decrease (S_ptr + i, logp, w);`.  The result
lists the values of `i` at which a byte is decreased. -/
def sieve_small_line (I twop : Nat) : Nat → Nat → Option (List Nat)
  | 0, _ => none
  | fuel + 1, i =>
    if i < I then
      match sieve_small_line I twop fuel ((i + twop) % 2 ^ 32) with
      | none => none
      | some rest => some (i :: rest)
    else some []

/-- The loop `for (j = 0; j < nj; j++)` of `sieve_small_bucket_region` for an
ordinary entry `(p, r)` in region `N`, with `lines` lines still to do from line
`j` on and the running cursor `i0`.  The result is the list of the offsets
`j * I + i` into the region `S` that are decreased, and the final cursor. -/
def sieve_small_lines (si : sieve_info) (nj N p r : Nat) : Nat → Nat → Nat →
    Option (List Nat × Nat)
  | 0, _, i0 => some ([], i0)
  | lines + 1, j, i0 =>
    let I : Nat := si.I % 2 ^ 32
    let even : Bool := decide ((((nj &&& N) ^^^ j) &&& 1) = 0)
    let twop : Nat := if even then (p + p) % 2 ^ 32 else p
    let i : Nat := if even then (i0 + (if i0 &&& 1 ≠ 0 then 0 else p)) % 2 ^ 32 else i0
    match sieve_small_line I twop (I + 1) i with
    | none => none
    | some hits =>
      let i1 : Nat := (i0 + r) % 2 ^ 32
      let i2 : Nat := if i1 ≥ p then i1 - p else i1
      match sieve_small_lines si nj N p r lines (j + 1) i2 with
      | none => none
      | some (rest, c) => some (hits.map (fun i => j * I + i) ++ rest, c)

/-- `sizeof (unsigned long)`, on the LP64 platforms of the siever. -/
def sizeof_unsigned_long : Nat := 8

/-- The loop `for (i = i0; i < 3 * sizeof(unsigned long); i += p)` of the
pattern sieve of 3, which adds the weight of the entry to the bytes `i` of the
pattern; the result lists these bytes. -/
def sieve_small_pattern3_bytes (p : Nat) : Nat → Nat → List Nat
  | 0, _ => []
  | fuel + 1, i =>
    if i < 3 * sizeof_unsigned_long then i :: sieve_small_pattern3_bytes p fuel ((i + p) % 2 ^ 32)
    else []

/-- The loop `for (j = 0; j < nj; j++)` under "Handle 3" of
`sieve_small_bucket_region`, for one ordinary entry with `p == 3`, root `r`
and a non-zero weight, with `lines` lines still to do from line `j` on and the
running cursor `i0`.  On each line the weight is added to the bytes
`i0, i0 + 3, ...` of a pattern of three words, the cursor moves by `r`
(`i0 += r; if (i0 >= p) i0 -= p;`), and the pattern is subtracted from the line
word by word, so that byte `k` of the line is decreased by the byte
`k mod (3 * sizeof(unsigned long))` of the pattern, whatever the parities of
`k` and of the row.  The result is the list of the offsets `j * I + k` that are
decreased, and the final cursor. -/
def sieve_small_pattern3 (si : sieve_info) (r : Nat) : Nat → Nat → Nat → List Nat × Nat
  | 0, _, i0 => ([], i0)
  | lines + 1, j, i0 =>
    let I : Nat := si.I % 2 ^ 32
    let p : Nat := 3
    let pattern : List Nat :=
      sieve_small_pattern3_bytes p (3 * sizeof_unsigned_long + 1) i0
    let hits : List Nat :=
      (List.range I).filter (fun k => decide (k % (3 * sizeof_unsigned_long) ∈ pattern))
    let i1 : Nat := (i0 + r) % 2 ^ 32
    let i2 : Nat := if i1 ≥ p then i1 - p else i1
    let rest := sieve_small_pattern3 si r lines (j + 1) i2
    (hits.map (fun k => j * I + k) ++ rest.1, rest.2)

/-- The part of `sieve_small_bucket_region(S, N, ssd, si, side, w)` that
handles one ordinary entry `(p, r)` whose cursor `next_position[i]` is `i0`:
the offsets into `S` that are decreased (by `logp`), and the cursor stored
back.  The prime 3 is pattern-sieved (and skipped by `if (p == 3) continue;`
in the loop over all entries); every other entry is sieved line by line. -/
def sieve_small_bucket_region (cfg : las_config) (si : sieve_info) (N p r i0 : Nat) :
    Option (List Nat × Nat) :=
  let nj : Nat := (1 <<< cfg.LOG_BUCKET_REGION) >>> si.logI
  if p = 3 then some (sieve_small_pattern3 si r nj 0 i0)
  else sieve_small_lines si nj N p r nj 0 i0

/-- The number of bucket regions, `si->nb_buckets = 1 + (si->I * si->J - 1) /
bucket_region`, as set by `sieve_info_update`. -/
def nb_buckets (cfg : las_config) (si : sieve_info) : Nat :=
  1 + (si.I * si.J - 1) / (1 <<< cfg.LOG_BUCKET_REGION)

/-- The regions `N, N + 1, ...` sieved one after the other by a single thread
(`process_bucket_region` with `nb_threads = 1`, where `small_sieve_skip_stride`
is called with `skip = 0` and returns at once), for one ordinary entry.  The
result lists the positions `x + (N << LOG_BUCKET_REGION)` of the sieve area
that are decreased. -/
def line_sieve_regions (cfg : las_config) (si : sieve_info) (p r : Nat) :
    Nat → Nat → Nat → Option (List Nat)
  | 0, _, _ => some []
  | regions + 1, N, i0 =>
    match sieve_small_bucket_region cfg si N p r i0 with
    | none => none
    | some (hits, c) =>
      match line_sieve_regions cfg si p r regions (N + 1) c with
      | none => none
      | some rest => some (hits.map (fun x => x + (N <<< cfg.LOG_BUCKET_REGION)) ++ rest)

/-- The line sieve of the whole area for one ordinary entry `(p, r)`:
`small_sieve_start` at row 0, then all `nb_buckets` regions in turn. -/
def line_sieve (cfg : las_config) (si : sieve_info) (p r : Nat) : Option (List Nat) :=
  line_sieve_regions cfg si p r (nb_buckets cfg si) 0 (small_sieve_start si 0 p r)

/-! ## Size constraints and the reference walk -/

/-- The sizes for which the walk coordinate is designed (comment "Sizes" above
`plattice_x_t`): `I = 2^logI` fits an `int32_t`, the area `I * J` fits 32 bits,
and without `SUPPORT_I16` it stays below `2^30`. -/
structure region_fits (cfg : las_config) (si : sieve_info) : Prop where
  width : si.I = 2 ^ si.logI
  logI_ge : 1 ≤ si.logI
  logI_le : si.logI ≤ 30
  area : si.I * si.J < 2 ^ 32
  area32 : cfg.SUPPORT_I16 = false → si.I * si.J < 2 ^ 30

/-- The exact increment `a1 * I + a0` (scaled coefficients), as an integer. -/
def exact_a (cfg : las_config) (pli : plattice_info_t) (si : sieve_info) : Int :=
  PLI_COEFF cfg pli.a1 * (si.I : Int) + PLI_COEFF cfg pli.a0

/-- The exact increment `b1 * I + b0` (scaled coefficients), as an integer. -/
def exact_c (cfg : las_config) (pli : plattice_info_t) (si : sieve_info) : Int :=
  PLI_COEFF cfg pli.b1 * (si.I : Int) + PLI_COEFF cfg pli.b0

/-- One step of the reference walk: with `i = x mod I`, add the exact `a` when
`i >= I - b0` and the exact `c` when `i < -a0`, in unbounded integers. -/
def exact_walk_step (cfg : las_config) (si : sieve_info) (pli : plattice_info_t) (x : Int) :
    Int :=
  let i : Int := x % (si.I : Int)
  let x1 : Int := if (si.I : Int) - PLI_COEFF cfg pli.b0 ≤ i then x + exact_a cfg pli si else x
  if i < -(PLI_COEFF cfg pli.a0) then x1 + exact_c cfg pli si else x1

/-- The reference walk: the positions below `I * J` met by repeating
`exact_walk_step`, without saturation and without wrap-around. -/
def exact_walk (cfg : las_config) (si : sieve_info) (pli : plattice_info_t) :
    Nat → Int → Option (List Int)
  | 0, _ => none
  | fuel + 1, x =>
    if x < ((si.I * si.J : Nat) : Int) then
      match exact_walk cfg si pli fuel (exact_walk_step cfg si pli x) with
      | none => none
      | some rest => some (x :: rest)
    else some []

/-- The reference walk from the starting vector, which is one step away from
the origin `x = I/2`. -/
def fill_in_buckets_walk_exact (cfg : las_config) (si : sieve_info) (pli : plattice_info_t) :
    Option (List Int) :=
  exact_walk cfg si pli (si.I * si.J + 1) (exact_walk_step cfg si pli ((si.I / 2 : Nat) : Int))

/-- The bounds of Proposition 1 on the scaled coefficients, as far as the
walking loop depends on them. -/
structure WalkBasis (cfg : las_config) (si : sieve_info) (pli : plattice_info_t) : Prop where
  a0_gt : -(si.I : Int) < PLI_COEFF cfg pli.a0
  a0_le : PLI_COEFF cfg pli.a0 ≤ 0
  b0_ge : 0 ≤ PLI_COEFF cfg pli.b0
  b0_lt : PLI_COEFF cfg pli.b0 < (si.I : Int)
  a1_ge : 1 ≤ PLI_COEFF cfg pli.a1
  b1_ge : 1 ≤ PLI_COEFF cfg pli.b1
  a1_lt : PLI_COEFF cfg pli.a1 < 2 ^ 32
  b1_lt : PLI_COEFF cfg pli.b1 < 2 ^ 32

/-- The column (offset inside its row) of the point `origin + k * a + l * b`,
where the origin `(i, j) = (0, 0)` is the position `I/2`. -/
def walk_col (cfg : las_config) (si : sieve_info) (pli : plattice_info_t) (k l : Int) : Int :=
  ((si.I / 2 : Nat) : Int) + k * PLI_COEFF cfg pli.a0 + l * PLI_COEFF cfg pli.b0

/-- The linear position of the point `origin + k * a + l * b`. -/
def walk_point (cfg : las_config) (si : sieve_info) (pli : plattice_info_t) (k l : Int) : Int :=
  (k * PLI_COEFF cfg pli.a1 + l * PLI_COEFF cfg pli.b1) * (si.I : Int) + walk_col cfg si pli k l

/-- A position is a lattice hit for `(p, r)` when its column `i = x mod I` and
its row `j = x div I` satisfy `i - I/2 = r * j` modulo `p`. -/
def lattice_hit (si : sieve_info) (p r : Nat) (x : Int) : Prop :=
  (p : Int) ∣ (x % (si.I : Int) - ((si.I / 2 : Nat) : Int)) - (r : Int) * (x / (si.I : Int))

/-- A position reached from the origin by adding `a` and `b` a non-negative
number of times, not both zero, with its column in range. -/
def walk_reached (cfg : las_config) (si : sieve_info) (pli : plattice_info_t) (x : Int) : Prop :=
  ∃ k l : Int, 0 ≤ k ∧ 0 ≤ l ∧ 1 ≤ k + l ∧ x = walk_point cfg si pli k l
    ∧ 0 ≤ walk_col cfg si pli k l ∧ walk_col cfg si pli k l < (si.I : Int)

/-- The column reached from `x` by the rule of the walk:
`i' = i + [i >= I - b0] a0 + [i < -a0] b0` with `i = x mod I` (scaled
coefficients). -/
def walk_next_col (cfg : las_config) (si : sieve_info) (pli : plattice_info_t) (x : Int) : Int :=
  x % (si.I : Int)
    + (if (si.I : Int) - PLI_COEFF cfg pli.b0 ≤ x % (si.I : Int) then PLI_COEFF cfg pli.a0 else 0)
    + (if x % (si.I : Int) < -(PLI_COEFF cfg pli.a0) then PLI_COEFF cfg pli.b0 else 0)

/-- The row reached from `x` by the rule of the walk:
`j' = j + [i >= I - b0] a1 + [i < -a0] b1` with `i = x mod I`, `j = x div I`. -/
def walk_next_row (cfg : las_config) (si : sieve_info) (pli : plattice_info_t) (x : Int) : Int :=
  x / (si.I : Int)
    + (if (si.I : Int) - PLI_COEFF cfg pli.b0 ≤ x % (si.I : Int) then PLI_COEFF cfg pli.a1 else 0)
    + (if x % (si.I : Int) < -(PLI_COEFF cfg pli.a0) then PLI_COEFF cfg pli.b1 else 0)

/-! ## The walk from an arbitrary starting point -/

/-- The column of the point `s + k * a + l * b` (scaled coefficients) for a
starting point `s` in column `c`. -/
def walk_col_from (cfg : las_config) (pli : plattice_info_t) (c k l : Int) : Int :=
  c + k * PLI_COEFF cfg pli.a0 + l * PLI_COEFF cfg pli.b0

/-- The linear position of the point `s + k * a + l * b` (scaled coefficients)
for the starting point `s` in column `c` of row `j`. -/
def walk_point_from (cfg : las_config) (si : sieve_info) (pli : plattice_info_t)
    (c j k l : Int) : Int :=
  (j + k * PLI_COEFF cfg pli.a1 + l * PLI_COEFF cfg pli.b1) * (si.I : Int)
    + walk_col_from cfg pli c k l

/-- A position reached from the starting point in column `c` of row `j` by
adding `a` and `b` (scaled coefficients) a non-negative number of times, with
its column in range. -/
def walk_reached_from (cfg : las_config) (si : sieve_info) (pli : plattice_info_t)
    (c j : Int) (x : Int) : Prop :=
  ∃ k l : Int, 0 ≤ k ∧ 0 ≤ l ∧ x = walk_point_from cfg si pli c j k l
    ∧ 0 ≤ walk_col_from cfg pli c k l ∧ walk_col_from cfg pli c k l < (si.I : Int)

/-- The coefficient in `{0, 1}` that `plattice_starting_vector` computes for a
congruence class `par`, `(u & par & 1) ^ (v & (par >> 1))`: the parity of
`u * (par mod 2) + v * (par div 2)`. -/
def class_bit (u v : Int) (par : Nat) : Int :=
  (u * ((par % 2 : Nat) : Int) + v * ((par / 2 : Nat) : Int)) % 2

/-- The starting vector `(v0, v1)` of `plattice_starting_vector` for the
congruence class `par` and the half width `H`: `k * a + l * b` with the two
coefficients of the class, or `a - b` in the exceptional case. -/
def class_start (pli : plattice_info_t) (H : Int) (par : Nat) : Int × Int :=
  let k := class_bit pli.b1 pli.b0 par
  let l := class_bit pli.a1 pli.a0 par
  if k = 1 ∧ l = 1 ∧ pli.a0 - pli.b0 = -H ∧ pli.a1 > pli.b1 then
    (pli.a0 - pli.b0, pli.a1 - pli.b1)
  else (k * pli.a0 + l * pli.b0, k * pli.a1 + l * pli.b1)

/-! ## Invariants of `reduce_plattice` -/

/-- What every shear of the basis preserves: the determinant, the gcd of the
first coordinates, and membership of both vectors in the lattice
`{(i, j) : i = r * j mod p}`. -/
structure BasisInv (p r : Nat) (s : plattice_info_t) : Prop where
  det : s.a1 * s.b0 - s.a0 * s.b1 = (p : Int)
  gcd : Int.gcd s.a0 s.b0 = Nat.gcd p r
  la : (p : Int) ∣ s.a0 - (r : Int) * s.a1
  lb : (p : Int) ∣ s.b0 - (r : Int) * s.b1

/-- The state at the head of the subtractive loop (`a0 < 0 <= b0 < -a0` in the
source), with the record of whether `a` has been touched yet. -/
structure HeadInv (p r : Nat) (H : Int) (s : plattice_info_t) : Prop where
  a0_neg : s.a0 < 0
  b0_nonneg : 0 ≤ s.b0
  b0_lt : s.b0 < -s.a0
  a1_nonneg : 0 ≤ s.a1
  b1_pos : 1 ≤ s.b1
  a0_ge : -s.a0 ≤ (p : Int)
  first : s = { a0 := -(p : Int), b0 := (r : Int), a1 := 0, b1 := 1 } ∨ (1 ≤ s.a1 ∧ H ≤ -s.a0)

/-- The state on leaving the subtractive loop, by its first or its second
`break`. -/
inductive ExitInv (p r : Nat) (H : Int) (s : plattice_info_t) : Prop
  | first : s.b0 < H → HeadInv p r H s → ExitInv p r H s
  | second : H ≤ s.b0 → -s.a0 < H → -s.b0 < s.a0 → s.a0 ≤ 0 → 1 ≤ s.a1 → 1 ≤ s.b1 →
      ExitInv p r H s

/-! ## Factor bases: `reorder_fb` and `dispatch_fb` -/

/-- An entry of a factor base array, with the fields that `las.c` reads:
the prime (power) `p`, its logarithm `plog`, the number of roots, `invp` and
the roots. -/
structure factorbase_degn_t where
  p : Nat
  plog : Nat
  nr_roots : Nat
  invp : Nat
  roots : List Nat
deriving DecidableEq, Repr

/-- Modelled from the spec: the constant `FB_END` of `fb.h`, which is not part
of the sources at hand; it is the value of `p` that ends a factor base array,
and no prime has it. -/
def FB_END : Nat := 0

/-- The entry written by `memset (fb, 0, sizeof (factorbase_degn_t));
fb->p = FB_END;`. -/
def fb_end_entry : factorbase_degn_t :=
  { p := FB_END, plog := 0, nr_roots := 0, invp := 0, roots := [] }

/-- Trial of `n` as a power of `d`, by repeated division. -/
def is_power_of (d : Nat) : Nat → Nat → Bool
  | 0, _ => false
  | fuel + 1, n =>
    if n = 1 then true
    else if n % d = 0 then is_power_of d fuel (n / d) else false

/-- Modelled from the spec: `is_prime_power`, which is not part of the sources
at hand.  By its uses in `reorder_fb` and `init_resieve` ("trialdiv primes (not
powers)", "not prime powers") it is nonzero exactly for `q^k` with `q` prime
and `k >= 2`. -/
def is_prime_power (n : Nat) : Bool :=
  match ((List.range (n + 1)).drop 2).find? (fun d => n % d = 0) with
  | none => false
  | some d => decide (d < n) && is_power_of d n n

/-- Modelled from the spec: `fb_diff (a, b)` of `fb.h`, which is not part of
the sources at hand; its result indexes the arrays of `small_sieve_data_t`,
which have one slot per root, so it is the number of roots of the entries
between the two pointers. -/
def fb_diff (zone : List factorbase_degn_t) : Nat :=
  (zone.map (fun e => e.nr_roots)).sum

/-- The five lists that `reorder_fb` fills. -/
inductive fb_zone_id where
  | pow2
  | pow3
  | td
  | rs
  | rest
deriving DecidableEq, Repr

/-- The body of the loop of `reorder_fb`: the list to which `PUSH_LIST` sends
the entry `fb`.  `sizeof_ulong` is `sizeof (unsigned long)`, `plim` is
`si->bucket_thresh` and `costlim` is `si->td_thresh`. -/
def reorder_zone (sizeof_ulong plim costlim : Nat) (fb : factorbase_degn_t) : fb_zone_id :=
  let pattern2_size : Nat := sizeof_ulong * 2
  if fb.p % 2 = 0 ∧ fb.p ≤ pattern2_size then fb_zone_id.pow2
  else if fb.p = 3 then fb_zone_id.pow3
  else if fb.p ≤ plim ∧ fb.p ≤ (costlim * fb.nr_roots) % 2 ^ 32 then
    if is_prime_power fb.p = false then fb_zone_id.td else fb_zone_id.rest
  else
    if is_prime_power fb.p = false then fb_zone_id.rs else fb_zone_id.rest

/-- The macro `PUSH_LIST(x)`: the entry is copied to the end of the list `x`. -/
def PUSH_LIST (x : fb_zone_id) (fb : factorbase_degn_t)
    (lists : fb_zone_id → List factorbase_degn_t) : fb_zone_id → List factorbase_degn_t :=
  fun y => if y = x then lists y ++ [fb] else lists y

/-- The loop `for( ; fb->p != FB_END ; fb = fb_next(fb))` of `reorder_fb` over
the array `mem`.  An array without end marker makes the loop leave the array:
`none`. -/
def reorder_scan (sizeof_ulong plim costlim : Nat) :
    List factorbase_degn_t → (fb_zone_id → List factorbase_degn_t) →
      Option (fb_zone_id → List factorbase_degn_t)
  | [], _ => none
  | fb :: mem, lists =>
    if fb.p = FB_END then some lists
    else reorder_scan sizeof_ulong plim costlim mem
      (PUSH_LIST (reorder_zone sizeof_ulong plim costlim fb) fb lists)

/-- A pair `x[0]`, `x[1]` of `fb_parts` or `fb_parts_x`. -/
structure fb_interval where
  start : Nat
  stop : Nat
deriving DecidableEq, Repr

/-- The array, the write pointer `fb` (as the number of entries before it) and
the counter `n` while the lists are copied back. -/
structure reorder_state where
  mem : List factorbase_degn_t
  fb : Nat
  n : Nat
  parts : fb_zone_id → fb_interval
  parts_x : fb_zone_id → fb_interval

/-- The copy `memcpy (fb, pb, p - pb)` of a list over the array at `pos`. -/
def fb_write (mem : List factorbase_degn_t) (pos : Nat) (zone : List factorbase_degn_t) :
    List factorbase_degn_t :=
  mem.take pos ++ zone ++ mem.drop (pos + zone.length)

/-- The macro `APPEND_LIST(x)`: records `x[0]`, copies the list `x` back into
the array, advances `fb` and `n`, and records `x[1]`. -/
def APPEND_LIST (x : fb_zone_id) (zone : List factorbase_degn_t) (st : reorder_state) :
    reorder_state :=
  let fb1 : Nat := st.fb + zone.length
  let n1 : Nat := st.n + fb_diff zone
  { mem := fb_write st.mem st.fb zone
    fb := fb1
    n := n1
    parts := fun y => if y = x then { start := st.fb, stop := fb1 } else st.parts y
    parts_x := fun y => if y = x then { start := st.n, stop := n1 } else st.parts_x y }

/-- What `reorder_fb` leaves in `si->sides[side]`: the array `fb`, and the
boundaries `fb_parts` (pointers, as numbers of entries from the base) and
`fb_parts_x` (indices in numbers of roots). -/
structure reorder_result where
  fb : List factorbase_degn_t
  fb_parts : fb_zone_id → fb_interval
  fb_parts_x : fb_zone_id → fb_interval

/-- The second half of `reorder_fb`: `n = 0; fb = fb_base;` and the five
`APPEND_LIST`, in the order pow2, pow3, td, rs, rest. -/
def reorder_append (lists : fb_zone_id → List factorbase_degn_t)
    (mem : List factorbase_degn_t) : reorder_state :=
  let st0 : reorder_state :=
    { mem := mem, fb := 0, n := 0
      parts := fun _ => { start := 0, stop := 0 }
      parts_x := fun _ => { start := 0, stop := 0 } }
  let st1 := APPEND_LIST fb_zone_id.pow2 (lists fb_zone_id.pow2) st0
  let st2 := APPEND_LIST fb_zone_id.pow3 (lists fb_zone_id.pow3) st1
  let st3 := APPEND_LIST fb_zone_id.td (lists fb_zone_id.td) st2
  let st4 := APPEND_LIST fb_zone_id.rs (lists fb_zone_id.rs) st3
  APPEND_LIST fb_zone_id.rest (lists fb_zone_id.rest) st4

/-- The function `reorder_fb(si, side)` on the array `mem = si->sides[side]->fb`:
the loop that fills the five lists, the five `APPEND_LIST`, and
`fb->p = FB_END`. -/
def reorder_fb (sizeof_ulong plim costlim : Nat) (mem : List factorbase_degn_t) :
    Option reorder_result :=
  match reorder_scan sizeof_ulong plim costlim mem (fun _ => []) with
  | none => none
  | some lists =>
    let st := reorder_append lists mem
    match st.mem.get? st.fb with
    | none => none
    | some e =>
      some { fb := st.mem.set st.fb { e with p := FB_END }
             fb_parts := st.parts
             fb_parts_x := st.parts_x }

/-- The entries of the array between the two recorded pointers of a zone. -/
def fb_zone (res : reorder_result) (x : fb_zone_id) : List factorbase_degn_t :=
  (res.fb.drop (res.fb_parts x).start).take ((res.fb_parts x).stop - (res.fb_parts x).start)

/-- The result of `dispatch_fb`: the arrays `fb_dst[0 .. nparts-1]` and the
reallocated `*fb_main`. -/
structure dispatch_result where
  fb_dst : List (List factorbase_degn_t)
  fb_main : List factorbase_degn_t
deriving DecidableEq, Repr

/-- The second loop of `dispatch_fb`,
`for (fb = fb0; fb->p != FB_END && fb->p <= pmax; fb = fb_next (fb))`, which
copies the entry to `fbi[i]` and steps `i` modulo `nparts`; `fbi` holds what
each part has received so far.  (The first loop visits the same entries and
only adds up the sizes to allocate.)  `none`: the loop leaves the array, or
`i %= nparts` divides by zero. -/
def dispatch_copy (nparts pmax : Nat) :
    List factorbase_degn_t → (Nat → List factorbase_degn_t) → Nat →
      Option (Nat → List factorbase_degn_t)
  | [], _, _ => none
  | fb :: mem, fbi, i =>
    if fb.p ≠ FB_END ∧ fb.p ≤ pmax then
      if nparts = 0 then none
      else dispatch_copy nparts pmax mem
        (fun j => if j = i then fbi j ++ [fb] else fbi j) ((i + 1) % nparts)
    else some fbi

/-- The function `dispatch_fb (fb_dst, fb_main, fb0, nparts, pmax)`; `fb0` is
the number of entries of `*fb_main` before the pointer `fb0`. -/
def dispatch_fb (fb_main : List factorbase_degn_t) (fb0 nparts pmax : Nat) :
    Option dispatch_result :=
  match dispatch_copy nparts pmax (fb_main.drop fb0) (fun _ => []) 0 with
  | none => none
  | some fbi =>
    some { fb_dst := (List.range nparts).map (fun i => fbi i ++ [fb_end_entry])
           fb_main := fb_main.take fb0 ++ [fb_end_entry] }

/-! ## Small sieve: initialisation and cursors across regions -/

/-- The data of an ordinary small-sieve entry. -/
structure ssp_t where
  p : Nat
  r : Nat
  offset : Nat
deriving DecidableEq, Repr

/-- The data of a projective ("bad") small-sieve entry. -/
structure ssp_bad_t where
  g : Nat
  q : Nat
  U : Nat
deriving DecidableEq, Repr

/-- The marker bit `SSP_POW2`. -/
def SSP_POW2 : Nat := 1 <<< 0

/-- The marker bit `SSP_PROJ`. -/
def SSP_PROJ : Nat := 1 <<< 1

/-- The marker bit `SSP_DISCARD`. -/
def SSP_DISCARD : Nat := 1 <<< 30

/-- The marker bit `SSP_END`. -/
def SSP_END : Nat := 1 <<< 31

/-- The function `ssp_init_oa`: `offset = (r * skip) % p` in 32-bit unsigned
arithmetic. -/
def ssp_init_oa (p r skip : Nat) : ssp_t :=
  { p := p, r := r, offset := ((r * skip) % 2 ^ 32) % p }

/-- Modelled from the spec: `gcd_ul`, which is not part of the sources at hand;
the greatest common divisor of two `unsigned long`. -/
def gcd_ul (a b : Nat) : Nat := Nat.gcd a b

/-- Modelled from the spec: `invmod (&U, q)`, which is not part of the sources
at hand; it replaces `U` by its inverse modulo `q`, in `[0, q)`, and returns 0
(here `none`) when there is none. -/
def invmod (U q : Nat) : Option Nat :=
  (List.range q).find? (fun u => (u * U) % q = 1)

/-- The function `ssp_init_op (tail, p, r, skip, w)`.  `none`: the division
`p / g` by zero, or `ASSERT_ALWAYS (rc != 0)` fails. -/
def ssp_init_op (p r _skip : Nat) : Option ssp_bad_t :=
  let v : Nat := r
  let g : Nat := gcd_ul p v
  if g = 0 then none
  else
    let q : Nat := p / g
    if q = 1 then some { g := g, q := q, U := 0 }
    else
      match invmod (v / g) q with
      | none => none
      | some U => some { g := g, q := q, U := U }

/-- What `small_sieve_init` stores in a slot of `ssd->ssp`. -/
inductive ssp_slot where
  | ordinary (s : ssp_t)
  | bad (s : ssp_bad_t)
deriving DecidableEq, Repr

/-- The body of the inner loop of `small_sieve_init` for the prime `p` and one
root, `r` being the value of `fb_root_in_qlattice`; `do_bad_primes` is the
constant 1.  The result is `event` and the slot written. -/
def small_sieve_init_root (si : sieve_info) (skiprows p r : Nat) : Option (Nat × ssp_slot) :=
  let event0 : Nat := if p &&& 1 = 0 then 0 ||| SSP_POW2 else 0
  if r ≥ p then
    let event1 : Nat := event0 ||| SSP_PROJ
    match ssp_init_op p (r - p) skiprows with
    | none => none
    | some ssp =>
      let event2 : Nat := if ssp.g ≥ si.J then event1 ||| SSP_DISCARD else event1
      some (event2, ssp_slot.bad ssp)
  else some (event0, ssp_slot.ordinary (ssp_init_oa p r skiprows))

/-- The update of the cursor of an ordinary entry by
`small_sieve_skip_stride (ssd, skip, si)`: nothing for `skip == 0`, else
`next_position[i] += ssp->offset; if (next_position[i] >= (int) ssp->p)
next_position[i] -= ssp->p;`. -/
def small_sieve_skip_stride (skip : Nat) (ssp : ssp_t) (next_position : Nat) : Nat :=
  if skip = 0 then next_position
  else
    let c : Nat := (next_position + ssp.offset) % 2 ^ 32
    if c ≥ ssp.p then c - ssp.p else c

/-- The loop `for (i = th->id; i < si->nb_buckets; i += si->nb_threads)` of
`process_bucket_region`, followed for one ordinary entry of one side: the
region `i` is sieved by `sieve_small_bucket_region`, then
`small_sieve_skip_stride` moves the cursor.  The result lists the regions with
the cursor at the start of each. -/
def process_bucket_region_loop (cfg : las_config) (si : sieve_info) (nb_threads skiprows : Nat)
    (ssp : ssp_t) : Nat → Nat → Nat → Option (List (Nat × Nat))
  | 0, _, _ => none
  | fuel + 1, i, next_position =>
    if i < nb_buckets cfg si then
      match sieve_small_bucket_region cfg si i ssp.p ssp.r next_position with
      | none => none
      | some (_, c) =>
        match process_bucket_region_loop cfg si nb_threads skiprows ssp fuel
            (i + nb_threads) (small_sieve_skip_stride skiprows ssp c) with
        | none => none
        | some rest => some ((i, next_position) :: rest)
    else some []

/-- The function `process_bucket_region (th)` for the thread `id` of
`nb_threads`, followed for one ordinary entry `(p, r)`: `small_sieve_init`
and `small_sieve_start (ssd, my_row0, si)`, then the loop over the regions. -/
def process_bucket_region (cfg : las_config) (si : sieve_info) (nb_threads id p r : Nat) :
    Option (List (Nat × Nat)) :=
  let nj : Nat := (1 <<< cfg.LOG_BUCKET_REGION) >>> si.logI
  let my_row0 : Nat := (nj * id) % 2 ^ 32
  let skiprows : Nat := (nj * (nb_threads - 1)) % 2 ^ 32
  let ssp : ssp_t := ssp_init_oa p r skiprows
  process_bucket_region_loop cfg si nb_threads skiprows ssp (nb_buckets cfg si + 1) id
    (small_sieve_start si my_row0 p r)

/-! ## Survivors -/

/-- The function `sieve_info_test_lognorm (C1, C2, S1, S2, threshold)`; the
tables are indexed by an `unsigned char` and hold `unsigned char` values, and
the sum is computed in `int`. -/
def sieve_info_test_lognorm (C1 C2 : Nat → Nat) (S1 S2 threshold : Nat) : Bool :=
  decide (C1 (S1 % 256) % 256 + C2 (S2 % 256) % 256 ≤ threshold % 256)

/-- The basis `(a0, b0)`, `(a1, b1)` of the q-lattice held in `sieve_info`. -/
structure qlattice_basis where
  a0 : Int
  b0 : Int
  a1 : Int
  b1 : Int
deriving DecidableEq, Repr

/-- Modelled from the spec: `bin_gcd_safe` of `basicnt.h`, which is not part of
the sources at hand; the greatest common divisor, also when an argument is
zero. -/
def bin_gcd_safe (a b : Nat) : Nat := Nat.gcd a b

/-- The coordinates of the position `x` of region `N`, as `factor_survivors`
computes them: `X = x + (N << LOG_BUCKET_REGION)`, `i = (X & (I - 1)) - I / 2`
and `j = X >> logI`. -/
def region_coords (cfg : las_config) (si : sieve_info) (N x : Nat) : Int × Nat :=
  let X : Nat := (x + (N <<< cfg.LOG_BUCKET_REGION)) % 2 ^ 32
  let maskI : Nat := (si.I % 2 ^ 32 + (2 ^ 32 - 1)) % 2 ^ 32
  (((X &&& maskI : Nat) : Int) - ((si.I % 2 ^ 32 / 2 : Nat) : Int), X >>> si.logI)

/-- Modelled from the spec: `NxToAB (&a, &b, N, x, si)`, which is not part of
the sources at hand.  With `(i, j)` the coordinates of the position, the pair
is `(i*a0 + j*a1, i*b0 + j*b1)`, with both signs changed when the second is
negative, since `b` is a `uint64_t`. -/
def NxToAB (cfg : las_config) (si : sieve_info) (ql : qlattice_basis) (N x : Nat) : Int × Nat :=
  let i : Int := (region_coords cfg si N x).1
  let j : Int := ((region_coords cfg si N x).2 : Int)
  let a : Int := i * ql.a0 + j * ql.a1
  let c : Int := i * ql.b0 + j * ql.b1
  if c ≥ 0 then (a, c.toNat) else (-a, (-c).toNat)

/-- The filters of `factor_survivors (th, N, loc, w)` at the position `x` of
region `N`, up to `copr++`: the test on the two sieve bytes `alg_S[x]`,
`rat_S[x]`, the test `bin_gcd_safe (i, j) != 1` on `i = abs (...)` and `j`,
the skip of `S[x] == 255` (`S` being the rational array), the abort when `a`
and `b` are both even, and the skip
`b == 0 || (b >= si->q && b % si->q == 0)`.  The result is `none` for the
abort, `some none` for a position that is skipped, and `some (some (a, b))`
for a position that goes on to trial division. -/
def factor_survivors_filter (cfg : las_config) (si : sieve_info) (ql : qlattice_basis)
    (alg_Bound rat_Bound : Nat → Nat) (alg_S rat_S : Nat) (N x : Nat) :
    Option (Option (Int × Nat)) :=
  if sieve_info_test_lognorm alg_Bound rat_Bound alg_S rat_S 126 = false then some none
  else
    let i : Nat := Int.natAbs (region_coords cfg si N x).1
    let j : Nat := (region_coords cfg si N x).2
    if bin_gcd_safe i j ≠ 1 then some none
    else if rat_S % 256 = 255 then some none
    else
      let ab := NxToAB cfg si ql N x
      if (Int.lor ab.1 (ab.2 : Int)) % 2 = 0 then none
      else if ab.2 = 0 ∨ (ab.2 ≥ si.q ∧ ab.2 % si.q = 0) then some none
      else some (some ab)

/-! ## `apply_one_bucket` -/

/-- The part of a bucket array that `apply_one_bucket (S, BA, i, w)` reads for
its bucket `i`: the updates between `BA.bucket_read[i]` and
`BA.bucket_write[i]`, the number `BA.nr_logp` of log-weight classes, the
weights `BA.logp_val[m]`, and the write pointers
`BA.logp_idx[m * BA.n_bucket + i]` recorded when class `m` was opened.  A
pointer into the bucket is the number of updates that precede it, counted from
`BA.bucket_read[i]`. -/
structure bucket_array_t where
  updates : List bucket_update_t
  nr_logp : Nat
  logp_val : List Nat
  logp_idx : List Nat
deriving DecidableEq, Repr

/-- The loop `for (; j > 0; --j)` of `apply_one_bucket`, over the updates that
are left, with the locals `read_ptr`, `next_logp_j`, `logp` and
`next_logp_change`.  The result lists the calls
`sieve_decrease (S + x, logp, w)` in order, as pairs `(x, logp)`; it is `none`
when one of the two `ASSERT_ALWAYS` fails or a table is read past its end.
`nb_of_updates (BA, i)` of the absent `bucket.h` is the number of updates of
the bucket. -/
def apply_one_bucket_loop (BA : bucket_array_t) :
    List bucket_update_t → Nat → Nat → Nat → Nat → Option (List (Nat × Nat))
  | [], _, _, _, _ => some []
  | u :: rest, read_ptr, next_logp_j, logp, next_logp_change =>
    if read_ptr ≥ next_logp_change then
      if ¬ next_logp_j < BA.nr_logp then none
      else if BA.logp_idx.get? next_logp_j ≠ some next_logp_change then none
      else
        match BA.logp_val.get? next_logp_j with
        | none => none
        | some v =>
          let j1 := next_logp_j + 1
          let change : Option Nat :=
            if j1 < BA.nr_logp then BA.logp_idx.get? j1 else some BA.updates.length
          match change with
          | none => none
          | some c =>
            (apply_one_bucket_loop BA rest (read_ptr + 1) j1 v c).map
              (fun l => (u.x, v) :: l)
    else
      (apply_one_bucket_loop BA rest (read_ptr + 1) next_logp_j logp next_logp_change).map
        (fun l => (u.x, logp) :: l)

/-- `apply_one_bucket (S, BA, i, w)`: `read_ptr = BA.bucket_read[i]`,
`next_logp_j = 0`, `logp = 0`, `next_logp_change = read_ptr`, then the loop
over the `nb_of_updates (BA, i)` updates. -/
def apply_one_bucket (BA : bucket_array_t) : Option (List (Nat × Nat)) :=
  apply_one_bucket_loop BA BA.updates 0 0 0 0

/-- The log weight that was current when the update at address `k` of the
bucket was pushed, as the claim words it: `logp_val[m]` for the largest `m`
whose recorded write pointer `logp_idx[m]` is at most `k`. -/
def logp_at_push (BA : bucket_array_t) (k : Nat) : Option Nat :=
  match ((List.range BA.nr_logp).filter
      (fun m => decide (BA.logp_idx.getD m 0 ≤ k))).getLast? with
  | none => none
  | some m => BA.logp_val.get? m

/-! ## The number of bucket regions -/

/-- The constant `bucket_region = 1 << LOG_BUCKET_REGION`. -/
def bucket_region (cfg : las_config) : Nat := 1 <<< cfg.LOG_BUCKET_REGION

/-- The assignment `si->nb_buckets = 1 + (si->I * si->J - 1) / bucket_region`
of `sieve_info_update`, in the 32-bit unsigned arithmetic of `si->I` and
`si->J`. -/
def sieve_info_update_nb_buckets (cfg : las_config) (si : sieve_info) : Nat :=
  (1 + ((si.I * si.J) % 2 ^ 32 + (2 ^ 32 - 1)) % 2 ^ 32 / bucket_region cfg) % 2 ^ 32

/-- The part of `sieve_info_init` that sets `si->I = 1 << si->logI`,
`si->J = 1 << (si->logI - 1)` and
`si->nb_buckets = 1 + ((si->I / 2) * (si->J / 2) - 1) / bucket_region`, after
`ASSERT_ALWAYS (LOG_BUCKET_REGION >= (si->logI - 1))` and the abort for
`logI >= 17` without `SUPPORT_I17`.  The result is `(I, J, nb_buckets)`, or
`none` when the function does not get to the assignment. -/
def sieve_info_init_nb_buckets (cfg : las_config) (SUPPORT_I17 : Bool) (logI : Nat) :
    Option (Nat × Nat × Nat) :=
  let I : Nat := (1 <<< logI) % 2 ^ 32
  let J : Nat := (1 <<< (logI - 1)) % 2 ^ 32
  if cfg.LOG_BUCKET_REGION + 1 < logI then none
  else if SUPPORT_I17 = false ∧ logI ≥ 17 then none
  else
    some (I, J,
      (1 + (((I / 2) * (J / 2)) % 2 ^ 32 + (2 ^ 32 - 1)) % 2 ^ 32 / bucket_region cfg)
        % 2 ^ 32)

/-! ## The bucket overflow retry of `main` -/

/-- The variables of `main` that one pass of the special-q loop reads and
writes: the special-q prime `q0`, the array `roots` with the number `nroots` of
roots still to be handled, `si->bucket_limit_multiplier` (a `double`, here an
exact rational) and the counter `sq`. -/
structure main_state where
  q0 : Nat
  roots : List Nat
  nroots : Nat
  bucket_limit_multiplier : ℚ
  sq : Nat
deriving DecidableEq

/-- The calls of one pass of the special-q loop that touch the buckets or emit
relations: `thread_buckets_alloc` (with the multiplier that it reads),
`thread_do (thrs, &fill_in_buckets_both)`, `thread_buckets_free`,
`thread_do (thrs, &process_bucket_region)` for the pair `(q, rho)`, and the
report of the relations of `(q, rho)`. -/
inductive main_event where
  | thread_buckets_alloc (multiplier : ℚ)
  | fill_in_buckets_both (q rho : Nat)
  | thread_buckets_free
  | process_bucket_region (q rho : Nat)
  | report (q rho : Nat)
deriving DecidableEq

/-- One pass of the body of `while (q0 < q1)` in `main`, from
`si->rho = roots[--nroots]` to the `thread_buckets_free` that ends the
treatment of the special-q (the root generation before it has left
`nroots > 0`; the bench statistics after it are not part of the model).
`rho` is the command-line root (`0` for none), `SkewGauss` the return value of
`SkewGauss (si, skew)`, and `max_full` the value of
`thread_buckets_max_full (thrs)` after the fill phase.  The result is the new
state and the calls made, or `none` when `nroots` is zero or past the array. -/
def main_iteration (rho : Nat) (SkewGauss : Int) (max_full : ℚ) (st : main_state) :
    Option (main_state × List main_event) :=
  if st.nroots = 0 then none
  else
    let nroots := st.nroots - 1
    match st.roots.get? nroots with
    | none => none
    | some si_rho =>
      if rho ≠ 0 ∧ si_rho ≠ rho then some ({ st with nroots := nroots }, [])
      else if SkewGauss ≠ 0 then some ({ st with nroots := nroots }, [])
      else
        let sq := st.sq + 1
        let ev := [main_event.thread_buckets_alloc st.bucket_limit_multiplier,
          main_event.fill_in_buckets_both st.q0 si_rho]
        if max_full ≥ 1 then
          some ({ st with
                  nroots := nroots + 1
                  bucket_limit_multiplier := st.bucket_limit_multiplier * (11 / 10 * max_full)
                  sq := sq },
                ev ++ [main_event.thread_buckets_free])
        else
          some ({ st with nroots := nroots, sq := sq },
                ev ++ [main_event.process_bucket_region st.q0 si_rho,
                  main_event.report st.q0 si_rho, main_event.thread_buckets_free])

/-- The pair `(q, rho)` that the next pass of the loop takes up:
`roots[nroots - 1]` of the current `q0`. -/
def main_next_pair (st : main_state) : Option (Nat × Nat) :=
  if st.nroots = 0 then none else (st.roots.get? (st.nroots - 1)).map (fun r => (st.q0, r))

/-! ## `double_poly_dichotomy` -/

/-- `double_poly_eval (p, x)` in exact arithmetic: the Horner form
`f[0] + x * (f[1] + x * (... + x * f[deg]))` that the switch writes out for
the degrees 0 to 9 and that the loop of the default case computes.  The
polynomial is the list of its coefficients `f[0], ..., f[deg]`. -/
def double_poly_eval : List ℚ → ℚ → ℚ
  | [], _ => 0
  | [c], _ => c
  | c :: cs, x => c + x * double_poly_eval cs x

/-- The body of the `do ... while` of `double_poly_dichotomy`:
`s = (a + b) * 0.5; if (double_poly_eval (p, s) * sa > 0) a = s; else b = s;`. -/
def double_poly_dichotomy_body (p : List ℚ) (sa : ℚ) (ab : ℚ × ℚ) : ℚ × ℚ :=
  let s := (ab.1 + ab.2) * (1 / 2)
  if double_poly_eval p s * sa > 0 then (s, ab.2) else (ab.1, s)

/-- The loop `do { ... } while (n-- > 0);` of `double_poly_dichotomy`: the body
runs, then the test reads `n` and decrements it.  The result is the final
bracket `(a, b)` and the number of calls of `double_poly_eval`. -/
def double_poly_dichotomy_loop (p : List ℚ) (sa : ℚ) : Nat → ℚ × ℚ → Nat → (ℚ × ℚ) × Nat
  | 0, ab, evals => (double_poly_dichotomy_body p sa ab, evals + 1)
  | n + 1, ab, evals =>
    double_poly_dichotomy_loop p sa n (double_poly_dichotomy_body p sa ab) (evals + 1)

/-- `double_poly_dichotomy (p, a, b, sa, n)` in exact arithmetic: the loop,
then `return (a + b) * 0.5`. -/
def double_poly_dichotomy (p : List ℚ) (a b sa : ℚ) (n : Nat) : ℚ :=
  let r := (double_poly_dichotomy_loop p sa n (a, b) 0).1
  (r.1 + r.2) * (1 / 2)

/-! ## `divide_primes_from_bucket` and `trial_div` -/

/-- An entry of the array of bucket primes: the prime `p` as it was
reconstructed from the bucket update, and the position `x` in the region. -/
structure bucket_prime_t where
  p : Nat
  x : Nat
deriving DecidableEq, Repr

/-- The array of bucket primes with its read pointer (the number of entries
already read).  Modelled from the spec for the three accessors of the absent
`bucket.h`: `bucket_primes_is_end` holds when the read pointer has reached the
end of the entries, `get_next_bucket_prime` returns the entry at the read
pointer and advances it, `rewind_primes_by_1` moves it back by one. -/
structure bucket_primes_t where
  entries : List bucket_prime_t
  read : Nat
deriving DecidableEq, Repr

/-- `#define FL_MAX_SIZE 200`. -/
def FL_MAX_SIZE : Nat := 200

/-- `factor_list_add (fl, p)`: `ASSERT_ALWAYS (fl->n < FL_MAX_SIZE)`, then
`fl->fac[fl->n++] = p`.  `none` when the assertion fails. -/
def factor_list_add (fl : List Nat) (p : Nat) : Option (List Nat) :=
  if fl.length < FL_MAX_SIZE then some (fl ++ [p]) else none

/-- GMP's `mpz_divisible_ui_p (norm, p)`: whether `p` divides `norm` (0 divides
only 0). -/
def mpz_divisible_ui_p (norm : Int) (p : Nat) : Bool := decide (norm % (p : Int) = 0)

/-- The loop `while (p <= fbb) { if (mpz_divisible_ui_p (norm, p)) { ... if
(isprime) break; } p += BUCKET_P_WRAP; }` of `divide_primes_from_bucket`, for
`unsigned long` of 64 bits.  `isprime` is the result of `modul_isprime` and
`BUCKET_P_WRAP` the constant of the absent `bucket.h`.  The result is the
value of `p` when the loop is left, `none` when the fuel runs out. -/
def bucket_candidate (BUCKET_P_WRAP fbb : Nat) (isprime : Nat → Bool) (norm : Int) :
    Nat → Nat → Option Nat
  | 0, _ => none
  | fuel + 1, p =>
    if p ≤ fbb then
      if mpz_divisible_ui_p norm p = true ∧ isprime p = true then some p
      else bucket_candidate BUCKET_P_WRAP fbb isprime norm fuel ((p + BUCKET_P_WRAP) % 2 ^ 64)
    else some p

/-- The loop `do { factor_list_add (fl, p); mpz_divexact_ui (norm, norm, p); }
while (mpz_divisible_ui_p (norm, p));`.  `none` when `factor_list_add` aborts or
the fuel runs out. -/
def divide_out (p : Nat) : Nat → List Nat → Int → Option (List Nat × Int)
  | 0, _, _ => none
  | fuel + 1, fl, norm =>
    match factor_list_add fl p with
    | none => none
    | some fl1 =>
      let norm1 : Int := norm / (p : Int)
      if mpz_divisible_ui_p norm1 p = true then divide_out p fuel fl1 norm1
      else some (fl1, norm1)

/-- The treatment of one bucket entry with `prime.x == x` in
`divide_primes_from_bucket`: the search for the candidate, the `abort ()` when
`p > fbb`, and the division loop.  `none` stands for the abort. -/
def divide_bucket_prime (BUCKET_P_WRAP fbb : Nat) (isprime : Nat → Bool)
    (fl : List Nat) (norm : Int) (prime_p : Nat) : Option (List Nat × Int) :=
  match bucket_candidate BUCKET_P_WRAP fbb isprime norm (fbb + 2) prime_p with
  | none => none
  | some p => if p > fbb then none else divide_out p (FL_MAX_SIZE + 1) fl norm

/-- The loop `while (!bucket_primes_is_end (BP))` of
`divide_primes_from_bucket`, over the entries that are left; the last argument
is the read pointer.  An entry with `prime.x > x` is put back and ends the
loop, an entry with `prime.x == x` is divided out, an entry with
`prime.x < x` is passed over. -/
def divide_primes_loop (BUCKET_P_WRAP fbb : Nat) (isprime : Nat → Bool) (x : Nat) :
    List bucket_prime_t → List Nat → Int → Nat → Option (List Nat × Int × Nat)
  | [], fl, norm, read => some (fl, norm, read)
  | prime :: rest, fl, norm, read =>
    if prime.x > x then some (fl, norm, read + 1 - 1)
    else if prime.x = x then
      match divide_bucket_prime BUCKET_P_WRAP fbb isprime fl norm prime.p with
      | none => none
      | some r => divide_primes_loop BUCKET_P_WRAP fbb isprime x rest r.1 r.2 (read + 1)
    else divide_primes_loop BUCKET_P_WRAP fbb isprime x rest fl norm (read + 1)

/-- `divide_primes_from_bucket (fl, norm, N, x, BP, fbb)`: the new factor list,
the new norm and the bucket primes with their new read pointer; `none` when the
program aborts. -/
def divide_primes_from_bucket (BUCKET_P_WRAP fbb : Nat) (isprime : Nat → Bool)
    (fl : List Nat) (norm : Int) (x : Nat) (BP : bucket_primes_t) :
    Option (List Nat × Int × bucket_primes_t) :=
  (divide_primes_loop BUCKET_P_WRAP fbb isprime x (BP.entries.drop BP.read) fl norm
    BP.read).map (fun r => (r.1, r.2.1, { BP with read := r.2.2 }))

/-- The number of trailing zero bits of `n > 0`, by halving. -/
def trailing_zeros : Nat → Nat → Nat
  | 0, _ => 0
  | fuel + 1, n => if n % 2 = 0 ∧ n ≠ 0 then 1 + trailing_zeros fuel (n / 2) else 0

/-- GMP's `mpz_scan1 (norm, 0)` for `norm != 0`: the index of the lowest bit
that is set, the same for `norm` and `-norm`.  For `norm = 0` GMP returns the
largest `unsigned long`, which `int bit` turns into `-1`, so that the loop of
`trial_div` adds nothing and the shift leaves 0; the value 0 has that
effect here. -/
def mpz_scan1_0 (norm : Int) : Nat := trailing_zeros norm.natAbs norm.natAbs

/-- `#define TRIALDIV_MAX_FACTORS 32`. -/
def TRIALDIV_MAX_FACTORS : Nat := 32

/-- The loop `for (i = 0; i < MIN (nr_factors, TRIALDIV_MAX_FACTORS); i++)
factor_list_add (fl, factors[i]);` over the factors that are left to add. -/
def factor_list_add_all : List Nat → List Nat → Option (List Nat)
  | [], fl => some fl
  | f :: rest, fl =>
    match factor_list_add fl f with
    | none => none
    | some fl1 => factor_list_add_all rest fl1

/-- The loop `do { nr_factors = trialdiv (factors, norm, trialdiv_data,
TRIALDIV_MAX_FACTORS); ... } while (nr_factors == TRIALDIV_MAX_FACTORS + 1);`
of `trial_div`.  The routine `trialdiv` of the absent trial division library is
the parameter of that name: from the norm it gives the array `factors` that it
filled, the norm that it leaves, and its return value `nr_factors`.  `none`
when `factor_list_add` aborts, when `factors` is read past what was filled, or
when the fuel runs out. -/
def trialdiv_loop (trialdiv : Int → List Nat × Int × Nat) :
    Nat → List Nat → Int → Option (List Nat × Int)
  | 0, _, _ => none
  | fuel + 1, fl, norm =>
    let r := trialdiv norm
    let k := min r.2.2 TRIALDIV_MAX_FACTORS
    if r.1.length < k then none
    else
      match factor_list_add_all (r.1.take k) fl with
      | none => none
      | some fl1 =>
        if r.2.2 = TRIALDIV_MAX_FACTORS + 1 then trialdiv_loop trialdiv fuel fl1 r.2.1
        else some (fl1, r.2.1)

/-- The first step of `trial_div`: `fl->n = 0`, and, when `fb->p == 2`, the
`bit = mpz_scan1 (norm, 0)` copies of 2 written to the list and
`mpz_tdiv_q_2exp (norm, norm, bit)`.  The copies are written without the check
of `factor_list_add`; `none` when they do not fit the `FL_MAX_SIZE` slots. -/
def trial_div_two (fb_p : Nat) (norm : Int) : Option (List Nat × Int) :=
  if fb_p = 2 then
    let bit := mpz_scan1_0 norm
    if bit > FL_MAX_SIZE then none
    else some (List.replicate bit 2, Int.tdiv norm (2 ^ bit))
  else some ([], norm)

/-- `trial_div (fl, norm, N, x, fb, primes, trialdiv_data, fbb, a, b)`, where
`fb_p` is `fb->p` of the first factor base entry: the factor list, the
remaining norm and the bucket primes with their new read pointer. -/
def trial_div (BUCKET_P_WRAP fbb : Nat) (isprime : Nat → Bool)
    (trialdiv : Int → List Nat × Int × Nat) (fb_p : Nat) (norm : Int) (x : Nat)
    (primes : bucket_primes_t) : Option (List Nat × Int × bucket_primes_t) :=
  match trial_div_two fb_p norm with
  | none => none
  | some r1 =>
    match divide_primes_from_bucket BUCKET_P_WRAP fbb isprime r1.1 r1.2 x primes with
    | none => none
    | some r2 =>
      match trialdiv_loop trialdiv (FL_MAX_SIZE + 1) r2.1 r2.2.1 with
      | none => none
      | some r3 => some (r3.1, r3.2, r2.2.2)

/-- The product of the entries of a factor list, as an integer. -/
def factor_list_prod (fl : List Nat) : Int := (fl.map (fun (p : Nat) => (p : Int))).prod

/-! ## `factor_leftover_norm` -/

/-- The number of bits of `n > 0`, by halving. -/
def bitsize_aux : Nat → Nat → Nat
  | 0, _ => 0
  | fuel + 1, n => if n = 0 then 0 else 1 + bitsize_aux fuel (n / 2)

/-- `#define BITSIZE(X) (mpz_sizeinbase ((X), 2))`: the number of bits of `X`,
and 1 for `X = 0`. -/
def BITSIZE (n : Nat) : Nat := if n = 0 then 1 else bitsize_aux n n

/-- `#define FACUL_NOT_SMOOTH (-1)` of the absent `facul.h`. -/
def FACUL_NOT_SMOOTH : Int := -1

/-- The loop `for (i = 0; i < nr_factors; i++)` of `factor_leftover_norm`: the
second argument is the part of `ul_factors` from index `i` on, the first the
number `nr_factors - i` of turns that are left.  `none`: the array is read past
its end, the division is by zero, or `ASSERT_ALWAYS (r == 0UL)` fails.
Otherwise the flag is `false` for the `return 0` on a factor larger than
`1UL << l` and `true` when the loop is left at its end, with the cofactor and
the factors appended so far. -/
def factor_leftover_loop (l : Nat) :
    Nat → List Nat → Nat → List Nat → Option (Bool × Nat × List Nat)
  | 0, _, n, factors => some (true, n, factors)
  | _ + 1, [], _, _ => none
  | k + 1, f :: rest, n, factors =>
    if f > (1 <<< l) % 2 ^ 64 then some (false, n, factors)
    else if f = 0 then none
    else if n % f ≠ 0 then none
    else factor_leftover_loop l k rest (n / f) (factors ++ [f])

/-- `factor_leftover_norm (n, l, factors, multis, strategy)` for `n > 0`.  The
routine `facul` of the absent factoring library is the parameter of that name:
from `n` it gives its return value `facul_code` and the array `ul_factors`.
The result is the return value with the arrays `factors` and `multis`; `none`
stands for an abort or a read past `ul_factors`. -/
def factor_leftover_norm (facul : Nat → Int × List Nat) (n l : Nat) :
    Option (Nat × List Nat × List Nat) :=
  if n = 1 then some (1, [], [])
  else if BITSIZE n ≤ l then some (1, [n], [1])
  else
    let facul_code := (facul n).1
    let ul_factors := (facul n).2
    if facul_code = FACUL_NOT_SMOOTH then some (0, [], [])
    else if facul_code > 0 then
      match factor_leftover_loop l facul_code.toNat ul_factors n [] with
      | none => none
      | some (false, _, factors) => some (0, factors, List.replicate factors.length 1)
      | some (true, n1, factors) =>
        let multis := List.replicate factors.length 1
        if n1 = 1 then some (1, factors, multis)
        else if BITSIZE n1 ≤ l then some (1, factors ++ [n1], multis ++ [1])
        else if BITSIZE n1 > 2 * l then some (0, factors, multis)
        else some (0, factors, multis)
    else some (0, [], [])

/-! ## `ecm` -/

/-- The two curve parameterizations of `ecm_plan_t`, and any other value. -/
inductive ecm_parameterization where
  | BRENT12
  | MONTY12
  | other
deriving DecidableEq, Repr

/-- The fields of `ecm_plan_t` that `ecm` reads. -/
structure ecm_plan_t where
  parameterization : ecm_parameterization
  sigma : Nat
  bc : List Nat
deriving DecidableEq, Repr

/-- A point `(x :: z)` in Montgomery form, `ellM_point_t`. -/
structure ellM_point_t where
  x : Nat
  z : Nat
deriving DecidableEq, Repr

/-- Modelled from the spec: `mod_inv (u, z, m)` of the absent modular
arithmetic header; it sets `u` to the inverse of `z` modulo `m` and returns
non-zero, or returns 0 (here `none`) when `z` is not invertible. -/
def mod_inv (z m : Nat) : Option Nat :=
  (List.range m).find? (fun u => (u * z) % m = 1 % m)

/-- Modelled from the spec: `mod_gcd (&f, z, m)` of the absent modular
arithmetic header; it sets `f` to the greatest common divisor of `z` and
`m`. -/
def mod_gcd (z m : Nat) : Nat := Nat.gcd z m

/-- Modelled from the spec: `mod_mul (r, a, b, m)` of the absent modular
arithmetic header; the product modulo `m`. -/
def mod_mul (a b m : Nat) : Nat := (a * b) % m

/-- Modelled from the spec: `mod_add_ul (r, a, k, m)` of the absent modular
arithmetic header; the sum modulo `m`. -/
def mod_add_ul (a k m : Nat) : Nat := (a + k) % m

/-- Modelled from the spec: `mod_div2 (r, a, m)` of the absent modular
arithmetic header; the half modulo the odd `m`. -/
def mod_div2 (a m : Nat) : Nat := (if a % 2 = 0 then a / 2 else (a + m) / 2) % m

/-- `ecm (x1, m, plan)`.  `Brent12_curve_from_sigma` and `Monty12_curve_from_k`
give the curve coefficient `A` and the abscissa `P->x` of the starting point, or
`none` when they return 0; `ellM_interpret_bytecode` is stage 1, from the point,
the byte code, the modulus and `b = (A + 2) / 4`.  The result is the return
value and the content of `x1`; `none` stands for the abort on an unknown
parameterization. -/
def ecm (Brent12_curve_from_sigma Monty12_curve_from_k : Nat → Nat → Option (Nat × Nat))
    (ellM_interpret_bytecode : ellM_point_t → List Nat → Nat → Nat → ellM_point_t)
    (x1 m : Nat) (plan : ecm_plan_t) : Option (Nat × Nat) :=
  let f : Nat := 1
  let curve : Option (Option (Nat × Nat)) :=
    match plan.parameterization with
    | ecm_parameterization.BRENT12 => some (Brent12_curve_from_sigma (plan.sigma % m) m)
    | ecm_parameterization.MONTY12 => some (Monty12_curve_from_k plan.sigma m)
    | ecm_parameterization.other => none
  match curve with
  | none => none
  | some none => some (1, x1)
  | some (some (A, Px)) =>
    let P0 : ellM_point_t := { x := Px, z := 1 % m }
    let b := mod_div2 (mod_div2 (mod_add_ul A 2 m) m) m
    let P := ellM_interpret_bytecode P0 plan.bc m b
    match mod_inv P.z m with
    | none => some (mod_gcd P.z m, x1)
    | some u => some (f, mod_mul P.x u m)

/-! ## `init_resieve` -/

/-- A marker of the small-sieve list: the index of an entry and the bits of
`event`. -/
structure ssp_marker_t where
  index : Nat
  event : Nat
deriving DecidableEq, Repr

/-- The structure `small_sieve_data_t`: the markers, the slots, their number,
and the arrays of log weights and of cursors. -/
structure small_sieve_data_t where
  markers : List ssp_marker_t
  ssp : List ssp_slot
  nb_ssp : Nat
  logp : List Nat
  next_position : List Nat
deriving DecidableEq, Repr

/-- The field `ssp->p` of a slot read as `ssp_t`; a slot written as
`ssp_bad_t` has `g` in that place. -/
def ssp_slot_p : ssp_slot → Nat
  | ssp_slot.ordinary s => s.p
  | ssp_slot.bad s => s.g

/-- A slot read through the cast `(ssp_bad_t *) &(s->ssp[i])`; the fields
`p, r, offset` of `ssp_t` lie where `g, q, U` do. -/
def ssp_slot_bad : ssp_slot → ssp_bad_t
  | ssp_slot.ordinary s => { g := s.p, q := s.r, U := s.offset }
  | ssp_slot.bad s => s

/-- The slots of a small-sieve list with their log weights and cursors:
`(s->ssp[i], s->logp[i], s->next_position[i])` for every `i` at which the three
arrays can be read. -/
def ssd_entries (s : small_sieve_data_t) : List (ssp_slot × Nat × Nat) :=
  List.zip s.ssp (List.zip s.logp s.next_position)

/-- The loop `for ( ; *td != FB_END && *td < v ; td++);`.  The pointer `td` is
the list of the trial-division primes from the pointer up to the `FB_END`
mark; the empty list is a pointer at the mark. -/
def td_skip (v : Nat) (td : List Nat) : List Nat :=
  td.dropWhile (fun t => decide (t < v))

/-- The test `*td == FB_END || *td != v`. -/
def td_miss (v : Nat) (td : List Nat) : Bool :=
  match td with
  | [] => true
  | t :: _ => decide (t ≠ v)

/-- The loop `do { event = next_marker->event; fence = next_marker->index;
next_marker++; } while ((event & (~SSP_POW2)) == 0);` on the markers from
`next_marker` on: the marker at which it stops and the new `next_marker`;
`none` when the markers are read past their end. -/
def next_special : List ssp_marker_t → Option (ssp_marker_t × List ssp_marker_t)
  | [] => none
  | m :: rest =>
    if m.event &&& (2 ^ 32 - 1 - SSP_POW2) = 0 then next_special rest else some (m, rest)

/-- The body of `for ( ; i < fence ; i++)` of `init_resieve` for the slot `e`
at index `i`: nothing for a prime power, else the pointer `td` moves on and the
slot is copied to the end of `r` when its `p` is not at the pointer. -/
def resieve_plain_step (st : List Nat × List (ssp_slot × Nat × Nat))
    (e : ssp_slot × Nat × Nat) : List Nat × List (ssp_slot × Nat × Nat) :=
  if is_prime_power (ssp_slot_p e.1) = true then st
  else
    let td1 := td_skip (ssp_slot_p e.1) st.1
    if td_miss (ssp_slot_p e.1) td1 = true then (td1, st.2 ++ [e]) else (td1, st.2)

/-- The loop `for ( ; i < fence ; i++)` of `init_resieve`: the first argument
is the number `fence - i` of turns that are left.  `none` when a slot is read
past the arrays. -/
def resieve_plain (s : small_sieve_data_t) :
    Nat → Nat → List Nat × List (ssp_slot × Nat × Nat) →
      Option (List Nat × List (ssp_slot × Nat × Nat))
  | 0, _, st => some st
  | k + 1, i, st =>
    match (ssd_entries s).get? i with
    | none => none
    | some e => resieve_plain s k (i + 1) (resieve_plain_step st e)

/-- The state of the loops of `init_resieve`: the pointer `td`, the slots
copied to `r` (with their log weight and cursor; `j` is their number) and the
markers pushed to `r`. -/
structure resieve_state where
  td : List Nat
  r : List (ssp_slot × Nat × Nat)
  markers : List ssp_marker_t
deriving DecidableEq, Repr

/-- The end of the body of the outer loop of `init_resieve` for the slot `e`
at the index of a marker with `event`, once `SSP_END` is excluded: `continue`
on `SSP_DISCARD`, `ASSERT_ALWAYS (event & SSP_PROJ)`, `continue` when `q > 1`
or `g` is a prime power, else the pointer `td` moves on and the slot is copied,
after a marker `SSP_PROJ` with index `j`, when `g` is not at the pointer.
`none` when the assertion fails. -/
def resieve_special_step (event : Nat) (st : resieve_state) (e : ssp_slot × Nat × Nat) :
    Option resieve_state :=
  if event &&& SSP_DISCARD ≠ 0 then some st
  else if event &&& SSP_PROJ = 0 then none
  else
    let ssp := ssp_slot_bad e.1
    if ssp.q > 1 ∨ is_prime_power ssp.g = true then some st
    else
      let td1 := td_skip ssp.g st.td
      if td_miss ssp.g td1 = true then
        some { td := td1, r := st.r ++ [e],
               markers := st.markers ++ [{ index := st.r.length, event := SSP_PROJ }] }
      else some { st with td := td1 }

/-- The loop `for (int i = 0 ; i < s->nb_ssp ; i++)` of `init_resieve`, with
the loop variable `i`, the pointer `next_marker` as the list of the markers
from it on, and the state.  `none` when an assertion fails, when the markers or
the slots are read past their end, or when the fuel runs out. -/
def init_resieve_loop (s : small_sieve_data_t) :
    Nat → Nat → List ssp_marker_t → resieve_state → Option resieve_state
  | 0, _, _, _ => none
  | fuel + 1, i, next_marker, st =>
    if ¬ i < s.nb_ssp then some st
    else
      match next_special next_marker with
      | none => none
      | some (m, next_marker1) =>
        match resieve_plain s (m.index - i) i (st.td, st.r) with
        | none => none
        | some (td1, r1) =>
          let i1 := max i m.index
          let st1 : resieve_state := { td := td1, r := r1, markers := st.markers }
          if m.event &&& SSP_END ≠ 0 then
            if i1 = s.nb_ssp then some st1 else none
          else
            match (ssd_entries s).get? i1 with
            | none => none
            | some e =>
              match resieve_special_step m.event st1 e with
              | none => none
              | some st2 => init_resieve_loop s fuel (i1 + 1) next_marker1 st2

/-- `init_resieve (r, s, trialdiv_primes)`: the content of `r` at the end, with
`r->nb_ssp = j` and the closing marker `SSP_END` of index `j`. -/
def init_resieve (s : small_sieve_data_t) (trialdiv_primes : List Nat) :
    Option small_sieve_data_t :=
  match init_resieve_loop s (s.nb_ssp + 1) 0 s.markers
      { td := trialdiv_primes, r := [], markers := [] } with
  | none => none
  | some st =>
    some { markers := st.markers ++ [{ index := st.r.length, event := SSP_END }]
           ssp := st.r.map (fun e => e.1)
           nb_ssp := st.r.length
           logp := st.r.map (fun e => e.2.1)
           next_position := st.r.map (fun e => e.2.2) }

/-- The event of the marker of the entry `i`, when it has one that is not
`SSP_POW2` alone. -/
def special_event (markers : List ssp_marker_t) (i : Nat) : Option Nat :=
  (markers.find? (fun m => decide (m.index = i)
    && decide (m.event &&& (2 ^ 32 - 1 - SSP_POW2) ≠ 0))).map (fun m => m.event)

/-- The number that `init_resieve` looks up in the trial-division primes for
the entry `e` at index `i`: `p` for an entry without marker, or with
`SSP_POW2` alone, that is not a prime power; `g` for a projective entry that is
not discarded, with `q ≤ 1` and `g` not a prime power; none for the others. -/
def resieve_key (markers : List ssp_marker_t) (i : Nat) (e : ssp_slot × Nat × Nat) :
    Option Nat :=
  match special_event markers i with
  | none => if is_prime_power (ssp_slot_p e.1) = true then none else some (ssp_slot_p e.1)
  | some event =>
    if event &&& SSP_DISCARD ≠ 0 then none
    else if (ssp_slot_bad e.1).q > 1 ∨ is_prime_power (ssp_slot_bad e.1).g = true then none
    else some (ssp_slot_bad e.1).g

/-- The entries that the claim lists for the resieve list, in their order:
those whose looked-up number is not a trial-division prime. -/
def resieve_expected (s : small_sieve_data_t) (trialdiv_primes : List Nat) :
    List (ssp_slot × Nat × Nat) :=
  ((ssd_entries s).enum.filter (fun ie =>
    match resieve_key s.markers ie.1 ie.2 with
    | none => false
    | some v => decide (v ∉ trialdiv_primes))).map (fun ie => ie.2)

/-- The numbers looked up in the trial-division primes, in the order of the
entries. -/
def resieve_keys (s : small_sieve_data_t) : List Nat :=
  (ssd_entries s).enum.filterMap (fun ie => resieve_key s.markers ie.1 ie.2)

/-- The values of `event` that `small_sieve_init` pushes with a marker before
the closing one: `SSP_POW2`, `SSP_PROJ`, both, and `SSP_PROJ` with
`SSP_DISCARD`, with or without `SSP_POW2`. -/
def marker_event_ok (event : Nat) : Prop :=
  event = SSP_POW2 ∨ event = SSP_PROJ ∨ event = SSP_POW2 ||| SSP_PROJ
    ∨ event = SSP_PROJ ||| SSP_DISCARD ∨ event = SSP_POW2 ||| SSP_PROJ ||| SSP_DISCARD

/-- A small-sieve list as `small_sieve_init` builds it: the three arrays have
`nb_ssp` slots, and the markers come by strictly increasing index below
`nb_ssp`, each with an event of `small_sieve_init`, before the closing marker
`SSP_END` of index `nb_ssp`. -/
structure small_sieve_wf (s : small_sieve_data_t) : Prop where
  len_ssp : s.ssp.length = s.nb_ssp
  len_logp : s.logp.length = s.nb_ssp
  len_pos : s.next_position.length = s.nb_ssp
  markers_end : ∃ ms, s.markers = ms ++ [{ index := s.nb_ssp, event := SSP_END }]
    ∧ ms.Pairwise (fun a b => a.index < b.index)
    ∧ ∀ m ∈ ms, m.index < s.nb_ssp ∧ marker_event_ok m.event

/-- The treatment of the slot `e` of index `i` by `init_resieve`, as the
markers tell it: the body of the inner loop for a slot without special marker,
the end of the body of the outer loop for the others. -/
def resieve_entry_step (markers : List ssp_marker_t) (i : Nat) (st : resieve_state)
    (e : ssp_slot × Nat × Nat) : Option resieve_state :=
  match special_event markers i with
  | none =>
    some { td := (resieve_plain_step (st.td, st.r) e).1
           r := (resieve_plain_step (st.td, st.r) e).2
           markers := st.markers }
  | some event => resieve_special_step event st e

/-- The treatment of the slots `l` of indices `i, i + 1, ...`, one after the
other. -/
def resieve_entries (markers : List ssp_marker_t) :
    Nat → List (ssp_slot × Nat × Nat) → resieve_state → Option resieve_state
  | _, [], st => some st
  | i, e :: rest, st =>
    match resieve_entry_step markers i st e with
    | none => none
    | some st1 => resieve_entries markers (i + 1) rest st1

/-! ## `reduce_plattice` with a history of its loops -/

/-- The first inner loop of `reduce_plattice`,
`for( ; a0 += b0, a1 += b1, a0 + b0 <= 0 ; );`, with a history variable: the
result is the new `(a0, a1)` and the list of the values of `(a0, b0)` after
each turn. -/
def reduce_loop_a_trace : Nat → Int → Int → Int → Int → Option ((Int × Int) × List (Int × Int))
  | 0, _, _, _, _ => none
  | fuel + 1, a0, a1, b0, b1 =>
    if (a0 + b0) + b0 ≤ 0 then
      (reduce_loop_a_trace fuel (a0 + b0) (a1 + b1) b0 b1).map
        (fun t => (t.1, (a0 + b0, b0) :: t.2))
    else some ((a0 + b0, a1 + b1), [(a0 + b0, b0)])

/-- The second inner loop of `reduce_plattice`,
`for( ; b0 += a0, b1 += a1, b0 + a0 >= 0 ; );`, with a history variable: the
result is the new `(b0, b1)` and the list of the values of `(a0, b0)` after
each turn. -/
def reduce_loop_b_trace : Nat → Int → Int → Int → Int → Option ((Int × Int) × List (Int × Int))
  | 0, _, _, _, _ => none
  | fuel + 1, a0, a1, b0, b1 =>
    if 0 ≤ (b0 + a0) + a0 then
      (reduce_loop_b_trace fuel a0 a1 (b0 + a0) (b1 + a1)).map
        (fun t => (t.1, (a0, b0 + a0) :: t.2))
    else some ((b0 + a0, b1 + a1), [(a0, b0 + a0)])

/-- The outer loop `for(;;)` of `reduce_plattice` with the history of its two
inner loops: the result is the state at the `break` and the list of the values
of `(a0, b0)` after each turn of an inner loop, in the order of execution. -/
def reduce_loop_trace (lim : Nat) (hI : Int) :
    Nat → plattice_info_t → Option (plattice_info_t × List (Int × Int))
  | 0, _ => none
  | fuel + 1, s =>
    if s.b0 < hI then some (s, [])
    else
      match reduce_loop_a_trace lim s.a0 s.a1 s.b0 s.b1 with
      | none => none
      | some ((a0, a1), ta) =>
        if -a0 < hI then some ({ s with a0 := a0, a1 := a1 }, ta)
        else
          match reduce_loop_b_trace lim a0 a1 s.b0 s.b1 with
          | none => none
          | some ((b0, b1), tb) =>
            (reduce_loop_trace lim hI fuel { a0 := a0, b0 := b0, a1 := a1, b1 := b1 }).map
              (fun t => (t.1, ta ++ tb ++ t.2))

/-- The quantity `|a0| + b0` of a pair `(a0, b0)`. -/
def reduce_measure (x : Int × Int) : Int := |x.1| + x.2

/-! ## `check_leftover_norm` -/

/-- The `return` statement by which `check_leftover_norm` is left: the test
`s > mfb` (case (0) of its comment), `s <= lpb` (case (a)), `n < BB` (case
(b)), `n < BBB` (case (e)), `n < BBBB` (case (h)), the test
`mpz_probab_prime_p (n, 1)`, or the final `return 1`. -/
inductive leftover_exit where
  | case_0
  | case_a
  | case_b
  | case_e
  | case_h
  | pseudo_prime
  | final
deriving DecidableEq, Repr

/-- The end of `check_leftover_norm`, after its size tests:
`if (mpz_probab_prime_p (n, 1)) return 0; return 1;`.  `mpz_probab_prime_p` is
the GMP function, a parameter. -/
def check_leftover_norm_prime (mpz_probab_prime_p : Nat → Nat → Nat) (n : Nat) :
    Nat × leftover_exit :=
  if mpz_probab_prime_p n 1 ≠ 0 then (0, leftover_exit.pseudo_prime)
  else (1, leftover_exit.final)

/-- The function `check_leftover_norm (n, lpb, BB, BBB, BBBB, mfb)`, with the
`return` statement taken next to the value returned.  `mpz_sizeinbase (n, 2)`
is `BITSIZE n`.  The products `2 * lpb` and `3 * lpb` of `size_t` values are
far from wrapping, `lpb` being a number of bits. -/
def check_leftover_norm (mpz_probab_prime_p : Nat → Nat → Nat)
    (n lpb BB BBB BBBB mfb : Nat) : Nat × leftover_exit :=
  let s : Nat := BITSIZE n
  if s > mfb then (0, leftover_exit.case_0)
  else if s ≤ lpb then (1, leftover_exit.case_a)
  else if n < BB then (0, leftover_exit.case_b)
  else if 2 * lpb < s then
    if n < BBB then (0, leftover_exit.case_e)
    else if 3 * lpb < s ∧ n < BBBB then (0, leftover_exit.case_h)
    else check_leftover_norm_prime mpz_probab_prime_p n
  else check_leftover_norm_prime mpz_probab_prime_p n

/-! ## Projective entries: the first cursor -/

/-- Modelled from the spec: the macro `iceildiv (x, y)` of the absent
`macros.h`; by its name and its uses ("add g to j enough times so that
j>=skip", "the smallest j with g|j and j >= nl") the quotient rounded up. -/
def iceildiv (x y : Nat) : Nat := (x + y - 1) / y

/-- The branch `event & SSP_PROJ` of `small_sieve_start (ssd, j0, si)` for the
entry `(g, q, U)`, in `unsigned int` arithmetic: the value stored in
`ssd->next_position[i]`.  `none`: a division by zero (`g = 0` or `q = 0`). -/
def small_sieve_start_proj (si : sieve_info) (j0 : Nat) (ssp : ssp_bad_t) : Option Nat :=
  if ssp.g = 0 ∨ ssp.q = 0 then none
  else
    let j1 : Nat := j0 - (j0 % ssp.g)
    let compensate : Nat := si.I / 2
    let j1 : Nat := if j0 ≠ 0 then (j1 + ssp.g) % 2 ^ 32 else j1
    let j1 : Nat := if j1 = 0 then (j1 + ssp.g) % 2 ^ 32 else j1
    let compensate : Nat := (compensate + j1 * ssp.U) % 2 ^ 32
    some ((((j1 + 2 ^ 32 - j0) % 2 ^ 32) * si.I + compensate % ssp.q) % 2 ^ 32)

/-- The branch `event & SSP_PROJ` of
`ssd_update_positions (ssd, ref_ssd, si, nl, use_offset)` for the entry
`(g, q, U)`: the value stored in `ssd->next_position[i]`; the branch reads
neither `ref_ssd` nor `use_offset`.  `none`: a division by zero. -/
def ssd_update_positions_proj (si : sieve_info) (nl : Nat) (ssp : ssp_bad_t) : Option Nat :=
  if ssp.g = 0 ∨ ssp.q = 0 then none
  else
    let ng : Nat := iceildiv nl ssp.g
    let ng : Nat := if ng = 0 then ng + 1 else ng
    let x : Nat := ((si.I / 2 + ng * ssp.U) % 2 ^ 32) % ssp.q
    let j : Nat := (ng * ssp.g) % 2 ^ 32
    some ((((j + 2 ^ 32 - nl) % 2 ^ 32) * si.I + x) % 2 ^ 32)

/-- The first line of a projective entry as the claim words it: the smallest
row `j1 >= j0` with `g` dividing `j1` and `j1 > 0`. -/
def proj_first_line (j0 g : Nat) : Option Nat :=
  (List.range (j0 + g + 1)).find? (fun j1 => decide (j0 ≤ j1 ∧ g ∣ j1 ∧ 0 < j1))

/-- The first cursor of a projective entry as the claim words it:
`(j1 - j0) * I + ((I/2 + (j1/g) * U) mod q)` for the first line `j1`. -/
def proj_first_cursor (si : sieve_info) (j0 : Nat) (ssp : ssp_bad_t) : Option Nat :=
  (proj_first_line j0 ssp.g).map
    (fun j1 => (j1 - j0) * si.I + (si.I / 2 + (j1 / ssp.g) * ssp.U) % ssp.q)

/-! ## Projective entries with `q = 1`: sieve and resieve -/

/-- The flag `row0_is_oddj = (N << (LOG_BUCKET_REGION - si->logI)) & 1` of
`sieve_small_bucket_region` and of `resieve_small_bucket_region`. -/
def row0_is_oddj (cfg : las_config) (si : sieve_info) (N : Nat) : Nat :=
  ((N <<< (cfg.LOG_BUCKET_REGION - si.logI)) % 2 ^ 32) &&& 1

/-- The loop `while (i0 < (unsigned int) bucket_region)` of the branch
`ssp->q == 1` of `sieve_small_bucket_region` for a projective entry of
`ssp->g = g`, from the cursor `i0` on.  The line that starts at `S + i0` is
decreased word by word by `logps2`, whose bytes of even index are cleared when
`((i0 & I) == 0) ^ row0_is_oddj` holds; `sizeof_ul` is
`sizeof (unsigned long)`, and the words cover the `I` bytes of the line
(`ASSERT (I % (4 * sizeof (unsigned long)) == 0)`).  The result lists the
positions `i0 + ii` whose byte of `logps2` is `logp`, and gives the value
stored in `ssd->next_position[i]`. -/
def sieve_small_bucket_region_proj (cfg : las_config) (si : sieve_info) (sizeof_ul N g : Nat) :
    Nat → Nat → Option (List Nat × Nat)
  | 0, _ => none
  | fuel + 1, i0 =>
    let I : Nat := si.I % 2 ^ 32
    if i0 < bucket_region cfg % 2 ^ 32 then
      let even_j : Bool := Bool.xor (decide (i0 &&& I = 0)) (decide (row0_is_oddj cfg si N ≠ 0))
      let hits : List Nat :=
        ((List.range I).filter (fun ii => !(even_j && decide ((ii % sizeof_ul) % 2 = 0)))).map
          (fun ii => i0 + ii)
      match sieve_small_bucket_region_proj cfg si sizeof_ul N g fuel ((i0 + g * I) % 2 ^ 32) with
      | none => none
      | some (rest, c) => some (hits ++ rest, c)
    else some ([], (i0 + 2 ^ 32 - (1 <<< cfg.LOG_BUCKET_REGION) % 2 ^ 32) % 2 ^ 32)

/-- The loop `while (i0 < (unsigned int) bucket_region)` of the branch
`event == SSP_PROJ` of `resieve_small_bucket_region` for an entry of
`ssp->g = g`, from the cursor `i0` on; `S` is the region.  On a line with
`(i0 >> si->logI) % 2 == 0` the columns `ii = 1, 3, ...` below `I` are tested,
on another line all columns; the result lists the calls of
`push_bucket_prime` (with `prime.p = g`, `prime.x = i0 + ii`) and gives the
value stored in `ssd->next_position[i]`. -/
def resieve_small_bucket_region_proj (cfg : las_config) (si : sieve_info) (S : Nat → Nat)
    (g : Nat) : Nat → Nat → Option (List bucket_prime_t × Nat)
  | 0, _ => none
  | fuel + 1, i0 =>
    let I : Nat := si.I % 2 ^ 32
    if i0 < bucket_region cfg % 2 ^ 32 then
      let cols : List Nat :=
        if (i0 >>> si.logI) % 2 = 0 then (List.range I).filter (fun ii => decide (ii % 2 = 1))
        else List.range I
      let pushes : List bucket_prime_t :=
        (cols.filter (fun ii => decide (S (i0 + ii) % 256 ≠ 255))).map
          (fun ii => { p := g, x := i0 + ii })
      match resieve_small_bucket_region_proj cfg si S g fuel ((i0 + g * I) % 2 ^ 32) with
      | none => none
      | some (rest, c) => some (pushes ++ rest, c)
    else some ([], (i0 + 2 ^ 32 - bucket_region cfg % 2 ^ 32) % 2 ^ 32)

/-! ## Powers of 2: the cursor through the regions of a thread -/

/-- The branch `event & SSP_POW2` of `small_sieve_start (ssd, j0, si)` for the
entry `(p, r)`: `j1 = j0 | 1; compensate = si->I / 2 + j1 * ssp->r;
next_position[i] = (j1 - j0) * si->I + compensate % ssp->p`, in `unsigned int`
arithmetic. -/
def small_sieve_start_pow2 (si : sieve_info) (j0 p r : Nat) : Nat :=
  let j1 : Nat := j0 ||| 1
  let compensate : Nat := (si.I / 2 + j1 * r) % 2 ^ 32
  (((j1 + 2 ^ 32 - j0) % 2 ^ 32) * si.I + compensate % p) % 2 ^ 32

/-- The cursor after one line of `sieve_small_bucket_region` for a power of 2
that is not projective.  The pattern loop (`p <= pattern2_size`) and the loop
for the larger powers of 2 treat the cursor alike:
`if (i0 < I) { ...; i0 = ((i0 + 2 * r) & (p - 1)) + 2 * I; }` and then
`i0 - I`. -/
def sieve_pow2_line (si : sieve_info) (p r i0 : Nat) : Nat :=
  let I : Nat := si.I % 2 ^ 32
  let i1 : Nat :=
    if i0 < I then ((((i0 + 2 * r) % 2 ^ 32) &&& ((p + (2 ^ 32 - 1)) % 2 ^ 32)) + 2 * I) % 2 ^ 32
    else i0
  (i1 + (2 ^ 32 - I)) % 2 ^ 32

/-- The loop `for (j = 0; j < nj; j++)` of `sieve_small_bucket_region` for a
power of 2 that is not projective, in region `N`, with `lines` lines still to
do from line `j` on.  The result lists the triples `(N, j, i0)` of the lines
at which `i0 < I` held, that is where the two `ASSERT` are evaluated and the
line is sieved from `i0`, and gives the cursor stored back. -/
def sieve_pow2_lines (si : sieve_info) (N p r : Nat) : Nat → Nat → Nat →
    List (Nat × Nat × Nat) × Nat
  | 0, _, i0 => ([], i0)
  | lines + 1, j, i0 =>
    let rest := sieve_pow2_lines si N p r lines (j + 1) (sieve_pow2_line si p r i0)
    (if i0 < si.I % 2 ^ 32 then (N, j, i0) :: rest.1 else rest.1, rest.2)

/-- The two assertions `ASSERT (i0 < p)` and `ASSERT ((nj * N + j) % 2 == 1)`
at a line `(N, j, i0)`. -/
def pow2_asserts (nj p : Nat) (l : Nat × Nat × Nat) : Bool :=
  decide (l.2.2 < p) && decide ((nj * l.1 + l.2.1) % 2 = 1)

/-- The branch `event & SSP_POW2` of `small_sieve_skip_stride (ssd, skip, si)`:
nothing for `skip == 0`, else `next_position[i] += ssp->offset`, the masking
by `ssp->p - 1` being commented out. -/
def small_sieve_skip_stride_pow2 (skip : Nat) (ssp : ssp_t) (next_position : Nat) : Nat :=
  if skip = 0 then next_position else (next_position + ssp.offset) % 2 ^ 32

/-- The loop `for (i = th->id; i < si->nb_buckets; i += si->nb_threads)` of
`process_bucket_region`, followed for one power of 2 that is not projective:
`sieve_small_bucket_region`, then `small_sieve_skip_stride`.  The result lists
the lines `(N, j, i0)` at which `i0 < I` held. -/
def process_bucket_region_pow2_loop (cfg : las_config) (si : sieve_info)
    (nb_threads skiprows : Nat) (ssp : ssp_t) : Nat → Nat → Nat →
    Option (List (Nat × Nat × Nat))
  | 0, _, _ => none
  | fuel + 1, i, next_position =>
    if i < nb_buckets cfg si then
      let nj : Nat := (1 <<< cfg.LOG_BUCKET_REGION) >>> si.logI
      let region := sieve_pow2_lines si i ssp.p ssp.r nj 0 next_position
      match process_bucket_region_pow2_loop cfg si nb_threads skiprows ssp fuel
          (i + nb_threads) (small_sieve_skip_stride_pow2 skiprows ssp region.2) with
      | none => none
      | some rest => some (region.1 ++ rest)
    else some []

/-- The function `process_bucket_region (th)` for the thread `id` of
`nb_threads`, followed for one power of 2 `(p, r)` that is not projective:
`small_sieve_init` (which sets `offset = (r * skiprows) % p`),
`small_sieve_start (ssd, my_row0, si)`, then the loop over the regions. -/
def process_bucket_region_pow2 (cfg : las_config) (si : sieve_info) (nb_threads id p r : Nat) :
    Option (List (Nat × Nat × Nat)) :=
  let nj : Nat := (1 <<< cfg.LOG_BUCKET_REGION) >>> si.logI
  let my_row0 : Nat := (nj * id) % 2 ^ 32
  let skiprows : Nat := (nj * (nb_threads - 1)) % 2 ^ 32
  let ssp : ssp_t := ssp_init_oa p r skiprows
  process_bucket_region_pow2_loop cfg si nb_threads skiprows ssp (nb_buckets cfg si + 1) id
    (small_sieve_start_pow2 si my_row0 p r)

/-! ## The two passes of `factor_survivors` -/

/-- Modelled from the spec: `mod_add (r, a, b, m)` of the absent modular
arithmetic header; the sum modulo `m`. -/
def mod_add (a b m : Nat) : Nat := (a + b) % m

/-- Modelled from the spec: `mod_sub (r, a, b, m)` of the absent modular
arithmetic header; the difference modulo `m`. -/
def mod_sub (a b m : Nat) : Nat := (a + (m - b % m)) % m

/-- `ellM_double (Q, P, m, b)`: the value written to `Q`.  Every read of `P`
precedes the writes to `Q`, so the result is the same when `Q` is `P`. -/
def ellM_double (P : ellM_point_t) (m b : Nat) : ellM_point_t :=
  let u := mod_add P.x P.z m
  let u := mod_mul u u m
  let v := mod_sub P.x P.z m
  let v := mod_mul v v m
  let Qx := mod_mul u v m
  let w := mod_sub u v m
  let u := mod_mul w b m
  let u := mod_add u v m
  let Qz := mod_mul w u m
  { x := Qx, z := Qz }

/-- `ellM_add (R, P, Q, D, m)`: the value written to `R`.  Every read of `P`
and `Q` precedes the writes to `R`, and `D->x` is saved before `R->x` is
written, so the result is the same when `R` is `P`, `Q` or `D`. -/
def ellM_add (P Q D : ellM_point_t) (m : Nat) : ellM_point_t :=
  let u := mod_sub P.x P.z m
  let v := mod_add Q.x Q.z m
  let u := mod_mul u v m
  let w := mod_add P.x P.z m
  let v := mod_sub Q.x Q.z m
  let v := mod_mul w v m
  let w := mod_add u v m
  let v := mod_sub u v m
  let w := mod_mul w w m
  let v := mod_mul v v m
  let u := D.x
  let Rx := mod_mul w D.z m
  let Rz := mod_mul u v m
  { x := Rx, z := Rz }

/-- The loop `for (l = e, n = 0; l > 1; n ++, l /= 2);` of `ellM_mul_ui`; the
result is `n`. -/
def ellM_mul_ui_steps : Nat → Nat → Nat → Option Nat
  | 0, _, _ => none
  | fuel + 1, l, n => if l > 1 then ellM_mul_ui_steps fuel (l / 2) (n + 1) else some n

/-- The record of a run of `ellM_mul_ui`: the pairs `(t1, t2)`, from the one
set before the loop to the final one, and the difference arguments handed to
the successive calls of `ellM_add`. -/
structure ellM_trace (α : Type) where
  pairs : List (α × α)
  diffs : List α

/-- The loop `while (n--)` of `ellM_mul_ui`, with the two point operations
`add (P, Q, D)` and `dbl (P)` as arguments; `P` is the point `P` and `e` the
decremented multiplier.  The result is the final pair `(t1, t2)` and the record
of the passes. -/
def ellM_mul_ui_loop {α : Type} (add : α → α → α → α) (dbl : α → α) (P : α) (e : Nat) :
    Nat → α × α → (α × α) × ellM_trace α
  | 0, t => (t, { pairs := [], diffs := [] })
  | n + 1, t =>
    if (e >>> n) &&& 1 ≠ 0 then
      let t1 := add t.1 t.2 P
      let t2 := dbl t.2
      let s := ellM_mul_ui_loop add dbl P e n (t1, t2)
      (s.1, { pairs := (t1, t2) :: s.2.pairs, diffs := P :: s.2.diffs })
    else
      let t2 := add t.1 t.2 P
      let t1 := dbl t.1
      let s := ellM_mul_ui_loop add dbl P e n (t1, t2)
      (s.1, { pairs := (t1, t2) :: s.2.pairs, diffs := P :: s.2.diffs })

/-- The body of `ellM_mul_ui (P, e, m, b)` with the two point operations as
arguments: the result is the point written to `P` by the final
`ellM_set (P, t2, m)` and the record of the run.  `none`:
`ASSERT (e >= 5UL)` fails. -/
def ellM_mul_ui_ladder {α : Type} (add : α → α → α → α) (dbl : α → α) (P : α) (e : Nat) :
    Option (α × ellM_trace α) :=
  if e < 5 then none
  else
    let e : Nat := e - 1
    match ellM_mul_ui_steps (e + 1) e 0 with
    | none => none
    | some n =>
      let t1 : α := P
      let t2 : α := dbl t1
      let s := ellM_mul_ui_loop add dbl P e n (t1, t2)
      some (s.1.2, { pairs := (t1, t2) :: s.2.pairs, diffs := s.2.diffs })

/-- The function `ellM_mul_ui (P, e, m, b)`: the ladder with `ellM_add` and
`ellM_double` modulo `m`. -/
def ellM_mul_ui (P : ellM_point_t) (e m b : Nat) : Option (ellM_point_t × ellM_trace ellM_point_t) :=
  ellM_mul_ui_ladder (fun X Y D => ellM_add X Y D m) (fun X => ellM_double X m b) P e

/-! ## Text form of vectors over `abase_p16` (`linalg/bwc/mpfq/abase_p16.c`)

A C string is the list of its characters before the terminating NUL; reading
`str[0]` at the end of the list reads the NUL.  An element of `abase_p16` is an
`int32_t` (it is printed with `PRId32` and read with `SCNd32`). -/

/-- Modelled from the spec: `isspace` of the C library, in the "C" locale. -/
def isspace (c : Char) : Bool := c.toNat = 32 || (9 ≤ c.toNat && c.toNat ≤ 13)

/-- Modelled from the spec: `isdigit` of the C library. -/
def isdigit (c : Char) : Bool := 48 ≤ c.toNat && c.toNat ≤ 57

/-- The decimal digits of a natural number, most significant first. -/
def print_decimal : Nat → Nat → List Char
  | 0, _ => []
  | fuel + 1, n =>
    if n < 10 then [Char.ofNat (48 + n)]
    else print_decimal fuel (n / 10) ++ [Char.ofNat (48 + n % 10)]

/-- Modelled from the spec: the text written by
`snprintf (*ps, 13, "%" PRId32, *x)` in `abase_p16_asprint (K, ps, x)`: the
decimal digits of `|x|`, after a minus sign for `x < 0`.  The 13 bytes hold
every `int32_t`. -/
def abase_p16_asprint (x : Int) : List Char :=
  if x < 0 then '-' :: print_decimal (x.natAbs + 1) x.natAbs
  else print_decimal (x.natAbs + 1) x.natAbs

/-- The value of the longest run of digits at the head of a string, continuing
the value `acc`. -/
def scan_decimal : List Char → Nat → Nat
  | [], acc => acc
  | c :: cs, acc => if isdigit c then scan_decimal cs (acc * 10 + (c.toNat - 48)) else acc

/-- A non-empty run of digits at the head of a string, as a number. -/
def scan_digits (s : List Char) : Option Nat :=
  match s with
  | [] => none
  | c :: _ => if isdigit c then some (scan_decimal s 0) else none

/-- Modelled from the spec: `abase_p16_sscan (k, z, str)`, that is
`sscanf (str, "%" SCNd32, z) == 1`: white space is skipped, then an optional
sign and a non-empty run of digits are read.  `none` is the return value 0;
`some z` is the return value 1 with the element read. -/
def abase_p16_sscan (str : List Char) : Option Int :=
  match str.dropWhile isspace with
  | [] => none
  | c :: cs =>
    if c = '-' then (scan_digits cs).map (fun v => -(v : Int))
    else if c = '+' then (scan_digits cs).map (fun v => (v : Int))
    else (scan_digits (c :: cs)).map (fun v => (v : Int))

/-- The loop `for (i = 0; i < n; i += 1)` of `abase_p16_vec_asprint`, from the
index `i` on: the separator `", "` for `i != 0`, then the text of `w[i]`. -/
def abase_p16_vec_asprint_loop : Nat → List Int → List Char
  | _, [] => []
  | i, x :: rest =>
    (if i ≠ 0 then [',', ' '] else []) ++ abase_p16_asprint x
      ++ abase_p16_vec_asprint_loop (i + 1) rest

/-- The function `abase_p16_vec_asprint (K, pstr, w, n)`: the string written to
`*pstr` for the vector `w` of `n` elements. -/
def abase_p16_vec_asprint (w : List Int) : List Char :=
  if w.length = 0 then ['[', ' ', ']']
  else ['[', ' '] ++ abase_p16_vec_asprint_loop 0 w ++ [' ', ']']

/-- The loop `for (;;)` of `abase_p16_vec_sscan`; `w` holds the elements read so
far (`*n` is its length).  The result is the return value and the vector;
`none` is a loop that does not end. -/
def abase_p16_vec_sscan_loop : Nat → List Int → List Char → Option (Nat × List Int)
  | 0, _, _ => none
  | fuel + 1, w, str =>
    match abase_p16_sscan str with
    | none => some (0, w)
    | some z =>
      let w : List Int := w ++ [z]
      let str : List Char := str.dropWhile isdigit
      let str : List Char := str.dropWhile isspace
      if str.head? = some ']' then some (1, w)
      else if str.head? ≠ some ',' then some (0, w)
      else abase_p16_vec_sscan_loop fuel w ((str.drop 1).dropWhile isspace)

/-- The function `abase_p16_vec_sscan (K, w, n, str)`: the return value and the
vector left in `*w` (of `*n` elements). -/
def abase_p16_vec_sscan (str : List Char) : Option (Nat × List Int) :=
  let str : List Char := str.dropWhile isspace
  if str.head? ≠ some '[' then some (0, [])
  else
    let str : List Char := str.drop 1
    if str.head? ≠ some ' ' then some (0, [])
    else
      let str : List Char := str.drop 1
      if str.head? = some ']' then some (1, [])
      else abase_p16_vec_sscan_loop (str.length + 1) [] str

/-! ## A trial division over a table, for the parameter `trialdiv` -/

/-- The division of `n` by `p` as long as `p` divides it, `cap` times at most:
the copies of `p` found and the cofactor. -/
def trialdiv_table_div (p : Nat) : Nat → Int → List Nat × Int
  | 0, n => ([], n)
  | cap + 1, n =>
    if mpz_divisible_ui_p n p = true then
      let r := trialdiv_table_div p cap (n / (p : Int))
      (p :: r.1, r.2)
    else ([], n)

/-- The divisions by the entries of the table `d` in turn, `cap` factors at
most in all. -/
def trialdiv_table_go : List Nat → Nat → Int → List Nat × Int
  | [], _, n => ([], n)
  | p :: d, cap, n =>
    let r := trialdiv_table_div p cap n
    let s := trialdiv_table_go d (cap - r.1.length) r.2
    (r.1 ++ s.1, s.2)

/-- Modelled from the spec: an instance of `trialdiv (factors, norm,
trialdiv_data, TRIALDIV_MAX_FACTORS)` of the absent trial division library,
for the table `d` of divisors.  It divides the norm by the entries of the
table, stores the factors found, `TRIALDIV_MAX_FACTORS` at most, and returns
their number, or `TRIALDIV_MAX_FACTORS + 1` when an entry of the table still
divides the norm that is left. -/
def trialdiv_table (d : List Nat) (n : Int) : List Nat × Int × Nat :=
  let r := trialdiv_table_go d TRIALDIV_MAX_FACTORS n
  (r.1, r.2,
    if d.any (fun p => mpz_divisible_ui_p r.2 p) then TRIALDIV_MAX_FACTORS + 1 else r.1.length)

/-! ## Correctness of `reduce_plattice` -/

theorem gcd_shear (a b m : Int) : Int.gcd (a + m * b) b = Int.gcd a b := by
  apply Nat.dvd_antisymm
  · apply Int.natCast_dvd_natCast.1
    apply Int.dvd_gcd
    · have h1 : ((Int.gcd (a + m * b) b : Nat) : Int) ∣ a + m * b := Int.gcd_dvd_left
      have h2 : ((Int.gcd (a + m * b) b : Nat) : Int) ∣ b := Int.gcd_dvd_right
      have h3 := dvd_sub h1 (Dvd.dvd.mul_left h2 m)
      simpa using h3
    · exact Int.gcd_dvd_right
  · apply Int.natCast_dvd_natCast.1
    apply Int.dvd_gcd
    · have h1 : ((Int.gcd a b : Nat) : Int) ∣ a := Int.gcd_dvd_left
      have h2 : ((Int.gcd a b : Nat) : Int) ∣ b := Int.gcd_dvd_right
      exact dvd_add h1 (Dvd.dvd.mul_left h2 m)
    · exact Int.gcd_dvd_right

theorem BasisInv.init (p r : Nat) :
    BasisInv p r { a0 := -(p : Int), b0 := (r : Int), a1 := 0, b1 := 1 } := by
  refine ⟨by simp, ?_, by simp, by simp⟩
  show Int.gcd (-(p : Int)) (r : Int) = Nat.gcd p r
  rw [Int.neg_gcd, Int.gcd_natCast_natCast]

theorem BasisInv.add_a {p r : Nat} {s : plattice_info_t} (h : BasisInv p r s) (m : Int) :
    BasisInv p r { s with a0 := s.a0 + m * s.b0, a1 := s.a1 + m * s.b1 } := by
  refine ⟨?_, ?_, ?_, h.lb⟩
  · show (s.a1 + m * s.b1) * s.b0 - (s.a0 + m * s.b0) * s.b1 = (p : Int)
    rw [← h.det]; ring
  · show Int.gcd (s.a0 + m * s.b0) s.b0 = Nat.gcd p r
    rw [gcd_shear, h.gcd]
  · show (p : Int) ∣ (s.a0 + m * s.b0) - (r : Int) * (s.a1 + m * s.b1)
    have h3 := dvd_add h.la (Dvd.dvd.mul_left h.lb m)
    have e : (s.a0 + m * s.b0) - (r : Int) * (s.a1 + m * s.b1)
        = (s.a0 - (r : Int) * s.a1) + m * (s.b0 - (r : Int) * s.b1) := by ring
    rw [e]; exact h3

theorem BasisInv.add_b {p r : Nat} {s : plattice_info_t} (h : BasisInv p r s) (m : Int) :
    BasisInv p r { s with b0 := s.b0 + m * s.a0, b1 := s.b1 + m * s.a1 } := by
  refine ⟨?_, ?_, h.la, ?_⟩
  · show s.a1 * (s.b0 + m * s.a0) - s.a0 * (s.b1 + m * s.a1) = (p : Int)
    rw [← h.det]; ring
  · show Int.gcd s.a0 (s.b0 + m * s.a0) = Nat.gcd p r
    rw [Int.gcd_comm, gcd_shear, Int.gcd_comm, h.gcd]
  · show (p : Int) ∣ (s.b0 + m * s.a0) - (r : Int) * (s.b1 + m * s.a1)
    have h3 := dvd_add h.lb (Dvd.dvd.mul_left h.la m)
    have e : (s.b0 + m * s.a0) - (r : Int) * (s.b1 + m * s.a1)
        = (s.b0 - (r : Int) * s.b1) + m * (s.a0 - (r : Int) * s.a1) := by ring
    rw [e]; exact h3

/-- The first inner loop returns, having added `b` to `a` some `m ≥ 1` times. -/
theorem reduce_loop_a_spec : ∀ (n : Nat) (a0 a1 b0 b1 : Int),
    0 < b0 → a0 + b0 ≤ 0 → -a0 < (n : Int) →
    ∃ m : Int, 1 ≤ m ∧ reduce_loop_a n a0 a1 b0 b1 = some (a0 + m * b0, a1 + m * b1)
      ∧ -b0 < a0 + m * b0 ∧ a0 + m * b0 ≤ 0 := by
  intro n
  induction n with
  | zero => intro a0 a1 b0 b1 hb h1 h2; simp at h2; omega
  | succ n ih =>
    intro a0 a1 b0 b1 hb h1 h2
    unfold reduce_loop_a
    by_cases hc : (a0 + b0) + b0 ≤ 0
    · rw [if_pos hc]
      obtain ⟨m, hm, he, hl, hu⟩ := ih (a0 + b0) (a1 + b1) b0 b1 hb hc (by push_cast at h2; omega)
      refine ⟨m + 1, by omega, ?_, ?_, ?_⟩
      · rw [he]; congr 2 <;> ring
      · have : a0 + (m + 1) * b0 = a0 + b0 + m * b0 := by ring
        rw [this]; exact hl
      · have : a0 + (m + 1) * b0 = a0 + b0 + m * b0 := by ring
        rw [this]; exact hu
    · rw [if_neg hc]
      refine ⟨1, le_refl _, by simp, ?_, ?_⟩ <;> (simp only [one_mul]; omega)

/-- The second inner loop returns, having added `a` to `b` some `m ≥ 1` times. -/
theorem reduce_loop_b_spec : ∀ (n : Nat) (a0 a1 b0 b1 : Int),
    a0 < 0 → 0 ≤ b0 + a0 → b0 < (n : Int) →
    ∃ m : Int, 1 ≤ m ∧ reduce_loop_b n a0 a1 b0 b1 = some (b0 + m * a0, b1 + m * a1)
      ∧ 0 ≤ b0 + m * a0 ∧ b0 + m * a0 < -a0 := by
  intro n
  induction n with
  | zero => intro a0 a1 b0 b1 ha h1 h2; simp at h2; omega
  | succ n ih =>
    intro a0 a1 b0 b1 ha h1 h2
    unfold reduce_loop_b
    by_cases hc : 0 ≤ (b0 + a0) + a0
    · rw [if_pos hc]
      obtain ⟨m, hm, he, hl, hu⟩ := ih a0 a1 (b0 + a0) (b1 + a1) ha hc (by push_cast at h2; omega)
      refine ⟨m + 1, by omega, ?_, ?_, ?_⟩
      · rw [he]; congr 2 <;> ring
      · have : b0 + (m + 1) * a0 = b0 + a0 + m * a0 := by ring
        rw [this]; exact hl
      · have : b0 + (m + 1) * a0 = b0 + a0 + m * a0 := by ring
        rw [this]; exact hu
    · rw [if_neg hc]
      refine ⟨1, le_refl _, by simp, ?_, ?_⟩ <;> (simp only [one_mul]; omega)

/-- The subtractive loop returns when given more fuel than `-a0`. -/
theorem reduce_loop_spec (p r : Nat) (H : Int) (hH : 1 ≤ H) :
    ∀ (fuel : Nat) (s : plattice_info_t), HeadInv p r H s → BasisInv p r s →
      -s.a0 < (fuel : Int) →
      ∃ s', reduce_loop (p + 1) H fuel s = some s' ∧ ExitInv p r H s' ∧ BasisInv p r s' := by
  intro fuel
  induction fuel with
  | zero => intro s hs _ hf; have := hs.a0_neg; simp at hf; omega
  | succ n ih =>
    intro s hs hb hf
    unfold reduce_loop
    by_cases h1 : s.b0 < H
    · rw [if_pos h1]; exact ⟨s, rfl, ExitInv.first h1 hs, hb⟩
    · rw [if_neg h1]
      have hb0 : 0 < s.b0 := by omega
      have hlt := hs.b0_lt
      have hge := hs.a0_ge
      obtain ⟨m, hm, he, hl, hu⟩ := reduce_loop_a_spec (p + 1) s.a0 s.a1 s.b0 s.b1 hb0
        (by omega) (by push_cast; omega)
      rw [he]
      have hmb : s.b0 ≤ m * s.b0 := by nlinarith
      have hmb1 : 1 ≤ m * s.b1 := by have := hs.b1_pos; nlinarith
      have ha1 := hs.a1_nonneg
      simp only []
      by_cases h2 : -(s.a0 + m * s.b0) < H
      · rw [if_pos h2]
        refine ⟨_, rfl, ?_, hb.add_a m⟩
        exact ExitInv.second (by show H ≤ s.b0; omega) h2 hl hu
          (by show 1 ≤ s.a1 + m * s.b1; omega) hs.b1_pos
      · rw [if_neg h2]
        obtain ⟨m', hm', he', hl', hu'⟩ := reduce_loop_b_spec (p + 1) (s.a0 + m * s.b0)
          (s.a1 + m * s.b1) s.b0 s.b1 (by omega) (by omega) (by push_cast; omega)
        rw [he']
        simp only []
        have hb1 := hs.b1_pos
        have hma : 0 ≤ m' * (s.a1 + m * s.b1) := by nlinarith
        apply ih
        · exact ⟨by show s.a0 + m * s.b0 < 0; omega, hl', hu',
            by show 0 ≤ s.a1 + m * s.b1; omega,
            by show 1 ≤ s.b1 + m' * (s.a1 + m * s.b1); omega,
            by show -(s.a0 + m * s.b0) ≤ (p : Int); omega,
            Or.inr ⟨by show 1 ≤ s.a1 + m * s.b1; omega,
              by show H ≤ -(s.a0 + m * s.b0); omega⟩⟩
        · exact (hb.add_a m).add_b m'
        · show -(s.a0 + m * s.b0) < (n : Int)
          push_cast at hf; omega

/-- A value of the `int32_t` range is its own conversion. -/
theorem to_int32_of_range (v : Int) (h0 : -2 ^ 31 ≤ v) (h1 : v < 2 ^ 31) : to_int32 v = v := by
  unfold to_int32
  omega

theorem to_int32_lt (v : Int) : to_int32 v < 2 ^ 31 := by
  unfold to_int32
  omega

/-- For a width that fits an `int32_t` the half width is `I`, halved under
`MOD2_CLASSES_BS`. -/
theorem hI_of_lt (cfg : las_config) (si : sieve_info) (h : si.I < 2 ^ 31) :
    hI cfg si = if cfg.MOD2_CLASSES_BS then Int.tdiv (si.I : Int) 2 else (si.I : Int) := by
  unfold hI
  rw [to_int32_of_range _ (by omega) (by omega)]

theorem hI_lt (cfg : las_config) (si : sieve_info) : hI cfg si < 2 ^ 31 := by
  unfold hI
  have h := to_int32_lt (si.I : Int)
  split_ifs
  · rcases le_or_lt 0 (to_int32 (si.I : Int)) with h0 | h0
    · rw [Int.tdiv_eq_ediv h0 (by norm_num)]
      omega
    · have e : Int.tdiv (to_int32 (si.I : Int)) 2 = -Int.tdiv (-to_int32 (si.I : Int)) 2 := by
        rw [Int.neg_tdiv, neg_neg]
      rw [e, Int.tdiv_eq_ediv (by omega) (by norm_num)]
      omega
  · exact h

/-- For `r < p < 2^31` the initialisers of `reduce_plattice` are exact:
`a0 = -p` and `b0 = r`. -/
theorem reduce_plattice_init (p r : Nat) (hp31 : p < 2 ^ 31) (hr : r < p) :
    ({ a0 := to_int32 (-(to_int32 (p : Int))), b0 := to_int32 (r : Int), a1 := 0, b1 := 1 }
        : plattice_info_t)
      = { a0 := -(p : Int), b0 := (r : Int), a1 := 0, b1 := 1 } := by
  have e1 : to_int32 (p : Int) = (p : Int) := to_int32_of_range _ (by omega) (by omega)
  have e2 : to_int32 (-(p : Int)) = -(p : Int) := to_int32_of_range _ (by omega) (by omega)
  have e3 : to_int32 (r : Int) = (r : Int) := to_int32_of_range _ (by omega) (by omega)
  rw [e1, e2, e3]

/-- Totality of `reduce_plattice`: for `r < p < 2^31` and a half width of at
least 1 the function returns, and its result is the closing step applied to a
state that left the subtractive loop. -/
theorem reduce_plattice_returns (cfg : las_config) (p r : Nat) (si : sieve_info)
    (hp31 : p < 2 ^ 31) (hr : r < p) (hH : 1 ≤ hI cfg si) :
    ∃ s, reduce_plattice cfg p r si = some (reduce_finish (hI cfg si) s)
      ∧ ExitInv p r (hI cfg si) s ∧ BasisInv p r s := by
  have hinit : HeadInv p r (hI cfg si) { a0 := -(p : Int), b0 := (r : Int), a1 := 0, b1 := 1 } :=
    ⟨by show -(p : Int) < 0; omega, by show (0 : Int) ≤ r; omega,
     by show (r : Int) < - -(p : Int); omega, le_refl _, le_refl _,
     by show - -(p : Int) ≤ p; omega, Or.inl rfl⟩
  obtain ⟨s, hs, he, hb⟩ := reduce_loop_spec p r (hI cfg si) hH (p + 1) _ hinit
    (BasisInv.init p r) (by show - -(p : Int) < ((p + 1 : Nat) : Int); push_cast; omega)
  exact ⟨s, by unfold reduce_plattice; rw [reduce_plattice_init p r hp31 hr, hs], he, hb⟩

theorem tdiv_nonneg_split (x d : Int) (hx : 0 ≤ x) (hd : 0 < d) :
    ∃ q s : Int, Int.tdiv x d = q ∧ 0 ≤ q ∧ x = q * d + s ∧ 0 ≤ s ∧ s < d := by
  refine ⟨x / d, x % d, Int.tdiv_eq_ediv hx (le_of_lt hd), Int.ediv_nonneg hx (le_of_lt hd), ?_,
    Int.emod_nonneg _ (ne_of_gt hd), Int.emod_lt_of_pos _ hd⟩
  have := Int.emod_add_ediv x d
  linarith [mul_comm d (x / d)]

theorem tdiv_nonpos_split (x d : Int) (hx : x ≤ 0) (hd : 0 < d) :
    ∃ q s : Int, Int.tdiv x d = -q ∧ 0 ≤ q ∧ -x = q * d + s ∧ 0 ≤ s ∧ s < d := by
  obtain ⟨q, s, h1, h2, h3, h4, h5⟩ := tdiv_nonneg_split (-x) d (by omega) hd
  refine ⟨q, s, ?_, h2, h3, h4, h5⟩
  rw [← h1, ← Int.neg_tdiv, neg_neg]

/-- The closing division is a shear, so it keeps the algebraic invariant. -/
theorem reduce_finish_basis {p r : Nat} {H : Int} {s pli : plattice_info_t}
    (hb : BasisInv p r s) (h : reduce_finish H s = some pli) : BasisInv p r pli := by
  unfold reduce_finish at h
  split_ifs at h with h1 h2 h3
  · simp only [Option.some.injEq] at h
    rw [← h]; exact hb.add_b _
  · simp only [Option.some.injEq] at h
    rw [← h]; exact hb.add_a _

/-- Bounds after the closing division that hold for every half width. -/
theorem reduce_finish_signs {p r : Nat} {H : Int} {s pli : plattice_info_t}
    (he : ExitInv p r H s) (h : reduce_finish H s = some pli) :
    -H < pli.a0 ∧ pli.a0 < 0 ∧ 0 < pli.b0 ∧ pli.b0 < H ∧ 1 ≤ pli.b1 := by
  unfold reduce_finish at h
  cases he with
  | first hlt hh =>
    have h1 : ¬ s.b0 > -s.a0 := by have := hh.b0_lt; omega
    rw [if_neg h1] at h
    split_ifs at h with h3
    simp only [Option.some.injEq] at h
    have hb0 : 0 < s.b0 := by have := hh.b0_nonneg; omega
    subst h
    refine ⟨?_, ?_, hb0, hlt, hh.b1_pos⟩
    · show -H < s.a0 + (1 + Int.tdiv (-s.a0 - H) s.b0) * s.b0
      rcases le_or_lt 0 (-s.a0 - H) with hx | hx
      · obtain ⟨q, t, e1, e2, e3, e4, e5⟩ := tdiv_nonneg_split _ _ hx hb0
        rw [e1]; nlinarith
      · obtain ⟨q, t, e1, e2, e3, e4, e5⟩ := tdiv_nonpos_split _ _ (le_of_lt hx) hb0
        rw [e1]; nlinarith
    · show s.a0 + (1 + Int.tdiv (-s.a0 - H) s.b0) * s.b0 < 0
      rcases le_or_lt 0 (-s.a0 - H) with hx | hx
      · obtain ⟨q, t, e1, e2, e3, e4, e5⟩ := tdiv_nonneg_split _ _ hx hb0
        rw [e1]; nlinarith
      · obtain ⟨q, t, e1, e2, e3, e4, e5⟩ := tdiv_nonpos_split _ _ (le_of_lt hx) hb0
        have := hh.b0_lt
        rw [e1]; nlinarith
  | second h1 h2 h3 h4 h5 h6 =>
    have hgt : s.b0 > -s.a0 := by omega
    rw [if_pos hgt] at h
    split_ifs at h with h7
    simp only [Option.some.injEq] at h
    have ha0 : 0 < -s.a0 := by omega
    obtain ⟨q, t, e1, e2, e3, e4, e5⟩ := tdiv_nonneg_split (s.b0 - H) (-s.a0) (by omega) ha0
    subst h
    refine ⟨by show -H < s.a0; omega, by show s.a0 < 0; omega, ?_, ?_, ?_⟩
    · show 0 < s.b0 + (1 + Int.tdiv (s.b0 - H) (-s.a0)) * s.a0
      rw [e1]; nlinarith
    · show s.b0 + (1 + Int.tdiv (s.b0 - H) (-s.a0)) * s.a0 < H
      rw [e1]; nlinarith
    · show 1 ≤ s.b1 + (1 + Int.tdiv (s.b0 - H) (-s.a0)) * s.a1
      rw [e1]; nlinarith

/-- The remaining two assertions need `H ≤ p`: then `-a0 - hI` is not negative
when the closing division is applied to `a`. -/
theorem reduce_finish_asserts {p r : Nat} {H : Int} {s pli : plattice_info_t}
    (hp : H ≤ (p : Int)) (he : ExitInv p r H s) (h : reduce_finish H s = some pli) :
    H ≤ pli.b0 - pli.a0 ∧ 1 ≤ pli.a1 := by
  unfold reduce_finish at h
  cases he with
  | first hlt hh =>
    have h1 : ¬ s.b0 > -s.a0 := by have := hh.b0_lt; omega
    rw [if_neg h1] at h
    split_ifs at h with h3
    simp only [Option.some.injEq] at h
    have hb0 : 0 < s.b0 := by have := hh.b0_nonneg; omega
    have hx : 0 ≤ -s.a0 - H := by
      rcases hh.first with e | ⟨_, e⟩
      · rw [e]; show 0 ≤ - -(p : Int) - H; omega
      · omega
    obtain ⟨q, t, e1, e2, e3, e4, e5⟩ := tdiv_nonneg_split _ _ hx hb0
    have ha1 := hh.a1_nonneg
    have hb1 := hh.b1_pos
    subst h
    constructor
    · show H ≤ s.b0 - (s.a0 + (1 + Int.tdiv (-s.a0 - H) s.b0) * s.b0)
      rw [e1]; nlinarith
    · show 1 ≤ s.a1 + (1 + Int.tdiv (-s.a0 - H) s.b0) * s.b1
      rw [e1]; nlinarith
  | second h1 h2 h3 h4 h5 h6 =>
    have hgt : s.b0 > -s.a0 := by omega
    rw [if_pos hgt] at h
    split_ifs at h with h7
    simp only [Option.some.injEq] at h
    have ha0 : 0 < -s.a0 := by omega
    obtain ⟨q, t, e1, e2, e3, e4, e5⟩ := tdiv_nonneg_split (s.b0 - H) (-s.a0) (by omega) ha0
    subst h
    refine ⟨?_, h5⟩
    show H ≤ s.b0 + (1 + Int.tdiv (s.b0 - H) (-s.a0)) * s.a0 - s.a0
    rw [e1]; nlinarith

/-- The closing step reports failure exactly when the gcd of `p` and `r` is at
least the half width. -/
theorem reduce_finish_none_iff {p r : Nat} {H : Int} {s : plattice_info_t}
    (hr : 0 < r) (he : ExitInv p r H s) (hb : BasisInv p r s) :
    reduce_finish H s = none ↔ H ≤ (Nat.gcd p r : Int) := by
  have hg := hb.gcd
  have hda : ((Int.gcd s.a0 s.b0 : Nat) : Int) ∣ s.a0 := Int.gcd_dvd_left
  have hdb : ((Int.gcd s.a0 s.b0 : Nat) : Int) ∣ s.b0 := Int.gcd_dvd_right
  rw [hg] at hda hdb
  unfold reduce_finish
  cases he with
  | first hlt hh =>
    have h1 : ¬ s.b0 > -s.a0 := by have := hh.b0_lt; omega
    rw [if_neg h1]
    by_cases h3 : s.b0 = 0
    · rw [if_pos h3]
      simp only [true_iff]
      rw [h3, Int.gcd_zero_right] at hg
      have hn : ((s.a0.natAbs : Nat) : Int) = -s.a0 := by have := hh.a0_neg; omega
      rw [← hg, hn]
      rcases hh.first with e | ⟨_, e⟩
      · exfalso
        have : s.b0 = (r : Int) := by rw [e]
        omega
      · exact e
    · rw [if_neg h3]
      simp only [false_iff, not_le, reduceCtorEq]
      have hb0 : 0 < s.b0 := by have := hh.b0_nonneg; omega
      have := Int.le_of_dvd hb0 hdb
      omega
  | second h1 h2 h3 h4 h5 h6 =>
    have hgt : s.b0 > -s.a0 := by omega
    rw [if_pos hgt]
    by_cases h7 : s.a0 = 0
    · rw [if_pos h7]
      simp only [true_iff]
      rw [h7, Int.gcd_zero_left] at hg
      have hn : ((s.b0.natAbs : Nat) : Int) = s.b0 := by omega
      rw [← hg, hn]; exact h1
    · rw [if_neg h7]
      simp only [false_iff, not_le, reduceCtorEq]
      have ha0 : 0 < -s.a0 := by omega
      have := Int.le_of_dvd ha0 ((dvd_neg).2 hda)
      omega

/-- A successful run of `reduce_plattice` is the closing step applied to an exit
state of the subtractive loop. -/
theorem reduce_plattice_success {cfg : las_config} {p r : Nat} {si : sieve_info}
    {pli : plattice_info_t} (hp31 : p < 2 ^ 31) (hr : r < p) (hH : 1 ≤ hI cfg si)
    (h : reduce_plattice cfg p r si = some (some pli)) :
    ∃ s, reduce_finish (hI cfg si) s = some pli ∧ ExitInv p r (hI cfg si) s ∧ BasisInv p r s := by
  obtain ⟨s, hs, he, hb⟩ := reduce_plattice_returns cfg p r si hp31 hr hH
  rw [hs] at h
  exact ⟨s, by simpa using h, he, hb⟩

/-- C1 (amended): for every `p < 2^31`, every root `0 < r < p` and every half
width `H >= 1`, a basis returned by a successful `reduce_plattice` has
`a0 <= 0 < b0` and `b1 > 0`, and it has `a1 > 0` when `H <= p`.  The relation
`b0 < -a0` of the original statement is not part of what is returned. -/
theorem reduce_plattice_signs (cfg : las_config) (p r : Nat) (si : sieve_info)
    (pli : plattice_info_t) (hp31 : p < 2 ^ 31) (_hr0 : 0 < r) (hrp : r < p)
    (hH : 1 ≤ hI cfg si) (h : reduce_plattice cfg p r si = some (some pli)) :
    pli.a0 ≤ 0 ∧ 0 < pli.b0 ∧ 0 < pli.b1 ∧ (hI cfg si ≤ (p : Int) → 0 < pli.a1) := by
  obtain ⟨s, hf, he, _⟩ := reduce_plattice_success hp31 hrp hH h
  obtain ⟨_, h2, h3, _, h5⟩ := reduce_finish_signs he hf
  refine ⟨le_of_lt h2, h3, by omega, fun hp => ?_⟩
  have := (reduce_finish_asserts hp he hf).2
  omega

theorem reduce_plattice_signs_witness :
    (-1 : Int) ≤ 0 ∧ (0 : Int) < 1 ∧ (0 : Int) < 5 ∧
      (hI ⟨false, false, false, 16⟩ ⟨2, 1, 1, 0⟩ ≤ ((7 : Nat) : Int) → (0 : Int) < 2) :=
  reduce_plattice_signs ⟨false, false, false, 16⟩ 7 3 ⟨2, 1, 1, 0⟩ ⟨-1, 1, 2, 5⟩
    (by norm_num) (by decide) (by decide) (by decide) (by decide)

/-- C1 as stated fails: for `p = 7`, `r = 3`, `H = 2` the function succeeds with
`a = (-1, 2)`, `b = (1, 5)`, where `b0 < -a0` is false; for `p = 11`, `r = 3`,
`H = 16` it succeeds with `a1 = 0`; and for `p = 2^31 + 11`, `r = 5`, `H = 16`
the cast `(int32_t)p` is negative, the run starts from `a0 = 2147483637 > 0` and
succeeds with `a0 > 0` and `a1 = 0`. -/
theorem reduce_plattice_signs_counterexample :
    (reduce_plattice ⟨false, false, false, 16⟩ 7 3 ⟨2, 1, 1, 0⟩ = some (some ⟨-1, 1, 2, 5⟩)
      ∧ ¬ ((1 : Int) < -(-1)))
    ∧ (reduce_plattice ⟨false, false, false, 16⟩ 11 3 ⟨16, 8, 4, 0⟩ = some (some ⟨-11, 3, 0, 1⟩)
      ∧ ¬ ((0 : Int) < 0))
    ∧ (reduce_plattice ⟨false, false, false, 16⟩ (2 ^ 31 + 11) 5 ⟨16, 8, 4, 0⟩
        = some (some ⟨2147483637, 2147483642, 0, 1⟩)
      ∧ ¬ ((2147483637 : Int) ≤ 0) ∧ ¬ ((0 : Int) < 0)) := by
  decide

/-- C2: for `p < 2^31`, `0 <= r < p` and `H >= 1`, a basis returned by a
successful `reduce_plattice` has determinant `a1*b0 - a0*b1 = p`.  (The
determinant is `p` at the start, `BasisInv.init`, and every shear keeps it,
`BasisInv.add_a`, `BasisInv.add_b`, `reduce_finish_basis`.) -/
theorem reduce_plattice_det (cfg : las_config) (p r : Nat) (si : sieve_info)
    (pli : plattice_info_t) (hp : p < 2 ^ 31) (hrp : r < p) (hH : 1 ≤ hI cfg si)
    (h : reduce_plattice cfg p r si = some (some pli)) :
    pli.a1 * pli.b0 - pli.a0 * pli.b1 = (p : Int) := by
  obtain ⟨s, hf, _, hb⟩ := reduce_plattice_success hp hrp hH h
  exact (reduce_finish_basis hb hf).det

theorem reduce_plattice_det_witness :
    (11 : Int) * 2710 - (-6539) * 7 = ((75583 : Nat) : Int) :=
  reduce_plattice_det ⟨false, false, false, 16⟩ 75583 54375 ⟨8192, 4096, 13, 0⟩
    ⟨-6539, 2710, 11, 7⟩ (by norm_num) (by norm_num) (by decide) (by decide)

/-- C3 (amended): for `H <= p < 2^31`, `H >= 1` and `0 < r < p`, a successful
`reduce_plattice` returns a basis for which its five final assertions hold:
`-H < a0 <= 0 <= b0 < H`, `b0 - a0 >= H`, `a1 > 0`, `b1 > 0`
(Proposition 1 of Franke and Kleinjung). -/
theorem reduce_plattice_asserts (cfg : las_config) (p r : Nat) (si : sieve_info)
    (pli : plattice_info_t) (hp31 : p < 2 ^ 31) (hH : 1 ≤ hI cfg si)
    (hp : hI cfg si ≤ (p : Int)) (_hr0 : 0 < r) (hrp : r < p)
    (h : reduce_plattice cfg p r si = some (some pli)) :
    (-(hI cfg si) < pli.a0 ∧ pli.a0 ≤ 0) ∧ (0 ≤ pli.b0 ∧ pli.b0 < hI cfg si)
      ∧ hI cfg si ≤ pli.b0 - pli.a0 ∧ 0 < pli.a1 ∧ 0 < pli.b1 := by
  obtain ⟨s, hf, he, _⟩ := reduce_plattice_success hp31 hrp hH h
  obtain ⟨h1, h2, h3, h4, h5⟩ := reduce_finish_signs he hf
  obtain ⟨h6, h7⟩ := reduce_finish_asserts hp he hf
  exact ⟨⟨h1, le_of_lt h2⟩, ⟨le_of_lt h3, h4⟩, h6, by omega, by omega⟩

theorem reduce_plattice_asserts_witness :
    (-(hI ⟨false, false, false, 16⟩ ⟨16, 8, 4, 0⟩) < (-5 : Int) ∧ (-5 : Int) ≤ 0)
      ∧ ((0 : Int) ≤ 12 ∧ (12 : Int) < hI ⟨false, false, false, 16⟩ ⟨16, 8, 4, 0⟩)
      ∧ hI ⟨false, false, false, 16⟩ ⟨16, 8, 4, 0⟩ ≤ (12 : Int) - (-5)
      ∧ (0 : Int) < 1 ∧ (0 : Int) < 1 :=
  reduce_plattice_asserts ⟨false, false, false, 16⟩ 17 12 ⟨16, 8, 4, 0⟩ ⟨-5, 12, 1, 1⟩
    (by norm_num) (by decide) (by decide) (by decide) (by decide) (by decide)

/-- C3 as stated fails for a `p` of 32 bits: for `p = 2^31 + 11`, `r = 5`,
`H = 16` (so `p >= H >= 1` and `0 < r < p`) the cast `(int32_t)p` is negative,
the run starts from `a0 = 2147483637` and succeeds with `a0 > 0`, `a1 = 0` and
`b0 >= H`: three of the five final assertions are false. -/
theorem reduce_plattice_asserts_counterexample :
    (1 : Int) ≤ hI ⟨false, false, false, 16⟩ ⟨16, 8, 4, 0⟩
      ∧ hI ⟨false, false, false, 16⟩ ⟨16, 8, 4, 0⟩ ≤ ((2 ^ 31 + 11 : Nat) : Int)
      ∧ 0 < 5 ∧ 5 < 2 ^ 31 + 11
      ∧ reduce_plattice ⟨false, false, false, 16⟩ (2 ^ 31 + 11) 5 ⟨16, 8, 4, 0⟩
          = some (some ⟨2147483637, 2147483642, 0, 1⟩)
      ∧ ¬ ((2147483637 : Int) ≤ 0) ∧ ¬ ((0 : Int) < 0)
      ∧ ¬ ((2147483642 : Int) < hI ⟨false, false, false, 16⟩ ⟨16, 8, 4, 0⟩) := by
  decide

/-- C4 (amended): for `2 <= p < 2^31`, `0 < r < p` and `H >= 1`,
`reduce_plattice` returns 0 if and only if `gcd(p, r) >= H`; hence it does not
fail for a prime `p` with `0 < r < p` when `H >= 2`; and it returns 0 for
`r = 0`. -/
theorem reduce_plattice_failure (cfg : las_config) (p r : Nat) (si : sieve_info)
    (hp : 2 ≤ p) (hp31 : p < 2 ^ 31) (hr0 : 0 < r) (hrp : r < p) (hH : 1 ≤ hI cfg si) :
    (reduce_plattice cfg p r si = some none ↔ hI cfg si ≤ (Nat.gcd p r : Int))
      ∧ (Nat.Prime p → 2 ≤ hI cfg si → ∃ pli, reduce_plattice cfg p r si = some (some pli))
      ∧ reduce_plattice cfg p 0 si = some none := by
  obtain ⟨s, hs, he, hb⟩ := reduce_plattice_returns cfg p r si hp31 hrp hH
  have hiff : reduce_plattice cfg p r si = some none ↔ hI cfg si ≤ (Nat.gcd p r : Int) := by
    rw [hs, ← reduce_finish_none_iff hr0 he hb]
    simp
  refine ⟨hiff, ?_, ?_⟩
  · intro hprime h2
    have hg : Nat.gcd p r = 1 := by
      have hc : Nat.Coprime p r := (Nat.Prime.coprime_iff_not_dvd hprime).2
        (fun hd => by have := Nat.le_of_dvd hr0 hd; omega)
      exact hc
    have hne : reduce_plattice cfg p r si ≠ some none := by
      intro hc
      have := hiff.1 hc
      rw [hg] at this
      omega
    rw [hs] at hne ⊢
    cases hfin : reduce_finish (hI cfg si) s with
    | none => rw [hfin] at hne; exact absurd rfl hne
    | some pli => exact ⟨pli, rfl⟩
  · have h0 : (0 : Int) < hI cfg si := by omega
    have hp0 : ¬ ((0 : Int) > - -(p : Int)) := by omega
    unfold reduce_plattice
    rw [reduce_plattice_init p 0 hp31 (by omega)]
    simp [reduce_loop, reduce_finish, h0, hp0]

theorem reduce_plattice_failure_witness :
    (reduce_plattice ⟨false, false, false, 16⟩ 27 9 ⟨8, 4, 3, 0⟩ = some none
        ↔ hI ⟨false, false, false, 16⟩ ⟨8, 4, 3, 0⟩ ≤ (Nat.gcd 27 9 : Int))
      ∧ (Nat.Prime 27 → 2 ≤ hI ⟨false, false, false, 16⟩ ⟨8, 4, 3, 0⟩ →
          ∃ pli, reduce_plattice ⟨false, false, false, 16⟩ 27 9 ⟨8, 4, 3, 0⟩ = some (some pli))
      ∧ reduce_plattice ⟨false, false, false, 16⟩ 27 0 ⟨8, 4, 3, 0⟩ = some none :=
  reduce_plattice_failure ⟨false, false, false, 16⟩ 27 9 ⟨8, 4, 3, 0⟩
    (by decide) (by norm_num) (by decide) (by decide) (by decide)

/-- C4 as stated fails at `H = 1`: `p = 7` is prime and `0 < 3 < 7`, yet
`reduce_plattice` returns 0.  It also fails for a `p` of 32 bits: for
`p = 2^32 - 128`, `r = 64`, `H = 16` the cast `(int32_t)p` is `-128`, the run
starts from `a0 = 128` and returns 1 with the basis `(192, 1)`, `(256, 2)`,
although `gcd(p, r) = 64 >= 16`. -/
theorem reduce_plattice_failure_counterexample :
    (Nat.Prime 7 ∧ (1 : Int) ≤ hI ⟨false, false, false, 16⟩ ⟨1, 1, 0, 0⟩
      ∧ reduce_plattice ⟨false, false, false, 16⟩ 7 3 ⟨1, 1, 0, 0⟩ = some none)
    ∧ (reduce_plattice ⟨false, false, false, 16⟩ (2 ^ 32 - 128) 64 ⟨16, 8, 4, 0⟩
          = some (some ⟨192, 256, 1, 2⟩)
      ∧ hI ⟨false, false, false, 16⟩ ⟨16, 8, 4, 0⟩ ≤ (Nat.gcd (2 ^ 32 - 128) 64 : Int)) :=
  ⟨⟨by norm_num, by decide, by decide⟩, by decide, by decide⟩

/-! ## The accessors on a reduced basis -/

theorem u32_of_range {v : Int} (h0 : 0 ≤ v) (h1 : v < 2 ^ 32) : ((u32 v : Nat) : Int) = v := by
  unfold u32
  rw [Int.emod_eq_of_lt h0 h1]
  exact Int.toNat_of_nonneg h0

theorem region_fits.I_pos {cfg : las_config} {si : sieve_info} (h : region_fits cfg si) :
    2 ≤ si.I := by
  rw [h.width]
  calc 2 = 2 ^ 1 := by norm_num
    _ ≤ 2 ^ si.logI := Nat.pow_le_pow_right (by norm_num) h.logI_ge

theorem region_fits.I_lt {cfg : las_config} {si : sieve_info} (h : region_fits cfg si) :
    si.I < 2 ^ 31 := by
  rw [h.width]
  exact Nat.pow_lt_pow_right (by norm_num) (by have := h.logI_le; omega)

theorem region_fits.J_lt {cfg : las_config} {si : sieve_info} (h : region_fits cfg si) :
    si.J < 2 ^ 32 := by
  have h1 := h.area
  have h2 := h.I_pos
  nlinarith

/-- The area is at most the sentinel, and three sentinels fit the coordinate. -/
theorem region_fits.area_le {cfg : las_config} {si : sieve_info} (h : region_fits cfg si) :
    si.I * si.J ≤ plattice_sentinel cfg ∧ 3 * plattice_sentinel cfg < 2 ^ x_bits cfg := by
  unfold plattice_sentinel x_bits
  cases hc : cfg.SUPPORT_I16
  · have := h.area32 hc
    simp only [Bool.false_eq_true, ↓reduceIte]
    constructor
    · norm_num; omega
    · norm_num
  · have := h.area
    simp only [↓reduceIte]
    constructor
    · omega
    · norm_num

theorem walk_mask_eq {cfg : las_config} {si : sieve_info} (h : region_fits cfg si) (x : Nat) :
    (x &&& ((si.I % 2 ^ 32 + (2 ^ 32 - 1)) % 2 ^ 32)) % 2 ^ 32 = x % si.I := by
  have h1 := h.I_lt
  have h2 := h.I_pos
  have e : (si.I % 2 ^ 32 + (2 ^ 32 - 1)) % 2 ^ 32 = si.I - 1 := by omega
  rw [e, h.width, Nat.and_pow_two_sub_one_eq_mod]
  have h3 : x % 2 ^ si.logI < 2 ^ si.logI := Nat.mod_lt _ (by positivity)
  rw [← h.width] at h3 ⊢
  omega

theorem plattice_bound0_eq {cfg : las_config} {si : sieve_info} {pli : plattice_info_t}
    (hf : region_fits cfg si) (hb : WalkBasis cfg si pli) :
    ((plattice_bound0 cfg pli si : Nat) : Int) = -(PLI_COEFF cfg pli.a0) := by
  unfold plattice_bound0
  have := hf.I_lt
  exact u32_of_range (by have := hb.a0_le; omega) (by have := hb.a0_gt; omega)

theorem plattice_bound1_eq {cfg : las_config} {si : sieve_info} {pli : plattice_info_t}
    (hf : region_fits cfg si) (hb : WalkBasis cfg si pli) :
    ((plattice_bound1 cfg pli si : Nat) : Int) = (si.I : Int) - PLI_COEFF cfg pli.b0 := by
  unfold plattice_bound1
  have := hf.I_lt
  exact u32_of_range (by have := hb.b0_lt; omega) (by have := hb.b0_ge; omega)

/-- `plattice_a` returns the sentinel exactly when `a1 > J`, and then the exact
increment is beyond the area; otherwise it returns the exact increment, which is
positive and at most the area. -/
theorem plattice_a_cases {cfg : las_config} {si : sieve_info} {pli : plattice_info_t}
    (hf : region_fits cfg si) (hb : WalkBasis cfg si pli) :
    ((si.J : Int) < PLI_COEFF cfg pli.a1 ∧ plattice_a cfg pli si = plattice_sentinel cfg
        ∧ ((si.I * si.J : Nat) : Int) < exact_a cfg pli si)
    ∨ (PLI_COEFF cfg pli.a1 ≤ (si.J : Int)
        ∧ ((plattice_a cfg pli si : Nat) : Int) = exact_a cfg pli si
        ∧ 1 ≤ exact_a cfg pli si ∧ exact_a cfg pli si ≤ ((si.I * si.J : Nat) : Int)) := by
  have hI := hf.I_pos
  have hJ := hf.J_lt
  have hA := hf.area
  have h1 := hb.a1_ge
  have h2 := hb.a1_lt
  have h3 := hb.a0_gt
  have h4 := hb.a0_le
  have hu : ((u32 (PLI_COEFF cfg pli.a1) : Nat) : Int) = PLI_COEFF cfg pli.a1 :=
    u32_of_range (by omega) h2
  have hJm : si.J % 2 ^ 32 = si.J := Nat.mod_eq_of_lt hJ
  unfold plattice_a exact_a
  simp only [hJm]
  rcases lt_or_le (si.J : Int) (PLI_COEFF cfg pli.a1) with hc | hc
  · left
    refine ⟨hc, ?_, ?_⟩
    · rw [if_pos]
      left
      have : ((si.J : Nat) : Int) < ((u32 (PLI_COEFF cfg pli.a1) : Nat) : Int) := by rw [hu]; exact hc
      exact_mod_cast this
    · push_cast
      nlinarith
  · right
    have hle : u32 (PLI_COEFF cfg pli.a1) ≤ si.J := by
      have : ((u32 (PLI_COEFF cfg pli.a1) : Nat) : Int) ≤ ((si.J : Nat) : Int) := by rw [hu]; exact hc
      exact_mod_cast this
    have hcond : ¬ (u32 (PLI_COEFF cfg pli.a1) > si.J ∨
        (u32 (PLI_COEFF cfg pli.a1) = si.J ∧ PLI_COEFF cfg pli.a0 > 0)) := by
      rintro (h | ⟨_, h⟩) <;> omega
    have hex : ((u32 (PLI_COEFF cfg pli.a1) <<< si.logI : Nat) : Int) + PLI_COEFF cfg pli.a0
        = PLI_COEFF cfg pli.a1 * (si.I : Int) + PLI_COEFF cfg pli.a0 := by
      rw [Nat.shiftLeft_eq, ← hf.width]; push_cast; rw [hu]
    have hIJ : PLI_COEFF cfg pli.a1 * (si.I : Int) ≤ ((si.I * si.J : Nat) : Int) := by
      push_cast; nlinarith
    have hge : (si.I : Int) ≤ PLI_COEFF cfg pli.a1 * (si.I : Int) := by nlinarith
    refine ⟨hc, ?_, by omega, by omega⟩
    rw [if_neg hcond, hex]
    exact u32_of_range (by omega) (by have : ((si.I * si.J : Nat) : Int) < 2 ^ 32 := by exact_mod_cast hA
                                      omega)

/-- `plattice_c` returns the sentinel exactly when `b1 > J`, or `b1 = J` and
`b0 > 0`, and then the exact increment is beyond the area; otherwise it returns
the exact increment, which is positive and at most the area. -/
theorem plattice_c_cases {cfg : las_config} {si : sieve_info} {pli : plattice_info_t}
    (hf : region_fits cfg si) (hb : WalkBasis cfg si pli) :
    (plattice_c cfg pli si = plattice_sentinel cfg
        ∧ ((si.I * si.J : Nat) : Int) < exact_c cfg pli si)
    ∨ (((plattice_c cfg pli si : Nat) : Int) = exact_c cfg pli si
        ∧ 1 ≤ exact_c cfg pli si ∧ exact_c cfg pli si ≤ ((si.I * si.J : Nat) : Int)) := by
  have hI := hf.I_pos
  have hJ := hf.J_lt
  have hA := hf.area
  have h1 := hb.b1_ge
  have h2 := hb.b1_lt
  have h3 := hb.b0_ge
  have h4 := hb.b0_lt
  have hu : ((u32 (PLI_COEFF cfg pli.b1) : Nat) : Int) = PLI_COEFF cfg pli.b1 :=
    u32_of_range (by omega) h2
  have hJm : si.J % 2 ^ 32 = si.J := Nat.mod_eq_of_lt hJ
  unfold plattice_c exact_c
  simp only [hJm]
  by_cases hcond : (u32 (PLI_COEFF cfg pli.b1) > si.J ∨
        (u32 (PLI_COEFF cfg pli.b1) = si.J ∧ PLI_COEFF cfg pli.b0 > 0))
  · left
    refine ⟨if_pos hcond, ?_⟩
    push_cast
    rcases hcond with h | ⟨h, h'⟩
    · have : (si.J : Int) < PLI_COEFF cfg pli.b1 := by rw [← hu]; exact_mod_cast h
      nlinarith
    · have : (si.J : Int) = PLI_COEFF cfg pli.b1 := by rw [← hu]; exact_mod_cast h.symm
      rw [← this]; nlinarith
  · right
    have hle : PLI_COEFF cfg pli.b1 ≤ (si.J : Int) := by
      rw [← hu]
      have : u32 (PLI_COEFF cfg pli.b1) ≤ si.J := by
        by_contra hh; exact hcond (Or.inl (by omega))
      exact_mod_cast this
    have hex : ((u32 (PLI_COEFF cfg pli.b1) <<< si.logI : Nat) : Int) + PLI_COEFF cfg pli.b0
        = PLI_COEFF cfg pli.b1 * (si.I : Int) + PLI_COEFF cfg pli.b0 := by
      rw [Nat.shiftLeft_eq, ← hf.width]; push_cast; rw [hu]
    have hge : (si.I : Int) ≤ PLI_COEFF cfg pli.b1 * (si.I : Int) := by nlinarith
    have hIJ : PLI_COEFF cfg pli.b1 * (si.I : Int) + PLI_COEFF cfg pli.b0
        ≤ ((si.I * si.J : Nat) : Int) := by
      push_cast
      rcases lt_or_eq_of_le hle with h | h
      · nlinarith
      · have hb0 : PLI_COEFF cfg pli.b0 = 0 := by
          by_contra hne
          apply hcond
          right
          refine ⟨?_, by omega⟩
          have : ((u32 (PLI_COEFF cfg pli.b1) : Nat) : Int) = ((si.J : Nat) : Int) := by
            rw [hu]; exact h
          exact_mod_cast this
        rw [hb0, h]; nlinarith
    refine ⟨?_, by omega, hIJ⟩
    rw [if_neg hcond, hex]
    exact u32_of_range (by omega) (by have : ((si.I * si.J : Nat) : Int) < 2 ^ 32 := by exact_mod_cast hA
                                      omega)

/-! ## The walking loop against the reference walk -/

/-- One pass of the loop from a position not above the sentinel: the coordinate
does not wrap; the new position is the exact one whenever the exact one is inside
the area, and it is outside the area whenever the exact one is. -/
theorem fill_walk_step_spec {cfg : las_config} {si : sieve_info} {pli : plattice_info_t}
    (hf : region_fits cfg si) (hb : WalkBasis cfg si pli) (x : Nat)
    (hx : x ≤ plattice_sentinel cfg) :
    (exact_walk_step cfg si pli (x : Int) < ((si.I * si.J : Nat) : Int) →
      ((fill_walk_step cfg si (plattice_bound0 cfg pli si) (plattice_bound1 cfg pli si)
        (plattice_a cfg pli si) (plattice_c cfg pli si) x : Nat) : Int)
        = exact_walk_step cfg si pli (x : Int))
    ∧ (((si.I * si.J : Nat) : Int) ≤ exact_walk_step cfg si pli (x : Int) →
      si.I * si.J ≤ fill_walk_step cfg si (plattice_bound0 cfg pli si)
        (plattice_bound1 cfg pli si) (plattice_a cfg pli si) (plattice_c cfg pli si) x) := by
  obtain ⟨hM1, hM2⟩ := hf.area_le
  have hi : (x &&& ((si.I % 2 ^ 32 + (2 ^ 32 - 1)) % 2 ^ 32)) % 2 ^ 32 = x % si.I :=
    walk_mask_eq hf x
  have hb0 := plattice_bound0_eq hf hb
  have hb1 := plattice_bound1_eq hf hb
  have hic : ((x % si.I : Nat) : Int) = (x : Int) % (si.I : Int) := by push_cast; rfl
  unfold fill_walk_step exact_walk_step
  simp only [hi]
  have c1 : (x % si.I ≥ plattice_bound1 cfg pli si) ↔
      ((si.I : Int) - PLI_COEFF cfg pli.b0 ≤ (x : Int) % (si.I : Int)) := by
    rw [← hb1, ← hic]; exact_mod_cast Iff.rfl
  have c0 : (x % si.I < plattice_bound0 cfg pli si) ↔
      ((x : Int) % (si.I : Int) < -(PLI_COEFF cfg pli.a0)) := by
    rw [← hb0, ← hic]; exact_mod_cast Iff.rfl
  have ha : plattice_a cfg pli si ≤ plattice_sentinel cfg ∧ 1 ≤ exact_a cfg pli si ∧
      ((plattice_a cfg pli si = plattice_sentinel cfg ∧
          ((si.I * si.J : Nat) : Int) < exact_a cfg pli si)
        ∨ ((plattice_a cfg pli si : Nat) : Int) = exact_a cfg pli si) := by
    rcases plattice_a_cases hf hb with ⟨h1, h2, h3⟩ | ⟨h1, h2, h3, h4⟩
    · exact ⟨by omega, by omega, Or.inl ⟨h2, h3⟩⟩
    · exact ⟨by omega, h3, Or.inr h2⟩
  have hc : plattice_c cfg pli si ≤ plattice_sentinel cfg ∧ 1 ≤ exact_c cfg pli si ∧
      ((plattice_c cfg pli si = plattice_sentinel cfg ∧
          ((si.I * si.J : Nat) : Int) < exact_c cfg pli si)
        ∨ ((plattice_c cfg pli si : Nat) : Int) = exact_c cfg pli si) := by
    rcases plattice_c_cases hf hb with ⟨h2, h3⟩ | ⟨h2, h3, h4⟩
    · exact ⟨by omega, by omega, Or.inl ⟨h2, h3⟩⟩
    · exact ⟨by omega, h3, Or.inr h2⟩
  obtain ⟨ha1, ha2, ha3⟩ := ha
  obtain ⟨hc1, hc2, hc3⟩ := hc
  have w1 : (x + plattice_a cfg pli si) % 2 ^ x_bits cfg = x + plattice_a cfg pli si :=
    Nat.mod_eq_of_lt (by omega)
  have w2 : (x + plattice_a cfg pli si + plattice_c cfg pli si) % 2 ^ x_bits cfg
      = x + plattice_a cfg pli si + plattice_c cfg pli si := Nat.mod_eq_of_lt (by omega)
  have w3 : (x + plattice_c cfg pli si) % 2 ^ x_bits cfg = x + plattice_c cfg pli si :=
    Nat.mod_eq_of_lt (by omega)
  by_cases d1 : x % si.I ≥ plattice_bound1 cfg pli si
  · have d1' := c1.1 d1
    rw [if_pos d1, if_pos d1', w1]
    by_cases d0 : x % si.I < plattice_bound0 cfg pli si
    · have d0' := c0.1 d0
      rw [if_pos d0, if_pos d0', w2]
      push_cast
      constructor
      · intro h; rcases ha3 with ⟨_, h'⟩ | h' <;> rcases hc3 with ⟨_, h''⟩ | h'' <;> omega
      · intro h; rcases ha3 with ⟨h', _⟩ | h' <;> rcases hc3 with ⟨h'', _⟩ | h'' <;> omega
    · have d0' := fun h => d0 (c0.2 h)
      rw [if_neg d0, if_neg d0']
      push_cast
      constructor
      · intro h; rcases ha3 with ⟨_, h'⟩ | h' <;> omega
      · intro h; rcases ha3 with ⟨h', _⟩ | h' <;> omega
  · have d1' := fun h => d1 (c1.2 h)
    rw [if_neg d1, if_neg d1']
    by_cases d0 : x % si.I < plattice_bound0 cfg pli si
    · have d0' := c0.1 d0
      rw [if_pos d0, if_pos d0', w3]
      push_cast
      constructor
      · intro h; rcases hc3 with ⟨_, h''⟩ | h'' <;> omega
      · intro h; rcases hc3 with ⟨h'', _⟩ | h'' <;> omega
    · have d0' := fun h => d0 (c0.2 h)
      rw [if_neg d0, if_neg d0']
      constructor
      · intro _; rfl
      · intro h; omega

/-- The loop and the reference walk, run with the same fuel from the same
position or from two positions outside the area, meet the same positions. -/
theorem fill_walk_eq_exact {cfg : las_config} {si : sieve_info} {pli : plattice_info_t}
    (hf : region_fits cfg si) (hb : WalkBasis cfg si pli) :
    ∀ (fuel : Nat) (x : Nat) (y : Int),
      ((x : Int) = y ∨ (si.I * si.J ≤ x ∧ ((si.I * si.J : Nat) : Int) ≤ y)) →
      (fill_walk cfg si (plattice_bound0 cfg pli si) (plattice_bound1 cfg pli si)
        (plattice_a cfg pli si) (plattice_c cfg pli si) fuel x).map
          (fun t => t.map (fun e => (e.1 : Int)))
        = exact_walk cfg si pli fuel y := by
  have hmod : (si.I * si.J) % 2 ^ 32 = si.I * si.J := Nat.mod_eq_of_lt hf.area
  intro fuel
  induction fuel with
  | zero => intro x y _; rfl
  | succ n ih =>
    intro x y hxy
    unfold fill_walk exact_walk
    rw [hmod]
    by_cases hx : x < si.I * si.J
    · have hy : (x : Int) = y := by
        rcases hxy with h | ⟨h, _⟩
        · exact h
        · omega
      have hy' : y < ((si.I * si.J : Nat) : Int) := by rw [← hy]; exact_mod_cast hx
      rw [if_pos hx, if_pos hy']
      obtain ⟨s1, s2⟩ := fill_walk_step_spec hf hb x (by have := hf.area_le.1; omega)
      have hrec := ih (fill_walk_step cfg si (plattice_bound0 cfg pli si)
        (plattice_bound1 cfg pli si) (plattice_a cfg pli si) (plattice_c cfg pli si) x)
        (exact_walk_step cfg si pli y) (by
          rw [← hy]
          rcases lt_or_le (exact_walk_step cfg si pli (x : Int)) ((si.I * si.J : Nat) : Int)
            with h | h
          · exact Or.inl (s1 h)
          · exact Or.inr ⟨s2 h, h⟩)
      rw [← hrec]
      cases fill_walk cfg si (plattice_bound0 cfg pli si) (plattice_bound1 cfg pli si)
        (plattice_a cfg pli si) (plattice_c cfg pli si) n
        (fill_walk_step cfg si (plattice_bound0 cfg pli si) (plattice_bound1 cfg pli si)
          (plattice_a cfg pli si) (plattice_c cfg pli si) x) with
      | none => rfl
      | some rest => simp [hy]
    · have hy' : ¬ y < ((si.I * si.J : Nat) : Int) := by
        rcases hxy with h | ⟨_, h⟩
        · rw [← h]; exact_mod_cast hx
        · omega
      rw [if_neg hx, if_neg hy']
      rfl

/-! ## The reference walk visits points of the lattice -/

theorem walk_point_mod {cfg : las_config} {si : sieve_info} {pli : plattice_info_t}
    (k l : Int) (h0 : 0 ≤ walk_col cfg si pli k l) (h1 : walk_col cfg si pli k l < (si.I : Int)) :
    walk_point cfg si pli k l % (si.I : Int) = walk_col cfg si pli k l
    ∧ walk_point cfg si pli k l / (si.I : Int)
      = k * PLI_COEFF cfg pli.a1 + l * PLI_COEFF cfg pli.b1 := by
  unfold walk_point
  have hI : (0 : Int) < si.I := by omega
  constructor
  · rw [add_comm, Int.add_mul_emod_self]
    exact Int.emod_eq_of_lt h0 h1
  · rw [add_comm, Int.add_mul_ediv_right _ _ (ne_of_gt hI), Int.ediv_eq_zero_of_lt h0 h1]
    simp

/-- One step of the reference walk from the point with coefficients `(k, l)`,
whose column is in range, leads to the point with coefficients
`(k + [I - b0 <= i], l + [i < -a0])`, whose column is in range again. -/
theorem exact_walk_step_point {cfg : las_config} {si : sieve_info} {pli : plattice_info_t}
    (hb : WalkBasis cfg si pli) (k l : Int)
    (h0 : 0 ≤ walk_col cfg si pli k l) (h1 : walk_col cfg si pli k l < (si.I : Int)) :
    ∃ da dc : Int,
      (da = if (si.I : Int) - PLI_COEFF cfg pli.b0 ≤ walk_col cfg si pli k l then 1 else 0)
      ∧ (dc = if walk_col cfg si pli k l < -(PLI_COEFF cfg pli.a0) then 1 else 0)
      ∧ exact_walk_step cfg si pli (walk_point cfg si pli k l)
          = walk_point cfg si pli (k + da) (l + dc)
      ∧ 0 ≤ walk_col cfg si pli (k + da) (l + dc)
      ∧ walk_col cfg si pli (k + da) (l + dc) < (si.I : Int) := by
  obtain ⟨hm, _⟩ := walk_point_mod k l h0 h1
  have g1 := hb.a0_gt
  have g2 := hb.a0_le
  have g3 := hb.b0_ge
  have g4 := hb.b0_lt
  refine ⟨_, _, rfl, rfl, ?_, ?_, ?_⟩
  · unfold exact_walk_step
    simp only [hm]
    unfold exact_a exact_c walk_point walk_col
    split_ifs <;> ring
  · unfold walk_col at h0 h1 ⊢
    split_ifs <;> nlinarith
  · unfold walk_col at h0 h1 ⊢
    split_ifs <;> nlinarith

/-- Each step of the reference walk moves forward, because the basis is wide
enough for one of the two vectors to apply at every column. -/
theorem exact_walk_step_gt {cfg : las_config} {si : sieve_info} {pli : plattice_info_t}
    (hb : WalkBasis cfg si pli)
    (hw : (si.I : Int) ≤ PLI_COEFF cfg pli.b0 - PLI_COEFF cfg pli.a0) (hI : 0 < si.I) (x : Int) :
    x < exact_walk_step cfg si pli x := by
  have g1 := hb.a0_gt
  have g4 := hb.b0_lt
  have g5 := hb.a1_ge
  have g6 := hb.b1_ge
  have hIpos : (0 : Int) < si.I := by exact_mod_cast hI
  have ea : 1 ≤ exact_a cfg pli si := by unfold exact_a; nlinarith
  have ec : 1 ≤ exact_c cfg pli si := by unfold exact_c; have := hb.b0_ge; nlinarith
  unfold exact_walk_step
  simp only []
  split_ifs <;> omega

/-- With at least as much fuel as positions left in the area, plus one, the
reference walk returns. -/
theorem exact_walk_returns {cfg : las_config} {si : sieve_info} {pli : plattice_info_t}
    (hb : WalkBasis cfg si pli)
    (hw : (si.I : Int) ≤ PLI_COEFF cfg pli.b0 - PLI_COEFF cfg pli.a0) (hI : 0 < si.I) :
    ∀ (n : Nat) (x : Int), ((si.I * si.J : Nat) : Int) - x ≤ (n : Int) →
      ∃ L, exact_walk cfg si pli (n + 1) x = some L := by
  intro n
  induction n with
  | zero =>
    intro x h
    refine ⟨[], ?_⟩
    unfold exact_walk
    rw [if_neg (by simp at h; omega)]
  | succ n ih =>
    intro x h
    unfold exact_walk
    by_cases hx : x < ((si.I * si.J : Nat) : Int)
    · rw [if_pos hx]
      have := exact_walk_step_gt hb hw hI x
      obtain ⟨L, hL⟩ := ih (exact_walk_step cfg si pli x) (by push_cast at h ⊢; omega)
      rw [hL]
      exact ⟨_, rfl⟩
    · rw [if_neg hx]
      exact ⟨_, rfl⟩

/-- If the reference walk meets `y` and the step from `y` stays inside the
area, the walk meets that next position too. -/
theorem exact_walk_closed {cfg : las_config} {si : sieve_info} {pli : plattice_info_t} :
    ∀ (fuel : Nat) (x : Int) (L : List Int), exact_walk cfg si pli fuel x = some L →
      ∀ y ∈ L, exact_walk_step cfg si pli y < ((si.I * si.J : Nat) : Int) →
        exact_walk_step cfg si pli y ∈ L := by
  intro fuel
  induction fuel with
  | zero => intro x L h; simp [exact_walk] at h
  | succ n ih =>
    intro x L h y hy hs
    unfold exact_walk at h
    by_cases hx : x < ((si.I * si.J : Nat) : Int)
    · rw [if_pos hx] at h
      cases hrec : exact_walk cfg si pli n (exact_walk_step cfg si pli x) with
      | none => rw [hrec] at h; simp at h
      | some rest =>
        rw [hrec] at h
        simp only [Option.some.injEq] at h
        subst h
        rcases List.mem_cons.1 hy with rfl | hy'
        · -- the next position heads the rest of the walk
          cases n with
          | zero => simp [exact_walk] at hrec
          | succ m =>
            unfold exact_walk at hrec
            rw [if_pos hs] at hrec
            cases hrec2 : exact_walk cfg si pli m
                (exact_walk_step cfg si pli (exact_walk_step cfg si pli y)) with
            | none => rw [hrec2] at hrec; simp at hrec
            | some rest2 =>
              rw [hrec2] at hrec
              simp only [Option.some.injEq] at hrec
              subst hrec
              simp
        · exact List.mem_cons_of_mem _ (ih _ _ hrec y hy' hs)
    · rw [if_neg hx] at h
      simp only [Option.some.injEq] at h
      subst h
      simp at hy

/-- The positions of the reference walk are inside the area, and each satisfies
any property that holds at the start and is kept by a step. -/
theorem exact_walk_induct {cfg : las_config} {si : sieve_info} {pli : plattice_info_t}
    (P : Int → Prop) (hstep : ∀ x, P x → P (exact_walk_step cfg si pli x)) :
    ∀ (fuel : Nat) (x : Int) (L : List Int), exact_walk cfg si pli fuel x = some L → P x →
      ∀ y ∈ L, P y ∧ y < ((si.I * si.J : Nat) : Int) := by
  intro fuel
  induction fuel with
  | zero => intro x L h; simp [exact_walk] at h
  | succ n ih =>
    intro x L h hP y hy
    unfold exact_walk at h
    by_cases hx : x < ((si.I * si.J : Nat) : Int)
    · rw [if_pos hx] at h
      cases hrec : exact_walk cfg si pli n (exact_walk_step cfg si pli x) with
      | none => rw [hrec] at h; simp at h
      | some rest =>
        rw [hrec] at h
        simp only [Option.some.injEq] at h
        subst h
        rcases List.mem_cons.1 hy with rfl | hy'
        · exact ⟨hP, hx⟩
        · exact ih _ _ hrec (hstep x hP) y hy'
    · rw [if_neg hx] at h
      simp only [Option.some.injEq] at h
      subst h
      simp at hy

/-! ## The reference walk meets every point of the strip (Franke and Kleinjung) -/

theorem walk_reached_step {cfg : las_config} {si : sieve_info} {pli : plattice_info_t}
    (hb : WalkBasis cfg si pli) (x : Int) (h : walk_reached cfg si pli x) :
    walk_reached cfg si pli (exact_walk_step cfg si pli x) := by
  obtain ⟨k, l, hk, hl, hkl, rfl, h0, h1⟩ := h
  obtain ⟨da, dc, eda, edc, hs, g0, g1⟩ := exact_walk_step_point hb k l h0 h1
  have hda : 0 ≤ da := by rw [eda]; split_ifs <;> norm_num
  have hdc : 0 ≤ dc := by rw [edc]; split_ifs <;> norm_num
  exact ⟨k + da, l + dc, by omega, by omega, by omega, hs, g0, g1⟩

theorem walk_origin {cfg : las_config} {si : sieve_info} {pli : plattice_info_t} :
    walk_point cfg si pli 0 0 = ((si.I / 2 : Nat) : Int)
      ∧ walk_col cfg si pli 0 0 = ((si.I / 2 : Nat) : Int) := by
  unfold walk_point walk_col
  constructor <;> ring

/-- The starting vector of the reference walk is the first point after the
origin. -/
theorem walk_start_reached {cfg : las_config} {si : sieve_info} {pli : plattice_info_t}
    (hb : WalkBasis cfg si pli)
    (hw : (si.I : Int) ≤ PLI_COEFF cfg pli.b0 - PLI_COEFF cfg pli.a0) (hI : 0 < si.I) :
    walk_reached cfg si pli (exact_walk_step cfg si pli ((si.I / 2 : Nat) : Int)) := by
  obtain ⟨e1, e2⟩ := @walk_origin cfg si pli
  have h0 : 0 ≤ walk_col cfg si pli 0 0 := by rw [e2]; omega
  have h1 : walk_col cfg si pli 0 0 < (si.I : Int) := by rw [e2]; omega
  obtain ⟨da, dc, eda, edc, hs, g0, g1⟩ := exact_walk_step_point hb 0 0 h0 h1
  rw [e1] at hs
  rw [hs]
  refine ⟨0 + da, 0 + dc, ?_, ?_, ?_, rfl, g0, g1⟩
  · rw [eda]; split_ifs <;> norm_num
  · rw [edc]; split_ifs <;> norm_num
  · rw [eda, edc]; split_ifs <;> omega

/-- Completeness of the walk: every point `origin + k * a + l * b` with
non-negative coefficients, not both zero, whose column is in range and whose
position is inside the area, is met by the reference walk. -/
theorem exact_walk_complete {cfg : las_config} {si : sieve_info} {pli : plattice_info_t}
    (hb : WalkBasis cfg si pli)
    (hw : (si.I : Int) ≤ PLI_COEFF cfg pli.b0 - PLI_COEFF cfg pli.a0) (hI : 0 < si.I)
    (L : List Int) (hL : fill_in_buckets_walk_exact cfg si pli = some L) :
    ∀ (n : Nat) (k l : Int), 0 ≤ k → 0 ≤ l → k + l = (n : Int) + 1 →
      0 ≤ walk_col cfg si pli k l → walk_col cfg si pli k l < (si.I : Int) →
      walk_point cfg si pli k l < ((si.I * si.J : Nat) : Int) →
      walk_point cfg si pli k l ∈ L := by
  have g1 := hb.a0_gt
  have g2 := hb.a0_le
  have g3 := hb.b0_ge
  have g4 := hb.b0_lt
  have hh : ((si.I / 2 : Nat) : Int) < (si.I : Int) := by omega
  have hh0 : (0 : Int) ≤ ((si.I / 2 : Nat) : Int) := by omega
  -- the step from a predecessor with in-range column, once it is identified
  have key : ∀ (n : Nat), (∀ m < n, ∀ (k l : Int), 0 ≤ k → 0 ≤ l → k + l = (m : Int) + 1 →
      0 ≤ walk_col cfg si pli k l → walk_col cfg si pli k l < (si.I : Int) →
      walk_point cfg si pli k l < ((si.I * si.J : Nat) : Int) →
      walk_point cfg si pli k l ∈ L) →
      ∀ (k l k' l' : Int), 0 ≤ k' → 0 ≤ l' → k + l = (n : Int) + 1 → k' + l' < k + l →
      0 ≤ walk_col cfg si pli k' l' → walk_col cfg si pli k' l' < (si.I : Int) →
      exact_walk_step cfg si pli (walk_point cfg si pli k' l') = walk_point cfg si pli k l →
      walk_point cfg si pli k l < ((si.I * si.J : Nat) : Int) →
      walk_point cfg si pli k l ∈ L := by
    intro n ih k l k' l' hk' hl' hkl hlt c0 c1 hstep hin
    rcases eq_or_lt_of_le (show 0 ≤ k' + l' by omega) with hz | hpos
    · -- the predecessor is the origin
      have ek : k' = 0 := by omega
      have el : l' = 0 := by omega
      rw [ek, el, walk_origin.1] at hstep
      unfold fill_in_buckets_walk_exact at hL
      rw [hstep] at hL
      unfold exact_walk at hL
      rw [if_pos hin] at hL
      cases hrec : exact_walk cfg si pli (si.I * si.J)
          (exact_walk_step cfg si pli (walk_point cfg si pli k l)) with
      | none => rw [hrec] at hL; simp at hL
      | some rest =>
        rw [hrec] at hL
        simp only [Option.some.injEq] at hL
        rw [← hL]; simp
    · obtain ⟨m, hm⟩ : ∃ m : Nat, k' + l' = (m : Int) + 1 :=
        ⟨(k' + l' - 1).toNat, by omega⟩
      have hmn : m < n := by omega
      have hgt := exact_walk_step_gt hb hw hI (walk_point cfg si pli k' l')
      have hu := ih m hmn k' l' hk' hl' hm c0 c1 (by rw [hstep] at hgt; omega)
      have := exact_walk_closed _ _ _ hL _ hu (by rw [hstep]; exact hin)
      rw [hstep] at this
      exact this
  intro n
  induction n using Nat.strong_induction_on with
  | _ n ih =>
    intro k l hk hl hkl c0 c1 hin
    have hcol : walk_col cfg si pli k l
        = ((si.I / 2 : Nat) : Int) + k * PLI_COEFF cfg pli.a0 + l * PLI_COEFF cfg pli.b0 := rfl
    by_cases hc1 : PLI_COEFF cfg pli.b0 ≤ walk_col cfg si pli k l
    · -- the predecessor is one `b` back
      have hl1 : 1 ≤ l := by
        by_contra hl0
        have hl0' : l = 0 := by omega
        have hk1 : 1 ≤ k := by omega
        rw [hcol, hl0'] at hc1
        have : (k - 1) * PLI_COEFF cfg pli.a0 ≤ 0 :=
          mul_nonpos_of_nonneg_of_nonpos (by omega) g2
        linarith
      have cpre : walk_col cfg si pli k (l - 1)
          = walk_col cfg si pli k l - PLI_COEFF cfg pli.b0 := by unfold walk_col; ring
      have c0' : 0 ≤ walk_col cfg si pli k (l - 1) := by rw [cpre]; omega
      have c1' : walk_col cfg si pli k (l - 1) < (si.I : Int) := by rw [cpre]; omega
      obtain ⟨da, dc, eda, edc, hs, _, _⟩ := exact_walk_step_point hb k (l - 1) c0' c1'
      rw [if_neg (by rw [cpre]; omega)] at eda
      rw [if_pos (by rw [cpre]; omega)] at edc
      rw [eda, edc] at hs
      have e : walk_point cfg si pli (k + 0) (l - 1 + 1) = walk_point cfg si pli k l := by
        congr 1 <;> ring
      rw [e] at hs
      exact key n ih k l k (l - 1) hk (by omega) hkl (by omega) c0' c1' hs hin
    · by_cases hc2 : walk_col cfg si pli k l < (si.I : Int) + PLI_COEFF cfg pli.a0
      · -- the predecessor is one `a` back
        have hk1 : 1 ≤ k := by
          by_contra hk0
          have hk0' : k = 0 := by omega
          have hl1 : 1 ≤ l := by omega
          rw [hcol, hk0'] at hc2
          have : 0 ≤ (l - 1) * PLI_COEFF cfg pli.b0 := mul_nonneg (by omega) g3
          linarith
        have cpre : walk_col cfg si pli (k - 1) l
            = walk_col cfg si pli k l - PLI_COEFF cfg pli.a0 := by unfold walk_col; ring
        have c0' : 0 ≤ walk_col cfg si pli (k - 1) l := by rw [cpre]; omega
        have c1' : walk_col cfg si pli (k - 1) l < (si.I : Int) := by rw [cpre]; omega
        obtain ⟨da, dc, eda, edc, hs, _, _⟩ := exact_walk_step_point hb (k - 1) l c0' c1'
        rw [if_pos (by rw [cpre]; omega)] at eda
        rw [if_neg (by rw [cpre]; omega)] at edc
        rw [eda, edc] at hs
        have e : walk_point cfg si pli (k - 1 + 1) (l + 0) = walk_point cfg si pli k l := by
          congr 1 <;> ring
        rw [e] at hs
        exact key n ih k l (k - 1) l (by omega) hl hkl (by omega) c0' c1' hs hin
      · -- the predecessor is one `a` and one `b` back
        have hk1 : 1 ≤ k := by
          by_contra hk0
          have hk0' : k = 0 := by omega
          have hl1 : 1 ≤ l := by omega
          rw [hcol, hk0'] at hc1
          have : 0 ≤ (l - 1) * PLI_COEFF cfg pli.b0 := mul_nonneg (by omega) g3
          apply hc1
          linarith
        have hl1 : 1 ≤ l := by
          by_contra hl0
          have hl0' : l = 0 := by omega
          rw [hcol, hl0'] at hc2
          have : (k - 1) * PLI_COEFF cfg pli.a0 ≤ 0 :=
            mul_nonpos_of_nonneg_of_nonpos (by omega) g2
          apply hc2
          linarith
        have cpre : walk_col cfg si pli (k - 1) (l - 1)
            = walk_col cfg si pli k l - PLI_COEFF cfg pli.a0 - PLI_COEFF cfg pli.b0 := by
          unfold walk_col; ring
        have c0' : 0 ≤ walk_col cfg si pli (k - 1) (l - 1) := by rw [cpre]; omega
        have c1' : walk_col cfg si pli (k - 1) (l - 1) < (si.I : Int) := by rw [cpre]; omega
        obtain ⟨da, dc, eda, edc, hs, _, _⟩ :=
          exact_walk_step_point hb (k - 1) (l - 1) c0' c1'
        rw [if_pos (by rw [cpre]; omega)] at eda
        rw [if_pos (by rw [cpre]; omega)] at edc
        rw [eda, edc] at hs
        have e : walk_point cfg si pli (k - 1 + 1) (l - 1 + 1) = walk_point cfg si pli k l := by
          congr 1 <;> ring
        rw [e] at hs
        exact key n ih k l (k - 1) (l - 1) (by omega) (by omega) hkl (by omega) c0' c1' hs hin

/-! ## Lattice hits and the walk -/

theorem mul_le_neg_one {a b : Int} (ha : a ≤ -1) (hb : 1 ≤ b) : a * b ≤ -1 := by nlinarith

theorem neg_le_mul_of_le_neg_one {a b : Int} (ha : a ≤ -1) (hb : b ≤ 0) : -b ≤ a * b := by
  nlinarith

theorem le_mul_of_one_le {a b : Int} (ha : 1 ≤ a) (hb : 0 ≤ b) : b ≤ a * b := by nlinarith

theorem mul_le_of_one_le {a b : Int} (ha : 1 ≤ a) (hb : b ≤ 0) : a * b ≤ b := by nlinarith

theorem mul_le_neg_of_le_neg_one {a b : Int} (ha : a ≤ -1) (hb : 0 ≤ b) : a * b ≤ -b := by
  nlinarith

/-- A position reached by the walk lies in row 1 or above and is a lattice
hit. -/
theorem walk_reached_hit {cfg : las_config} {si : sieve_info} {pli : plattice_info_t}
    {p r : Nat} (hcfg : cfg.MOD2_CLASSES_BS = false) (hb : WalkBasis cfg si pli)
    (hinv : BasisInv p r pli) (x : Int) (h : walk_reached cfg si pli x) :
    (si.I : Int) ≤ x ∧ lattice_hit si p r x := by
  obtain ⟨k, l, hk, hl, hkl, rfl, h0, h1⟩ := h
  obtain ⟨hm, hd⟩ := walk_point_mod k l h0 h1
  have ea : ∀ v, PLI_COEFF cfg v = v := fun v => by simp [PLI_COEFF, hcfg]
  have g5 := hb.a1_ge
  have g6 := hb.b1_ge
  rw [ea] at g5 g6
  constructor
  · unfold walk_point
    rw [ea, ea]
    have h1 : 0 ≤ k * (pli.a1 - 1) := mul_nonneg hk (by omega)
    have h2 : 0 ≤ l * (pli.b1 - 1) := mul_nonneg hl (by omega)
    have h3 : 1 ≤ k * pli.a1 + l * pli.b1 := by linarith
    have hI : (0 : Int) ≤ si.I := by omega
    have h4 := mul_nonneg (show 0 ≤ k * pli.a1 + l * pli.b1 - 1 by omega) hI
    linarith
  · unfold lattice_hit
    rw [hm, hd]
    unfold walk_col
    simp only [ea]
    have e : ((si.I / 2 : Nat) : Int) + k * pli.a0 + l * pli.b0 - ((si.I / 2 : Nat) : Int)
        - (r : Int) * (k * pli.a1 + l * pli.b1)
        = k * (pli.a0 - (r : Int) * pli.a1) + l * (pli.b0 - (r : Int) * pli.b1) := by ring
    rw [e]
    exact dvd_add (Dvd.dvd.mul_left hinv.la k) (Dvd.dvd.mul_left hinv.lb l)

/-- Every lattice hit in row 1 or above is a combination of the two basis
vectors with non-negative coefficients: the basis spans the lattice because its
determinant is `p`, and the coefficients cannot be negative because the basis
is at least as wide as the strip. -/
theorem lattice_hit_reached {cfg : las_config} {si : sieve_info} {pli : plattice_info_t}
    {p r : Nat} (hcfg : cfg.MOD2_CLASSES_BS = false) (hb : WalkBasis cfg si pli)
    (hw : (si.I : Int) ≤ PLI_COEFF cfg pli.b0 - PLI_COEFF cfg pli.a0)
    (hinv : BasisInv p r pli) (hp : 0 < p) (hI : 0 < si.I) (x : Int)
    (hrow : (si.I : Int) ≤ x) (hhit : lattice_hit si p r x) :
    walk_reached cfg si pli x := by
  have ea : ∀ v, PLI_COEFF cfg v = v := fun v => by simp [PLI_COEFF, hcfg]
  have g1 := hb.a0_gt
  have g2 := hb.a0_le
  have g3 := hb.b0_ge
  have g4 := hb.b0_lt
  have g5 := hb.a1_ge
  have g6 := hb.b1_ge
  rw [ea] at g1 g2 g3 g4 g5 g6
  rw [ea, ea] at hw
  have hIpos : (0 : Int) < si.I := by exact_mod_cast hI
  have hppos : (0 : Int) < p := by exact_mod_cast hp
  have hi0 : 0 ≤ x % (si.I : Int) := Int.emod_nonneg _ (ne_of_gt hIpos)
  have hi1 : x % (si.I : Int) < si.I := Int.emod_lt_of_pos _ hIpos
  have hx := Int.emod_add_ediv x (si.I : Int)
  have hj : 1 ≤ x / (si.I : Int) := by
    by_contra hcon
    have h0 : x / (si.I : Int) ≤ 0 := by omega
    have := mul_nonpos_of_nonneg_of_nonpos (le_of_lt hIpos) h0
    omega
  have hh : ((si.I / 2 : Nat) : Int) < (si.I : Int) := by omega
  have hh0 : (0 : Int) ≤ ((si.I / 2 : Nat) : Int) := by omega
  unfold lattice_hit at hhit
  generalize hu : x % (si.I : Int) - ((si.I / 2 : Nat) : Int) = u at hhit
  generalize hjj : x / (si.I : Int) = j at hhit hj hx
  have hdk : (p : Int) ∣ j * pli.b0 - u * pli.b1 := by
    have e : j * pli.b0 - u * pli.b1
        = j * (pli.b0 - (r : Int) * pli.b1) - pli.b1 * (u - (r : Int) * j) := by ring
    rw [e]
    exact dvd_sub (Dvd.dvd.mul_left hinv.lb j) (Dvd.dvd.mul_left hhit _)
  have hdl : (p : Int) ∣ u * pli.a1 - j * pli.a0 := by
    have e : u * pli.a1 - j * pli.a0
        = pli.a1 * (u - (r : Int) * j) - j * (pli.a0 - (r : Int) * pli.a1) := by ring
    rw [e]
    exact dvd_sub (Dvd.dvd.mul_left hhit _) (Dvd.dvd.mul_left hinv.la j)
  obtain ⟨k, hk⟩ := hdk
  obtain ⟨l, hl⟩ := hdl
  have hdet := hinv.det
  have e1 : k * pli.a0 + l * pli.b0 = u := by
    have : (p : Int) * (k * pli.a0 + l * pli.b0) = (p : Int) * u := by
      have : (p : Int) * (k * pli.a0 + l * pli.b0)
          = ((p : Int) * k) * pli.a0 + ((p : Int) * l) * pli.b0 := by ring
      rw [this, ← hk, ← hl, ← hdet]; ring
    exact mul_left_cancel₀ (ne_of_gt hppos) this
  have e2 : k * pli.a1 + l * pli.b1 = j := by
    have : (p : Int) * (k * pli.a1 + l * pli.b1) = (p : Int) * j := by
      have : (p : Int) * (k * pli.a1 + l * pli.b1)
          = ((p : Int) * k) * pli.a1 + ((p : Int) * l) * pli.b1 := by ring
      rw [this, ← hk, ← hl, ← hdet]; ring
    exact mul_left_cancel₀ (ne_of_gt hppos) this
  have hu1 : -(si.I : Int) < u := by omega
  have hu2 : u < (si.I : Int) := by omega
  have hk0 : 0 ≤ k := by
    by_contra hneg
    have hk1 : k ≤ -1 := by omega
    rcases le_or_lt l 0 with hl0 | hl0
    · have := mul_le_neg_one hk1 g5
      have := mul_nonpos_of_nonpos_of_nonneg hl0 (show (0 : Int) ≤ pli.b1 by omega)
      omega
    · have := neg_le_mul_of_le_neg_one hk1 g2
      have := le_mul_of_one_le (show 1 ≤ l by omega) g3
      omega
  have hl0 : 0 ≤ l := by
    by_contra hneg
    have hl1 : l ≤ -1 := by omega
    rcases eq_or_lt_of_le hk0 with hk1 | hk1
    · have := mul_le_neg_one hl1 g6
      rw [← hk1] at e2
      omega
    · have := mul_le_of_one_le (show 1 ≤ k by omega) g2
      have := mul_le_neg_of_le_neg_one hl1 g3
      omega
  have hkl : 1 ≤ k + l := by
    by_contra hcon
    have hk' : k = 0 := by omega
    have hl' : l = 0 := by omega
    rw [hk', hl'] at e2
    omega
  have hcol : walk_col cfg si pli k l = x % (si.I : Int) := by
    unfold walk_col
    rw [ea, ea]
    omega
  refine ⟨k, l, hk0, hl0, hkl, ?_, by rw [hcol]; exact hi0, by rw [hcol]; exact hi1⟩
  unfold walk_point
  rw [hcol, ea, ea, e2]
  linarith [mul_comm (si.I : Int) j]

/-- The positions met by the reference walk are exactly the lattice hits of the
area that lie in row 1 or above. -/
theorem exact_walk_mem_iff {cfg : las_config} {si : sieve_info} {pli : plattice_info_t}
    {p r : Nat} (hcfg : cfg.MOD2_CLASSES_BS = false) (hb : WalkBasis cfg si pli)
    (hw : (si.I : Int) ≤ PLI_COEFF cfg pli.b0 - PLI_COEFF cfg pli.a0)
    (hinv : BasisInv p r pli) (hp : 0 < p) (hI : 0 < si.I)
    (L : List Int) (hL : fill_in_buckets_walk_exact cfg si pli = some L) (x : Int) :
    x ∈ L ↔ ((si.I : Int) ≤ x ∧ x < ((si.I * si.J : Nat) : Int) ∧ lattice_hit si p r x) := by
  constructor
  · intro hx
    obtain ⟨h1, h2⟩ := exact_walk_induct (walk_reached cfg si pli) (walk_reached_step hb)
      _ _ _ hL (walk_start_reached hb hw hI) x hx
    obtain ⟨h3, h4⟩ := walk_reached_hit hcfg hb hinv x h1
    exact ⟨h3, h2, h4⟩
  · rintro ⟨h1, h2, h3⟩
    obtain ⟨k, l, hk, hl, hkl, rfl, c0, c1⟩ := lattice_hit_reached hcfg hb hw hinv hp hI x h1 h3
    obtain ⟨n, hn⟩ : ∃ n : Nat, k + l = (n : Int) + 1 := ⟨(k + l - 1).toNat, by omega⟩
    exact exact_walk_complete hb hw hI L hL n k l hk hl hn c0 c1 h2

/-! ## From `reduce_plattice` to the walk of `fill_in_buckets` -/

theorem region_fits.half {cfg : las_config} {si : sieve_info} (h : region_fits cfg si) :
    si.I % 2 = 0 ∧ si.I / 2 = 2 ^ (si.logI - 1) := by
  have e : si.logI = (si.logI - 1) + 1 := by have := h.logI_ge; omega
  have : si.I = 2 * 2 ^ (si.logI - 1) := by
    rw [h.width]
    conv_lhs => rw [e]
    rw [pow_succ]; ring
  exact ⟨by rw [this]; exact Nat.mul_mod_right _ _, by omega⟩

theorem region_fits.hI_eq {cfg : las_config} {si : sieve_info} (h : region_fits cfg si) :
    1 ≤ hI cfg si ∧ (si.I : Int) = PLI_COEFF cfg (hI cfg si) := by
  obtain ⟨h1, h2⟩ := h.half
  have h3 := h.I_pos
  have h31 : si.I < 2 ^ 31 := by
    rw [h.width]
    exact Nat.pow_lt_pow_right (by norm_num) (by have := h.logI_le; omega)
  rw [hI_of_lt cfg si h31]
  unfold PLI_COEFF
  cases hc : cfg.MOD2_CLASSES_BS
  · simp only [Bool.false_eq_true, ↓reduceIte]
    exact ⟨by omega, trivial⟩
  · simp only [↓reduceIte]
    rw [Int.tdiv_eq_ediv (by omega) (by norm_num)]
    omega

/-- A basis returned by `reduce_plattice` for `hI <= p < 2^31` satisfies, in
its scaled coefficients, the bounds the walk depends on; it is at least as wide
as the area; and it keeps the algebraic invariant. -/
theorem reduce_plattice_walk_basis {cfg : las_config} {si : sieve_info} {pli : plattice_info_t}
    {p r : Nat} (hf : region_fits cfg si) (hp31 : p < 2 ^ 31) (hp : hI cfg si ≤ (p : Int))
    (hrp : r < p) (h : reduce_plattice cfg p r si = some (some pli)) :
    WalkBasis cfg si pli
      ∧ (si.I : Int) ≤ PLI_COEFF cfg pli.b0 - PLI_COEFF cfg pli.a0
      ∧ BasisInv p r pli := by
  obtain ⟨hH, hIe⟩ := hf.hI_eq
  obtain ⟨s, hfin, he, hbi⟩ := reduce_plattice_success hp31 hrp hH h
  obtain ⟨h1, h2, h3, h4, h5⟩ := reduce_finish_signs he hfin
  obtain ⟨h6, h7⟩ := reduce_finish_asserts hp he hfin
  have hinv := reduce_finish_basis hbi hfin
  have hdet := hinv.det
  have ha1 : pli.a1 ≤ (p : Int) - 1 := by
    have e1 := mul_le_neg_one (show pli.a0 ≤ -1 by omega) h5
    have e2 := le_mul_of_one_le (show 1 ≤ pli.b0 by omega) (show 0 ≤ pli.a1 by omega)
    have e3 : pli.b0 * pli.a1 = pli.a1 * pli.b0 := mul_comm _ _
    omega
  have hb1 : pli.b1 ≤ (p : Int) - 1 := by
    have e1 := le_mul_of_one_le h7 (show 0 ≤ pli.b0 by omega)
    have e2 := mul_le_neg_one (show pli.a0 ≤ -1 by omega) (show 1 ≤ pli.b1 - 1 + 1 by omega)
    have e3 : pli.a0 * (pli.b1 - 1 + 1) = pli.a0 * pli.b1 := by ring
    have e4 := mul_le_neg_of_le_neg_one (show pli.a0 ≤ -1 by omega) (show 0 ≤ pli.b1 - 1 by omega)
    have e5 : pli.a0 * (pli.b1 - 1) = pli.a0 * pli.b1 - pli.a0 := by ring
    omega
  have hp' : (p : Int) < 2 ^ 31 := by exact_mod_cast hp31
  refine ⟨⟨?_, ?_, ?_, ?_, ?_, ?_, ?_, ?_⟩, ?_, hinv⟩ <;>
    (try rw [hIe]) <;> unfold PLI_COEFF <;> split_ifs <;> omega

/-- Without congruence classes the starting vector is one pass of the loop
body away from the origin `x = I/2`. -/
theorem plattice_starting_vector_eq {cfg : las_config} {si : sieve_info} (pli : plattice_info_t)
    (hcfg : cfg.MOD2_CLASSES_BS = false) (hf : region_fits cfg si) (par : Nat) :
    plattice_starting_vector cfg pli si par
      = fill_walk_step cfg si (plattice_bound0 cfg pli si) (plattice_bound1 cfg pli si)
          (plattice_a cfg pli si) (plattice_c cfg pli si) (si.I / 2) := by
  obtain ⟨_, h2⟩ := hf.half
  have h3 := hf.I_lt
  have h4 := hf.I_pos
  have hx : 1 <<< (si.logI - 1) = si.I / 2 := by rw [Nat.shiftLeft_eq, h2]; ring
  have hi : (si.I / 2) % 2 ^ 32 = si.I / 2 := Nat.mod_eq_of_lt (by omega)
  have hm := walk_mask_eq hf (si.I / 2)
  have hi' : (si.I / 2) % si.I = si.I / 2 := Nat.mod_eq_of_lt (by omega)
  unfold plattice_starting_vector fill_walk_step
  rw [if_pos hcfg]
  simp only [hx, hi, hm, hi']

/-- The walk of `fill_in_buckets` meets the same positions, in the same order,
as the reference walk. -/
theorem fill_in_buckets_walk_eq_exact {cfg : las_config} {si : sieve_info}
    {pli : plattice_info_t} (hcfg : cfg.MOD2_CLASSES_BS = false) (hf : region_fits cfg si)
    (hb : WalkBasis cfg si pli) (par : Nat) :
    (fill_in_buckets_walk cfg si pli par).map (fun t => t.map (fun e => (e.1 : Int)))
      = fill_in_buckets_walk_exact cfg si pli := by
  have hmod : (si.I * si.J) % 2 ^ 32 = si.I * si.J := Nat.mod_eq_of_lt hf.area
  have h3 := hf.I_lt
  have hle : si.I / 2 ≤ plattice_sentinel cfg := by
    unfold plattice_sentinel; split_ifs <;> omega
  obtain ⟨s1, s2⟩ := fill_walk_step_spec hf hb (si.I / 2) hle
  unfold fill_in_buckets_walk fill_in_buckets_walk_exact
  rw [plattice_starting_vector_eq pli hcfg hf par, hmod]
  apply fill_walk_eq_exact hf hb
  rcases lt_or_le (exact_walk_step cfg si pli ((si.I / 2 : Nat) : Int))
      ((si.I * si.J : Nat) : Int) with h | h
  · exact Or.inl (s1 h)
  · exact Or.inr ⟨s2 h, h⟩

/-- One pass of the loop body adds `plattice_a` exactly when `i >= I - b0` and
`plattice_c` exactly when `i < -a0`, without wrap-around. -/
theorem fill_walk_step_sum {cfg : las_config} {si : sieve_info} {pli : plattice_info_t}
    (hf : region_fits cfg si) (hb : WalkBasis cfg si pli) (x : Nat)
    (hx : x ≤ plattice_sentinel cfg) :
    fill_walk_step cfg si (plattice_bound0 cfg pli si) (plattice_bound1 cfg pli si)
        (plattice_a cfg pli si) (plattice_c cfg pli si) x
      = x + (if (si.I : Int) - PLI_COEFF cfg pli.b0 ≤ (x : Int) % (si.I : Int)
              then plattice_a cfg pli si else 0)
          + (if (x : Int) % (si.I : Int) < -(PLI_COEFF cfg pli.a0)
              then plattice_c cfg pli si else 0) := by
  obtain ⟨hM1, hM2⟩ := hf.area_le
  have hi := walk_mask_eq hf x
  have hb0 := plattice_bound0_eq hf hb
  have hb1 := plattice_bound1_eq hf hb
  have hic : ((x % si.I : Nat) : Int) = (x : Int) % (si.I : Int) := by push_cast; rfl
  have ha : plattice_a cfg pli si ≤ plattice_sentinel cfg := by
    rcases plattice_a_cases hf hb with ⟨_, h2, _⟩ | ⟨_, h2, _, h4⟩ <;> omega
  have hc : plattice_c cfg pli si ≤ plattice_sentinel cfg := by
    rcases plattice_c_cases hf hb with ⟨h2, _⟩ | ⟨h2, _, h4⟩ <;> omega
  have c1 : (x % si.I ≥ plattice_bound1 cfg pli si) ↔
      ((si.I : Int) - PLI_COEFF cfg pli.b0 ≤ (x : Int) % (si.I : Int)) := by
    rw [← hb1, ← hic]; exact_mod_cast Iff.rfl
  have c0 : (x % si.I < plattice_bound0 cfg pli si) ↔
      ((x : Int) % (si.I : Int) < -(PLI_COEFF cfg pli.a0)) := by
    rw [← hb0, ← hic]; exact_mod_cast Iff.rfl
  have w1 : (x + plattice_a cfg pli si) % 2 ^ x_bits cfg = x + plattice_a cfg pli si :=
    Nat.mod_eq_of_lt (by omega)
  have w2 : (x + plattice_a cfg pli si + plattice_c cfg pli si) % 2 ^ x_bits cfg
      = x + plattice_a cfg pli si + plattice_c cfg pli si := Nat.mod_eq_of_lt (by omega)
  have w3 : (x + plattice_c cfg pli si) % 2 ^ x_bits cfg = x + plattice_c cfg pli si :=
    Nat.mod_eq_of_lt (by omega)
  unfold fill_walk_step
  simp only [hi]
  by_cases d1 : x % si.I ≥ plattice_bound1 cfg pli si
  · rw [if_pos d1, if_pos (c1.1 d1), w1]
    by_cases d0 : x % si.I < plattice_bound0 cfg pli si
    · rw [if_pos d0, if_pos (c0.1 d0), w2]
    · rw [if_neg d0, if_neg (fun h => d0 (c0.2 h))]; rfl
  · rw [if_neg d1, if_neg (fun h => d1 (c1.2 h))]
    by_cases d0 : x % si.I < plattice_bound0 cfg pli si
    · rw [if_pos d0, if_pos (c0.1 d0), w3]; rfl
    · rw [if_neg d0, if_neg (fun h => d0 (c0.2 h))]; rfl

/-- The exact step in coordinates: from column `i` of row `j` it leads to
column `walk_next_col`, which lies in `[0, I)`, of row `walk_next_row`. -/
theorem exact_walk_step_coords {cfg : las_config} {si : sieve_info} {pli : plattice_info_t}
    (hb : WalkBasis cfg si pli) (hI : 0 < si.I) (x : Int) :
    0 ≤ walk_next_col cfg si pli x ∧ walk_next_col cfg si pli x < (si.I : Int)
    ∧ exact_walk_step cfg si pli x
      = walk_next_row cfg si pli x * (si.I : Int) + walk_next_col cfg si pli x := by
  have hIpos : (0 : Int) < si.I := by exact_mod_cast hI
  have hi0 : 0 ≤ x % (si.I : Int) := Int.emod_nonneg _ (ne_of_gt hIpos)
  have hi1 : x % (si.I : Int) < si.I := Int.emod_lt_of_pos _ hIpos
  have hx := Int.emod_add_ediv x (si.I : Int)
  have g1 := hb.a0_gt
  have g2 := hb.a0_le
  have g3 := hb.b0_ge
  have g4 := hb.b0_lt
  unfold walk_next_col walk_next_row
  refine ⟨by split_ifs <;> omega, by split_ifs <;> omega, ?_⟩
  unfold exact_walk_step exact_a exact_c
  simp only []
  split_ifs <;> linarith [mul_comm (si.I : Int) (x / (si.I : Int))]

/-! ## The reference walk from an arbitrary starting point -/

theorem walk_point_from_mod {cfg : las_config} {si : sieve_info} {pli : plattice_info_t}
    (c j k l : Int) (h0 : 0 ≤ walk_col_from cfg pli c k l)
    (h1 : walk_col_from cfg pli c k l < (si.I : Int)) :
    walk_point_from cfg si pli c j k l % (si.I : Int) = walk_col_from cfg pli c k l
    ∧ walk_point_from cfg si pli c j k l / (si.I : Int)
      = j + k * PLI_COEFF cfg pli.a1 + l * PLI_COEFF cfg pli.b1 := by
  unfold walk_point_from
  have hI : (0 : Int) < si.I := by omega
  constructor
  · rw [add_comm, Int.add_mul_emod_self]
    exact Int.emod_eq_of_lt h0 h1
  · rw [add_comm, Int.add_mul_ediv_right _ _ (ne_of_gt hI), Int.ediv_eq_zero_of_lt h0 h1]
    simp

/-- One step of the reference walk from the point with coefficients `(k, l)`
relative to a starting point, whose column is in range, leads to the point with
coefficients `(k + [I - b0 <= i], l + [i < -a0])`, whose column is in range
again. -/
theorem exact_walk_step_point_from {cfg : las_config} {si : sieve_info}
    {pli : plattice_info_t} (hb : WalkBasis cfg si pli) (c j k l : Int)
    (h0 : 0 ≤ walk_col_from cfg pli c k l) (h1 : walk_col_from cfg pli c k l < (si.I : Int)) :
    ∃ da dc : Int,
      (da = if (si.I : Int) - PLI_COEFF cfg pli.b0 ≤ walk_col_from cfg pli c k l then 1 else 0)
      ∧ (dc = if walk_col_from cfg pli c k l < -(PLI_COEFF cfg pli.a0) then 1 else 0)
      ∧ exact_walk_step cfg si pli (walk_point_from cfg si pli c j k l)
          = walk_point_from cfg si pli c j (k + da) (l + dc)
      ∧ 0 ≤ walk_col_from cfg pli c (k + da) (l + dc)
      ∧ walk_col_from cfg pli c (k + da) (l + dc) < (si.I : Int) := by
  obtain ⟨hm, _⟩ := @walk_point_from_mod cfg si pli c j k l h0 h1
  have g1 := hb.a0_gt
  have g2 := hb.a0_le
  have g3 := hb.b0_ge
  have g4 := hb.b0_lt
  refine ⟨_, _, rfl, rfl, ?_, ?_, ?_⟩
  · unfold exact_walk_step
    simp only [hm]
    unfold exact_a exact_c walk_point_from walk_col_from
    split_ifs <;> ring
  · unfold walk_col_from at h0 h1 ⊢
    split_ifs <;> nlinarith
  · unfold walk_col_from at h0 h1 ⊢
    split_ifs <;> nlinarith

theorem walk_reached_from_step {cfg : las_config} {si : sieve_info} {pli : plattice_info_t}
    (hb : WalkBasis cfg si pli) (c j x : Int) (h : walk_reached_from cfg si pli c j x) :
    walk_reached_from cfg si pli c j (exact_walk_step cfg si pli x) := by
  obtain ⟨k, l, hk, hl, rfl, h0, h1⟩ := h
  obtain ⟨da, dc, eda, edc, hs, g0, g1⟩ := exact_walk_step_point_from hb c j k l h0 h1
  have hda : 0 ≤ da := by rw [eda]; split_ifs <;> norm_num
  have hdc : 0 ≤ dc := by rw [edc]; split_ifs <;> norm_num
  exact ⟨k + da, l + dc, by omega, by omega, hs, g0, g1⟩

theorem walk_from_start {cfg : las_config} {si : sieve_info} {pli : plattice_info_t}
    (c j : Int) :
    walk_point_from cfg si pli c j 0 0 = j * (si.I : Int) + c
      ∧ walk_col_from cfg pli c 0 0 = c := by
  unfold walk_point_from walk_col_from
  constructor <;> ring

/-- Completeness of the walk from a starting point in column `c` of row `j`,
`0 <= c < I`: every point `s + k * a + l * b` with non-negative coefficients
whose column is in range and whose position is inside the area is met by the
reference walk from `s`. -/
theorem exact_walk_from_complete {cfg : las_config} {si : sieve_info} {pli : plattice_info_t}
    (hb : WalkBasis cfg si pli)
    (hw : (si.I : Int) ≤ PLI_COEFF cfg pli.b0 - PLI_COEFF cfg pli.a0) (hI : 0 < si.I)
    (c j : Int) (hc0 : 0 ≤ c) (hc1 : c < (si.I : Int)) (fuel : Nat)
    (L : List Int) (hL : exact_walk cfg si pli (fuel + 1) (j * (si.I : Int) + c) = some L) :
    ∀ (n : Nat) (k l : Int), 0 ≤ k → 0 ≤ l → k + l = (n : Int) →
      0 ≤ walk_col_from cfg pli c k l → walk_col_from cfg pli c k l < (si.I : Int) →
      walk_point_from cfg si pli c j k l < ((si.I * si.J : Nat) : Int) →
      walk_point_from cfg si pli c j k l ∈ L := by
  have g1 := hb.a0_gt
  have g2 := hb.a0_le
  have g3 := hb.b0_ge
  have g4 := hb.b0_lt
  -- the step from a predecessor with in-range column
  have key : ∀ (n : Nat), (∀ m < n, ∀ (k l : Int), 0 ≤ k → 0 ≤ l → k + l = (m : Int) →
      0 ≤ walk_col_from cfg pli c k l → walk_col_from cfg pli c k l < (si.I : Int) →
      walk_point_from cfg si pli c j k l < ((si.I * si.J : Nat) : Int) →
      walk_point_from cfg si pli c j k l ∈ L) →
      ∀ (k l k' l' : Int), 0 ≤ k' → 0 ≤ l' → k + l = (n : Int) → k' + l' < k + l →
      0 ≤ walk_col_from cfg pli c k' l' → walk_col_from cfg pli c k' l' < (si.I : Int) →
      exact_walk_step cfg si pli (walk_point_from cfg si pli c j k' l')
        = walk_point_from cfg si pli c j k l →
      walk_point_from cfg si pli c j k l < ((si.I * si.J : Nat) : Int) →
      walk_point_from cfg si pli c j k l ∈ L := by
    intro n ih k l k' l' hk' hl' hkl hlt c0 c1 hstep hin
    obtain ⟨m, hm⟩ : ∃ m : Nat, k' + l' = (m : Int) := ⟨(k' + l').toNat, by omega⟩
    have hmn : m < n := by omega
    have hgt := exact_walk_step_gt hb hw hI (walk_point_from cfg si pli c j k' l')
    have hu := ih m hmn k' l' hk' hl' hm c0 c1 (by rw [hstep] at hgt; omega)
    have := exact_walk_closed _ _ _ hL _ hu (by rw [hstep]; exact hin)
    rw [hstep] at this
    exact this
  intro n
  induction n using Nat.strong_induction_on with
  | _ n ih =>
    intro k l hk hl hkl c0 c1 hin
    have hcol : walk_col_from cfg pli c k l
        = c + k * PLI_COEFF cfg pli.a0 + l * PLI_COEFF cfg pli.b0 := rfl
    by_cases hz : k + l = 0
    · -- the point is the starting point
      have ek : k = 0 := by omega
      have el : l = 0 := by omega
      rw [ek, el, (@walk_from_start cfg si pli c j).1] at hin ⊢
      unfold exact_walk at hL
      rw [if_pos hin] at hL
      cases hrec : exact_walk cfg si pli fuel
          (exact_walk_step cfg si pli (j * (si.I : Int) + c)) with
      | none => rw [hrec] at hL; simp at hL
      | some rest =>
        rw [hrec] at hL
        simp only [Option.some.injEq] at hL
        rw [← hL]; simp
    by_cases hc1' : PLI_COEFF cfg pli.b0 ≤ walk_col_from cfg pli c k l
    · -- the predecessor is one `b` back
      have hl1 : 1 ≤ l := by
        by_contra hl0
        have hl0' : l = 0 := by omega
        have hk1 : 1 ≤ k := by omega
        rw [hcol, hl0'] at hc1'
        have : (k - 1) * PLI_COEFF cfg pli.a0 ≤ 0 :=
          mul_nonpos_of_nonneg_of_nonpos (by omega) g2
        linarith
      have cpre : walk_col_from cfg pli c k (l - 1)
          = walk_col_from cfg pli c k l - PLI_COEFF cfg pli.b0 := by unfold walk_col_from; ring
      have c0' : 0 ≤ walk_col_from cfg pli c k (l - 1) := by rw [cpre]; omega
      have c1' : walk_col_from cfg pli c k (l - 1) < (si.I : Int) := by rw [cpre]; omega
      obtain ⟨da, dc, eda, edc, hs, _, _⟩ := exact_walk_step_point_from hb c j k (l - 1) c0' c1'
      rw [if_neg (by rw [cpre]; omega)] at eda
      rw [if_pos (by rw [cpre]; omega)] at edc
      rw [eda, edc] at hs
      have e : walk_point_from cfg si pli c j (k + 0) (l - 1 + 1)
          = walk_point_from cfg si pli c j k l := by
        congr 1 <;> ring
      rw [e] at hs
      exact key n ih k l k (l - 1) hk (by omega) hkl (by omega) c0' c1' hs hin
    · by_cases hc2 : walk_col_from cfg pli c k l < (si.I : Int) + PLI_COEFF cfg pli.a0
      · -- the predecessor is one `a` back
        have hk1 : 1 ≤ k := by
          by_contra hk0
          have hk0' : k = 0 := by omega
          have hl1 : 1 ≤ l := by omega
          rw [hcol, hk0'] at hc1'
          have : 0 ≤ (l - 1) * PLI_COEFF cfg pli.b0 := mul_nonneg (by omega) g3
          apply hc1'
          linarith
        have cpre : walk_col_from cfg pli c (k - 1) l
            = walk_col_from cfg pli c k l - PLI_COEFF cfg pli.a0 := by
          unfold walk_col_from; ring
        have c0' : 0 ≤ walk_col_from cfg pli c (k - 1) l := by rw [cpre]; omega
        have c1' : walk_col_from cfg pli c (k - 1) l < (si.I : Int) := by rw [cpre]; omega
        obtain ⟨da, dc, eda, edc, hs, _, _⟩ :=
          exact_walk_step_point_from hb c j (k - 1) l c0' c1'
        rw [if_pos (by rw [cpre]; omega)] at eda
        rw [if_neg (by rw [cpre]; omega)] at edc
        rw [eda, edc] at hs
        have e : walk_point_from cfg si pli c j (k - 1 + 1) (l + 0)
            = walk_point_from cfg si pli c j k l := by
          congr 1 <;> ring
        rw [e] at hs
        exact key n ih k l (k - 1) l (by omega) hl hkl (by omega) c0' c1' hs hin
      · -- the predecessor is one `a` and one `b` back
        have hk1 : 1 ≤ k := by
          by_contra hk0
          have hk0' : k = 0 := by omega
          have hl1 : 1 ≤ l := by omega
          rw [hcol, hk0'] at hc1'
          have : 0 ≤ (l - 1) * PLI_COEFF cfg pli.b0 := mul_nonneg (by omega) g3
          apply hc1'
          linarith
        have hl1 : 1 ≤ l := by
          by_contra hl0
          have hl0' : l = 0 := by omega
          rw [hcol, hl0'] at hc2
          have : (k - 1) * PLI_COEFF cfg pli.a0 ≤ 0 :=
            mul_nonpos_of_nonneg_of_nonpos (by omega) g2
          apply hc2
          linarith
        have cpre : walk_col_from cfg pli c (k - 1) (l - 1)
            = walk_col_from cfg pli c k l - PLI_COEFF cfg pli.a0 - PLI_COEFF cfg pli.b0 := by
          unfold walk_col_from; ring
        have c0' : 0 ≤ walk_col_from cfg pli c (k - 1) (l - 1) := by rw [cpre]; omega
        have c1' : walk_col_from cfg pli c (k - 1) (l - 1) < (si.I : Int) := by
          rw [cpre]; omega
        obtain ⟨da, dc, eda, edc, hs, _, _⟩ :=
          exact_walk_step_point_from hb c j (k - 1) (l - 1) c0' c1'
        rw [if_pos (by rw [cpre]; omega)] at eda
        rw [if_pos (by rw [cpre]; omega)] at edc
        rw [eda, edc] at hs
        have e : walk_point_from cfg si pli c j (k - 1 + 1) (l - 1 + 1)
            = walk_point_from cfg si pli c j k l := by
          congr 1 <;> ring
        rw [e] at hs
        exact key n ih k l (k - 1) (l - 1) (by omega) (by omega) hkl (by omega) c0' c1' hs hin

/-- The positions met by the reference walk from a starting point in column
`c` of row `j`, `0 <= c < I`, are exactly the points `s + k * a + l * b` with
non-negative coefficients and column in range that lie inside the area. -/
theorem exact_walk_from_mem_iff {cfg : las_config} {si : sieve_info} {pli : plattice_info_t}
    (hb : WalkBasis cfg si pli)
    (hw : (si.I : Int) ≤ PLI_COEFF cfg pli.b0 - PLI_COEFF cfg pli.a0) (hI : 0 < si.I)
    (c j : Int) (hc0 : 0 ≤ c) (hc1 : c < (si.I : Int)) (fuel : Nat)
    (L : List Int) (hL : exact_walk cfg si pli (fuel + 1) (j * (si.I : Int) + c) = some L)
    (x : Int) :
    x ∈ L ↔ (x < ((si.I * si.J : Nat) : Int) ∧ walk_reached_from cfg si pli c j x) := by
  constructor
  · intro hx
    have hstart : walk_reached_from cfg si pli c j (j * (si.I : Int) + c) :=
      ⟨0, 0, le_refl _, le_refl _, (@walk_from_start cfg si pli c j).1.symm,
        by rw [(@walk_from_start cfg si pli c j).2]; exact hc0, by rw [(@walk_from_start cfg si pli c j).2]; exact hc1⟩
    obtain ⟨h1, h2⟩ := exact_walk_induct (walk_reached_from cfg si pli c j)
      (walk_reached_from_step hb c j) _ _ _ hL hstart x hx
    exact ⟨h2, h1⟩
  · rintro ⟨h2, k, l, hk, hl, rfl, c0, c1⟩
    obtain ⟨n, hn⟩ : ∃ n : Nat, k + l = (n : Int) := ⟨(k + l).toNat, by omega⟩
    exact exact_walk_from_complete hb hw hI c j hc0 hc1 fuel L hL n k l hk hl hn c0 c1 h2

/-! ## Bit operations on `int` values -/

theorem int_land_zero (x : Int) : Int.land x 0 = 0 := by
  cases x with
  | ofNat m =>
    show ((m &&& 0 : Nat) : Int) = 0
    rw [Nat.and_zero]; rfl
  | negSucc m =>
    show ((Nat.ldiff 0 m : Nat) : Int) = 0
    have : Nat.ldiff 0 m = 0 := by
      apply Nat.eq_of_testBit_eq
      intro i
      rw [Nat.testBit_ldiff]
      simp
    rw [this]; rfl

theorem int_land_neg_one (x : Int) : Int.land x (-1) = x := by
  cases x with
  | ofNat m =>
    show ((Nat.ldiff m 0 : Nat) : Int) = (m : Int)
    have : Nat.ldiff m 0 = m := by
      apply Nat.eq_of_testBit_eq
      intro i
      rw [Nat.testBit_ldiff]
      simp
    rw [this]
  | negSucc m =>
    show Int.negSucc (m ||| 0) = Int.negSucc m
    rw [Nat.or_zero]

theorem int_cond_bodd (x : Int) : (cond (Int.bodd x) 1 0 : Int) = x % 2 := by
  have h := Int.bodd_add_div2 x
  cases hb : Int.bodd x
  · rw [hb] at h
    simp only [cond_false] at h ⊢
    omega
  · rw [hb] at h
    simp only [cond_true] at h ⊢
    omega

/-- The lowest bit of `x & y` is the product of the lowest bits. -/
theorem int_land_land_one (x y : Int) :
    Int.land (Int.land x y) 1 = (x % 2) * (y % 2) := by
  have hx := Int.bit_decomp x
  have hy := Int.bit_decomp y
  have h1 : (1 : Int) = Int.bit true 0 := by rw [Int.bit_val]; rfl
  conv_lhs => rw [← hx, ← hy, Int.land_bit, h1, Int.land_bit, int_land_zero, Int.bit_val]
  rw [← int_cond_bodd x, ← int_cond_bodd y]
  cases Int.bodd x <;> cases Int.bodd y <;> rfl

/-- The lowest bit of `x`. -/
theorem int_land_one (x : Int) : Int.land x 1 = x % 2 := by
  have hx := Int.bit_decomp x
  have h1 : (1 : Int) = Int.bit true 0 := by rw [Int.bit_val]; rfl
  conv_lhs => rw [← hx, h1, Int.land_bit, int_land_zero, Int.bit_val]
  rw [← int_cond_bodd x]
  cases Int.bodd x <;> rfl

/-- For two values without common bits, `|` is the sum. -/
theorem int_lor_shift (v c : Nat) (n : Nat) (hc : c < 2 ^ n) :
    Int.lor ((v : Int) * 2 ^ n) (c : Int) = ((v * 2 ^ n + c : Nat) : Int) := by
  have e : (v : Int) * 2 ^ n = ((v * 2 ^ n : Nat) : Int) := by push_cast; rfl
  rw [e]
  show (((v * 2 ^ n) ||| c : Nat) : Int) = _
  congr 1
  rw [Nat.mul_comm]
  exact (Nat.mul_add_lt_is_or hc v).symm

theorem int_xor_bits (x y : Int) (hx : x = 0 ∨ x = 1) (hy : y = 0 ∨ y = 1) :
    Int.xor x y = (x + y) % 2 := by
  rcases hx with rfl | rfl <;> rcases hy with rfl | rfl <;> rfl

theorem class_bit_range (u v : Int) (par : Nat) :
    class_bit u v par = 0 ∨ class_bit u v par = 1 := by
  unfold class_bit
  omega

theorem class_bit_aux (u v pI q cp cq : Int) (h1 : pI % 2 = cp) (h2 : q = cq)
    (hp : cp = 0 ∨ cp = 1) (hq : cq = 0 ∨ cq = 1) :
    Int.xor (Int.land (Int.land u pI) 1) (Int.land v q) = (u * cp + v * cq) % 2 := by
  have hu : u % 2 = 0 ∨ u % 2 = 1 := by omega
  have hv : v % 2 = 0 ∨ v % 2 = 1 := by omega
  rw [int_land_land_one, h1, h2]
  rcases hp with rfl | rfl <;> rcases hq with rfl | rfl
  · rw [mul_zero, int_land_zero, int_xor_bits _ _ (Or.inl rfl) (Or.inl rfl)]
    omega
  · rw [mul_zero, int_land_one, int_xor_bits _ _ (Or.inl rfl) hv]
    omega
  · rw [mul_one, int_land_zero, int_xor_bits _ _ hu (Or.inl rfl)]
    omega
  · rw [mul_one, int_land_one, int_xor_bits _ _ hu hv]
    omega

/-- The coefficient computed by the bit operations of
`plattice_starting_vector` is `class_bit`. -/
theorem class_bit_eq (u v : Int) (par : Nat) (hpar : par ≤ 3) :
    Int.xor (Int.land (Int.land u (par : Int)) 1) (Int.land v ((par >>> 1 : Nat) : Int))
      = class_bit u v par := by
  unfold class_bit
  apply class_bit_aux
  · omega
  · rw [Nat.shiftRight_eq_div_pow, pow_one]
  · omega
  · omega

/-- Masking with `-k` for `k` in `{0, 1}` is multiplying by `k`. -/
theorem int_land_neg_bit (x k : Int) (hk : k = 0 ∨ k = 1) : Int.land x (-k) = k * x := by
  rcases hk with rfl | rfl
  · rw [neg_zero, int_land_zero, zero_mul]
  · rw [int_land_neg_one, one_mul]

theorem class_start_fst (pli : plattice_info_t) (H : Int) (par : Nat) :
    (class_start pli H par).1
      = if class_bit pli.b1 pli.b0 par = 1 ∧ class_bit pli.a1 pli.a0 par = 1
            ∧ pli.a0 - pli.b0 = -H ∧ pli.a1 > pli.b1
        then pli.a0 - pli.b0
        else class_bit pli.b1 pli.b0 par * pli.a0 + class_bit pli.a1 pli.a0 par * pli.b0 := by
  unfold class_start
  simp only []
  split_ifs with h <;> rfl

theorem class_start_snd (pli : plattice_info_t) (H : Int) (par : Nat) :
    (class_start pli H par).2
      = if class_bit pli.b1 pli.b0 par = 1 ∧ class_bit pli.a1 pli.a0 par = 1
            ∧ pli.a0 - pli.b0 = -H ∧ pli.a1 > pli.b1
        then pli.a1 - pli.b1
        else class_bit pli.b1 pli.b0 par * pli.a1 + class_bit pli.a1 pli.a0 par * pli.b1 := by
  unfold class_start
  simp only []
  split_ifs with h <;> rfl

/-! ## The congruence classes of the bucket sieve -/

/-- The bounds of Proposition 1 on the coefficients returned by
`reduce_plattice`, and its algebraic invariant. -/
theorem reduce_plattice_basis_bounds {cfg : las_config} {si : sieve_info}
    {pli : plattice_info_t} {p r : Nat} (hp31 : p < 2 ^ 31) (hH : 1 ≤ hI cfg si)
    (hp : hI cfg si ≤ (p : Int)) (hrp : r < p)
    (h : reduce_plattice cfg p r si = some (some pli)) :
    -(hI cfg si) < pli.a0 ∧ pli.a0 < 0 ∧ 0 < pli.b0 ∧ pli.b0 < hI cfg si
      ∧ hI cfg si ≤ pli.b0 - pli.a0 ∧ 1 ≤ pli.a1 ∧ 1 ≤ pli.b1 ∧ BasisInv p r pli := by
  obtain ⟨s, hf, he, hb⟩ := reduce_plattice_success hp31 hrp hH h
  obtain ⟨h1, h2, h3, h4, h5⟩ := reduce_finish_signs he hf
  obtain ⟨h6, h7⟩ := reduce_finish_asserts hp he hf
  exact ⟨h1, h2, h3, h4, h6, h7, h5, reduce_finish_basis hb hf⟩

/-- Parities of a product and a sum, for the case analyses below. -/
theorem emod_two_cases (x : Int) : x % 2 = 0 ∨ x % 2 = 1 := by omega

/-- The starting vector of a class: its column is in range, its row is not
negative, and it is `k * a + l * b` with `k`, `l` in `{0, 1}`, or `a - b`. -/
theorem class_start_bounds (pli : plattice_info_t) (H : Int) (par : Nat)
    (h1 : -H < pli.a0) (h2 : pli.a0 ≤ 0) (h3 : 0 ≤ pli.b0) (h4 : pli.b0 < H)
    (h5 : 1 ≤ pli.a1) (h6 : 1 ≤ pli.b1) :
    -H ≤ (class_start pli H par).1 ∧ (class_start pli H par).1 < H
      ∧ 0 ≤ (class_start pli H par).2 := by
  rw [class_start_fst, class_start_snd]
  have hk := class_bit_range pli.b1 pli.b0 par
  have hl := class_bit_range pli.a1 pli.a0 par
  split_ifs with hE
  · obtain ⟨_, _, e3, e4⟩ := hE
    exact ⟨by omega, by omega, by omega⟩
  · rcases hk with hk | hk <;> rcases hl with hl | hl <;> rw [hk, hl] <;>
      exact ⟨by omega, by omega, by omega⟩

theorem emod_two_lin (m a n b : Int) :
    (m * a + n * b) % 2 = ((m % 2) * (a % 2) + (n % 2) * (b % 2)) % 2 :=
  Int.ModEq.add (Int.ModEq.mul (Int.mod_modEq m 2).symm (Int.mod_modEq a 2).symm)
    (Int.ModEq.mul (Int.mod_modEq n 2).symm (Int.mod_modEq b 2).symm)

theorem emod_two_det (m a n b : Int) :
    (m * a - n * b) % 2 = ((m % 2) * (a % 2) - (n % 2) * (b % 2)) % 2 :=
  Int.ModEq.sub (Int.ModEq.mul (Int.mod_modEq m 2).symm (Int.mod_modEq a 2).symm)
    (Int.ModEq.mul (Int.mod_modEq n 2).symm (Int.mod_modEq b 2).symm)

/-- The coefficients of a vector of the class `par` in the basis `(a, b)` have
the parities that `plattice_starting_vector` computes: the determinant of the
basis is odd. -/
theorem class_coeff_parity (m n a0 a1 b0 b1 : Int) (par : Nat) (_hpar : par ≤ 3)
    (hdet : (a1 * b0 - a0 * b1) % 2 = 1)
    (hu : (m * a0 + n * b0) % 2 = ((par % 2 : Nat) : Int))
    (hj : (m * a1 + n * b1) % 2 = ((par / 2 : Nat) : Int)) :
    m % 2 = class_bit b1 b0 par ∧ n % 2 = class_bit a1 a0 par := by
  unfold class_bit
  rw [emod_two_det] at hdet
  rw [emod_two_lin] at hu hj
  rw [emod_two_lin b1, emod_two_lin a1]
  have hP : ((par % 2 : Nat) : Int) % 2 = ((par % 2 : Nat) : Int) := by omega
  have hQ : ((par / 2 : Nat) : Int) % 2 = ((par / 2 : Nat) : Int) := by omega
  rw [hP, hQ]
  generalize ((par % 2 : Nat) : Int) = P at *
  generalize ((par / 2 : Nat) : Int) = Q at *
  rcases emod_two_cases m with h1 | h1 <;> rcases emod_two_cases n with h2 | h2 <;>
    rcases emod_two_cases a0 with h3 | h3 <;> rcases emod_two_cases a1 with h4 | h4 <;>
    rcases emod_two_cases b0 with h5 | h5 <;> rcases emod_two_cases b1 with h6 | h6 <;>
    simp only [h1, h2, h3, h4, h5, h6] at hdet hu hj ⊢ <;> omega

/-- The starting vector of the class `par` lies in that class: its first
coordinate has the parity `par mod 2` and its second the parity
`par div 2`. -/
theorem class_start_parity (pli : plattice_info_t) (H : Int) (par : Nat) (hpar : par ≤ 3)
    (hdet : (pli.a1 * pli.b0 - pli.a0 * pli.b1) % 2 = 1) :
    (class_start pli H par).1 % 2 = ((par % 2 : Nat) : Int)
      ∧ (class_start pli H par).2 % 2 = ((par / 2 : Nat) : Int) := by
  have core : (class_bit pli.b1 pli.b0 par * pli.a0 + class_bit pli.a1 pli.a0 par * pli.b0) % 2
        = ((par % 2 : Nat) : Int)
      ∧ (class_bit pli.b1 pli.b0 par * pli.a1 + class_bit pli.a1 pli.a0 par * pli.b1) % 2
        = ((par / 2 : Nat) : Int) := by
    rw [emod_two_lin (class_bit pli.b1 pli.b0 par) pli.a0,
      emod_two_lin (class_bit pli.b1 pli.b0 par) pli.a1]
    unfold class_bit
    rw [emod_two_det] at hdet
    rw [emod_two_lin pli.b1, emod_two_lin pli.a1]
    have hP : ((par % 2 : Nat) : Int) % 2 = ((par % 2 : Nat) : Int) := by omega
    have hQ : ((par / 2 : Nat) : Int) % 2 = ((par / 2 : Nat) : Int) := by omega
    have hP01 : ((par % 2 : Nat) : Int) = 0 ∨ ((par % 2 : Nat) : Int) = 1 := by omega
    have hQ01 : ((par / 2 : Nat) : Int) = 0 ∨ ((par / 2 : Nat) : Int) = 1 := by omega
    rw [hP, hQ]
    generalize ((par % 2 : Nat) : Int) = P at *
    generalize ((par / 2 : Nat) : Int) = Q at *
    rcases emod_two_cases pli.a0 with h3 | h3 <;> rcases emod_two_cases pli.a1 with h4 | h4 <;>
      rcases emod_two_cases pli.b0 with h5 | h5 <;> rcases emod_two_cases pli.b1 with h6 | h6 <;>
      simp only [h3, h4, h5, h6] at hdet ⊢ <;> omega
  rw [class_start_fst, class_start_snd]
  split_ifs with hE
  · obtain ⟨e1, e2, _, _⟩ := hE
    rw [e1, e2] at core
    obtain ⟨c1, c2⟩ := core
    exact ⟨by omega, by omega⟩
  · exact core

/-- The starting vector of a class is a vector of the lattice. -/
theorem class_start_lattice {pli : plattice_info_t} {p r : Nat} (hinv : BasisInv p r pli)
    (H : Int) (par : Nat) :
    (p : Int) ∣ (class_start pli H par).1 - (r : Int) * (class_start pli H par).2 := by
  rw [class_start_fst, class_start_snd]
  split_ifs with hE
  · have e : pli.a0 - pli.b0 - (r : Int) * (pli.a1 - pli.b1)
        = (pli.a0 - (r : Int) * pli.a1) - (pli.b0 - (r : Int) * pli.b1) := by ring
    rw [e]
    exact dvd_sub hinv.la hinv.lb
  · have e : class_bit pli.b1 pli.b0 par * pli.a0 + class_bit pli.a1 pli.a0 par * pli.b0
          - (r : Int) * (class_bit pli.b1 pli.b0 par * pli.a1
            + class_bit pli.a1 pli.a0 par * pli.b1)
        = class_bit pli.b1 pli.b0 par * (pli.a0 - (r : Int) * pli.a1)
          + class_bit pli.a1 pli.a0 par * (pli.b0 - (r : Int) * pli.b1) := by ring
    rw [e]
    exact dvd_add (Dvd.dvd.mul_left hinv.la _) (Dvd.dvd.mul_left hinv.lb _)

/-- Under `MOD2_CLASSES_BS`, a position reached from the starting vector of a
class is a lattice hit. -/
theorem class_walk_lattice {cfg : las_config} {si : sieve_info} {pli : plattice_info_t}
    {p r : Nat} (hcfg : cfg.MOD2_CLASSES_BS = true) (hinv : BasisInv p r pli)
    (par : Nat) (x : Int)
    (h : walk_reached_from cfg si pli
      ((class_start pli ((si.I / 2 : Nat) : Int) par).1 + ((si.I / 2 : Nat) : Int))
      (class_start pli ((si.I / 2 : Nat) : Int) par).2 x) :
    lattice_hit si p r x := by
  obtain ⟨k, l, hk, hl, rfl, h0, h1⟩ := h
  obtain ⟨hm, hd⟩ := @walk_point_from_mod cfg si pli _
    (class_start pli ((si.I / 2 : Nat) : Int) par).2 k l h0 h1
  have ea : ∀ v, PLI_COEFF cfg v = v * 2 := fun v => by simp [PLI_COEFF, hcfg]
  have hlat := class_start_lattice hinv ((si.I / 2 : Nat) : Int) par
  unfold lattice_hit
  rw [hm, hd]
  unfold walk_col_from
  simp only [ea]
  generalize (class_start pli ((si.I / 2 : Nat) : Int) par).1 = v0 at *
  generalize (class_start pli ((si.I / 2 : Nat) : Int) par).2 = v1 at *
  have e : v0 + ((si.I / 2 : Nat) : Int) + k * (pli.a0 * 2) + l * (pli.b0 * 2)
        - ((si.I / 2 : Nat) : Int) - (r : Int) * (v1 + k * (pli.a1 * 2) + l * (pli.b1 * 2))
      = (v0 - (r : Int) * v1) + (2 * k) * (pli.a0 - (r : Int) * pli.a1)
        + (2 * l) * (pli.b0 - (r : Int) * pli.b1) := by ring
  rw [e]
  exact dvd_add (dvd_add hlat (Dvd.dvd.mul_left hinv.la _)) (Dvd.dvd.mul_left hinv.lb _)

/-- Under `MOD2_CLASSES_BS`, a position reached from the starting vector of the
class `par` belongs to that class: `x mod I` has the parity `par mod 2` and
`x div I` the parity `par div 2`. -/
theorem class_walk_hit {cfg : las_config} {si : sieve_info} {pli : plattice_info_t}
    {p r : Nat} (hcfg : cfg.MOD2_CLASSES_BS = true) (hinv : BasisInv p r pli)
    (hpodd : p % 2 = 1) (_hI : si.I = 2 * (si.I / 2)) (hH : (si.I / 2) % 2 = 0)
    (par : Nat) (hpar : par ≤ 3) (x : Int)
    (h : walk_reached_from cfg si pli
      ((class_start pli ((si.I / 2 : Nat) : Int) par).1 + ((si.I / 2 : Nat) : Int))
      (class_start pli ((si.I / 2 : Nat) : Int) par).2 x) :
    (x % (si.I : Int)) % 2 = ((par % 2 : Nat) : Int)
      ∧ (x / (si.I : Int)) % 2 = ((par / 2 : Nat) : Int) := by
  obtain ⟨k, l, hk, hl, rfl, h0, h1⟩ := h
  obtain ⟨hm, hd⟩ := @walk_point_from_mod cfg si pli _
    (class_start pli ((si.I / 2 : Nat) : Int) par).2 k l h0 h1
  have ea : ∀ v, PLI_COEFF cfg v = v * 2 := fun v => by simp [PLI_COEFF, hcfg]
  have hdet : (pli.a1 * pli.b0 - pli.a0 * pli.b1) % 2 = 1 := by
    rw [hinv.det]; omega
  obtain ⟨p1, p2⟩ := class_start_parity pli ((si.I / 2 : Nat) : Int) par hpar hdet
  rw [hm, hd]
  unfold walk_col_from
  simp only [ea]
  generalize (class_start pli ((si.I / 2 : Nat) : Int) par).1 = v0 at *
  generalize (class_start pli ((si.I / 2 : Nat) : Int) par).2 = v1 at *
  constructor
  · have e1 : k * (pli.a0 * 2) = 2 * (k * pli.a0) := by ring
    have e2 : l * (pli.b0 * 2) = 2 * (l * pli.b0) := by ring
    rw [e1, e2]
    clear hm hd e1 e2
    omega
  · have e1 : k * (pli.a1 * 2) = 2 * (k * pli.a1) := by ring
    have e2 : l * (pli.b1 * 2) = 2 * (l * pli.b1) := by ring
    rw [e1, e2]
    clear hm hd e1 e2
    omega

/-! ## The value of `plattice_starting_vector` under `MOD2_CLASSES_BS` -/

/-- The packing `(v1 << logI) | (v0 + I/2)` of a vector whose column is in
range and whose row is not negative is the integer `v1 * I + v0 + I/2`. -/
theorem starting_vector_pack {si : sieve_info} (hw : si.I = 2 ^ si.logI)
    (v0 v1 : Int) (h0 : 0 ≤ v0 + ((si.I / 2 : Nat) : Int))
    (h1 : v0 + ((si.I / 2 : Nat) : Int) < (si.I : Int)) (hr0 : 0 ≤ v1) :
    Int.lor (v1 * 2 ^ si.logI) (v0 + ((si.I / 2 : Nat) : Int))
      = v1 * (si.I : Int) + (v0 + ((si.I / 2 : Nat) : Int)) := by
  obtain ⟨n, rfl⟩ : ∃ n : Nat, v1 = (n : Int) := ⟨v1.toNat, (Int.toNat_of_nonneg hr0).symm⟩
  obtain ⟨c, hc⟩ : ∃ c : Nat, v0 + ((si.I / 2 : Nat) : Int) = (c : Int) :=
    ⟨(v0 + ((si.I / 2 : Nat) : Int)).toNat, (Int.toNat_of_nonneg h0).symm⟩
  rw [hc] at h1 ⊢
  have hcI : c < 2 ^ si.logI := by rw [← hw]; exact_mod_cast h1
  rw [int_lor_shift n c si.logI hcI, hw]
  push_cast
  rfl

/-- A value below `2^31` passes unchanged through the 32-bit `int` and the
conversion to `plattice_x_t`. -/
theorem starting_vector_exact (cfg : las_config) (y : Int) (h0 : 0 ≤ y) (h31 : y < 2 ^ 31) :
    ((to_int32 y) % 2 ^ x_bits cfg).toNat = y.toNat := by
  rw [to_int32_of_range y (by omega) h31]
  have h : y % 2 ^ x_bits cfg = y := by
    apply Int.emod_eq_of_lt h0
    unfold x_bits
    split_ifs <;> omega
  rw [h]

/-- A value in `[2^31, 2^32)` wraps to a negative `int`, and its conversion to
the 64-bit `plattice_x_t` of `SUPPORT_I16` lies beyond every area. -/
theorem starting_vector_wrap {cfg : las_config} {si : sieve_info} (hf : region_fits cfg si)
    (hs : cfg.SUPPORT_I16 = true) (y : Int) (h31 : 2 ^ 31 ≤ y) (h32 : y < 2 ^ 32) :
    si.I * si.J ≤ ((to_int32 y) % 2 ^ x_bits cfg).toNat := by
  have harea := hf.area
  have e : to_int32 y = y - 2 ^ 32 := by unfold to_int32; omega
  have hx : x_bits cfg = 64 := by unfold x_bits; rw [if_pos hs]
  rw [e, hx]
  omega

/-- The rows of a region of supported size fit an `int32_t`, and a position in
a row up to `J` is below `2^32`. -/
theorem region_fits.rows {cfg : las_config} {si : sieve_info} (hf : region_fits cfg si) :
    si.J < 2 ^ 31 ∧ (si.J + 1) * si.I ≤ 2 ^ 32 := by
  have harea := hf.area
  have hI := hf.I_pos
  have hl := hf.logI_le
  constructor
  · by_contra hcon
    have : si.I * 2 ^ 31 ≤ si.I * si.J := Nat.mul_le_mul_left _ (by omega)
    omega
  · have hw := hf.width
    have e : (2 : Nat) ^ 32 = 2 ^ (32 - si.logI) * 2 ^ si.logI := by
      rw [← pow_add]; congr 1; omega
    rw [hw] at harea ⊢
    rw [e] at harea ⊢
    have hlt : si.J < 2 ^ (32 - si.logI) := by
      by_contra hcon
      have : 2 ^ si.logI * 2 ^ (32 - si.logI) ≤ 2 ^ si.logI * si.J :=
        Nat.mul_le_mul_left _ (by omega)
      rw [Nat.mul_comm (2 ^ si.logI) (2 ^ (32 - si.logI))] at this
      omega
    exact Nat.mul_le_mul_right _ (by omega)

/-- Under `MOD2_CLASSES_BS`, for coefficients `a1`, `b1` that fit an `int32_t`,
the value of `plattice_starting_vector` for the class `par` is the sentinel
when the row `v1` of the vector `class_start` is above `J`, and otherwise the
position `v1 * I + v0 + I/2`, taken in 32 bits and converted to
`plattice_x_t`. -/
theorem plattice_starting_vector_class {cfg : las_config} {si : sieve_info}
    (pli : plattice_info_t) (hcfg : cfg.MOD2_CLASSES_BS = true) (hf : region_fits cfg si)
    (par : Nat) (hpar : par ≤ 3)
    (ha1 : 0 ≤ pli.a1 ∧ pli.a1 < 2 ^ 31) (hb1 : 0 ≤ pli.b1 ∧ pli.b1 < 2 ^ 31)
    (hc0 : 0 ≤ (class_start pli ((si.I / 2 : Nat) : Int) par).1 + ((si.I / 2 : Nat) : Int))
    (hc1 : (class_start pli ((si.I / 2 : Nat) : Int) par).1 + ((si.I / 2 : Nat) : Int)
      < (si.I : Int))
    (hr0 : 0 ≤ (class_start pli ((si.I / 2 : Nat) : Int) par).2) :
    plattice_starting_vector cfg pli si par
      = if (class_start pli ((si.I / 2 : Nat) : Int) par).2 > (si.J : Int)
        then plattice_sentinel cfg
        else ((to_int32 ((class_start pli ((si.I / 2 : Nat) : Int) par).2 * (si.I : Int)
          + ((class_start pli ((si.I / 2 : Nat) : Int) par).1
              + ((si.I / 2 : Nat) : Int)))) % 2 ^ x_bits cfg).toNat := by
  obtain ⟨_, h2⟩ := hf.half
  obtain ⟨hJ31, _⟩ := hf.rows
  have hx : ((1 <<< (si.logI - 1) : Nat) : Int) = ((si.I / 2 : Nat) : Int) := by
    rw [Nat.shiftLeft_eq, h2, one_mul]
  have ea1 : to_int32 pli.a1 = pli.a1 := to_int32_of_range _ (by omega) ha1.2
  have eb1 : to_int32 pli.b1 = pli.b1 := to_int32_of_range _ (by omega) hb1.2
  have eJ : to_int32 (si.J : Int) = (si.J : Int) := to_int32_of_range _ (by omega) (by omega)
  have hkb := class_bit_range pli.b1 pli.b0 par
  have hlb := class_bit_range pli.a1 pli.a0 par
  have hiff : (-(class_bit pli.b1 pli.b0 par) ≠ 0 ∧ -(class_bit pli.a1 pli.a0 par) ≠ 0
        ∧ pli.a0 - pli.b0 = -((si.I / 2 : Nat) : Int) ∧ pli.a1 > pli.b1)
      ↔ (class_bit pli.b1 pli.b0 par = 1 ∧ class_bit pli.a1 pli.a0 par = 1
        ∧ pli.a0 - pli.b0 = -((si.I / 2 : Nat) : Int) ∧ pli.a1 > pli.b1) := by
    constructor
    · rintro ⟨e1, e2, e3, e4⟩
      exact ⟨by omega, by omega, e3, e4⟩
    · rintro ⟨e1, e2, e3, e4⟩
      exact ⟨by omega, by omega, e3, e4⟩
  have hmodel : plattice_starting_vector cfg pli si par
      = if (class_start pli ((si.I / 2 : Nat) : Int) par).2 > (si.J : Int)
        then plattice_sentinel cfg
        else ((to_int32 (Int.lor ((class_start pli ((si.I / 2 : Nat) : Int) par).2 * 2 ^ si.logI)
            ((class_start pli ((si.I / 2 : Nat) : Int) par).1 + ((si.I / 2 : Nat) : Int))))
          % 2 ^ x_bits cfg).toNat := by
    rw [class_start_fst, class_start_snd]
    unfold plattice_starting_vector
    rw [if_neg (by rw [hcfg]; decide)]
    simp only [ea1, eb1, eJ, class_bit_eq _ _ par hpar, int_land_neg_bit _ _ hkb,
      int_land_neg_bit _ _ hlb, hx, decide_eq_true_eq, hiff]
  rw [hmodel, starting_vector_pack hf.width _ _ hc0 hc1 hr0]

/-! ## Lattice hits of a congruence class and the walk of the class -/

/-- Every lattice hit of the class `par` is reached from the starting vector of
the class by adding non-negative multiples of the doubled basis vectors.  The
only vector of the strip with a negative coefficient is `a - b`, at the left
edge, and it is the starting vector of its class. -/
theorem class_hit_reached {cfg : las_config} {si : sieve_info} {pli : plattice_info_t}
    {p r : Nat} (hcfg : cfg.MOD2_CLASSES_BS = true)
    (g1 : -((si.I / 2 : Nat) : Int) < pli.a0) (g2 : pli.a0 < 0) (g3 : 0 < pli.b0)
    (g4 : pli.b0 < ((si.I / 2 : Nat) : Int))
    (hw : ((si.I / 2 : Nat) : Int) ≤ pli.b0 - pli.a0) (g5 : 1 ≤ pli.a1) (g6 : 1 ≤ pli.b1)
    (hinv : BasisInv p r pli) (hp : 0 < p) (hpodd : p % 2 = 1)
    (hI : si.I = 2 * (si.I / 2)) (hH : (si.I / 2) % 2 = 0) (hI0 : 0 < si.I)
    (par : Nat) (hpar : par ≤ 3) (hpar0 : 1 ≤ par) (x : Int) (hx0 : 0 ≤ x)
    (hhit : lattice_hit si p r x)
    (hc : (x % (si.I : Int)) % 2 = ((par % 2 : Nat) : Int))
    (hr : (x / (si.I : Int)) % 2 = ((par / 2 : Nat) : Int)) :
    walk_reached_from cfg si pli
      ((class_start pli ((si.I / 2 : Nat) : Int) par).1 + ((si.I / 2 : Nat) : Int))
      (class_start pli ((si.I / 2 : Nat) : Int) par).2 x := by
  have ea : ∀ v, PLI_COEFF cfg v = v * 2 := fun v => by simp [PLI_COEFF, hcfg]
  have hIpos : (0 : Int) < si.I := by exact_mod_cast hI0
  have hppos : (0 : Int) < p := by exact_mod_cast hp
  have hi0 : 0 ≤ x % (si.I : Int) := Int.emod_nonneg _ (ne_of_gt hIpos)
  have hi1 : x % (si.I : Int) < si.I := Int.emod_lt_of_pos _ hIpos
  have hx := Int.emod_add_ediv x (si.I : Int)
  have hj : 0 ≤ x / (si.I : Int) := Int.ediv_nonneg hx0 (le_of_lt hIpos)
  have hIH : (si.I : Int) = 2 * ((si.I / 2 : Nat) : Int) := by omega
  have hHe : ((si.I / 2 : Nat) : Int) % 2 = 0 := by omega
  unfold lattice_hit at hhit
  generalize hH' : ((si.I / 2 : Nat) : Int) = H at *
  generalize hu : x % (si.I : Int) - H = u at hhit
  generalize hjj : x / (si.I : Int) = j at hhit hj hx hr
  have hdk : (p : Int) ∣ j * pli.b0 - u * pli.b1 := by
    have e : j * pli.b0 - u * pli.b1
        = j * (pli.b0 - (r : Int) * pli.b1) - pli.b1 * (u - (r : Int) * j) := by ring
    rw [e]
    exact dvd_sub (Dvd.dvd.mul_left hinv.lb j) (Dvd.dvd.mul_left hhit _)
  have hdl : (p : Int) ∣ u * pli.a1 - j * pli.a0 := by
    have e : u * pli.a1 - j * pli.a0
        = pli.a1 * (u - (r : Int) * j) - j * (pli.a0 - (r : Int) * pli.a1) := by ring
    rw [e]
    exact dvd_sub (Dvd.dvd.mul_left hhit _) (Dvd.dvd.mul_left hinv.la j)
  obtain ⟨m, hm⟩ := hdk
  obtain ⟨n, hn⟩ := hdl
  have hdet := hinv.det
  have e1 : m * pli.a0 + n * pli.b0 = u := by
    have : (p : Int) * (m * pli.a0 + n * pli.b0) = (p : Int) * u := by
      have : (p : Int) * (m * pli.a0 + n * pli.b0)
          = ((p : Int) * m) * pli.a0 + ((p : Int) * n) * pli.b0 := by ring
      rw [this, ← hm, ← hn, ← hdet]; ring
    exact mul_left_cancel₀ (ne_of_gt hppos) this
  have e2 : m * pli.a1 + n * pli.b1 = j := by
    have : (p : Int) * (m * pli.a1 + n * pli.b1) = (p : Int) * j := by
      have : (p : Int) * (m * pli.a1 + n * pli.b1)
          = ((p : Int) * m) * pli.a1 + ((p : Int) * n) * pli.b1 := by ring
      rw [this, ← hm, ← hn, ← hdet]; ring
    exact mul_left_cancel₀ (ne_of_gt hppos) this
  have hdet2 : (pli.a1 * pli.b0 - pli.a0 * pli.b1) % 2 = 1 := by
    rw [hdet]; omega
  have hu2 : u % 2 = ((par % 2 : Nat) : Int) := by omega
  obtain ⟨pm, pn⟩ := class_coeff_parity m n pli.a0 pli.a1 pli.b0 pli.b1 par hpar hdet2
    (by rw [e1]; exact hu2) (by rw [e2]; exact hr)
  have hm0 : 0 ≤ m := by
    by_contra hneg
    have hk1 : m ≤ -1 := by omega
    rcases le_or_lt n 0 with hl0 | hl0
    · have := mul_le_neg_one hk1 g5
      have := mul_nonpos_of_nonpos_of_nonneg hl0 (show (0 : Int) ≤ pli.b1 by omega)
      omega
    · have := neg_le_mul_of_le_neg_one hk1 (le_of_lt g2)
      have := le_mul_of_one_le (show 1 ≤ n by omega) (le_of_lt g3)
      omega
  have hcases : 0 ≤ n ∨ (m = 1 ∧ n = -1 ∧ pli.a0 - pli.b0 = -H ∧ pli.a1 > pli.b1) := by
    rcases le_or_lt 0 n with hn0 | hn0
    · exact Or.inl hn0
    · right
      have hl1 : n ≤ -1 := by omega
      rcases eq_or_lt_of_le hm0 with hk1 | hk1
      · have := mul_le_neg_one hl1 g6
        rw [← hk1] at e2
        omega
      · have q1 := mul_le_of_one_le (show 1 ≤ m by omega) (le_of_lt g2)
        have q2 := mul_le_neg_of_le_neg_one hl1 (le_of_lt g3)
        have q3 : m * pli.a0 = pli.a0 := by omega
        have q4 : n * pli.b0 = -pli.b0 := by omega
        have hm1 : m = 1 := by
          have : (m - 1) * pli.a0 = 0 := by linarith
          rcases mul_eq_zero.mp this with h | h
          · omega
          · omega
        have hn1 : n = -1 := by
          have : (n + 1) * pli.b0 = 0 := by linarith
          rcases mul_eq_zero.mp this with h | h
          · omega
          · omega
        subst hm1 hn1
        refine ⟨rfl, rfl, by omega, ?_⟩
        by_contra hle
        have hj0 : j = 0 := by omega
        have hu0 : u = -H := by omega
        have : par = 0 := by omega
        omega
  have fin : ∀ v0 v1 k l : Int, 0 ≤ k → 0 ≤ l → v0 + 2 * k * pli.a0 + 2 * l * pli.b0 = u →
      v1 + 2 * k * pli.a1 + 2 * l * pli.b1 = j →
      walk_reached_from cfg si pli (v0 + H) v1 x := by
    intro v0 v1 k l hk hl q1 q2
    have hcol : walk_col_from cfg pli (v0 + H) k l = x % (si.I : Int) := by
      unfold walk_col_from
      rw [ea, ea]
      linarith
    refine ⟨k, l, hk, hl, ?_, by rw [hcol]; exact hi0, by rw [hcol]; exact hi1⟩
    unfold walk_point_from
    rw [hcol, ea, ea]
    have e : v1 + k * (pli.a1 * 2) + l * (pli.b1 * 2) = j := by linarith
    rw [e]
    linarith [mul_comm (si.I : Int) j]
  rw [class_start_fst, class_start_snd]
  split_ifs with hE
  · obtain ⟨k1, l1, E3, E4⟩ := hE
    rcases hcases with hn0 | ⟨hm1, hn1, _, _⟩
    · have hm2 : 2 * (m / 2) = m - 1 := by omega
      have hn2 : 2 * ((n + 1) / 2) = n + 1 := by omega
      refine fin _ _ (m / 2) ((n + 1) / 2) (by omega) (by omega) ?_ ?_
      · rw [hm2, hn2, ← e1]; ring
      · rw [hm2, hn2, ← e2]; ring
    · subst hm1 hn1
      refine fin _ _ 0 0 (le_refl 0) (le_refl 0) ?_ ?_
      · rw [← e1]; ring
      · rw [← e2]; ring
  · rcases hcases with hn0 | ⟨hm1, hn1, E3, E4⟩
    · have hm2 : 2 * (m / 2) = m - m % 2 := by omega
      have hn2 : 2 * (n / 2) = n - n % 2 := by omega
      rw [← pm, ← pn]
      refine fin _ _ (m / 2) (n / 2) (by omega) (by omega) ?_ ?_
      · rw [hm2, hn2, ← e1]; ring
      · rw [hm2, hn2, ← e2]; ring
    · exfalso
      apply hE
      subst hm1 hn1
      exact ⟨by rw [← pm]; rfl, by rw [← pn]; rfl, E3, E4⟩

/-- Under `MOD2_CLASSES_BS` the bounds of the walk on the scaled coefficients
are bounds on the coefficients themselves against the half width, and `a1`,
`b1` fit an `int32_t`. -/
theorem walk_basis_class {cfg : las_config} {si : sieve_info} {pli : plattice_info_t}
    (hcfg : cfg.MOD2_CLASSES_BS = true) (hf : region_fits cfg si) (hb : WalkBasis cfg si pli) :
    -((si.I / 2 : Nat) : Int) < pli.a0 ∧ pli.a0 ≤ 0 ∧ 0 ≤ pli.b0
      ∧ pli.b0 < ((si.I / 2 : Nat) : Int) ∧ 1 ≤ pli.a1 ∧ 1 ≤ pli.b1
      ∧ pli.a1 < 2 ^ 31 ∧ pli.b1 < 2 ^ 31 := by
  have ea : ∀ v, PLI_COEFF cfg v = v * 2 := fun v => by simp [PLI_COEFF, hcfg]
  obtain ⟨heven, _⟩ := hf.half
  have g1 := hb.a0_gt
  have g2 := hb.a0_le
  have g3 := hb.b0_ge
  have g4 := hb.b0_lt
  have g5 := hb.a1_ge
  have g6 := hb.b1_ge
  have g7 := hb.a1_lt
  have g8 := hb.b1_lt
  rw [ea] at g1 g2 g3 g4 g5 g6 g7 g8
  exact ⟨by omega, by omega, by omega, by omega, by omega, by omega, by omega, by omega⟩

/-- Under `MOD2_CLASSES_BS` the starting vector of a class lies in a column of
the strip, in a row that is not negative, and the walk of `fill_in_buckets` for
the class meets the same positions, in the same order, as the reference walk
from that vector; unless the area is larger than `2^31` under `SUPPORT_I16` and
the position of the vector, at least `2^31`, wraps in the 32-bit `int`: then
the walk starts beyond the area and meets nothing. -/
theorem fill_in_buckets_walk_class {cfg : las_config} {si : sieve_info}
    {pli : plattice_info_t} (hcfg : cfg.MOD2_CLASSES_BS = true) (hf : region_fits cfg si)
    (hb : WalkBasis cfg si pli) (par : Nat) (hpar : par ≤ 3) :
    0 ≤ (class_start pli ((si.I / 2 : Nat) : Int) par).1 + ((si.I / 2 : Nat) : Int)
    ∧ (class_start pli ((si.I / 2 : Nat) : Int) par).1 + ((si.I / 2 : Nat) : Int) < (si.I : Int)
    ∧ 0 ≤ (class_start pli ((si.I / 2 : Nat) : Int) par).2
    ∧ ((fill_in_buckets_walk cfg si pli par).map (fun t => t.map (fun e => (e.1 : Int)))
        = exact_walk cfg si pli (si.I * si.J + 1)
            ((class_start pli ((si.I / 2 : Nat) : Int) par).2 * (si.I : Int)
              + ((class_start pli ((si.I / 2 : Nat) : Int) par).1 + ((si.I / 2 : Nat) : Int)))
      ∨ (cfg.SUPPORT_I16 = true ∧ 2 ^ 31 < si.I * si.J
          ∧ (2 : Int) ^ 31 ≤ (class_start pli ((si.I / 2 : Nat) : Int) par).2 * (si.I : Int)
              + ((class_start pli ((si.I / 2 : Nat) : Int) par).1 + ((si.I / 2 : Nat) : Int))
          ∧ fill_in_buckets_walk cfg si pli par = some [])) := by
  obtain ⟨g1, g2, g3, g4, g5, g6, g7, g8⟩ := walk_basis_class hcfg hf hb
  obtain ⟨b1, b2, b3⟩ := class_start_bounds pli ((si.I / 2 : Nat) : Int) par g1 g2 g3 g4 g5 g6
  obtain ⟨heven, _⟩ := hf.half
  obtain ⟨hJ31, hrows⟩ := hf.rows
  have hc0 : 0 ≤ (class_start pli ((si.I / 2 : Nat) : Int) par).1 + ((si.I / 2 : Nat) : Int) := by
    omega
  have hc1 : (class_start pli ((si.I / 2 : Nat) : Int) par).1 + ((si.I / 2 : Nat) : Int)
      < (si.I : Int) := by omega
  refine ⟨hc0, hc1, b3, ?_⟩
  have hmod : (si.I * si.J) % 2 ^ 32 = si.I * si.J := Nat.mod_eq_of_lt hf.area
  have hstart := plattice_starting_vector_class pli hcfg hf par hpar ⟨by omega, g7⟩
    ⟨by omega, g8⟩ hc0 hc1 b3
  have hwalk : fill_in_buckets_walk cfg si pli par
      = fill_walk cfg si (plattice_bound0 cfg pli si) (plattice_bound1 cfg pli si)
          (plattice_a cfg pli si) (plattice_c cfg pli si) (si.I * si.J + 1)
          (plattice_starting_vector cfg pli si par) := by
    unfold fill_in_buckets_walk
    rw [hmod]
  rw [hwalk, hstart]
  generalize (class_start pli ((si.I / 2 : Nat) : Int) par).1 = v0 at *
  generalize (class_start pli ((si.I / 2 : Nat) : Int) par).2 = v1 at *
  have hIpos : (0 : Int) ≤ si.I := by omega
  have hareaZ : ((si.I * si.J : Nat) : Int) = (si.J : Int) * (si.I : Int) := by
    rw [Nat.cast_mul]; ring
  have hrowsZ : ((si.J : Int) + 1) * (si.I : Int) ≤ 2 ^ 32 := by exact_mod_cast hrows
  by_cases hJ : v1 > (si.J : Int)
  · rw [if_pos hJ]
    left
    apply fill_walk_eq_exact hf hb
    right
    refine ⟨hf.area_le.1, ?_⟩
    have h1 : ((si.J : Int) + 1) * (si.I : Int) ≤ v1 * (si.I : Int) :=
      mul_le_mul_of_nonneg_right (by omega) hIpos
    rw [hareaZ]
    linarith
  · rw [if_neg hJ]
    have h1 : 0 ≤ v1 * (si.I : Int) := mul_nonneg b3 hIpos
    have h2 : v1 * (si.I : Int) ≤ (si.J : Int) * (si.I : Int) :=
      mul_le_mul_of_nonneg_right (by omega) hIpos
    have h32 : v1 * (si.I : Int) + (v0 + ((si.I / 2 : Nat) : Int)) < 2 ^ 32 := by linarith
    by_cases h31 : v1 * (si.I : Int) + (v0 + ((si.I / 2 : Nat) : Int)) < 2 ^ 31
    · left
      rw [starting_vector_exact cfg _ (by omega) h31]
      apply fill_walk_eq_exact hf hb
      left
      rw [Int.toNat_of_nonneg (by omega)]
    · have h31' : (2 : Int) ^ 31 ≤ v1 * (si.I : Int) + (v0 + ((si.I / 2 : Nat) : Int)) := by
        omega
      have hs : cfg.SUPPORT_I16 = true := by
        cases hs : cfg.SUPPORT_I16 with
        | true => rfl
        | false =>
          exfalso
          have ha := hf.area32 hs
          have hI30 : si.I ≤ 2 ^ 30 := by
            rw [hf.width]
            exact Nat.pow_le_pow_right (by norm_num) hf.logI_le
          have haZ : (si.J : Int) * (si.I : Int) < 2 ^ 30 := by
            rw [← hareaZ]; exact_mod_cast ha
          have hIZ : (si.I : Int) ≤ 2 ^ 30 := by exact_mod_cast hI30
          omega
      have hout := starting_vector_wrap hf hs _ h31' h32
      by_cases hbig : 2 ^ 31 < si.I * si.J
      · right
        refine ⟨hs, hbig, h31', ?_⟩
        unfold fill_walk
        rw [hmod, if_neg (by omega)]
      · left
        apply fill_walk_eq_exact hf hb
        right
        refine ⟨hout, ?_⟩
        have : ((si.I * si.J : Nat) : Int) ≤ 2 ^ 31 := by exact_mod_cast (by omega : si.I * si.J ≤ 2 ^ 31)
        omega

/-- Under `MOD2_CLASSES_BS` the walk of `fill_in_buckets` for a class returns. -/
theorem fill_in_buckets_walk_class_returns {cfg : las_config} {si : sieve_info}
    {pli : plattice_info_t} (hcfg : cfg.MOD2_CLASSES_BS = true) (hf : region_fits cfg si)
    (hb : WalkBasis cfg si pli)
    (hw : (si.I : Int) ≤ PLI_COEFF cfg pli.b0 - PLI_COEFF cfg pli.a0)
    (par : Nat) (hpar : par ≤ 3) :
    ∃ T, fill_in_buckets_walk cfg si pli par = some T := by
  have hI0 : 0 < si.I := by have := hf.I_pos; omega
  obtain ⟨hc0, hc1, hr0, hmap | ⟨_, _, _, hnil⟩⟩ := fill_in_buckets_walk_class hcfg hf hb par hpar
  · have hIpos : (0 : Int) ≤ si.I := by omega
    have h1 : 0 ≤ (class_start pli ((si.I / 2 : Nat) : Int) par).2 * (si.I : Int) :=
      mul_nonneg hr0 hIpos
    obtain ⟨L, hL⟩ := exact_walk_returns hb hw hI0 (si.I * si.J)
      ((class_start pli ((si.I / 2 : Nat) : Int) par).2 * (si.I : Int)
        + ((class_start pli ((si.I / 2 : Nat) : Int) par).1 + ((si.I / 2 : Nat) : Int)))
      (by omega)
    rw [hL] at hmap
    cases hT : fill_in_buckets_walk cfg si pli par with
    | none => rw [hT] at hmap; simp at hmap
    | some T => exact ⟨T, rfl⟩
  · exact ⟨[], hnil⟩

/-- Under `MOD2_CLASSES_BS` every position met by the walk of a class is
reached from the starting vector of the class. -/
theorem class_walk_reached {cfg : las_config} {si : sieve_info} {pli : plattice_info_t}
    (hcfg : cfg.MOD2_CLASSES_BS = true) (hf : region_fits cfg si) (hb : WalkBasis cfg si pli)
    (hw : (si.I : Int) ≤ PLI_COEFF cfg pli.b0 - PLI_COEFF cfg pli.a0)
    (par : Nat) (hpar : par ≤ 3)
    (T : List (Nat × Bool)) (hT : fill_in_buckets_walk cfg si pli par = some T) :
    ∀ e ∈ T, (e.1 : Int) < ((si.I * si.J : Nat) : Int)
      ∧ walk_reached_from cfg si pli
          ((class_start pli ((si.I / 2 : Nat) : Int) par).1 + ((si.I / 2 : Nat) : Int))
          (class_start pli ((si.I / 2 : Nat) : Int) par).2 (e.1 : Int) := by
  have hI0 : 0 < si.I := by have := hf.I_pos; omega
  intro e he
  obtain ⟨hc0, hc1, hr0, hmap | ⟨_, _, _, hnil⟩⟩ := fill_in_buckets_walk_class hcfg hf hb par hpar
  · rw [hT] at hmap
    simp only [Option.map_some'] at hmap
    have hmem : (e.1 : Int) ∈ T.map (fun e => (e.1 : Int)) := List.mem_map_of_mem _ he
    exact (exact_walk_from_mem_iff hb hw hI0 _ _ hc0 hc1 (si.I * si.J) _ hmap.symm _).1 hmem
  · rw [hT] at hnil
    simp only [Option.some.injEq] at hnil
    rw [hnil] at he
    simp at he

/-- Under `MOD2_CLASSES_BS` the positions met by the walk of the class `par`,
`1 <= par <= 3`, are exactly the lattice hits of the area whose column has the
parity `par mod 2` and whose row has the parity `par div 2`, when the area is
at most `2^31` under `SUPPORT_I16`. -/
theorem class_walk_mem_iff {cfg : las_config} {si : sieve_info} {pli : plattice_info_t}
    {p r : Nat} (hcfg : cfg.MOD2_CLASSES_BS = true) (hf : region_fits cfg si)
    (hsz : cfg.SUPPORT_I16 = true → si.I * si.J ≤ 2 ^ 31)
    (hlogI : 2 ≤ si.logI) (hb : WalkBasis cfg si pli)
    (hw : (si.I : Int) ≤ PLI_COEFF cfg pli.b0 - PLI_COEFF cfg pli.a0)
    (hinv : BasisInv p r pli) (ha0 : pli.a0 < 0) (hb0 : 0 < pli.b0)
    (hp : 0 < p) (hpodd : p % 2 = 1) (par : Nat) (hpar : par ≤ 3) (hpar0 : 1 ≤ par)
    (T : List (Nat × Bool)) (hT : fill_in_buckets_walk cfg si pli par = some T) (x : Nat) :
    (∃ e ∈ T, e.1 = x) ↔ (x < si.I * si.J ∧ lattice_hit si p r (x : Int)
      ∧ (x % si.I) % 2 = par % 2 ∧ (x / si.I) % 2 = par / 2) := by
  have hI0 : 0 < si.I := by have := hf.I_pos; omega
  obtain ⟨heven, hhalf⟩ := hf.half
  have hhalf_even : (si.I / 2) % 2 = 0 := by
    have e : si.logI - 1 = (si.logI - 2) + 1 := by omega
    rw [hhalf, e, pow_succ]; exact Nat.mul_mod_left _ _
  have hI2 : si.I = 2 * (si.I / 2) := by omega
  have ea : ∀ v, PLI_COEFF cfg v = v * 2 := fun v => by simp [PLI_COEFF, hcfg]
  obtain ⟨g1, g2, g3, g4, g5, g6, _, _⟩ := walk_basis_class hcfg hf hb
  have hwH : ((si.I / 2 : Nat) : Int) ≤ pli.b0 - pli.a0 := by
    rw [ea, ea] at hw; omega
  have c1 : ((x % si.I : Nat) : Int) = (x : Int) % (si.I : Int) := by push_cast; rfl
  have c2 : ((x / si.I : Nat) : Int) = (x : Int) / (si.I : Int) := by push_cast; rfl
  constructor
  · rintro ⟨e, he, rfl⟩
    obtain ⟨h1, h2⟩ := class_walk_reached hcfg hf hb hw par hpar T hT e he
    obtain ⟨q1, q2⟩ := class_walk_hit hcfg hinv hpodd hI2 hhalf_even par hpar _ h2
    rw [← c1] at q1
    rw [← c2] at q2
    exact ⟨by exact_mod_cast h1, class_walk_lattice hcfg hinv par _ h2,
      by exact_mod_cast q1, by exact_mod_cast q2⟩
  · rintro ⟨h1, h2, h3, h4⟩
    obtain ⟨hc0, hc1, hr0, hmap | ⟨hs, hbig, _, _⟩⟩ :=
      fill_in_buckets_walk_class hcfg hf hb par hpar
    · rw [hT] at hmap
      simp only [Option.map_some'] at hmap
      have hin : (x : Int) ∈ T.map (fun e => (e.1 : Int)) :=
        (exact_walk_from_mem_iff hb hw hI0 _ _ hc0 hc1 (si.I * si.J) _ hmap.symm (x : Int)).2
          ⟨by exact_mod_cast h1,
            class_hit_reached hcfg g1 ha0 hb0 g4 hwH g5 g6 hinv hp hpodd hI2 hhalf_even hI0
              par hpar hpar0 (x : Int) (by omega) h2
              (by rw [← c1]; exact_mod_cast h3) (by rw [← c2]; exact_mod_cast h4)⟩
      obtain ⟨e, he, hx⟩ := List.mem_map.1 hin
      exact ⟨e, he, by exact_mod_cast hx⟩
    · have := hsz hs
      omega

/-! ## The walk of `fill_in_buckets`: lattice hits and saturation -/

/-- C6: for every congruence class `par` of the loop of `fill_in_buckets`
(`par = 0` without `MOD2_CLASSES_BS`, `par = 1, 2, 3` with it, where the
coefficients are scaled by 2 and the half width is `I/2`), for a basis returned
by `reduce_plattice` with `hI <= p < 2^31` and a region of supported size, every
position `x` met by the walking loop is a lattice hit,
`(x mod I) - I/2 = r * (x div I)` modulo `p`; the pass from `x` adds `plattice_a`
exactly when `i >= I - b0` and `plattice_c` exactly when `i < -a0` (scaled
coefficients), without wrap-around; the new column
`i' = i + [i >= I - b0] a0 + [i < -a0] b0` lies in `[0, I)`, so that the exact
next position is column `i'` of row `j + [i >= I - b0] a1 + [i < -a0] b1`, with
no carry or borrow between the two fields; and the loop moves to that exact
position whenever it lies inside the area, and leaves the area whenever that
exact position does. -/
theorem fill_walk_lattice (cfg : las_config) (si : sieve_info) (p r : Nat)
    (pli : plattice_info_t) (T : List (Nat × Bool)) (par : Nat) (hpar : par ≤ 3)
    (hf : region_fits cfg si) (hp31 : p < 2 ^ 31) (hp : hI cfg si ≤ (p : Int)) (hrp : r < p)
    (h : reduce_plattice cfg p r si = some (some pli))
    (hT : fill_in_buckets_walk cfg si pli par = some T) :
    ∀ e ∈ T,
      lattice_hit si p r (e.1 : Int)
      ∧ fill_walk_step cfg si (plattice_bound0 cfg pli si) (plattice_bound1 cfg pli si)
            (plattice_a cfg pli si) (plattice_c cfg pli si) e.1
          = e.1 + (if (si.I : Int) - PLI_COEFF cfg pli.b0 ≤ (e.1 : Int) % (si.I : Int)
                    then plattice_a cfg pli si else 0)
              + (if (e.1 : Int) % (si.I : Int) < -(PLI_COEFF cfg pli.a0)
                    then plattice_c cfg pli si else 0)
      ∧ (0 ≤ walk_next_col cfg si pli (e.1 : Int)
        ∧ walk_next_col cfg si pli (e.1 : Int) < (si.I : Int)
        ∧ exact_walk_step cfg si pli (e.1 : Int)
          = walk_next_row cfg si pli (e.1 : Int) * (si.I : Int)
            + walk_next_col cfg si pli (e.1 : Int))
      ∧ (exact_walk_step cfg si pli (e.1 : Int) < ((si.I * si.J : Nat) : Int) →
          ((fill_walk_step cfg si (plattice_bound0 cfg pli si) (plattice_bound1 cfg pli si)
            (plattice_a cfg pli si) (plattice_c cfg pli si) e.1 : Nat) : Int)
            = exact_walk_step cfg si pli (e.1 : Int))
      ∧ (((si.I * si.J : Nat) : Int) ≤ exact_walk_step cfg si pli (e.1 : Int) →
          si.I * si.J ≤ fill_walk_step cfg si (plattice_bound0 cfg pli si)
            (plattice_bound1 cfg pli si) (plattice_a cfg pli si) (plattice_c cfg pli si) e.1) := by
  obtain ⟨hb, hw, hinv⟩ := reduce_plattice_walk_basis hf hp31 hp hrp h
  have hI : 0 < si.I := by have := hf.I_pos; omega
  have hp0 : 0 < p := by omega
  intro e he
  have hmem : (e.1 : Int) ∈ T.map (fun e => (e.1 : Int)) := List.mem_map_of_mem _ he
  have hhit : (e.1 : Int) < ((si.I * si.J : Nat) : Int) ∧ lattice_hit si p r (e.1 : Int) := by
    cases hcfg : cfg.MOD2_CLASSES_BS with
    | false =>
      have hL := fill_in_buckets_walk_eq_exact hcfg hf hb par
      rw [hT] at hL
      obtain ⟨_, h2, h3⟩ := (exact_walk_mem_iff hcfg hb hw hinv hp0 hI _ hL.symm _).1 hmem
      exact ⟨h2, h3⟩
    | true =>
      obtain ⟨h2, h3⟩ := class_walk_reached hcfg hf hb hw par hpar T hT e he
      exact ⟨h2, class_walk_lattice hcfg hinv par _ h3⟩
  obtain ⟨h2, h3⟩ := hhit
  have hle : e.1 ≤ plattice_sentinel cfg := by
    have := hf.area_le.1
    have : e.1 < si.I * si.J := by exact_mod_cast h2
    omega
  exact ⟨h3, fill_walk_step_sum hf hb e.1 hle, exact_walk_step_coords hb hI _,
    (fill_walk_step_spec hf hb e.1 hle).1, (fill_walk_step_spec hf hb e.1 hle).2⟩

theorem fill_walk_lattice_witness :
    lattice_hit ⟨16, 8, 4, 0⟩ 17 3 ((86 : Nat) : Int)
      ∧ fill_walk_step ⟨true, false, false, 7⟩ ⟨16, 8, 4, 0⟩
            (plattice_bound0 ⟨true, false, false, 7⟩ ⟨-5, 3, 4, 1⟩ ⟨16, 8, 4, 0⟩)
            (plattice_bound1 ⟨true, false, false, 7⟩ ⟨-5, 3, 4, 1⟩ ⟨16, 8, 4, 0⟩)
            (plattice_a ⟨true, false, false, 7⟩ ⟨-5, 3, 4, 1⟩ ⟨16, 8, 4, 0⟩)
            (plattice_c ⟨true, false, false, 7⟩ ⟨-5, 3, 4, 1⟩ ⟨16, 8, 4, 0⟩) 86
          = 86 + (if ((16 : Nat) : Int) - PLI_COEFF ⟨true, false, false, 7⟩ 3
                      ≤ ((86 : Nat) : Int) % ((16 : Nat) : Int)
                    then plattice_a ⟨true, false, false, 7⟩ ⟨-5, 3, 4, 1⟩ ⟨16, 8, 4, 0⟩ else 0)
              + (if ((86 : Nat) : Int) % ((16 : Nat) : Int)
                      < -(PLI_COEFF ⟨true, false, false, 7⟩ (-5))
                    then plattice_c ⟨true, false, false, 7⟩ ⟨-5, 3, 4, 1⟩ ⟨16, 8, 4, 0⟩ else 0)
      ∧ (0 ≤ walk_next_col ⟨true, false, false, 7⟩ ⟨16, 8, 4, 0⟩ ⟨-5, 3, 4, 1⟩ ((86 : Nat) : Int)
        ∧ walk_next_col ⟨true, false, false, 7⟩ ⟨16, 8, 4, 0⟩ ⟨-5, 3, 4, 1⟩ ((86 : Nat) : Int)
            < ((16 : Nat) : Int)
        ∧ exact_walk_step ⟨true, false, false, 7⟩ ⟨16, 8, 4, 0⟩ ⟨-5, 3, 4, 1⟩ ((86 : Nat) : Int)
          = walk_next_row ⟨true, false, false, 7⟩ ⟨16, 8, 4, 0⟩ ⟨-5, 3, 4, 1⟩ ((86 : Nat) : Int)
              * ((16 : Nat) : Int)
            + walk_next_col ⟨true, false, false, 7⟩ ⟨16, 8, 4, 0⟩ ⟨-5, 3, 4, 1⟩
                ((86 : Nat) : Int))
      ∧ (exact_walk_step ⟨true, false, false, 7⟩ ⟨16, 8, 4, 0⟩ ⟨-5, 3, 4, 1⟩ ((86 : Nat) : Int)
            < ((16 * 8 : Nat) : Int) →
          ((fill_walk_step ⟨true, false, false, 7⟩ ⟨16, 8, 4, 0⟩
            (plattice_bound0 ⟨true, false, false, 7⟩ ⟨-5, 3, 4, 1⟩ ⟨16, 8, 4, 0⟩)
            (plattice_bound1 ⟨true, false, false, 7⟩ ⟨-5, 3, 4, 1⟩ ⟨16, 8, 4, 0⟩)
            (plattice_a ⟨true, false, false, 7⟩ ⟨-5, 3, 4, 1⟩ ⟨16, 8, 4, 0⟩)
            (plattice_c ⟨true, false, false, 7⟩ ⟨-5, 3, 4, 1⟩ ⟨16, 8, 4, 0⟩) 86 : Nat) : Int)
            = exact_walk_step ⟨true, false, false, 7⟩ ⟨16, 8, 4, 0⟩ ⟨-5, 3, 4, 1⟩
                ((86 : Nat) : Int))
      ∧ (((16 * 8 : Nat) : Int)
            ≤ exact_walk_step ⟨true, false, false, 7⟩ ⟨16, 8, 4, 0⟩ ⟨-5, 3, 4, 1⟩
                ((86 : Nat) : Int) →
          16 * 8 ≤ fill_walk_step ⟨true, false, false, 7⟩ ⟨16, 8, 4, 0⟩
            (plattice_bound0 ⟨true, false, false, 7⟩ ⟨-5, 3, 4, 1⟩ ⟨16, 8, 4, 0⟩)
            (plattice_bound1 ⟨true, false, false, 7⟩ ⟨-5, 3, 4, 1⟩ ⟨16, 8, 4, 0⟩)
            (plattice_a ⟨true, false, false, 7⟩ ⟨-5, 3, 4, 1⟩ ⟨16, 8, 4, 0⟩)
            (plattice_c ⟨true, false, false, 7⟩ ⟨-5, 3, 4, 1⟩ ⟨16, 8, 4, 0⟩) 86) :=
  fill_walk_lattice ⟨true, false, false, 7⟩ ⟨16, 8, 4, 0⟩ 17 3 ⟨-5, 3, 4, 1⟩
    [(48, true), (86, true), (124, true)] 2 (by decide)
    ⟨rfl, by decide, by decide, by decide, fun _ => by decide⟩
    (by decide) (by decide) (by decide) (by decide)
    (by
      unfold fill_in_buckets_walk
      rw [plattice_starting_vector_class ⟨-5, 3, 4, 1⟩ rfl
        ⟨rfl, by decide, by decide, by decide, fun _ => by decide⟩ 2 (by decide)
        ⟨by decide, by decide⟩ ⟨by decide, by decide⟩ (by decide) (by decide) (by decide)]
      decide)
    (86, true) (by decide)

/-- C7: saturation of the increments is harmless.  For a basis returned by
`reduce_plattice` with `hI <= p < 2^31` and a region of supported size
(`I * J < 2^30`, or `I * J < 2^32` under `SUPPORT_I16`): whenever `plattice_a`
(resp. `plattice_c`) returns the sentinel, then for every position `x` inside
the area `x` plus the sentinel is outside the area and does not wrap the
coordinate type, and `x` plus the exact increment is outside the area too;
hence the walking loop, from any start and with any fuel, meets the same
positions as the reference walk with exact integer increments, and so does the
walk of `fill_in_buckets` from its starting vector. -/
theorem plattice_saturation_harmless (cfg : las_config) (si : sieve_info) (p r : Nat)
    (pli : plattice_info_t) (hf : region_fits cfg si) (hp31 : p < 2 ^ 31)
    (hp : hI cfg si ≤ (p : Int)) (hrp : r < p)
    (h : reduce_plattice cfg p r si = some (some pli)) :
    (plattice_a cfg pli si = plattice_sentinel cfg → ∀ x : Nat, x < si.I * si.J →
        si.I * si.J ≤ x + plattice_sentinel cfg
        ∧ x + plattice_sentinel cfg < 2 ^ x_bits cfg
        ∧ ((si.I * si.J : Nat) : Int) ≤ (x : Int) + exact_a cfg pli si)
    ∧ (plattice_c cfg pli si = plattice_sentinel cfg → ∀ x : Nat, x < si.I * si.J →
        si.I * si.J ≤ x + plattice_sentinel cfg
        ∧ x + plattice_sentinel cfg < 2 ^ x_bits cfg
        ∧ ((si.I * si.J : Nat) : Int) ≤ (x : Int) + exact_c cfg pli si)
    ∧ (∀ (fuel x0 : Nat),
        (fill_walk cfg si (plattice_bound0 cfg pli si) (plattice_bound1 cfg pli si)
          (plattice_a cfg pli si) (plattice_c cfg pli si) fuel x0).map
            (fun t => t.map (fun e => (e.1 : Int)))
          = exact_walk cfg si pli fuel (x0 : Int))
    ∧ (cfg.MOD2_CLASSES_BS = false →
        (fill_in_buckets_walk cfg si pli 0).map (fun t => t.map (fun e => (e.1 : Int)))
          = fill_in_buckets_walk_exact cfg si pli) := by
  obtain ⟨hb, _, _⟩ := reduce_plattice_walk_basis hf hp31 hp hrp h
  obtain ⟨hM1, hM2⟩ := hf.area_le
  refine ⟨?_, ?_, ?_, ?_⟩
  · intro hs x hx
    refine ⟨by omega, by omega, ?_⟩
    rcases plattice_a_cases hf hb with ⟨_, _, h3⟩ | ⟨_, h2, _, h4⟩
    · omega
    · rw [hs] at h2; omega
  · intro hs x hx
    refine ⟨by omega, by omega, ?_⟩
    rcases plattice_c_cases hf hb with ⟨_, h3⟩ | ⟨h2, _, h4⟩
    · omega
    · rw [hs] at h2; omega
  · intro fuel x0
    exact fill_walk_eq_exact hf hb fuel x0 _ (Or.inl rfl)
  · intro hcfg
    exact fill_in_buckets_walk_eq_exact hcfg hf hb 0

theorem plattice_saturation_harmless_witness :
    (plattice_a ⟨false, false, false, 7⟩ ⟨-13, 3, 16, 1⟩ ⟨16, 8, 4, 0⟩
          = plattice_sentinel ⟨false, false, false, 7⟩ → ∀ x : Nat, x < 16 * 8 →
        16 * 8 ≤ x + plattice_sentinel ⟨false, false, false, 7⟩
        ∧ x + plattice_sentinel ⟨false, false, false, 7⟩ < 2 ^ x_bits ⟨false, false, false, 7⟩
        ∧ ((16 * 8 : Nat) : Int)
            ≤ (x : Int) + exact_a ⟨false, false, false, 7⟩ ⟨-13, 3, 16, 1⟩ ⟨16, 8, 4, 0⟩)
    ∧ (plattice_c ⟨false, false, false, 7⟩ ⟨-13, 3, 16, 1⟩ ⟨16, 8, 4, 0⟩
          = plattice_sentinel ⟨false, false, false, 7⟩ → ∀ x : Nat, x < 16 * 8 →
        16 * 8 ≤ x + plattice_sentinel ⟨false, false, false, 7⟩
        ∧ x + plattice_sentinel ⟨false, false, false, 7⟩ < 2 ^ x_bits ⟨false, false, false, 7⟩
        ∧ ((16 * 8 : Nat) : Int)
            ≤ (x : Int) + exact_c ⟨false, false, false, 7⟩ ⟨-13, 3, 16, 1⟩ ⟨16, 8, 4, 0⟩)
    ∧ (∀ (fuel x0 : Nat),
        (fill_walk ⟨false, false, false, 7⟩ ⟨16, 8, 4, 0⟩
          (plattice_bound0 ⟨false, false, false, 7⟩ ⟨-13, 3, 16, 1⟩ ⟨16, 8, 4, 0⟩)
          (plattice_bound1 ⟨false, false, false, 7⟩ ⟨-13, 3, 16, 1⟩ ⟨16, 8, 4, 0⟩)
          (plattice_a ⟨false, false, false, 7⟩ ⟨-13, 3, 16, 1⟩ ⟨16, 8, 4, 0⟩)
          (plattice_c ⟨false, false, false, 7⟩ ⟨-13, 3, 16, 1⟩ ⟨16, 8, 4, 0⟩) fuel x0).map
            (fun t => t.map (fun e => (e.1 : Int)))
          = exact_walk ⟨false, false, false, 7⟩ ⟨16, 8, 4, 0⟩ ⟨-13, 3, 16, 1⟩ fuel (x0 : Int))
    ∧ ((⟨false, false, false, 7⟩ : las_config).MOD2_CLASSES_BS = false →
        (fill_in_buckets_walk ⟨false, false, false, 7⟩ ⟨16, 8, 4, 0⟩ ⟨-13, 3, 16, 1⟩ 0).map
            (fun t => t.map (fun e => (e.1 : Int)))
          = fill_in_buckets_walk_exact ⟨false, false, false, 7⟩ ⟨16, 8, 4, 0⟩ ⟨-13, 3, 16, 1⟩) :=
  plattice_saturation_harmless ⟨false, false, false, 7⟩ ⟨16, 8, 4, 0⟩ 61 3 ⟨-13, 3, 16, 1⟩
    ⟨rfl, by decide, by decide, by decide, fun _ => by decide⟩
    (by decide) (by decide) (by decide) (by decide)

/-! ## The line sieve of an ordinary prime -/

/-- The innermost loop returns and decreases exactly the offsets
`i, i + twop, i + 2 twop, ...` below `I`. -/
theorem sieve_small_line_spec (I twop : Nat) (ht : 1 ≤ twop) (hw : I + twop ≤ 2 ^ 32) :
    ∀ (n i : Nat), I ≤ i + n →
      ∃ L, sieve_small_line I twop (n + 1) i = some L
        ∧ ∀ x, x ∈ L ↔ (x < I ∧ ∃ k, x = i + k * twop) := by
  intro n
  induction n with
  | zero =>
    intro i hi
    refine ⟨[], ?_, ?_⟩
    · unfold sieve_small_line; rw [if_neg (by omega)]
    · intro x
      simp only [List.not_mem_nil, false_iff, not_and, not_exists]
      intro hx k hk
      have : i ≤ i + k * twop := Nat.le_add_right _ _
      omega
  | succ n ih =>
    intro i hi
    unfold sieve_small_line
    by_cases hlt : i < I
    · rw [if_pos hlt, Nat.mod_eq_of_lt (by omega)]
      obtain ⟨L, hL, hmem⟩ := ih (i + twop) (by omega)
      rw [hL]
      refine ⟨i :: L, rfl, ?_⟩
      intro x
      rw [List.mem_cons, hmem]
      constructor
      · rintro (rfl | ⟨hx, k, rfl⟩)
        · exact ⟨hlt, 0, by simp⟩
        · exact ⟨hx, k + 1, by ring⟩
      · rintro ⟨hx, k, rfl⟩
        cases k with
        | zero => left; simp
        | succ k => right; exact ⟨hx, k, by ring⟩
    · rw [if_neg hlt]
      refine ⟨[], rfl, ?_⟩
      intro x
      simp only [List.not_mem_nil, false_iff, not_and, not_exists]
      intro hx k hk
      have : i ≤ i + k * twop := Nat.le_add_right _ _
      omega

/-- The parity test of the line loop, `(((nj & N) ^ j) & 1) == 0`, holds exactly
when the row `nj * N + j` is even. -/
theorem row_parity_test (nj N j : Nat) :
    ((((nj &&& N) ^^^ j) &&& 1) = 0) ↔ (nj * N + j) % 2 = 0 := by
  rw [Nat.and_one_is_mod]
  have h1 : ((nj &&& N) ^^^ j) % 2 = 1 ↔ ((nj &&& N) ^^^ j).testBit 0 = true := by
    rw [Nat.testBit_zero]; simp
  rw [Nat.testBit_xor, Nat.testBit_and, Nat.testBit_zero, Nat.testBit_zero,
    Nat.testBit_zero] at h1
  rw [Nat.add_mod, Nat.mul_mod]
  have e1 := Nat.mod_two_eq_zero_or_one nj
  have e2 := Nat.mod_two_eq_zero_or_one N
  have e3 := Nat.mod_two_eq_zero_or_one j
  have e4 := Nat.mod_two_eq_zero_or_one ((nj &&& N) ^^^ j)
  rcases e1 with e1 | e1 <;> rcases e2 with e2 | e2 <;> rcases e3 with e3 | e3 <;>
    rcases e4 with e4 | e4 <;> simp [e1, e2, e3, e4] at h1 ⊢

theorem line_hits_odd (p i0 x : Nat) (hi : i0 < p) :
    (∃ k, x = i0 + k * p) ↔ x % p = i0 := by
  constructor
  · rintro ⟨k, rfl⟩
    rw [Nat.add_mul_mod_self_right, Nat.mod_eq_of_lt hi]
  · intro h
    refine ⟨x / p, ?_⟩
    have := Nat.div_add_mod x p
    rw [h] at this
    linarith [mul_comm p (x / p)]

theorem line_hits_even (p i0 x : Nat) (hp : p % 2 = 1) (hi : i0 < p) :
    (∃ k, x = (i0 + (if i0 &&& 1 ≠ 0 then 0 else p)) + k * (p + p))
      ↔ (x % p = i0 ∧ x % 2 = 1) := by
  rw [Nat.and_one_is_mod]
  constructor
  · rintro ⟨k, rfl⟩
    constructor
    · split_ifs with h
      · have e : i0 + 0 + k * (p + p) = i0 + (2 * k) * p := by ring
        rw [e, Nat.add_mul_mod_self_right, Nat.mod_eq_of_lt hi]
      · have e : i0 + p + k * (p + p) = i0 + (2 * k + 1) * p := by ring
        rw [e, Nat.add_mul_mod_self_right, Nat.mod_eq_of_lt hi]
    · have e : k * (p + p) = 2 * (k * p) := by ring
      rw [e]
      split_ifs with h <;> omega
  · rintro ⟨h1, h2⟩
    have hx := Nat.div_add_mod x p
    rw [h1] at hx
    have hq : (p * (x / p)) % 2 = (x / p) % 2 := by
      rw [Nat.mul_mod, hp]; simp
    split_ifs with h
    · have hq0 : (x / p) % 2 = 0 := by omega
      refine ⟨(x / p) / 2, ?_⟩
      have e : x / p = 2 * ((x / p) / 2) := by omega
      have e2 : (x / p) / 2 * (p + p) = p * (2 * ((x / p) / 2)) := by ring
      rw [e2, ← e]; omega
    · have hq1 : (x / p) % 2 = 1 := by omega
      refine ⟨(x / p) / 2, ?_⟩
      have e : x / p = 2 * ((x / p) / 2) + 1 := by omega
      have e2 : i0 + p + (x / p) / 2 * (p + p) = p * (2 * ((x / p) / 2) + 1) + i0 := by ring
      rw [e2, ← e]; omega

/-- The loop over the lines of a region returns (for `I + 2 p <= 2^32`, so that
`i += twop` stays within `unsigned int`); the cursor advances by `r` modulo `p`
per line; and on the line `j'` the offsets decreased are those
`i < I` with `i = cursor` modulo `p`, restricted to odd `i` when the row
`nj * N + j'` is even. -/
theorem sieve_small_lines_spec (si : sieve_info) (nj N p r : Nat) (hp : p % 2 = 1)
    (hp32 : si.I + 2 * p ≤ 2 ^ 32) (hr : r < p) (hI : 0 < si.I) :
    ∀ (lines j i0 : Nat), i0 < p →
      ∃ L, sieve_small_lines si nj N p r lines j i0 = some (L, (i0 + lines * r) % p)
        ∧ ∀ x, x ∈ L ↔ ∃ j' i, x = j' * si.I + i ∧ j ≤ j' ∧ j' < j + lines ∧ i < si.I
            ∧ i % p = (i0 + (j' - j) * r) % p ∧ ((nj * N + j') % 2 = 1 ∨ i % 2 = 1) := by
  have hImod : si.I % 2 ^ 32 = si.I := Nat.mod_eq_of_lt (by omega)
  intro lines
  induction lines with
  | zero =>
    intro j i0 hi
    refine ⟨[], ?_, ?_⟩
    · unfold sieve_small_lines
      simp [Nat.mod_eq_of_lt hi]
    · intro x
      simp only [List.not_mem_nil, false_iff, not_exists, not_and]
      intro j' i _ h1 h2
      omega
  | succ n ih =>
    intro j i0 hi
    have hc : (i0 + r) % p < p := Nat.mod_lt _ (by omega)
    obtain ⟨L', hL', hmem'⟩ := ih (j + 1) ((i0 + r) % p) hc
    have hi2 : (if (i0 + r) % 2 ^ 32 ≥ p then (i0 + r) % 2 ^ 32 - p else (i0 + r) % 2 ^ 32)
        = (i0 + r) % p := by
      rw [Nat.mod_eq_of_lt (show i0 + r < 2 ^ 32 by omega)]
      split_ifs with h
      · rw [Nat.mod_eq_sub_mod h, Nat.mod_eq_of_lt (by omega)]
      · rw [Nat.mod_eq_of_lt (by omega)]
    have hcur : ((i0 + r) % p + n * r) % p = (i0 + (n + 1) * r) % p := by
      rw [Nat.mod_add_mod]; congr 1; ring
    unfold sieve_small_lines
    simp only [hImod, hi2]
    by_cases hev : (((nj &&& N) ^^^ j) &&& 1) = 0
    · -- an even row: odd offsets only
      have hrow : (nj * N + j) % 2 = 0 := (row_parity_test nj N j).1 hev
      simp only [hev, decide_True, ↓reduceIte]
      have e1 : (p + p) % 2 ^ 32 = p + p := Nat.mod_eq_of_lt (by omega)
      have e2 : (i0 + (if i0 &&& 1 ≠ 0 then 0 else p)) % 2 ^ 32
          = i0 + (if i0 &&& 1 ≠ 0 then 0 else p) :=
        Nat.mod_eq_of_lt (by split_ifs <;> omega)
      rw [e1, e2]
      obtain ⟨H, hH, hmemH⟩ := sieve_small_line_spec si.I (p + p) (by omega) (by omega)
        si.I (i0 + (if i0 &&& 1 ≠ 0 then 0 else p)) (by omega)
      rw [hH, hL']
      simp only [hcur]
      refine ⟨_, rfl, ?_⟩
      intro x
      rw [List.mem_append, List.mem_map, hmem']
      constructor
      · rintro (⟨i, hiH, rfl⟩ | ⟨j', i, rfl, h1, h2, h3, h4, h5⟩)
        · obtain ⟨h6, h7⟩ := (hmemH i).1 hiH
          obtain ⟨h8, h9⟩ := (line_hits_even p i0 i hp hi).1 h7
          exact ⟨j, i, rfl, le_refl _, by omega, h6,
            by rw [h8]; simp [Nat.mod_eq_of_lt hi], Or.inr h9⟩
        · refine ⟨j', i, rfl, by omega, by omega, h3, ?_, h5⟩
          rw [h4, Nat.mod_add_mod]
          congr 1
          have : j' - j = (j' - (j + 1)) + 1 := by omega
          rw [this]; ring
      · rintro ⟨j', i, rfl, h1, h2, h3, h4, h5⟩
        rcases Nat.eq_or_lt_of_le h1 with hj | hj
        · left
          subst hj
          simp only [Nat.sub_self, Nat.zero_mul, Nat.add_zero, Nat.mod_eq_of_lt hi] at h4
          have h9 : i % 2 = 1 := by
            rcases h5 with h | h
            · omega
            · exact h
          exact ⟨i, (hmemH i).2 ⟨h3, (line_hits_even p i0 i hp hi).2 ⟨h4, h9⟩⟩, rfl⟩
        · right
          refine ⟨j', i, rfl, by omega, by omega, h3, ?_, h5⟩
          rw [h4, Nat.mod_add_mod]
          congr 1
          have : j' - j = (j' - (j + 1)) + 1 := by omega
          rw [this]; ring
    · -- an odd row: every offset of the progression
      have hrow : (nj * N + j) % 2 = 1 := by
        have := (row_parity_test nj N j).not.1 hev
        omega
      simp only [hev, decide_False, Bool.false_eq_true, ↓reduceIte]
      obtain ⟨H, hH, hmemH⟩ := sieve_small_line_spec si.I p (by omega) (by omega)
        si.I i0 (by omega)
      rw [hH, hL']
      simp only [hcur]
      refine ⟨_, rfl, ?_⟩
      intro x
      rw [List.mem_append, List.mem_map, hmem']
      constructor
      · rintro (⟨i, hiH, rfl⟩ | ⟨j', i, rfl, h1, h2, h3, h4, h5⟩)
        · obtain ⟨h6, h7⟩ := (hmemH i).1 hiH
          have h8 := (line_hits_odd p i0 i hi).1 h7
          exact ⟨j, i, rfl, le_refl _, by omega, h6,
            by rw [h8]; simp [Nat.mod_eq_of_lt hi], Or.inl hrow⟩
        · refine ⟨j', i, rfl, by omega, by omega, h3, ?_, h5⟩
          rw [h4, Nat.mod_add_mod]
          congr 1
          have : j' - j = (j' - (j + 1)) + 1 := by omega
          rw [this]; ring
      · rintro ⟨j', i, rfl, h1, h2, h3, h4, h5⟩
        rcases Nat.eq_or_lt_of_le h1 with hj | hj
        · left
          subst hj
          simp only [Nat.sub_self, Nat.zero_mul, Nat.add_zero, Nat.mod_eq_of_lt hi] at h4
          exact ⟨i, (hmemH i).2 ⟨h3, (line_hits_odd p i0 i hi).2 h4⟩, rfl⟩
        · right
          refine ⟨j', i, rfl, by omega, by omega, h3, ?_, h5⟩
          rw [h4, Nat.mod_add_mod]
          congr 1
          have : j' - j = (j' - (j + 1)) + 1 := by omega
          rw [this]; ring

/-- The number of lines of a bucket region, and the region size in lines. -/
theorem region_lines {cfg : las_config} {si : sieve_info} (hf : region_fits cfg si)
    (hlog : si.logI ≤ cfg.LOG_BUCKET_REGION) :
    (1 <<< cfg.LOG_BUCKET_REGION) >>> si.logI = 2 ^ (cfg.LOG_BUCKET_REGION - si.logI)
      ∧ 1 <<< cfg.LOG_BUCKET_REGION = 2 ^ (cfg.LOG_BUCKET_REGION - si.logI) * si.I := by
  have e : (1 : Nat) <<< cfg.LOG_BUCKET_REGION
      = 2 ^ (cfg.LOG_BUCKET_REGION - si.logI) * 2 ^ si.logI := by
    rw [Nat.shiftLeft_eq, one_mul, ← pow_add]
    congr 1; omega
  constructor
  · rw [Nat.shiftRight_eq_div_pow, e, Nat.mul_div_cancel _ (by positivity)]
  · rw [e, hf.width]

/-- The regions sieved in turn: the run returns, and it decreases exactly the
positions `g * I + i` of the rows `g` of these regions with `i < I`,
`i = I/2 + g * r` modulo `p`, and `g` or `i` odd. -/
theorem line_sieve_regions_spec {cfg : las_config} {si : sieve_info} (p r : Nat)
    (hf : region_fits cfg si) (hlog : si.logI ≤ cfg.LOG_BUCKET_REGION) (hp : p % 2 = 1)
    (hp3 : p ≠ 3) (hp32 : si.I + 2 * p ≤ 2 ^ 32) (hr : r < p) :
    ∀ (count N : Nat),
      ∃ L, line_sieve_regions cfg si p r count N
            ((si.I / 2 + N * 2 ^ (cfg.LOG_BUCKET_REGION - si.logI) * r) % p) = some L
        ∧ ∀ X, X ∈ L ↔ ∃ g i, X = g * si.I + i
            ∧ N * 2 ^ (cfg.LOG_BUCKET_REGION - si.logI) ≤ g
            ∧ g < (N + count) * 2 ^ (cfg.LOG_BUCKET_REGION - si.logI)
            ∧ i < si.I ∧ i % p = (si.I / 2 + g * r) % p ∧ (g % 2 = 1 ∨ i % 2 = 1) := by
  obtain ⟨hnj, hreg⟩ := region_lines hf hlog
  have hI0 : 0 < si.I := by have := hf.I_pos; omega
  generalize hnjdef : 2 ^ (cfg.LOG_BUCKET_REGION - si.logI) = nj at hnj hreg
  intro count
  induction count with
  | zero =>
    intro N
    refine ⟨[], rfl, ?_⟩
    intro X
    simp only [List.not_mem_nil, false_iff, not_exists, not_and]
    intro g i _ h1 h2
    simp only [Nat.add_zero] at h2
    omega
  | succ n ih =>
    intro N
    have hc : (si.I / 2 + N * nj * r) % p < p := Nat.mod_lt _ (by omega)
    obtain ⟨H, hH, hmemH⟩ := sieve_small_lines_spec si nj N p r hp hp32 hr hI0 nj 0 _ hc
    have hcur : ((si.I / 2 + N * nj * r) % p + nj * r) % p
        = (si.I / 2 + (N + 1) * nj * r) % p := by
      rw [Nat.mod_add_mod]; congr 1; ring
    obtain ⟨L', hL', hmem'⟩ := ih (N + 1)
    unfold line_sieve_regions sieve_small_bucket_region
    simp only [hnj, if_neg hp3, hH, hcur, hL']
    refine ⟨_, rfl, ?_⟩
    intro X
    rw [List.mem_append, List.mem_map, hmem']
    have hshift : N <<< cfg.LOG_BUCKET_REGION = N * nj * si.I := by
      rw [Nat.shiftLeft_eq, ← Nat.one_shiftLeft, hreg]; ring
    constructor
    · rintro (⟨x, hx, rfl⟩ | ⟨g, i, rfl, h1, h2, h3, h4, h5⟩)
      · obtain ⟨j', i, rfl, _, h2, h3, h4, h5⟩ := (hmemH x).1 hx
        refine ⟨N * nj + j', i, by rw [hshift]; ring, by omega, ?_, h3, ?_, ?_⟩
        · have : (N + (n + 1)) * nj = N * nj + nj + n * nj := by ring
          omega
        · rw [h4, Nat.sub_zero, Nat.mod_add_mod]; congr 1; ring
        · rw [mul_comm nj N] at h5; exact h5
      · refine ⟨g, i, rfl, ?_, ?_, h3, h4, h5⟩
        · have : (N + 1) * nj = N * nj + nj := by ring
          omega
        · have : (N + 1 + n) * nj = (N + (n + 1)) * nj := by ring
          omega
    · rintro ⟨g, i, rfl, h1, h2, h3, h4, h5⟩
      by_cases hg : g < (N + 1) * nj
      · left
        have hg' : g < N * nj + nj := by
          have : (N + 1) * nj = N * nj + nj := by ring
          omega
        refine ⟨(g - N * nj) * si.I + i, (hmemH _).2 ⟨g - N * nj, i, rfl, by omega, by omega,
          h3, ?_, ?_⟩, ?_⟩
        · rw [h4, Nat.sub_zero, Nat.mod_add_mod]; congr 1
          have : g = N * nj + (g - N * nj) := by omega
          conv_lhs => rw [this]
          ring
        · have : nj * N + (g - N * nj) = g := by rw [mul_comm nj N]; omega
          rw [this]; exact h5
        · rw [hshift]
          have : g = N * nj + (g - N * nj) := by omega
          conv_rhs => rw [this]
          ring
      · right
        refine ⟨g, i, rfl, by omega, ?_, h3, h4, h5⟩
        have : (N + 1 + n) * nj = (N + (n + 1)) * nj := by ring
        omega

/-- The line sieve of the whole area, when the regions cover exactly `I * J`:
it returns, and it decreases exactly the positions `x < I * J` with
`x mod I = I/2 + (x div I) * r` modulo `p` and `x div I` or `x` odd. -/
theorem line_sieve_spec {cfg : las_config} {si : sieve_info} (p r : Nat)
    (hf : region_fits cfg si) (hlog : si.logI ≤ cfg.LOG_BUCKET_REGION)
    (hcover : nb_buckets cfg si * 2 ^ cfg.LOG_BUCKET_REGION = si.I * si.J)
    (hp : p % 2 = 1) (hp3 : p ≠ 3) (hp32 : si.I + 2 * p ≤ 2 ^ 32) (hr : r < p) :
    ∃ L, line_sieve cfg si p r = some L
      ∧ ∀ X, X ∈ L ↔ (X < si.I * si.J ∧ (X % si.I) % p = (si.I / 2 + (X / si.I) * r) % p
          ∧ ((X / si.I) % 2 = 1 ∨ X % 2 = 1)) := by
  obtain ⟨hnj, hreg⟩ := region_lines hf hlog
  have hI0 : 0 < si.I := by have := hf.I_pos; omega
  obtain ⟨heven, _⟩ := hf.half
  have hJ : nb_buckets cfg si * 2 ^ (cfg.LOG_BUCKET_REGION - si.logI) = si.J := by
    have e : (2 : Nat) ^ cfg.LOG_BUCKET_REGION
        = 2 ^ (cfg.LOG_BUCKET_REGION - si.logI) * si.I := by
      rw [← Nat.one_shiftLeft]; exact hreg
    rw [e] at hcover
    have : nb_buckets cfg si * 2 ^ (cfg.LOG_BUCKET_REGION - si.logI) * si.I
        = si.J * si.I := by rw [mul_comm si.J, ← hcover]; ring
    exact Nat.eq_of_mul_eq_mul_right hI0 this
  obtain ⟨L, hL, hmem⟩ := line_sieve_regions_spec p r hf hlog hp hp3 hp32 hr
    (nb_buckets cfg si) 0
  refine ⟨L, ?_, ?_⟩
  · unfold line_sieve small_sieve_start
    have e : (si.I / 2 + 0 * r) % 2 ^ 32 = si.I / 2 := by
      rw [Nat.zero_mul, Nat.add_zero]; exact Nat.mod_eq_of_lt (by have := hf.I_lt; omega)
    rw [e]
    simpa using hL
  · intro X
    rw [hmem]
    simp only [Nat.zero_mul, Nat.zero_add, Nat.zero_le, true_and, hJ]
    constructor
    · rintro ⟨g, i, rfl, h2, h3, h4, h5⟩
      have e1 : (g * si.I + i) % si.I = i := by
        rw [Nat.mul_add_mod_of_lt h3]
      have e2 : (g * si.I + i) / si.I = g := by
        rw [add_comm, Nat.add_mul_div_right _ _ hI0, Nat.div_eq_of_lt h3, Nat.zero_add]
      have e3 : (g * si.I + i) % 2 = i % 2 := by
        have : g * si.I = 2 * (g * (si.I / 2)) := by
          have : si.I = 2 * (si.I / 2) := by omega
          conv_lhs => rw [this]
          ring
        omega
      rw [e1, e2, e3]
      refine ⟨?_, h4, h5⟩
      calc g * si.I + i < g * si.I + si.I := by omega
        _ = (g + 1) * si.I := by ring
        _ ≤ si.J * si.I := Nat.mul_le_mul_right _ (by omega)
        _ = si.I * si.J := mul_comm _ _
    · rintro ⟨h1, h2, h3⟩
      have hdm := Nat.div_add_mod X si.I
      refine ⟨X / si.I, X % si.I, by linarith [mul_comm si.I (X / si.I)], ?_,
        Nat.mod_lt _ hI0, h2, ?_⟩
      · by_contra hge
        have : si.J * si.I ≤ (X / si.I) * si.I := Nat.mul_le_mul_right _ (by omega)
        have := Nat.div_mul_le_self X si.I
        have : si.J * si.I = si.I * si.J := mul_comm _ _
        omega
      · rcases h3 with h | h
        · exact Or.inl h
        · right
          have : si.I * (X / si.I) = 2 * ((si.I / 2) * (X / si.I)) := by
            rw [← Nat.mul_assoc, Nat.mul_div_cancel' (Nat.dvd_of_mod_eq_zero heven)]
          omega

/-! ## The deposit test and the pushes -/

theorem and_even_mask_ne_zero (x k : Nat) :
    (x &&& (2 ^ k ||| 1) ≠ 0) ↔ ((x / 2 ^ k) % 2 = 1 ∨ x % 2 = 1) := by
  have hbit : ∀ i, (x &&& (2 ^ k ||| 1)).testBit i
      = (x.testBit i && (decide (k = i) || decide (0 = i))) := by
    intro i
    rw [Nat.testBit_and, Nat.testBit_or, Nat.testBit_two_pow]
    have : (1 : Nat).testBit i = decide (0 = i) := by
      have := @Nat.testBit_two_pow 0 i
      simpa using this
    rw [this]
  constructor
  · intro h
    obtain ⟨i, hi⟩ := Nat.ne_zero_implies_bit_true h
    rw [hbit] at hi
    simp only [Bool.and_eq_true, Bool.or_eq_true, decide_eq_true_eq] at hi
    obtain ⟨h1, h2 | h2⟩ := hi
    · left; subst h2
      rw [Nat.testBit_to_div_mod] at h1
      simpa using h1
    · right; subst h2
      rw [Nat.testBit_to_div_mod] at h1
      simpa using h1
  · intro h hz
    have hk := hbit k
    have h0 := hbit 0
    rw [hz, Nat.zero_testBit] at hk h0
    rw [Nat.testBit_to_div_mod] at hk h0
    rcases h with h | h
    · simp [h] at hk
    · simp [h] at h0

/-- Without congruence classes and without `SKIP_GCD3`, the deposit test holds
exactly when the row `x div I` or the position `x` is odd. -/
theorem fill_deposit_test_iff {cfg : las_config} {si : sieve_info}
    (hcfg : cfg.MOD2_CLASSES_BS = false) (hg3 : cfg.SKIP_GCD3 = false)
    (hw : si.I = 2 ^ si.logI) (hl : si.logI ≤ 31) (x : Nat) :
    fill_deposit_test cfg si x = true ↔ ((x / si.I) % 2 = 1 ∨ x % 2 = 1) := by
  have e : (1 <<< si.logI) % 2 ^ 32 = 2 ^ si.logI := by
    rw [Nat.shiftLeft_eq, one_mul]
    exact Nat.mod_eq_of_lt (Nat.pow_lt_pow_right (by norm_num) (by omega))
  unfold fill_deposit_test
  simp only [hcfg, hg3, e, Bool.false_or, Bool.not_false, Bool.true_or, Bool.and_true,
    decide_eq_true_eq]
  rw [and_even_mask_ne_zero, hw]

/-- Each entry of the trace of the loop carries the outcome of the deposit test
at its position. -/
theorem fill_walk_flags (cfg : las_config) (si : sieve_info) (bound0 bound1 inc_a inc_c : Nat) :
    ∀ (fuel x : Nat) (T : List (Nat × Bool)),
      fill_walk cfg si bound0 bound1 inc_a inc_c fuel x = some T →
      ∀ e ∈ T, e.2 = fill_deposit_test cfg si e.1 := by
  intro fuel
  induction fuel with
  | zero => intro x T h; simp [fill_walk] at h
  | succ n ih =>
    intro x T h e he
    unfold fill_walk at h
    split_ifs at h with hx
    · cases hrec : fill_walk cfg si bound0 bound1 inc_a inc_c n
          (fill_walk_step cfg si bound0 bound1 inc_a inc_c x) with
      | none => rw [hrec] at h; simp at h
      | some rest =>
        rw [hrec] at h
        simp only [Option.some.injEq] at h
        subst h
        rcases List.mem_cons.1 he with rfl | he'
        · rfl
        · exact ih _ _ hrec e he'
    · simp only [Option.some.injEq] at h
      subst h
      simp at he

/-- For a bucket region of at most `2^16` bytes the pair pushed for `x` (bucket
number, 16-bit offset) stands for the position `x`. -/
theorem push_position_fill_push (cfg : las_config) (enc x : Nat)
    (hlog : cfg.LOG_BUCKET_REGION ≤ 16) :
    push_position cfg (fill_push cfg enc x) = x
      ∧ fill_push cfg enc x
        = (x / 2 ^ cfg.LOG_BUCKET_REGION, { x := x % 2 ^ cfg.LOG_BUCKET_REGION, p := enc }) := by
  have h16 : 2 ^ cfg.LOG_BUCKET_REGION ≤ 2 ^ 16 := Nat.pow_le_pow_right (by norm_num) hlog
  have hpos : 0 < 2 ^ cfg.LOG_BUCKET_REGION := by positivity
  have hm : ((1 <<< cfg.LOG_BUCKET_REGION) + (2 ^ 32 - 1)) % 2 ^ 32
      = 2 ^ cfg.LOG_BUCKET_REGION - 1 := by
    rw [Nat.shiftLeft_eq, one_mul]; omega
  have hx : x % 2 ^ cfg.LOG_BUCKET_REGION < 2 ^ cfg.LOG_BUCKET_REGION := Nat.mod_lt _ hpos
  have hpush : fill_push cfg enc x
      = (x / 2 ^ cfg.LOG_BUCKET_REGION, { x := x % 2 ^ cfg.LOG_BUCKET_REGION, p := enc }) := by
    unfold fill_push
    simp only [hm, Nat.and_pow_two_sub_one_eq_mod, Nat.shiftRight_eq_div_pow]
    rw [Nat.mod_eq_of_lt (show x % 2 ^ cfg.LOG_BUCKET_REGION < 2 ^ 16 by omega)]
  refine ⟨?_, hpush⟩
  rw [hpush]
  unfold push_position
  simp only [Nat.shiftLeft_eq]
  have := Nat.div_add_mod x (2 ^ cfg.LOG_BUCKET_REGION)
  linarith [mul_comm (2 ^ cfg.LOG_BUCKET_REGION) (x / 2 ^ cfg.LOG_BUCKET_REGION)]

/-- A prime `p < 2^31` with `0 < r < p` is never rejected by `reduce_plattice` when
the half width is at least 2. -/
theorem reduce_plattice_prime {cfg : las_config} {si : sieve_info} {p r : Nat}
    (hprime : Nat.Prime p) (hp31 : p < 2 ^ 31) (hr0 : 0 < r) (hrp : r < p)
    (hH : 2 ≤ hI cfg si) :
    ∃ pli, reduce_plattice cfg p r si = some (some pli) := by
  obtain ⟨s, hs, he, hb⟩ := reduce_plattice_returns cfg p r si hp31 hrp (by omega)
  have hg : Nat.gcd p r = 1 := by
    have hc : Nat.Coprime p r := (Nat.Prime.coprime_iff_not_dvd hprime).2
      (fun hd => by have := Nat.le_of_dvd hr0 hd; omega)
    exact hc
  rw [hs]
  cases hfin : reduce_finish (hI cfg si) s with
  | none =>
    have := (reduce_finish_none_iff hr0 he hb).1 hfin
    rw [hg] at this
    omega
  | some pli => exact ⟨pli, rfl⟩

/-! ## Bucket walk and line sieve mark the same positions -/

theorem lattice_hit_iff (si : sieve_info) (p r x : Nat) :
    lattice_hit si p r (x : Int) ↔ (x % si.I) % p = (si.I / 2 + (x / si.I) * r) % p := by
  unfold lattice_hit
  have h : (si.I / 2 + (x / si.I) * r) % p = (x % si.I) % p
      ↔ (p : Int) ∣ ((x % si.I : Nat) : Int) - ((si.I / 2 + (x / si.I) * r : Nat) : Int) :=
    Nat.modEq_iff_dvd
  rw [eq_comm, h]
  have e : ((x % si.I : Nat) : Int) - ((si.I / 2 + (x / si.I) * r : Nat) : Int)
      = (x : Int) % (si.I : Int) - ((si.I / 2 : Nat) : Int) - (r : Int) * ((x : Int) / (si.I : Int)) := by
    push_cast; ring
  rw [e]

/-- Under `MOD2_CLASSES_BS` the deposit test holds at every position. -/
theorem fill_deposit_test_classes {cfg : las_config} (si : sieve_info)
    (hcfg : cfg.MOD2_CLASSES_BS = true) (x : Nat) : fill_deposit_test cfg si x = true := by
  unfold fill_deposit_test
  simp [hcfg]

/-- The positions pushed for a trace all of whose entries passed the deposit
test are the positions of the trace. -/
theorem mem_pushes_iff (cfg : las_config) (enc : Nat) (hlog16 : cfg.LOG_BUCKET_REGION ≤ 16)
    (T : List (Nat × Bool)) (hall : ∀ e ∈ T, e.2 = true) (x : Nat) :
    x ∈ (((T.filter (fun e => e.2)).map (fun e => fill_push cfg enc e.1)).map
        (push_position cfg)) ↔ ∃ e ∈ T, e.1 = x := by
  simp only [List.map_map, List.mem_map, List.mem_filter, Function.comp,
    (push_position_fill_push cfg enc _ hlog16).1]
  constructor
  · rintro ⟨e, ⟨he, _⟩, rfl⟩; exact ⟨e, he, rfl⟩
  · rintro ⟨e, he, rfl⟩; exact ⟨e, ⟨he, hall e he⟩, rfl⟩

/-- Under `MOD2_CLASSES_BS` the pushes of `fill_in_buckets` for one prime are
the positions met by the walks of the classes 1, 2 and 3, which all return. -/
theorem fill_in_buckets_prime_classes (cfg : las_config) (si : sieve_info) (p r enc : Nat)
    (pli : plattice_info_t) (hcfg : cfg.MOD2_CLASSES_BS = true) (hf : region_fits cfg si)
    (hlog16 : cfg.LOG_BUCKET_REGION ≤ 16) (hpodd : p % 2 = 1) (hpq : p ≠ si.q)
    (hp31 : p < 2 ^ 31) (hpH : hI cfg si ≤ (p : Int)) (hr0 : 0 < r) (hrp : r < p)
    (hred : reduce_plattice cfg p r si = some (some pli)) :
    ∃ T1 T2 T3 B, fill_in_buckets_walk cfg si pli 1 = some T1
      ∧ fill_in_buckets_walk cfg si pli 2 = some T2
      ∧ fill_in_buckets_walk cfg si pli 3 = some T3
      ∧ fill_in_buckets_prime cfg si p r enc = some B
      ∧ ∀ x, x ∈ B.map (push_position cfg)
          ↔ ((∃ e ∈ T1, e.1 = x) ∨ (∃ e ∈ T2, e.1 = x) ∨ (∃ e ∈ T3, e.1 = x)) := by
  obtain ⟨hb, hw, hinv⟩ := reduce_plattice_walk_basis hf hp31 hpH hrp hred
  obtain ⟨T1, hT1⟩ := fill_in_buckets_walk_class_returns hcfg hf hb hw 1 (by norm_num)
  obtain ⟨T2, hT2⟩ := fill_in_buckets_walk_class_returns hcfg hf hb hw 2 (by norm_num)
  obtain ⟨T3, hT3⟩ := fill_in_buckets_walk_class_returns hcfg hf hb hw 3 (by norm_num)
  have hall : ∀ (par : Nat) (T : List (Nat × Bool)), fill_in_buckets_walk cfg si pli par = some T →
      ∀ e ∈ T, e.2 = true := by
    intro par T hT e he
    rw [fill_walk_flags cfg si _ _ _ _ _ _ T hT e he]
    exact fill_deposit_test_classes si hcfg e.1
  refine ⟨T1, T2, T3, (T1.filter (fun e => e.2)).map (fun e => fill_push cfg enc e.1)
      ++ ((T2.filter (fun e => e.2)).map (fun e => fill_push cfg enc e.1)
      ++ ((T3.filter (fun e => e.2)).map (fun e => fill_push cfg enc e.1) ++ [])),
      hT1, hT2, hT3, ?_, ?_⟩
  · unfold fill_in_buckets_prime
    rw [if_neg (by omega), if_neg hpq]
    simp only [if_neg (show ¬ r = 0 by omega), if_neg (show ¬ r = p by omega),
      if_neg (show ¬ r > p by omega), hred, hcfg, ↓reduceIte]
    unfold fill_in_buckets_parities
    simp only [hT1]
    unfold fill_in_buckets_parities
    simp only [hT2]
    unfold fill_in_buckets_parities
    simp only [hT3]
    unfold fill_in_buckets_parities
    rfl
  · intro x
    rw [List.map_append, List.map_append, List.map_append, List.mem_append, List.mem_append,
      List.mem_append, mem_pushes_iff cfg enc hlog16 T1 (hall 1 T1 hT1),
      mem_pushes_iff cfg enc hlog16 T2 (hall 2 T2 hT2),
      mem_pushes_iff cfg enc hlog16 T3 (hall 3 T3 hT3)]
    simp only [List.map_nil, List.not_mem_nil, or_false]

/-- Bucket walk and line sieve under `MOD2_CLASSES_BS`, where the walks of the
three classes deposit at every position they meet, for an area of at most
`2^31` positions under `SUPPORT_I16`. -/
theorem walk_line_classes (cfg : las_config) (si : sieve_info) (p r enc : Nat)
    (hcfg : cfg.MOD2_CLASSES_BS = true)
    (hsz : cfg.SUPPORT_I16 = true → si.I * si.J ≤ 2 ^ 31)
    (hf : region_fits cfg si) (hlogI : 2 ≤ si.logI)
    (hlog : si.logI ≤ cfg.LOG_BUCKET_REGION) (hlog16 : cfg.LOG_BUCKET_REGION ≤ 16)
    (hcover : nb_buckets cfg si * 2 ^ cfg.LOG_BUCKET_REGION = si.I * si.J)
    (hprime : Nat.Prime p) (hpq : p ≠ si.q) (hpI : si.I ≤ p) (hp32 : si.I + 2 * p ≤ 2 ^ 32)
    (hr0 : 0 < r) (hrp : r < p) :
    ∃ B L, fill_in_buckets_prime cfg si p r enc = some B ∧ line_sieve cfg si p r = some L
      ∧ ∀ x, x ∈ B.map (push_position cfg) ↔ x ∈ L := by
  have hI4 : 4 ≤ si.I := by
    rw [hf.width]
    calc 4 = 2 ^ 2 := by norm_num
      _ ≤ 2 ^ si.logI := Nat.pow_le_pow_right (by norm_num) hlogI
  have hI0 : 0 < si.I := by omega
  obtain ⟨heven, hhalf⟩ := hf.half
  have hpodd : p % 2 = 1 := by
    rcases hprime.eq_two_or_odd with h | h
    · omega
    · exact h
  have hp3 : p ≠ 3 := by omega
  have hp31 : p < 2 ^ 31 := by omega
  have ea : ∀ v, PLI_COEFF cfg v = v * 2 := fun v => by simp [PLI_COEFF, hcfg]
  obtain ⟨hH1, hHI⟩ := hf.hI_eq
  rw [ea] at hHI
  have hH2 : 2 ≤ hI cfg si := by omega
  have hpH : hI cfg si ≤ (p : Int) := by omega
  obtain ⟨pli, hred⟩ := @reduce_plattice_prime cfg si p r hprime hp31 hr0 hrp hH2
  obtain ⟨hb, hw, hinv⟩ := reduce_plattice_walk_basis hf hp31 hpH hrp hred
  obtain ⟨_, ha0, hb0, _⟩ := reduce_plattice_basis_bounds hp31 hH1 hpH hrp hred
  obtain ⟨T1, T2, T3, B, hT1, hT2, hT3, hB, hmemB⟩ :=
    fill_in_buckets_prime_classes cfg si p r enc pli hcfg hf hlog16 hpodd hpq hp31 hpH hr0 hrp
      hred
  obtain ⟨L, hL, hmemL⟩ := line_sieve_spec p r hf hlog hcover hpodd hp3 hp32 hrp
  refine ⟨B, L, hB, hL, ?_⟩
  intro x
  have m1 := class_walk_mem_iff hcfg hf hsz hlogI hb hw hinv ha0 hb0 (by omega : 0 < p) hpodd
    1 (by norm_num) (by norm_num) T1 hT1 x
  have m2 := class_walk_mem_iff hcfg hf hsz hlogI hb hw hinv ha0 hb0 (by omega : 0 < p) hpodd
    2 (by norm_num) (by norm_num) T2 hT2 x
  have m3 := class_walk_mem_iff hcfg hf hsz hlogI hb hw hinv ha0 hb0 (by omega : 0 < p) hpodd
    3 (by norm_num) (by norm_num) T3 hT3 x
  rw [hmemB, m1, m2, m3, hmemL, lattice_hit_iff si p r x]
  have hx2 : x % 2 = (x % si.I) % 2 := by
    have := Nat.div_add_mod x si.I
    have hI2 : si.I = 2 * (si.I / 2) := by omega
    rw [hI2] at this ⊢
    generalize x / (2 * (si.I / 2)) = q at *
    generalize x % (2 * (si.I / 2)) = m at *
    have e : 2 * (si.I / 2) * q = 2 * (si.I / 2 * q) := by ring
    omega
  rw [hx2]
  have ha : (x % si.I) % 2 < 2 := Nat.mod_lt _ (by norm_num)
  have hb2 : (x / si.I) % 2 < 2 := Nat.mod_lt _ (by norm_num)
  generalize (x % si.I) % 2 = a at ha ⊢
  generalize (x / si.I) % 2 = b at hb2 ⊢
  constructor
  · rintro (⟨h1, h2, h3, h4⟩ | ⟨h1, h2, h3, h4⟩ | ⟨h1, h2, h3, h4⟩) <;>
      exact ⟨h1, h2, by omega⟩
  · rintro ⟨h1, h2, h3⟩
    have hcase : (a = 1 ∧ b = 0) ∨ (a = 0 ∧ b = 1) ∨ (a = 1 ∧ b = 1) := by omega
    rcases hcase with ⟨q1, q2⟩ | ⟨q1, q2⟩ | ⟨q1, q2⟩
    · exact Or.inl ⟨h1, h2, by omega, by omega⟩
    · exact Or.inr (Or.inl ⟨h1, h2, by omega, by omega⟩)
    · exact Or.inr (Or.inr ⟨h1, h2, by omega, by omega⟩)

/-- Bucket walk and line sieve without congruence classes and without
`SKIP_GCD3`. -/
theorem walk_line_plain (cfg : las_config) (si : sieve_info) (p r enc : Nat)
    (hcfg : cfg.MOD2_CLASSES_BS = false) (hg3 : cfg.SKIP_GCD3 = false)
    (hf : region_fits cfg si) (hlogI : 2 ≤ si.logI)
    (hlog : si.logI ≤ cfg.LOG_BUCKET_REGION) (hlog16 : cfg.LOG_BUCKET_REGION ≤ 16)
    (hcover : nb_buckets cfg si * 2 ^ cfg.LOG_BUCKET_REGION = si.I * si.J)
    (hprime : Nat.Prime p) (hpq : p ≠ si.q) (hpI : si.I ≤ p) (hp32 : si.I + 2 * p ≤ 2 ^ 32)
    (hr0 : 0 < r) (hrp : r < p) :
    ∃ B L, fill_in_buckets_prime cfg si p r enc = some B ∧ line_sieve cfg si p r = some L
      ∧ ∀ x, x ∈ B.map (push_position cfg) ↔ x ∈ L := by
  have hI4 : 4 ≤ si.I := by
    rw [hf.width]
    calc 4 = 2 ^ 2 := by norm_num
      _ ≤ 2 ^ si.logI := Nat.pow_le_pow_right (by norm_num) hlogI
  have hI0 : 0 < si.I := by omega
  obtain ⟨heven, hhalf⟩ := hf.half
  have hhalf_even : (si.I / 2) % 2 = 0 := by
    have e : si.logI - 1 = (si.logI - 2) + 1 := by omega
    rw [hhalf, e, pow_succ]; exact Nat.mul_mod_left _ _
  have hpodd : p % 2 = 1 := by
    rcases hprime.eq_two_or_odd with h | h
    · omega
    · exact h
  have hp3 : p ≠ 3 := by omega
  have hp31 : p < 2 ^ 31 := by omega
  have hHI : hI cfg si = (si.I : Int) := by
    rw [hI_of_lt cfg si (by omega)]
    simp [hcfg]
  obtain ⟨pli, hred⟩ := @reduce_plattice_prime cfg si p r hprime hp31 hr0 hrp
    (by rw [hHI]; omega)
  obtain ⟨hb, hw, hinv⟩ := reduce_plattice_walk_basis hf hp31
    (by rw [hHI]; exact_mod_cast hpI) hrp hred
  -- the reference walk returns, hence so does the walk of `fill_in_buckets`
  have hstart := exact_walk_step_gt hb hw hI0 ((si.I / 2 : Nat) : Int)
  obtain ⟨Lx, hLx⟩ := exact_walk_returns hb hw hI0 (si.I * si.J)
    (exact_walk_step cfg si pli ((si.I / 2 : Nat) : Int)) (by omega)
  have hLx' : fill_in_buckets_walk_exact cfg si pli = some Lx := hLx
  have hmap := fill_in_buckets_walk_eq_exact hcfg hf hb 0
  rw [hLx'] at hmap
  cases hT : fill_in_buckets_walk cfg si pli 0 with
  | none => rw [hT] at hmap; simp at hmap
  | some T =>
    rw [hT] at hmap
    simp only [Option.map_some', Option.some.injEq] at hmap
    have hflags : ∀ e ∈ T, e.2 = fill_deposit_test cfg si e.1 :=
      fill_walk_flags cfg si _ _ _ _ _ _ T hT
    obtain ⟨L, hL, hmemL⟩ := line_sieve_spec p r hf hlog hcover hpodd hp3 hp32 hrp
    refine ⟨(T.filter (fun e => e.2)).map (fun e => fill_push cfg enc e.1) ++ [], L, ?_,
      hL, ?_⟩
    · unfold fill_in_buckets_prime
      rw [if_neg (by omega), if_neg hpq]
      simp only [if_neg (show ¬ r = 0 by omega), if_neg (show ¬ r = p by omega),
        if_neg (show ¬ r > p by omega), hred, hcfg, Bool.false_eq_true, ↓reduceIte]
      unfold fill_in_buckets_parities
      simp only [hT]
      unfold fill_in_buckets_parities
      rfl
    · intro x
      have hwmem := exact_walk_mem_iff hcfg hb hw hinv (by omega : 0 < p) hI0 Lx hLx'
      have hdep := fill_deposit_test_iff hcfg hg3 hf.width (by have := hf.logI_le; omega)
      simp only [List.append_nil, List.map_map, List.mem_map, List.mem_filter,
        Function.comp, (push_position_fill_push cfg enc _ hlog16).1]
      rw [hmemL]
      constructor
      · rintro ⟨e, ⟨he, hflag⟩, rfl⟩
        have hin : (e.1 : Int) ∈ Lx := by rw [← hmap]; exact List.mem_map_of_mem _ he
        obtain ⟨_, h2, h3⟩ := (hwmem _).1 hin
        refine ⟨by exact_mod_cast h2, (lattice_hit_iff si p r e.1).1 h3, ?_⟩
        rw [hflags e he] at hflag
        exact (hdep e.1).1 hflag
      · rintro ⟨h1, h2, h3⟩
        have hrow : si.I ≤ x := by
          by_contra hlt
          have hx : x < si.I := by omega
          rw [Nat.mod_eq_of_lt hx, Nat.div_eq_of_lt hx, Nat.zero_mul, Nat.add_zero,
            Nat.mod_eq_of_lt (by omega), Nat.mod_eq_of_lt (by omega)] at h2
          rw [Nat.div_eq_of_lt hx] at h3
          omega
        have hin : (x : Int) ∈ Lx :=
          (hwmem _).2 ⟨by exact_mod_cast hrow, by exact_mod_cast h1,
            (lattice_hit_iff si p r x).2 h2⟩
        rw [← hmap] at hin
        obtain ⟨e, he, hex⟩ := List.mem_map.1 hin
        have hex' : e.1 = x := by exact_mod_cast hex
        refine ⟨e, ⟨he, ?_⟩, hex'⟩
        rw [hflags e he, hex']
        exact (hdep x).2 h3

/-- C5 (amended): for a prime `p >= I` (hence odd), different from the
special-q, with root `0 < r < p`, in a configuration with congruence classes
(`MOD2_CLASSES_BS`) or without `SKIP_GCD3`, for a sieve area of
`I = 2^logI >= 4` columns by `J` rows of supported size that the bucket regions
cover exactly (region size at most `2^16`), of at most `2^31` positions when
both `MOD2_CLASSES_BS` and `SUPPORT_I16` are set, and `I + 2 p <= 2^32`:
`fill_in_buckets` and the line sieve both return, and the positions at which the
bucket walk deposits an update are exactly the positions that the line sieve
decreases. -/
theorem bucket_walk_eq_line_sieve (cfg : las_config) (si : sieve_info) (p r enc : Nat)
    (hcfg : cfg.MOD2_CLASSES_BS = true ∨ cfg.SKIP_GCD3 = false)
    (hsz : cfg.MOD2_CLASSES_BS = true → cfg.SUPPORT_I16 = true → si.I * si.J ≤ 2 ^ 31)
    (hf : region_fits cfg si) (hlogI : 2 ≤ si.logI)
    (hlog : si.logI ≤ cfg.LOG_BUCKET_REGION) (hlog16 : cfg.LOG_BUCKET_REGION ≤ 16)
    (hcover : nb_buckets cfg si * 2 ^ cfg.LOG_BUCKET_REGION = si.I * si.J)
    (hprime : Nat.Prime p) (hpq : p ≠ si.q) (hpI : si.I ≤ p) (hp32 : si.I + 2 * p ≤ 2 ^ 32)
    (hr0 : 0 < r) (hrp : r < p) :
    ∃ B L, fill_in_buckets_prime cfg si p r enc = some B ∧ line_sieve cfg si p r = some L
      ∧ ∀ x, x ∈ B.map (push_position cfg) ↔ x ∈ L := by
  cases hm : cfg.MOD2_CLASSES_BS with
  | true =>
    exact walk_line_classes cfg si p r enc hm (hsz hm) hf hlogI hlog hlog16 hcover hprime hpq
      hpI hp32 hr0 hrp
  | false =>
    rcases hcfg with h | h
    · rw [hm] at h; exact absurd h (by decide)
    · exact walk_line_plain cfg si p r enc hm h hf hlogI hlog hlog16 hcover hprime hpq hpI
        hp32 hr0 hrp

theorem bucket_walk_eq_line_sieve_witness :
    ∃ B L, fill_in_buckets_prime ⟨true, false, true, 7⟩ ⟨16, 8, 4, 0⟩ 17 3 17 = some B
      ∧ line_sieve ⟨true, false, true, 7⟩ ⟨16, 8, 4, 0⟩ 17 3 = some L
      ∧ ∀ x, x ∈ B.map (push_position ⟨true, false, true, 7⟩) ↔ x ∈ L :=
  bucket_walk_eq_line_sieve ⟨true, false, true, 7⟩ ⟨16, 8, 4, 0⟩ 17 3 17 (Or.inl rfl)
    (fun _ h => absurd h (by decide))
    ⟨rfl, by decide, by decide, by decide, fun _ => by decide⟩
    (by decide) (by decide) (by decide) (by decide) (by norm_num) (by decide) (by decide)
    (by decide) (by decide) (by decide)

/-- C5 as stated fails for a prime below the width: for `p = 7`, `r = 3`,
`I = 16`, `J = 8` the bucket walk deposits at the single position 27, while the
line sieve decreases fourteen positions, among them 20.  It fails under
`SKIP_GCD3` without congruence classes: for `p = 17`, `r = 1`, `I = 16`,
`J = 8` the bucket walk deposits at 25, 93 and 127 and skips the lattice hit 59
(row 3, with `i + I = 27`), which the line sieve decreases.  And it fails with
congruence classes under `SUPPORT_I16` for an area above `2^31`: for
`p = 65537`, `r = 65536`, `I = 2^16`, `J = 32771` the reduced basis is
`a = (-1, 1)`, `b = (32767, 32770)`, the class 1 starts at `b`, the shift
`32770 << 16` is `2^31 + 2^17` and leaves the 32-bit `int`, the coordinate
becomes `2^64 - 2^32 + 2147680255`, beyond the area, and the lattice hit
`2147680255` (column 65535 of row 32770), which the line sieve decreases, gets
no update. -/
theorem bucket_walk_eq_line_sieve_counterexample :
    (Nat.Prime 7
      ∧ fill_in_buckets_prime ⟨false, false, false, 7⟩ ⟨16, 8, 4, 0⟩ 7 3 7
          = some [(0, { x := 27, p := 7 })]
      ∧ line_sieve ⟨false, false, false, 7⟩ ⟨16, 8, 4, 0⟩ 7 3
          = some [1, 15, 20, 27, 39, 51, 58, 77, 82, 89, 101, 113, 120, 127]
      ∧ ¬ (∀ x, x ∈ [((0 : Nat), ({ x := 27, p := 7 } : bucket_update_t))].map
              (push_position ⟨false, false, false, 7⟩)
            ↔ x ∈ [1, 15, 20, 27, 39, 51, 58, 77, 82, 89, 101, 113, 120, 127]))
    ∧ (Nat.Prime 17
      ∧ fill_in_buckets_prime ⟨false, false, true, 7⟩ ⟨16, 8, 4, 0⟩ 17 1 17
          = some [(0, { x := 25, p := 17 }), (0, { x := 93, p := 17 }),
              (0, { x := 127, p := 17 })]
      ∧ line_sieve ⟨false, false, true, 7⟩ ⟨16, 8, 4, 0⟩ 17 1 = some [25, 59, 93, 127]
      ∧ ¬ (∀ x, x ∈ [((0 : Nat), ({ x := 25, p := 17 } : bucket_update_t)),
                (0, { x := 93, p := 17 }), (0, { x := 127, p := 17 })].map
              (push_position ⟨false, false, true, 7⟩)
            ↔ x ∈ [25, 59, 93, 127]))
    ∧ (Nat.Prime 65537
      ∧ reduce_plattice ⟨true, true, false, 16⟩ 65537 65536 ⟨65536, 32771, 16, 0⟩
          = some (some ⟨-1, 32767, 1, 32770⟩)
      ∧ plattice_starting_vector ⟨true, true, false, 16⟩ ⟨-1, 32767, 1, 32770⟩
          ⟨65536, 32771, 16, 0⟩ 1 = 2 ^ 64 - 2 ^ 32 + 2147680255
      ∧ fill_in_buckets_walk ⟨true, true, false, 16⟩ ⟨65536, 32771, 16, 0⟩
          ⟨-1, 32767, 1, 32770⟩ 1 = some []
      ∧ ∃ B L, fill_in_buckets_prime ⟨true, true, false, 16⟩ ⟨65536, 32771, 16, 0⟩
            65537 65536 65537 = some B
          ∧ line_sieve ⟨true, true, false, 16⟩ ⟨65536, 32771, 16, 0⟩ 65537 65536 = some L
          ∧ 2147680255 ∈ L
          ∧ 2147680255 ∉ B.map (push_position ⟨true, true, false, 16⟩)) := by
  have hf : region_fits ⟨true, true, false, 16⟩ ⟨65536, 32771, 16, 0⟩ :=
    ⟨rfl, by decide, by decide, by decide, fun h => absurd h (by decide)⟩
  have hred : reduce_plattice ⟨true, true, false, 16⟩ 65537 65536 ⟨65536, 32771, 16, 0⟩
      = some (some ⟨-1, 32767, 1, 32770⟩) := by decide
  have hstart : plattice_starting_vector ⟨true, true, false, 16⟩ ⟨-1, 32767, 1, 32770⟩
      ⟨65536, 32771, 16, 0⟩ 1 = 2 ^ 64 - 2 ^ 32 + 2147680255 := by
    rw [plattice_starting_vector_class ⟨-1, 32767, 1, 32770⟩ rfl hf 1 (by decide)
      ⟨by decide, by decide⟩ ⟨by decide, by decide⟩ (by decide) (by decide) (by decide)]
    decide
  have hT1 : fill_in_buckets_walk ⟨true, true, false, 16⟩ ⟨65536, 32771, 16, 0⟩
      ⟨-1, 32767, 1, 32770⟩ 1 = some [] := by
    unfold fill_in_buckets_walk
    rw [hstart]
    unfold fill_walk
    rw [if_neg (by decide)]
  refine ⟨⟨by norm_num, by decide, by decide,
      fun h => absurd ((h 20).2 (by decide)) (by decide)⟩,
    ⟨by norm_num, by decide, by decide, fun h => absurd ((h 59).2 (by decide)) (by decide)⟩,
    by norm_num, hred, hstart, hT1, ?_⟩
  obtain ⟨hb, hw, hinv⟩ := reduce_plattice_walk_basis hf (by norm_num) (by decide)
    (by norm_num) hred
  obtain ⟨T1, T2, T3, B, h1, h2, h3, hB, hmemB⟩ :=
    fill_in_buckets_prime_classes ⟨true, true, false, 16⟩ ⟨65536, 32771, 16, 0⟩ 65537 65536
      65537 ⟨-1, 32767, 1, 32770⟩ rfl hf (by decide) (by decide) (by decide) (by norm_num)
      (by decide) (by norm_num) (by norm_num) hred
  obtain ⟨L, hL, hmemL⟩ := @line_sieve_spec ⟨true, true, false, 16⟩ ⟨65536, 32771, 16, 0⟩
    65537 65536 hf (by decide) (by decide) (by decide) (by decide) (by decide) (by decide)
  refine ⟨B, L, hB, hL, (hmemL _).2 ⟨by decide, by decide, by decide⟩, ?_⟩
  rw [hmemB]
  rw [hT1] at h1
  simp only [Option.some.injEq] at h1
  subst h1
  rintro (⟨e, he, _⟩ | ⟨e, he, hx⟩ | ⟨e, he, hx⟩)
  · simp at he
  · obtain ⟨_, q⟩ := class_walk_reached rfl hf hb hw 2 (by decide) T2 h2 e he
    obtain ⟨q1, _⟩ := class_walk_hit rfl hinv (by decide) (by decide) (by decide) 2
      (by decide) _ q
    rw [hx] at q1
    exact absurd q1 (by decide)
  · obtain ⟨_, q⟩ := class_walk_reached rfl hf hb hw 3 (by decide) T3 h3 e he
    obtain ⟨_, q2⟩ := class_walk_hit rfl hinv (by decide) (by decide) (by decide) 3
      (by decide) _ q
    rw [hx] at q2
    exact absurd q2 (by decide)

/-! ## The degenerate roots and the parity filter -/

/-- C8: when the transformed root of a bucket-sieved prime `p` (odd, not the
special-q) is `r = 0`, `fill_in_buckets` pushes exactly one update, for the
position `x = I + I/2`, which is column coordinate `i = 0` of row `j = 1`; it
goes to bucket `x >> LOG_BUCKET_REGION` with local offset `x mod bucket_region`
(the region size is at most `2^16`, the range of the field `update.x`), and the
result does not depend on any lattice walk. -/
theorem fill_in_buckets_root_zero (cfg : las_config) (si : sieve_info) (p enc : Nat)
    (hw : si.I = 2 ^ si.logI) (hl1 : 1 ≤ si.logI) (hl : si.logI ≤ 31)
    (hlog16 : cfg.LOG_BUCKET_REGION ≤ 16) (hpodd : p % 2 = 1) (hpq : p ≠ si.q) :
    fill_in_buckets_prime cfg si p 0 enc
        = some [((si.I + si.I / 2) >>> cfg.LOG_BUCKET_REGION,
            { x := (si.I + si.I / 2) % 2 ^ cfg.LOG_BUCKET_REGION, p := enc })]
      ∧ (((si.I + si.I / 2) % si.I : Nat) : Int) - ((si.I / 2 : Nat) : Int) = 0
      ∧ (si.I + si.I / 2) / si.I = 1 := by
  have hI : si.I < 2 ^ 32 := by
    rw [hw]; exact Nat.pow_lt_pow_right (by norm_num) (by omega)
  have hI31 : si.I ≤ 2 ^ 31 := by
    rw [hw]; exact Nat.pow_le_pow_right (by norm_num) hl
  have hI2 : 2 ≤ si.I := by
    rw [hw]
    calc 2 = 2 ^ 1 := by norm_num
      _ ≤ 2 ^ si.logI := Nat.pow_le_pow_right (by norm_num) hl1
  refine ⟨?_, ?_, ?_⟩
  · unfold fill_in_buckets_prime
    rw [if_neg (by omega), if_neg hpq]
    simp only [↓reduceIte]
    have e1 : si.I % 2 ^ 32 = si.I := Nat.mod_eq_of_lt (by omega)
    have e2 : (si.I + si.I / 2) % 2 ^ 32 = si.I + si.I / 2 := Nat.mod_eq_of_lt (by omega)
    rw [e1, e2, (push_position_fill_push cfg enc _ hlog16).2, Nat.shiftRight_eq_div_pow]
  · have : (si.I + si.I / 2) % si.I = si.I / 2 := by
      rw [Nat.add_mod_left]; exact Nat.mod_eq_of_lt (by omega)
    rw [this]; simp
  · apply Nat.div_eq_of_lt_le
    · omega
    · omega

theorem fill_in_buckets_root_zero_witness :
    fill_in_buckets_prime ⟨false, false, false, 16⟩ ⟨32768, 16384, 15, 0⟩ 65537 0 65537
        = some [((32768 + 32768 / 2) >>> 16,
            { x := (32768 + 32768 / 2) % 2 ^ 16, p := 65537 })]
      ∧ (((32768 + 32768 / 2) % 32768 : Nat) : Int) - ((32768 / 2 : Nat) : Int) = 0
      ∧ (32768 + 32768 / 2) / 32768 = 1 :=
  fill_in_buckets_root_zero ⟨false, false, false, 16⟩ ⟨32768, 16384, 15, 0⟩ 65537 65537
    rfl (by decide) (by decide) (by decide) (by decide) (by decide)

/-- For widths up to `2^15` the root at infinity gives one update in bucket 0
at offset `I/2 + 1`, the position of `(i, j) = (1, 0)`. -/
theorem fill_in_buckets_root_infinity (cfg : las_config) (si : sieve_info) (p enc : Nat)
    (hw : si.I = 2 ^ si.logI) (hl1 : 1 ≤ si.logI) (hl : si.logI ≤ 15)
    (hpodd : p % 2 = 1) (hpq : p ≠ si.q) :
    fill_in_buckets_prime cfg si p p enc = some [(0, { x := si.I / 2 + 1, p := enc })] := by
  have hI : si.I < 2 ^ 16 := by
    rw [hw]; exact Nat.pow_lt_pow_right (by norm_num) (by omega)
  unfold fill_in_buckets_prime
  rw [if_neg (by omega), if_neg hpq]
  simp only [if_neg (show ¬ p = 0 by omega), ↓reduceIte]
  have e1 : si.I % 2 ^ 32 % 2 ^ 16 = si.I := by omega
  have e2 : (si.I / 2 + 1) % 2 ^ 16 = si.I / 2 + 1 := Nat.mod_eq_of_lt (by omega)
  rw [e1, e2]

/-- C9, the code at the failing input: for `I = 2^16` (the width for which
`SUPPORT_I16` exists) and a root at infinity, `(uint16_t) I / 2 + 1` casts `I`
to 16 bits before the division, so the update is pushed with offset 1 and not
with `I/2 + 1 = 32769`. -/
theorem fill_in_buckets_root_infinity_I16 :
    fill_in_buckets_prime ⟨false, true, false, 16⟩ ⟨65536, 32768, 16, 0⟩ 65537 65537 65537
        = some [(0, { x := 1, p := 65537 })]
      ∧ 65536 / 2 + 1 ≠ 1 := by
  decide

/-- C10: in the configuration without congruence classes (and without
`SKIP_GCD3`), for `I = 2^logI >= 4`: an entry of the walk is marked for deposit
if and only if its column coordinate `(x mod I) - I/2` and its row `x div I` are
not both even; the updates pushed are those of the marked entries; and the test
`(x & ((1 << logI) | 1)) != 0` decides exactly that, for every `x`. -/
theorem fill_deposit_parity (cfg : las_config) (si : sieve_info)
    (hcfg : cfg.MOD2_CLASSES_BS = false) (hg3 : cfg.SKIP_GCD3 = false)
    (hw : si.I = 2 ^ si.logI) (hl2 : 2 ≤ si.logI) (hl : si.logI ≤ 31) :
    (∀ (pli : plattice_info_t) (T : List (Nat × Bool)),
        fill_in_buckets_walk cfg si pli 0 = some T →
        ∀ e ∈ T, (e.2 = true ↔
          ¬ ((2 : Int) ∣ ((e.1 % si.I : Nat) : Int) - ((si.I / 2 : Nat) : Int)
              ∧ 2 ∣ e.1 / si.I)))
      ∧ (∀ (pli : plattice_info_t) (enc : Nat) (T : List (Nat × Bool)),
          fill_in_buckets_walk cfg si pli 0 = some T →
          fill_in_buckets_parities cfg si pli enc [0]
            = some ((T.filter (fun e => e.2)).map (fun e => fill_push cfg enc e.1) ++ []))
      ∧ (∀ x : Nat, (x &&& (((1 <<< si.logI) % 2 ^ 32) ||| 1) ≠ 0) ↔
          ¬ ((2 : Int) ∣ ((x % si.I : Nat) : Int) - ((si.I / 2 : Nat) : Int)
              ∧ 2 ∣ x / si.I)) := by
  have hdvd : 2 ∣ si.I := by
    rw [hw]; exact dvd_pow_self 2 (by omega)
  have hhalf : (si.I / 2) % 2 = 0 := by
    have e : si.logI = (si.logI - 2) + 2 := by omega
    have : si.I = 4 * 2 ^ (si.logI - 2) := by
      rw [hw]; conv_lhs => rw [e]
      rw [pow_add]; ring
    omega
  have hpar : ∀ x : Nat, ((x / si.I) % 2 = 1 ∨ x % 2 = 1) ↔
      ¬ ((2 : Int) ∣ ((x % si.I : Nat) : Int) - ((si.I / 2 : Nat) : Int) ∧ 2 ∣ x / si.I) := by
    intro x
    have h1 : (x % si.I) % 2 = x % 2 := Nat.mod_mod_of_dvd x hdvd
    omega
  have e : (1 <<< si.logI) % 2 ^ 32 = 2 ^ si.logI := by
    rw [Nat.shiftLeft_eq, one_mul]
    exact Nat.mod_eq_of_lt (Nat.pow_lt_pow_right (by norm_num) (by omega))
  refine ⟨?_, ?_, ?_⟩
  · intro pli T hT e he
    rw [fill_walk_flags cfg si _ _ _ _ _ _ T hT e he, fill_deposit_test_iff hcfg hg3 hw hl]
    exact hpar e.1
  · intro pli enc T hT
    unfold fill_in_buckets_parities
    simp only [hT]
    unfold fill_in_buckets_parities
    rfl
  · intro x
    rw [e, and_even_mask_ne_zero, ← hw]
    exact hpar x

theorem fill_deposit_parity_witness :
    (∀ (pli : plattice_info_t) (T : List (Nat × Bool)),
        fill_in_buckets_walk ⟨false, false, false, 7⟩ ⟨16, 8, 4, 0⟩ pli 0 = some T →
        ∀ e ∈ T, (e.2 = true ↔
          ¬ ((2 : Int) ∣ ((e.1 % 16 : Nat) : Int) - ((16 / 2 : Nat) : Int)
              ∧ 2 ∣ e.1 / 16)))
      ∧ (∀ (pli : plattice_info_t) (enc : Nat) (T : List (Nat × Bool)),
          fill_in_buckets_walk ⟨false, false, false, 7⟩ ⟨16, 8, 4, 0⟩ pli 0 = some T →
          fill_in_buckets_parities ⟨false, false, false, 7⟩ ⟨16, 8, 4, 0⟩ pli enc [0]
            = some ((T.filter (fun e => e.2)).map
                (fun e => fill_push ⟨false, false, false, 7⟩ enc e.1) ++ []))
      ∧ (∀ x : Nat, (x &&& (((1 <<< 4) % 2 ^ 32) ||| 1) ≠ 0) ↔
          ¬ ((2 : Int) ∣ ((x % 16 : Nat) : Int) - ((16 / 2 : Nat) : Int)
              ∧ 2 ∣ x / 16)) :=
  fill_deposit_parity ⟨false, false, false, 7⟩ ⟨16, 8, 4, 0⟩ rfl rfl rfl (by decide) (by decide)

/-! ## The zones of `reorder_fb` -/

/-- A list written behind what has been written so far. -/
theorem fb_write_append (A Z mem0 : List factorbase_degn_t) :
    fb_write (A ++ mem0.drop A.length) A.length Z
      = (A ++ Z) ++ mem0.drop ((A ++ Z).length) := by
  unfold fb_write
  rw [List.take_left, List.drop_append, List.drop_drop, List.length_append]

/-- Reading a zone back between its two pointers. -/
theorem take_drop_middle (A Z B L : List factorbase_degn_t) (s t : Nat)
    (hL : L = A ++ Z ++ B) (hs : s = A.length) (ht : t = s + Z.length) :
    (L.drop s).take (t - s) = Z := by
  subst hL hs ht
  rw [List.append_assoc, List.drop_left, Nat.add_sub_cancel_left, List.take_left]

/-- The entry behind the zones is the end marker. -/
theorem get_end_marker (A junk : List factorbase_degn_t) (e : factorbase_degn_t) :
    (A ++ e :: junk).get? A.length = some e := by
  induction A with
  | nil => rfl
  | cons a t ih => simpa using ih

/-- Writing the entry behind the zones. -/
theorem set_end_marker (A junk : List factorbase_degn_t) (e e1 : factorbase_degn_t) :
    (A ++ e :: junk).set A.length e1 = A ++ e1 :: junk := by
  induction A with
  | nil => rfl
  | cons a t ih => simp

/-- The loop of `reorder_fb` over an array that holds the entries `ents`, then
an end marker: it returns, and each list has received, in order, the entries
that the body sends to it. -/
theorem reorder_scan_spec (sz plim costlim : Nat) (endm : factorbase_degn_t)
    (junk : List factorbase_degn_t) (hend : endm.p = FB_END) :
    ∀ (ents : List factorbase_degn_t) (lists : fb_zone_id → List factorbase_degn_t),
      (∀ e ∈ ents, e.p ≠ FB_END) →
      reorder_scan sz plim costlim (ents ++ endm :: junk) lists
        = some (fun k => lists k
            ++ ents.filter (fun e => decide (reorder_zone sz plim costlim e = k))) := by
  intro ents
  induction ents with
  | nil =>
    intro lists _
    simp [reorder_scan, hend]
  | cons e t ih =>
    intro lists h
    have he : e.p ≠ FB_END := h e (List.mem_cons_self _ _)
    have ht : ∀ e' ∈ t, e'.p ≠ FB_END := fun e' h' => h e' (List.mem_cons_of_mem _ h')
    rw [List.cons_append, reorder_scan, if_neg he, ih _ ht]
    congr 1
    funext k
    unfold PUSH_LIST
    by_cases hk : k = reorder_zone sz plim costlim e
    · subst hk
      simp [List.filter_cons]
    · have hk2 : ¬ reorder_zone sz plim costlim e = k := fun h' => hk h'.symm
      simp [List.filter_cons, hk, hk2]

/-- The five classes of the loop body split a list into parts that together
are a rearrangement of it. -/
theorem reorder_zone_perm (sz plim costlim : Nat) (ents : List factorbase_degn_t) :
    List.Perm
      (ents.filter (fun e => decide (reorder_zone sz plim costlim e = fb_zone_id.pow2))
        ++ ents.filter (fun e => decide (reorder_zone sz plim costlim e = fb_zone_id.pow3))
        ++ ents.filter (fun e => decide (reorder_zone sz plim costlim e = fb_zone_id.td))
        ++ ents.filter (fun e => decide (reorder_zone sz plim costlim e = fb_zone_id.rs))
        ++ ents.filter (fun e => decide (reorder_zone sz plim costlim e = fb_zone_id.rest)))
      ents := by
  induction ents with
  | nil => simp
  | cons e t ih =>
    rcases hz : reorder_zone sz plim costlim e with _ | _ | _ | _ | _ <;>
      simp only [List.filter_cons, hz, decide_True, decide_False, if_true, if_false,
        reduceCtorEq, Bool.false_eq_true, ↓reduceIte]
    · simpa using ih
    · refine List.Perm.trans ?_ (List.Perm.cons e ih)
      simp only [List.append_assoc]
      exact List.perm_middle
    · refine List.Perm.trans ?_ (List.Perm.cons e ih)
      simp only [List.append_assoc]
      rw [← List.append_assoc]
      refine List.Perm.trans List.perm_middle ?_
      simp only [List.append_assoc]
      exact List.Perm.refl _
    · refine List.Perm.trans ?_ (List.Perm.cons e ih)
      simp only [List.append_assoc]
      rw [← List.append_assoc, ← List.append_assoc]
      refine List.Perm.trans List.perm_middle ?_
      simp only [List.append_assoc]
      exact List.Perm.refl _
    · refine List.Perm.trans ?_ (List.Perm.cons e ih)
      simp only [List.append_assoc]
      rw [← List.append_assoc, ← List.append_assoc, ← List.append_assoc]
      refine List.Perm.trans List.perm_middle ?_
      simp only [List.append_assoc]
      exact List.Perm.refl _

/-- The five `APPEND_LIST` on an array that starts with as many entries as
the lists hold together: the lists are laid one after the other, the write
pointer ends behind them, and the boundaries are the running totals. -/
theorem reorder_append_spec (Z : fb_zone_id → List factorbase_degn_t)
    (ents rem : List factorbase_degn_t)
    (hlen : (Z fb_zone_id.pow2 ++ Z fb_zone_id.pow3 ++ Z fb_zone_id.td ++ Z fb_zone_id.rs
        ++ Z fb_zone_id.rest).length = ents.length) :
    (reorder_append Z (ents ++ rem)).mem
        = Z fb_zone_id.pow2 ++ Z fb_zone_id.pow3 ++ Z fb_zone_id.td ++ Z fb_zone_id.rs
          ++ Z fb_zone_id.rest ++ rem
      ∧ (reorder_append Z (ents ++ rem)).fb = ents.length
      ∧ (reorder_append Z (ents ++ rem)).parts fb_zone_id.pow2
          = { start := 0, stop := (Z fb_zone_id.pow2).length }
      ∧ (reorder_append Z (ents ++ rem)).parts fb_zone_id.pow3
          = { start := (Z fb_zone_id.pow2).length
              stop := (Z fb_zone_id.pow2).length + (Z fb_zone_id.pow3).length }
      ∧ (reorder_append Z (ents ++ rem)).parts fb_zone_id.td
          = { start := (Z fb_zone_id.pow2).length + (Z fb_zone_id.pow3).length
              stop := (Z fb_zone_id.pow2).length + (Z fb_zone_id.pow3).length
                + (Z fb_zone_id.td).length }
      ∧ (reorder_append Z (ents ++ rem)).parts fb_zone_id.rs
          = { start := (Z fb_zone_id.pow2).length + (Z fb_zone_id.pow3).length
                + (Z fb_zone_id.td).length
              stop := (Z fb_zone_id.pow2).length + (Z fb_zone_id.pow3).length
                + (Z fb_zone_id.td).length + (Z fb_zone_id.rs).length }
      ∧ (reorder_append Z (ents ++ rem)).parts fb_zone_id.rest
          = { start := (Z fb_zone_id.pow2).length + (Z fb_zone_id.pow3).length
                + (Z fb_zone_id.td).length + (Z fb_zone_id.rs).length
              stop := ents.length }
      ∧ (reorder_append Z (ents ++ rem)).parts_x fb_zone_id.pow2
          = { start := 0, stop := fb_diff (Z fb_zone_id.pow2) }
      ∧ (reorder_append Z (ents ++ rem)).parts_x fb_zone_id.pow3
          = { start := fb_diff (Z fb_zone_id.pow2)
              stop := fb_diff (Z fb_zone_id.pow2) + fb_diff (Z fb_zone_id.pow3) }
      ∧ (reorder_append Z (ents ++ rem)).parts_x fb_zone_id.td
          = { start := fb_diff (Z fb_zone_id.pow2) + fb_diff (Z fb_zone_id.pow3)
              stop := fb_diff (Z fb_zone_id.pow2) + fb_diff (Z fb_zone_id.pow3)
                + fb_diff (Z fb_zone_id.td) }
      ∧ (reorder_append Z (ents ++ rem)).parts_x fb_zone_id.rs
          = { start := fb_diff (Z fb_zone_id.pow2) + fb_diff (Z fb_zone_id.pow3)
                + fb_diff (Z fb_zone_id.td)
              stop := fb_diff (Z fb_zone_id.pow2) + fb_diff (Z fb_zone_id.pow3)
                + fb_diff (Z fb_zone_id.td) + fb_diff (Z fb_zone_id.rs) }
      ∧ (reorder_append Z (ents ++ rem)).parts_x fb_zone_id.rest
          = { start := fb_diff (Z fb_zone_id.pow2) + fb_diff (Z fb_zone_id.pow3)
                + fb_diff (Z fb_zone_id.td) + fb_diff (Z fb_zone_id.rs)
              stop := fb_diff (Z fb_zone_id.pow2) + fb_diff (Z fb_zone_id.pow3)
                + fb_diff (Z fb_zone_id.td) + fb_diff (Z fb_zone_id.rs)
                + fb_diff (Z fb_zone_id.rest) } := by
  have hdrop : (ents ++ rem).drop
      (Z fb_zone_id.pow2 ++ Z fb_zone_id.pow3 ++ Z fb_zone_id.td ++ Z fb_zone_id.rs
        ++ Z fb_zone_id.rest).length = rem := by
    rw [hlen, List.drop_left]
  have e1 := fb_write_append [] (Z fb_zone_id.pow2) (ents ++ rem)
  have e2 := fb_write_append ([] ++ Z fb_zone_id.pow2) (Z fb_zone_id.pow3) (ents ++ rem)
  have e3 := fb_write_append ([] ++ Z fb_zone_id.pow2 ++ Z fb_zone_id.pow3)
    (Z fb_zone_id.td) (ents ++ rem)
  have e4 := fb_write_append ([] ++ Z fb_zone_id.pow2 ++ Z fb_zone_id.pow3
    ++ Z fb_zone_id.td) (Z fb_zone_id.rs) (ents ++ rem)
  have e5 := fb_write_append ([] ++ Z fb_zone_id.pow2 ++ Z fb_zone_id.pow3
    ++ Z fb_zone_id.td ++ Z fb_zone_id.rs) (Z fb_zone_id.rest) (ents ++ rem)
  simp only [List.nil_append, List.length_nil, List.drop_zero, List.length_append]
    at e1 e2 e3 e4 e5
  simp only [List.length_append] at hlen
  refine ⟨?_, ?_, ?_⟩
  · simp only [reorder_append, APPEND_LIST, Nat.zero_add]
    rw [e1, e2, e3, e4, e5]
    simp only [← List.length_append]
    rw [hdrop]
  · simp only [reorder_append, APPEND_LIST, Nat.zero_add]
    omega
  · simp only [reorder_append, APPEND_LIST, reduceCtorEq, if_true, if_false, ↓reduceIte,
      Nat.zero_add, fb_interval.mk.injEq, true_and, and_true]
    omega

/-- The result of `reorder_fb` on an array that holds the entries `ents`
followed by an end marker: the call returns; the array then holds the five
zones one after the other, followed by what followed `ents`; each zone, read
between its two recorded pointers, is the list of the entries that the loop
body sends to it, in the order of `ents`; and the recorded boundaries follow
one another from 0 to the end marker. -/
theorem reorder_fb_spec (sz plim costlim : Nat) (ents junk : List factorbase_degn_t)
    (endm : factorbase_degn_t) (hents : ∀ e ∈ ents, e.p ≠ FB_END) (hend : endm.p = FB_END) :
    ∃ res, reorder_fb sz plim costlim (ents ++ endm :: junk) = some res
      ∧ res.fb = fb_zone res fb_zone_id.pow2 ++ fb_zone res fb_zone_id.pow3
          ++ fb_zone res fb_zone_id.td ++ fb_zone res fb_zone_id.rs
          ++ fb_zone res fb_zone_id.rest ++ endm :: junk
      ∧ (∀ k, fb_zone res k
          = ents.filter (fun e => decide (reorder_zone sz plim costlim e = k)))
      ∧ ((res.fb_parts fb_zone_id.pow2).start = 0
        ∧ (res.fb_parts fb_zone_id.pow3).start = (res.fb_parts fb_zone_id.pow2).stop
        ∧ (res.fb_parts fb_zone_id.td).start = (res.fb_parts fb_zone_id.pow3).stop
        ∧ (res.fb_parts fb_zone_id.rs).start = (res.fb_parts fb_zone_id.td).stop
        ∧ (res.fb_parts fb_zone_id.rest).start = (res.fb_parts fb_zone_id.rs).stop
        ∧ (res.fb_parts fb_zone_id.rest).stop = ents.length)
      ∧ ((res.fb_parts_x fb_zone_id.pow2).start = 0
        ∧ (res.fb_parts_x fb_zone_id.pow3).start = (res.fb_parts_x fb_zone_id.pow2).stop
        ∧ (res.fb_parts_x fb_zone_id.td).start = (res.fb_parts_x fb_zone_id.pow3).stop
        ∧ (res.fb_parts_x fb_zone_id.rs).start = (res.fb_parts_x fb_zone_id.td).stop
        ∧ (res.fb_parts_x fb_zone_id.rest).start = (res.fb_parts_x fb_zone_id.rs).stop
        ∧ ∀ k, (res.fb_parts_x k).stop
            = (res.fb_parts_x k).start + fb_diff (fb_zone res k)) := by
  have hperm := reorder_zone_perm sz plim costlim ents
  have hlen := hperm.length_eq
  generalize hZ : (fun k => ents.filter (fun e => decide (reorder_zone sz plim costlim e = k)))
    = Z at *
  have hZk : ∀ k, ents.filter (fun e => decide (reorder_zone sz plim costlim e = k)) = Z k := by
    intro k; rw [← hZ]
  simp only [hZk] at hperm hlen ⊢
  have hscan := reorder_scan_spec sz plim costlim endm junk hend ents (fun _ => []) hents
  simp only [List.nil_append, hZk] at hscan
  have hZeta : (fun k => Z k) = Z := rfl
  rw [hZeta] at hscan
  obtain ⟨hm, hf, p0, p1, p2, p3, p4, x0, x1, x2, x3, x4⟩ :=
    reorder_append_spec Z ents (endm :: junk) hlen
  have hendm : ({ endm with p := FB_END } : factorbase_degn_t) = endm := by
    cases endm; simp only [factorbase_degn_t.mk.injEq, and_true]; exact hend.symm
  have hres : reorder_fb sz plim costlim (ents ++ endm :: junk)
      = some { fb := Z fb_zone_id.pow2 ++ Z fb_zone_id.pow3 ++ Z fb_zone_id.td
                 ++ Z fb_zone_id.rs ++ Z fb_zone_id.rest ++ endm :: junk
               fb_parts := (reorder_append Z (ents ++ endm :: junk)).parts
               fb_parts_x := (reorder_append Z (ents ++ endm :: junk)).parts_x } := by
    unfold reorder_fb
    rw [hscan]
    simp only [hm, hf]
    rw [← hlen, get_end_marker]
    simp only [hendm, set_end_marker]
  have hzone : ∀ k, fb_zone
      { fb := Z fb_zone_id.pow2 ++ Z fb_zone_id.pow3 ++ Z fb_zone_id.td
                 ++ Z fb_zone_id.rs ++ Z fb_zone_id.rest ++ endm :: junk
        fb_parts := (reorder_append Z (ents ++ endm :: junk)).parts
        fb_parts_x := (reorder_append Z (ents ++ endm :: junk)).parts_x } k = Z k := by
    have hlen2 := hlen
    simp only [List.length_append] at hlen2
    intro k
    cases k <;> simp only [fb_zone, p0, p1, p2, p3, p4]
    · exact take_drop_middle [] (Z fb_zone_id.pow2) (Z fb_zone_id.pow3 ++ Z fb_zone_id.td
        ++ Z fb_zone_id.rs ++ Z fb_zone_id.rest ++ endm :: junk) _ _ _
        (by simp only [List.nil_append, List.append_assoc]) rfl (by simp)
    · exact take_drop_middle (Z fb_zone_id.pow2) (Z fb_zone_id.pow3) (Z fb_zone_id.td
        ++ Z fb_zone_id.rs ++ Z fb_zone_id.rest ++ endm :: junk) _ _ _
        (by simp only [List.nil_append, List.append_assoc]) rfl rfl
    · exact take_drop_middle (Z fb_zone_id.pow2 ++ Z fb_zone_id.pow3) (Z fb_zone_id.td)
        (Z fb_zone_id.rs ++ Z fb_zone_id.rest ++ endm :: junk) _ _ _
        (by simp only [List.nil_append, List.append_assoc]) (by simp) rfl
    · exact take_drop_middle (Z fb_zone_id.pow2 ++ Z fb_zone_id.pow3 ++ Z fb_zone_id.td)
        (Z fb_zone_id.rs) (Z fb_zone_id.rest ++ endm :: junk) _ _ _
        (by simp only [List.nil_append, List.append_assoc]) (by simp; omega) rfl
    · exact take_drop_middle (Z fb_zone_id.pow2 ++ Z fb_zone_id.pow3 ++ Z fb_zone_id.td
        ++ Z fb_zone_id.rs) (Z fb_zone_id.rest) (endm :: junk) _ _ _
        (by simp only [List.nil_append, List.append_assoc]) (by simp; omega) (by omega)
  refine ⟨_, hres, ?_, hzone, ?_, ?_⟩
  · simp only [hzone]
  · simp only [p0, p1, p2, p3, p4, and_self]
  · simp only [hzone, x0, x1, x2, x3, x4, true_and]
    intro k
    cases k <;> simp only [x0, x1, x2, x3, x4, Nat.zero_add]

/-! ## The claims on `reorder_fb` -/

/-- The number of roots of a rearranged list. -/
theorem fb_diff_perm {A B : List factorbase_degn_t} (h : List.Perm A B) :
    fb_diff A = fb_diff B := by
  unfold fb_diff
  exact (h.map _).sum_eq

/-- The number of roots of two lists in a row. -/
theorem fb_diff_append (A B : List factorbase_degn_t) :
    fb_diff (A ++ B) = fb_diff A + fb_diff B := by
  unfold fb_diff
  rw [List.map_append, List.sum_append]

/-- C11: for an array that holds the entries `ents` followed by an end marker,
`reorder_fb` returns; the five zones pow2, pow3, td, rs, rest, read between
their recorded pointers and put one after the other, are a rearrangement of
`ents` (each entry once, nothing else); in the array they are followed by the
end marker; and the recorded boundaries, pointers and root counts alike, start
at 0, each zone starting where the one before it stops, and stop at the end
marker, that is at the number of entries and at the number of roots of
`ents`. -/
theorem reorder_fb_partition (sz plim costlim : Nat) (ents junk : List factorbase_degn_t)
    (endm : factorbase_degn_t) (hents : ∀ e ∈ ents, e.p ≠ FB_END) (hend : endm.p = FB_END) :
    ∃ res, reorder_fb sz plim costlim (ents ++ endm :: junk) = some res
      ∧ List.Perm (fb_zone res fb_zone_id.pow2 ++ fb_zone res fb_zone_id.pow3
          ++ fb_zone res fb_zone_id.td ++ fb_zone res fb_zone_id.rs
          ++ fb_zone res fb_zone_id.rest) ents
      ∧ res.fb = fb_zone res fb_zone_id.pow2 ++ fb_zone res fb_zone_id.pow3
          ++ fb_zone res fb_zone_id.td ++ fb_zone res fb_zone_id.rs
          ++ fb_zone res fb_zone_id.rest ++ endm :: junk
      ∧ ((res.fb_parts fb_zone_id.pow2).start = 0
        ∧ (res.fb_parts fb_zone_id.pow3).start = (res.fb_parts fb_zone_id.pow2).stop
        ∧ (res.fb_parts fb_zone_id.td).start = (res.fb_parts fb_zone_id.pow3).stop
        ∧ (res.fb_parts fb_zone_id.rs).start = (res.fb_parts fb_zone_id.td).stop
        ∧ (res.fb_parts fb_zone_id.rest).start = (res.fb_parts fb_zone_id.rs).stop
        ∧ (res.fb_parts fb_zone_id.rest).stop = ents.length
        ∧ (res.fb.get? (res.fb_parts fb_zone_id.rest).stop).map (fun e => e.p) = some FB_END)
      ∧ ((res.fb_parts_x fb_zone_id.pow2).start = 0
        ∧ (res.fb_parts_x fb_zone_id.pow3).start = (res.fb_parts_x fb_zone_id.pow2).stop
        ∧ (res.fb_parts_x fb_zone_id.td).start = (res.fb_parts_x fb_zone_id.pow3).stop
        ∧ (res.fb_parts_x fb_zone_id.rs).start = (res.fb_parts_x fb_zone_id.td).stop
        ∧ (res.fb_parts_x fb_zone_id.rest).start = (res.fb_parts_x fb_zone_id.rs).stop
        ∧ (res.fb_parts_x fb_zone_id.rest).stop = fb_diff ents) := by
  obtain ⟨res, hres, hfb, hz, ⟨p0, p1, p2, p3, p4, p5⟩, ⟨x0, x1, x2, x3, x4, x5⟩⟩ :=
    reorder_fb_spec sz plim costlim ents junk endm hents hend
  have hperm : List.Perm (fb_zone res fb_zone_id.pow2 ++ fb_zone res fb_zone_id.pow3
      ++ fb_zone res fb_zone_id.td ++ fb_zone res fb_zone_id.rs
      ++ fb_zone res fb_zone_id.rest) ents := by
    simp only [hz]
    exact reorder_zone_perm sz plim costlim ents
  refine ⟨res, hres, hperm, hfb, ⟨p0, p1, p2, p3, p4, p5, ?_⟩, ⟨x0, x1, x2, x3, x4, ?_⟩⟩
  · rw [p5, hfb, ← hperm.length_eq, get_end_marker]
    exact congrArg some hend
  · rw [← fb_diff_perm hperm]
    simp only [fb_diff_append]
    have h0 := x5 fb_zone_id.pow2
    have h1 := x5 fb_zone_id.pow3
    have h2 := x5 fb_zone_id.td
    have h3 := x5 fb_zone_id.rs
    have h4 := x5 fb_zone_id.rest
    omega

/-- Witness of C11: the factor base 2, 3, 5, 7, 9, 11, 16 with thresholds 8
and 1024. -/
theorem reorder_fb_partition_witness :
    (∀ e ∈ ([⟨2, 1, 1, 0, [1]⟩, ⟨3, 2, 1, 0, [2]⟩, ⟨5, 3, 2, 0, [1, 4]⟩, ⟨7, 4, 1, 0, [3]⟩,
        ⟨9, 2, 1, 0, [4]⟩, ⟨11, 5, 1, 0, [6]⟩, ⟨16, 1, 1, 0, [5]⟩] : List factorbase_degn_t),
        e.p ≠ FB_END)
      ∧ fb_end_entry.p = FB_END
      ∧ ∃ res, reorder_fb 8 8 1024
          ([⟨2, 1, 1, 0, [1]⟩, ⟨3, 2, 1, 0, [2]⟩, ⟨5, 3, 2, 0, [1, 4]⟩, ⟨7, 4, 1, 0, [3]⟩,
            ⟨9, 2, 1, 0, [4]⟩, ⟨11, 5, 1, 0, [6]⟩, ⟨16, 1, 1, 0, [5]⟩] ++ fb_end_entry :: [])
            = some res
        ∧ (res.fb_parts fb_zone_id.rest).stop = 7
        ∧ (res.fb_parts_x fb_zone_id.rest).stop = 8 := by
  refine ⟨by decide, rfl, ?_⟩
  obtain ⟨res, h1, _, _, ⟨_, _, _, _, _, h2, _⟩, ⟨_, _, _, _, _, h3⟩⟩ :=
    reorder_fb_partition 8 8 1024
      [⟨2, 1, 1, 0, [1]⟩, ⟨3, 2, 1, 0, [2]⟩, ⟨5, 3, 2, 0, [1, 4]⟩, ⟨7, 4, 1, 0, [3]⟩,
        ⟨9, 2, 1, 0, [4]⟩, ⟨11, 5, 1, 0, [6]⟩, ⟨16, 1, 1, 0, [5]⟩] [] fb_end_entry
      (by decide) rfl
  exact ⟨res, h1, h2, h3⟩

/-- C12: each of the five zones that `reorder_fb` produces is a sublist of the
entries `ents` of the array: its entries follow one another in the order in
which they stand in `ents`. -/
theorem reorder_fb_order (sz plim costlim : Nat) (ents junk : List factorbase_degn_t)
    (endm : factorbase_degn_t) (hents : ∀ e ∈ ents, e.p ≠ FB_END) (hend : endm.p = FB_END) :
    ∃ res, reorder_fb sz plim costlim (ents ++ endm :: junk) = some res
      ∧ ∀ k, List.Sublist (fb_zone res k) ents := by
  obtain ⟨res, hres, _, hz, _, _⟩ := reorder_fb_spec sz plim costlim ents junk endm hents hend
  refine ⟨res, hres, fun k => ?_⟩
  rw [hz k]
  exact List.filter_sublist _

/-- Witness of C12: the factor base 2, 3, 5, 7, 9, 11, 16 with thresholds 8
and 1024; the td zone is 5, 7 and the rest zone is 9. -/
theorem reorder_fb_order_witness :
    (∀ e ∈ ([⟨2, 1, 1, 0, [1]⟩, ⟨3, 2, 1, 0, [2]⟩, ⟨5, 3, 2, 0, [1, 4]⟩, ⟨7, 4, 1, 0, [3]⟩,
        ⟨9, 2, 1, 0, [4]⟩, ⟨11, 5, 1, 0, [6]⟩, ⟨16, 1, 1, 0, [5]⟩] : List factorbase_degn_t),
        e.p ≠ FB_END)
      ∧ fb_end_entry.p = FB_END
      ∧ ∃ res, reorder_fb 8 8 1024
          ([⟨2, 1, 1, 0, [1]⟩, ⟨3, 2, 1, 0, [2]⟩, ⟨5, 3, 2, 0, [1, 4]⟩, ⟨7, 4, 1, 0, [3]⟩,
            ⟨9, 2, 1, 0, [4]⟩, ⟨11, 5, 1, 0, [6]⟩, ⟨16, 1, 1, 0, [5]⟩] ++ fb_end_entry :: [])
            = some res
        ∧ ∀ k, List.Sublist (fb_zone res k)
            [⟨2, 1, 1, 0, [1]⟩, ⟨3, 2, 1, 0, [2]⟩, ⟨5, 3, 2, 0, [1, 4]⟩, ⟨7, 4, 1, 0, [3]⟩,
              ⟨9, 2, 1, 0, [4]⟩, ⟨11, 5, 1, 0, [6]⟩, ⟨16, 1, 1, 0, [5]⟩] :=
  ⟨by decide, rfl, reorder_fb_order 8 8 1024
      [⟨2, 1, 1, 0, [1]⟩, ⟨3, 2, 1, 0, [2]⟩, ⟨5, 3, 2, 0, [1, 4]⟩, ⟨7, 4, 1, 0, [3]⟩,
        ⟨9, 2, 1, 0, [4]⟩, ⟨11, 5, 1, 0, [6]⟩, ⟨16, 1, 1, 0, [5]⟩] [] fb_end_entry
      (by decide) rfl⟩

/-- The entries that the loop body of `reorder_fb` sends to the rs list. -/
theorem reorder_zone_rs_iff (sz plim costlim : Nat) (e : factorbase_degn_t) :
    reorder_zone sz plim costlim e = fb_zone_id.rs ↔
      (¬ (e.p % 2 = 0 ∧ e.p ≤ sz * 2) ∧ e.p ≠ 3
        ∧ ¬ (e.p ≤ plim ∧ e.p ≤ (costlim * e.nr_roots) % 2 ^ 32)
        ∧ is_prime_power e.p = false) := by
  unfold reorder_zone
  simp only []
  by_cases c1 : (e.p % 2 = 0 ∧ e.p ≤ sz * 2)
  · simp [c1]
  · by_cases c2 : e.p = 3
    · simp [c2]
    · by_cases c3 : (e.p ≤ plim ∧ e.p ≤ (costlim * e.nr_roots) % 2 ^ 32)
      · rw [if_neg c1, if_neg c2, if_pos c3]
        by_cases c5 : is_prime_power e.p = false
        · rw [if_pos c5]
          simp only [reduceCtorEq, false_iff]
          exact fun h => h.2.2.1 c3
        · rw [if_neg c5]
          simp only [reduceCtorEq, false_iff]
          exact fun h => h.2.2.1 c3
      · rw [if_neg c1, if_neg c2, if_neg c3]
        by_cases c5 : is_prime_power e.p = false
        · rw [if_pos c5]; simp only [true_iff]; exact ⟨c1, c2, c3, c5⟩
        · rw [if_neg c5]; simp only [reduceCtorEq, false_iff]; tauto

/-- The entries that the loop body of `reorder_fb` sends to the rest list. -/
theorem reorder_zone_rest_iff (sz plim costlim : Nat) (e : factorbase_degn_t) :
    reorder_zone sz plim costlim e = fb_zone_id.rest ↔
      (¬ (e.p % 2 = 0 ∧ e.p ≤ sz * 2) ∧ e.p ≠ 3 ∧ is_prime_power e.p = true) := by
  unfold reorder_zone
  simp only []
  by_cases c1 : (e.p % 2 = 0 ∧ e.p ≤ sz * 2)
  · simp [c1]
  · by_cases c2 : e.p = 3
    · simp [c2]
    · rw [if_neg c1, if_neg c2]
      by_cases c5 : is_prime_power e.p = false
      · simp only [if_pos c5]
        split_ifs <;> simp only [reduceCtorEq, false_iff] <;> intro h <;>
          rw [c5] at h <;> exact Bool.false_ne_true h.2.2
      · simp only [if_neg c5]
        have c6 : is_prime_power e.p = true := by simpa using c5
        split_ifs <;> simp only [true_iff] <;> exact ⟨c1, c2, c6⟩

/-- C13 (amended): `reorder_fb` does not compare `p` with the bucket threshold
to fill the rs zone.  The rs zone holds exactly the entries that are not sent
to pow2 or pow3, are not prime powers, and fail `p <= plim && p <= costlim *
nr_roots`; an entry with `p` above the bucket threshold `plim` that is not
sent to pow2 or pow3 goes to the rest zone when `p` is a prime power and to
the rs zone when it is not.  When all entries of the array have `p` below the
bucket threshold, so have those of the rs zone. -/
theorem reorder_fb_resieve_zone (sz plim costlim : Nat) (ents junk : List factorbase_degn_t)
    (endm : factorbase_degn_t) (hents : ∀ e ∈ ents, e.p ≠ FB_END) (hend : endm.p = FB_END) :
    ∃ res, reorder_fb sz plim costlim (ents ++ endm :: junk) = some res
      ∧ (∀ e, e ∈ fb_zone res fb_zone_id.rs ↔
          (e ∈ ents ∧ ¬ (e.p % 2 = 0 ∧ e.p ≤ sz * 2) ∧ e.p ≠ 3
            ∧ ¬ (e.p ≤ plim ∧ e.p ≤ (costlim * e.nr_roots) % 2 ^ 32)
            ∧ is_prime_power e.p = false))
      ∧ (∀ e ∈ ents, plim < e.p → ¬ (e.p % 2 = 0 ∧ e.p ≤ sz * 2) → e.p ≠ 3 →
          (is_prime_power e.p = true → e ∈ fb_zone res fb_zone_id.rest)
            ∧ (is_prime_power e.p = false → e ∈ fb_zone res fb_zone_id.rs))
      ∧ ((∀ e ∈ ents, e.p < plim) → ∀ e ∈ fb_zone res fb_zone_id.rs, e.p < plim) := by
  obtain ⟨res, hres, _, hz, _, _⟩ := reorder_fb_spec sz plim costlim ents junk endm hents hend
  have hrs : ∀ e, e ∈ fb_zone res fb_zone_id.rs ↔
      (e ∈ ents ∧ ¬ (e.p % 2 = 0 ∧ e.p ≤ sz * 2) ∧ e.p ≠ 3
        ∧ ¬ (e.p ≤ plim ∧ e.p ≤ (costlim * e.nr_roots) % 2 ^ 32)
        ∧ is_prime_power e.p = false) := by
    intro e
    rw [hz, List.mem_filter, decide_eq_true_eq, reorder_zone_rs_iff]
  refine ⟨res, hres, hrs, ?_, ?_⟩
  · intro e he hp c1 c2
    have c3 : ¬ (e.p ≤ plim ∧ e.p ≤ (costlim * e.nr_roots) % 2 ^ 32) := by
      intro h; omega
    constructor
    · intro c5
      rw [hz, List.mem_filter, decide_eq_true_eq, reorder_zone_rest_iff]
      exact ⟨he, c1, c2, c5⟩
    · intro c5
      exact (hrs e).2 ⟨he, c1, c2, c3, c5⟩
  · intro hall e he
    exact hall e ((hrs e).1 he).1

/-- Witness of C13 (amended): the factor base 2, 3, 5, 7, 9, 11, 16 with
thresholds 8 and 1024. -/
theorem reorder_fb_resieve_zone_witness :
    (∀ e ∈ ([⟨2, 1, 1, 0, [1]⟩, ⟨3, 2, 1, 0, [2]⟩, ⟨5, 3, 2, 0, [1, 4]⟩, ⟨7, 4, 1, 0, [3]⟩,
        ⟨9, 2, 1, 0, [4]⟩, ⟨11, 5, 1, 0, [6]⟩, ⟨16, 1, 1, 0, [5]⟩] : List factorbase_degn_t),
        e.p ≠ FB_END)
      ∧ fb_end_entry.p = FB_END
      ∧ ∃ res, reorder_fb 8 8 1024
          ([⟨2, 1, 1, 0, [1]⟩, ⟨3, 2, 1, 0, [2]⟩, ⟨5, 3, 2, 0, [1, 4]⟩, ⟨7, 4, 1, 0, [3]⟩,
            ⟨9, 2, 1, 0, [4]⟩, ⟨11, 5, 1, 0, [6]⟩, ⟨16, 1, 1, 0, [5]⟩] ++ fb_end_entry :: [])
            = some res
        ∧ (⟨11, 5, 1, 0, [6]⟩ : factorbase_degn_t) ∈ fb_zone res fb_zone_id.rs := by
  refine ⟨by decide, rfl, ?_⟩
  obtain ⟨res, h1, _, h2, _⟩ :=
    reorder_fb_resieve_zone 8 8 1024
      [⟨2, 1, 1, 0, [1]⟩, ⟨3, 2, 1, 0, [2]⟩, ⟨5, 3, 2, 0, [1, 4]⟩, ⟨7, 4, 1, 0, [3]⟩,
        ⟨9, 2, 1, 0, [4]⟩, ⟨11, 5, 1, 0, [6]⟩, ⟨16, 1, 1, 0, [5]⟩] [] fb_end_entry
      (by decide) rfl
  exact ⟨res, h1, (h2 ⟨11, 5, 1, 0, [6]⟩ (by decide) (by decide) (by decide) (by decide)).2
    (by decide)⟩

/-- C13 as stated fails: for the factor base that holds the single prime 7 and
the bucket threshold 5, the rs zone holds the entry 7, which is not below the
threshold, and the rest zone is empty. -/
theorem reorder_fb_resieve_zone_counterexample :
    ∃ res, reorder_fb 8 5 1024 [⟨7, 4, 1, 0, [3]⟩, fb_end_entry] = some res
      ∧ fb_zone res fb_zone_id.rs = [⟨7, 4, 1, 0, [3]⟩]
      ∧ fb_zone res fb_zone_id.rest = []
      ∧ ¬ ((⟨7, 4, 1, 0, [3]⟩ : factorbase_degn_t).p < 5) :=
  ⟨_, rfl, by decide, by decide, by decide⟩

/-- The entries that the loop body of `reorder_fb` sends to the pow2 list. -/
theorem reorder_zone_pow2_iff (sz plim costlim : Nat) (e : factorbase_degn_t) :
    reorder_zone sz plim costlim e = fb_zone_id.pow2 ↔ (e.p % 2 = 0 ∧ e.p ≤ sz * 2) := by
  unfold reorder_zone
  simp only []
  by_cases c1 : (e.p % 2 = 0 ∧ e.p ≤ sz * 2)
  · simp [c1]
  · rw [if_neg c1]
    simp only [c1, iff_false]
    split_ifs <;> simp

/-- The entries that the loop body of `reorder_fb` sends to the pow3 list. -/
theorem reorder_zone_pow3_iff (sz plim costlim : Nat) (e : factorbase_degn_t) :
    reorder_zone sz plim costlim e = fb_zone_id.pow3 ↔ e.p = 3 := by
  unfold reorder_zone
  simp only []
  by_cases c2 : e.p = 3
  · have c1 : ¬ (e.p % 2 = 0 ∧ e.p ≤ sz * 2) := by rw [c2]; omega
    rw [if_neg c1, if_pos c2]
    simp [c2]
  · simp only [c2, iff_false]
    split_ifs <;> simp_all

/-- An even prime power is a power of 2. -/
theorem even_prime_power (q k : Nat) (hq : Nat.Prime q) (h : q ^ k % 2 = 0) :
    ∃ m, 1 ≤ m ∧ q ^ k = 2 ^ m := by
  have hk : k ≠ 0 := by
    rintro rfl
    simp at h
  have h2 : 2 ∣ q ^ k := Nat.dvd_of_mod_eq_zero h
  have h3 : 2 ∣ q := Nat.Prime.dvd_of_dvd_pow Nat.prime_two h2
  have h4 : q = 2 := ((Nat.prime_dvd_prime_iff_eq Nat.prime_two hq).1 h3).symm
  exact ⟨k, Nat.one_le_iff_ne_zero.2 hk, by rw [h4]⟩

/-- C14 (amended): after `reorder_fb` the pow3 zone consists exactly of the
entries with `p = 3`, in their order (9, 27, ... are not sent there), and the
pow2 zone consists exactly of the entries with `p` even and at most the pattern
width `2 * sizeof (unsigned long)`; among entries whose `p` is a prime power
these are the powers of 2 up to the pattern width. -/
theorem reorder_fb_pattern_zones (sz plim costlim : Nat) (ents junk : List factorbase_degn_t)
    (endm : factorbase_degn_t) (hents : ∀ e ∈ ents, e.p ≠ FB_END) (hend : endm.p = FB_END) :
    ∃ res, reorder_fb sz plim costlim (ents ++ endm :: junk) = some res
      ∧ fb_zone res fb_zone_id.pow3 = ents.filter (fun e => decide (e.p = 3))
      ∧ fb_zone res fb_zone_id.pow2
          = ents.filter (fun e => decide (e.p % 2 = 0 ∧ e.p ≤ sz * 2))
      ∧ (∀ e ∈ ents, (∃ q k, Nat.Prime q ∧ e.p = q ^ k) →
          (e ∈ fb_zone res fb_zone_id.pow2 ↔ ((∃ m, 1 ≤ m ∧ e.p = 2 ^ m) ∧ e.p ≤ sz * 2))) := by
  obtain ⟨res, hres, _, hz, _, _⟩ := reorder_fb_spec sz plim costlim ents junk endm hents hend
  have h3 : fb_zone res fb_zone_id.pow3 = ents.filter (fun e => decide (e.p = 3)) := by
    rw [hz]
    congr 1
    funext e
    rw [decide_eq_decide]
    exact reorder_zone_pow3_iff sz plim costlim e
  have h2 : fb_zone res fb_zone_id.pow2
      = ents.filter (fun e => decide (e.p % 2 = 0 ∧ e.p ≤ sz * 2)) := by
    rw [hz]
    congr 1
    funext e
    rw [decide_eq_decide]
    exact reorder_zone_pow2_iff sz plim costlim e
  refine ⟨res, hres, h3, h2, ?_⟩
  rintro e he ⟨q, k, hq, hp⟩
  rw [h2, List.mem_filter, decide_eq_true_eq]
  constructor
  · rintro ⟨_, h4, h5⟩
    refine ⟨?_, h5⟩
    rw [hp] at h4 ⊢
    exact even_prime_power q k hq h4
  · rintro ⟨⟨m, hm, hpm⟩, h5⟩
    refine ⟨he, ?_, h5⟩
    rw [hpm]
    obtain ⟨m', rfl⟩ : ∃ m', m = m' + 1 := ⟨m - 1, by omega⟩
    rw [pow_succ]
    omega

/-- Witness of C14 (amended): the factor base 2, 3, 5, 7, 9, 11, 16 with
thresholds 8 and 1024; the entry 16 is in the pow2 zone. -/
theorem reorder_fb_pattern_zones_witness :
    (∀ e ∈ ([⟨2, 1, 1, 0, [1]⟩, ⟨3, 2, 1, 0, [2]⟩, ⟨5, 3, 2, 0, [1, 4]⟩, ⟨7, 4, 1, 0, [3]⟩,
        ⟨9, 2, 1, 0, [4]⟩, ⟨11, 5, 1, 0, [6]⟩, ⟨16, 1, 1, 0, [5]⟩] : List factorbase_degn_t),
        e.p ≠ FB_END)
      ∧ fb_end_entry.p = FB_END
      ∧ ∃ res, reorder_fb 8 8 1024
          ([⟨2, 1, 1, 0, [1]⟩, ⟨3, 2, 1, 0, [2]⟩, ⟨5, 3, 2, 0, [1, 4]⟩, ⟨7, 4, 1, 0, [3]⟩,
            ⟨9, 2, 1, 0, [4]⟩, ⟨11, 5, 1, 0, [6]⟩, ⟨16, 1, 1, 0, [5]⟩] ++ fb_end_entry :: [])
            = some res
        ∧ fb_zone res fb_zone_id.pow3 = [⟨3, 2, 1, 0, [2]⟩]
        ∧ fb_zone res fb_zone_id.pow2 = [⟨2, 1, 1, 0, [1]⟩, ⟨16, 1, 1, 0, [5]⟩] := by
  refine ⟨by decide, rfl, ?_⟩
  obtain ⟨res, h1, h2, h3, _⟩ :=
    reorder_fb_pattern_zones 8 8 1024
      [⟨2, 1, 1, 0, [1]⟩, ⟨3, 2, 1, 0, [2]⟩, ⟨5, 3, 2, 0, [1, 4]⟩, ⟨7, 4, 1, 0, [3]⟩,
        ⟨9, 2, 1, 0, [4]⟩, ⟨11, 5, 1, 0, [6]⟩, ⟨16, 1, 1, 0, [5]⟩] [] fb_end_entry
      (by decide) rfl
  exact ⟨res, h1, by rw [h2]; decide, by rw [h3]; decide⟩

/-- C14 as stated fails: for the factor base that holds the single entry 9,
a power of 3, the pow3 zone is empty and the entry is in the rest zone. -/
theorem reorder_fb_pattern_zones_counterexample :
    ∃ res, reorder_fb 8 1024 1024 [⟨9, 2, 1, 0, [4]⟩, fb_end_entry] = some res
      ∧ (⟨9, 2, 1, 0, [4]⟩ : factorbase_degn_t).p = 3 ^ 2
      ∧ fb_zone res fb_zone_id.pow3 = []
      ∧ fb_zone res fb_zone_id.rest = [⟨9, 2, 1, 0, [4]⟩] :=
  ⟨_, rfl, by decide, by decide, by decide⟩

/-! ## `dispatch_fb` -/

/-- Quotient and remainder of the successor. -/
theorem succ_div_mod (c n : Nat) (hn : 1 ≤ n) :
    (c % n + 1 < n ∧ (c + 1) / n = c / n ∧ (c + 1) % n = c % n + 1)
      ∨ (c % n + 1 = n ∧ (c + 1) / n = c / n + 1 ∧ (c + 1) % n = 0) := by
  have h1 := Nat.div_add_mod c n
  have h2 := Nat.mod_lt c (show 0 < n by omega)
  by_cases h : c % n + 1 < n
  · left
    refine ⟨h, ?_⟩
    exact (Nat.div_mod_unique (show 0 < n by omega)).2 ⟨by omega, h⟩
  · right
    refine ⟨by omega, ?_⟩
    refine (Nat.div_mod_unique (show 0 < n by omega)).2 ⟨?_, by omega⟩
    rw [Nat.mul_add]
    omega

/-- The position `i + m * n` has remainder `i` and quotient `m`. -/
theorem add_mul_div_mod (i m n : Nat) (hi : i < n) :
    (i + m * n) % n = i ∧ (i + m * n) / n = m := by
  constructor
  · rw [Nat.add_mul_mod_self_right, Nat.mod_eq_of_lt hi]
  · rw [Nat.add_mul_div_right _ _ (by omega), Nat.div_eq_of_lt hi, Nat.zero_add]

/-- The positions below `L` with remainder `i` are those with quotient below
`L / n`, and one more when `i < L % n`. -/
theorem lt_count_iff (L n i m : Nat) (hi : i < n) :
    m < L / n + (if i < L % n then 1 else 0) ↔ i + m * n < L := by
  have h1 := Nat.div_add_mod L n
  have h2 := Nat.mod_lt L (show 0 < n by omega)
  generalize L / n = q at *
  generalize L % n = r at *
  subst h1
  constructor
  · intro h
    split_ifs at h with hir
    · have : m * n ≤ q * n := Nat.mul_le_mul_right n (by omega)
      have e : n * q = q * n := Nat.mul_comm _ _
      omega
    · have : (m + 1) * n ≤ q * n := Nat.mul_le_mul_right n (by omega)
      have e : n * q = q * n := Nat.mul_comm _ _
      rw [Nat.add_mul] at this
      omega
  · intro h
    have e : n * q = q * n := Nat.mul_comm _ _
    by_contra hc
    split_ifs at hc with hir
    · have : (q + 1) * n ≤ m * n := Nat.mul_le_mul_right n (by omega)
      rw [Nat.add_mul] at this
      omega
    · have : q * n ≤ m * n := Nat.mul_le_mul_right n (by omega)
      omega

/-- The copy loop of `dispatch_fb` over an array whose entries `tail` are
followed by an end marker, started after the entries `pre` have been dealt out
in turn: it returns, and then the parts hold `pre ++ tail` dealt out in turn:
the entry number `k` is the entry number `k / nparts` of the part
`k % nparts`, and part `j` has `L / nparts` entries, and one more when
`j < L % nparts`, for `L` entries in all. -/
theorem dispatch_copy_spec (n pmax : Nat) (hn : 1 ≤ n) (endm : factorbase_degn_t)
    (junk : List factorbase_degn_t) (hend : endm.p = FB_END) :
    ∀ (tail pre : List factorbase_degn_t) (fbi : Nat → List factorbase_degn_t),
      (∀ e ∈ tail, e.p ≠ FB_END ∧ e.p ≤ pmax) →
      (∀ j, j < n →
        (fbi j).length = pre.length / n + (if j < pre.length % n then 1 else 0)) →
      (∀ k, k < pre.length → (fbi (k % n))[k / n]? = pre[k]?) →
      ∃ fbi', dispatch_copy n pmax (tail ++ endm :: junk) fbi (pre.length % n) = some fbi'
        ∧ (∀ j, j < n → (fbi' j).length
            = (pre ++ tail).length / n + (if j < (pre ++ tail).length % n then 1 else 0))
        ∧ (∀ k, k < (pre ++ tail).length → (fbi' (k % n))[k / n]? = (pre ++ tail)[k]?) := by
  intro tail
  induction tail with
  | nil =>
    intro pre fbi _ h1 h2
    refine ⟨fbi, ?_, ?_, ?_⟩
    · simp [dispatch_copy, hend]
    · simpa using h1
    · simpa using h2
  | cons e t ih =>
    intro pre fbi ht h1 h2
    have he := ht e (List.mem_cons_self _ _)
    have ht2 : ∀ e' ∈ t, e'.p ≠ FB_END ∧ e'.p ≤ pmax :=
      fun e' h' => ht e' (List.mem_cons_of_mem _ h')
    have hmod := Nat.mod_lt pre.length (show 0 < n by omega)
    have hstep : (pre.length % n + 1) % n = (pre ++ [e]).length % n := by
      rw [List.length_append, List.length_singleton]
      rcases succ_div_mod pre.length n hn with ⟨a, _, c⟩ | ⟨a, _, c⟩
      · rw [c, Nat.mod_eq_of_lt a]
      · rw [c, a, Nat.mod_self]
    have hlen1 : ∀ j, j < n →
        ((fun j => if j = pre.length % n then fbi j ++ [e] else fbi j) j).length
          = (pre ++ [e]).length / n + (if j < (pre ++ [e]).length % n then 1 else 0) := by
      intro j hj
      rw [List.length_append, List.length_singleton]
      have := h1 j hj
      simp only []
      rcases succ_div_mod pre.length n hn with ⟨a, b, c⟩ | ⟨a, b, c⟩
      · rw [b, c]
        by_cases hji : j = pre.length % n
        · rw [if_pos hji, List.length_append, List.length_singleton, this]
          rw [if_neg (by omega), if_pos (by omega)]
        · rw [if_neg hji, this]
          by_cases hlt : j < pre.length % n
          · rw [if_pos hlt, if_pos (by omega)]
          · rw [if_neg hlt, if_neg (by omega)]
      · rw [b, c]
        by_cases hji : j = pre.length % n
        · rw [if_pos hji, List.length_append, List.length_singleton, this]
          rw [if_neg (by omega), if_neg (by omega)]
        · rw [if_neg hji, this]
          rw [if_pos (by omega), if_neg (by omega)]
    have hget1 : ∀ k, k < (pre ++ [e]).length →
        ((fun j => if j = pre.length % n then fbi j ++ [e] else fbi j) (k % n))[k / n]?
          = (pre ++ [e])[k]? := by
      intro k hk
      rw [List.length_append, List.length_singleton] at hk
      simp only []
      by_cases hkc : k < pre.length
      · have hk2 := h2 k hkc
        rw [List.getElem?_append_left hkc]
        have hin : k / n < (fbi (k % n)).length := by
          by_contra hc
          rw [List.getElem?_eq_none (by omega)] at hk2
          rw [List.getElem?_eq_getElem hkc] at hk2
          cases hk2
        by_cases hji : k % n = pre.length % n
        · rw [if_pos hji, List.getElem?_append_left hin, hk2]
        · rw [if_neg hji, hk2]
      · have hkeq : k = pre.length := by omega
        subst hkeq
        rw [if_pos rfl]
        have hl := h1 (pre.length % n) hmod
        rw [if_neg (by omega)] at hl
        rw [List.getElem?_append_right (by omega), List.getElem?_append_right (by omega)]
        simp [hl]
    obtain ⟨fbi', hrun, r1, r2⟩ := ih (pre ++ [e]) _ ht2 hlen1 hget1
    refine ⟨fbi', ?_, ?_, ?_⟩
    · rw [List.cons_append, dispatch_copy, if_pos he, if_neg (by omega), hstep]
      exact hrun
    · simpa using r1
    · simpa using r2

/-- C15: for an array that holds the entries `head`, then the entries `tail`
from the pointer `fb0` on, then an end marker, with `nparts >= 1` and `pmax` at
least every `p` of `tail`, `dispatch_fb` returns `nparts` parts; part `i` is
the list `body` of the tail entries number `i, i + nparts, i + 2 nparts, ...`,
in this order and all of them, followed by one end marker; the entry number
`k` of the tail is the entry number `k / nparts` of part `k % nparts`; the
lengths of two parts differ by at most one; and the main array is cut to
`head` followed by an end marker. -/
theorem dispatch_fb_round_robin (nparts pmax : Nat) (head tail junk : List factorbase_degn_t)
    (endm : factorbase_degn_t) (hn : 1 ≤ nparts)
    (htail : ∀ e ∈ tail, e.p ≠ FB_END ∧ e.p ≤ pmax) (hend : endm.p = FB_END) :
    ∃ res, dispatch_fb (head ++ tail ++ endm :: junk) head.length nparts pmax = some res
      ∧ res.fb_main = head ++ [fb_end_entry]
      ∧ res.fb_dst.length = nparts
      ∧ (∀ i, i < nparts → ∃ body, res.fb_dst[i]? = some (body ++ [fb_end_entry])
          ∧ (∀ m, m < body.length ↔ i + m * nparts < tail.length)
          ∧ (∀ m, m < body.length → body[m]? = tail[i + m * nparts]?)
          ∧ (∀ e ∈ body, e.p ≠ FB_END))
      ∧ (∀ k, k < tail.length → ∃ body, res.fb_dst[k % nparts]? = some (body ++ [fb_end_entry])
          ∧ body[k / nparts]? = tail[k]?)
      ∧ (∀ (i j : Nat) (bi bj : List factorbase_degn_t),
          res.fb_dst[i]? = some bi → res.fb_dst[j]? = some bj →
          bi.length ≤ bj.length + 1) := by
  obtain ⟨fbi, hrun, hlen, hget⟩ := dispatch_copy_spec nparts pmax hn endm junk hend tail []
    (fun _ => []) htail (by intro j _; simp) (by intro k hk; simp at hk)
  simp only [List.nil_append, List.length_nil, Nat.zero_mod] at hrun hlen hget
  have hdst : ∀ i, i < nparts →
      ((List.range nparts).map (fun i => fbi i ++ [fb_end_entry]))[i]?
        = some (fbi i ++ [fb_end_entry]) := by
    intro i hi
    rw [List.getElem?_map, List.getElem?_range hi]
    rfl
  have hbody : ∀ i, i < nparts → ∀ m, m < (fbi i).length →
      (fbi i)[m]? = tail[i + m * nparts]? := by
    intro i hi m hm
    rw [hlen i hi, lt_count_iff _ _ _ _ hi] at hm
    have := hget _ hm
    rw [(add_mul_div_mod i m nparts hi).1, (add_mul_div_mod i m nparts hi).2] at this
    exact this
  refine ⟨{ fb_dst := (List.range nparts).map (fun i => fbi i ++ [fb_end_entry])
            fb_main := head ++ [fb_end_entry] }, ?_, ?_, ?_, ?_, ?_, ?_⟩
  · unfold dispatch_fb
    rw [List.append_assoc, List.drop_left, hrun, List.take_left]
  · rfl
  · simp
  · intro i hi
    refine ⟨fbi i, hdst i hi, ?_, hbody i hi, ?_⟩
    · intro m
      rw [hlen i hi]
      exact lt_count_iff _ _ _ _ hi
    · intro e he
      obtain ⟨m, hm, rfl⟩ := List.getElem_of_mem he
      have h1 := hbody i hi m hm
      rw [List.getElem?_eq_getElem hm] at h1
      have hlt : i + m * nparts < tail.length := by
        rw [hlen i hi, lt_count_iff _ _ _ _ hi] at hm
        exact hm
      rw [List.getElem?_eq_getElem hlt] at h1
      have h2 : (fbi i)[m] = tail[i + m * nparts] := Option.some.inj h1
      rw [h2]
      exact (htail _ (List.getElem_mem _)).1
  · intro k hk
    exact ⟨fbi (k % nparts), hdst _ (Nat.mod_lt _ (by omega)), hget k hk⟩
  · intro i j bi bj hi hj
    simp only [] at hi hj
    have hi' : i < nparts := by
      by_contra hc
      rw [List.getElem?_eq_none (by simp; omega)] at hi
      cases hi
    have hj' : j < nparts := by
      by_contra hc
      rw [List.getElem?_eq_none (by simp; omega)] at hj
      cases hj
    rw [hdst i hi'] at hi
    rw [hdst j hj'] at hj
    have ei := Option.some.inj hi
    have ej := Option.some.inj hj
    subst ei ej
    simp only [List.length_append, List.length_singleton]
    rw [hlen i hi', hlen j hj']
    split_ifs <;> omega

/-- Witness of C15: the tail 11, 13, 17, 19, 23 behind the head 2, 3 goes to
two parts, 11, 17, 23 and 13, 19. -/
theorem dispatch_fb_round_robin_witness :
    (1 ≤ 2)
      ∧ (∀ e ∈ ([⟨11, 5, 1, 0, [6]⟩, ⟨13, 5, 1, 0, [2]⟩, ⟨17, 6, 1, 0, [3]⟩,
          ⟨19, 6, 1, 0, [4]⟩, ⟨23, 6, 1, 0, [5]⟩] : List factorbase_degn_t),
          e.p ≠ FB_END ∧ e.p ≤ 4294967295)
      ∧ fb_end_entry.p = FB_END
      ∧ ∃ res, dispatch_fb
          ([⟨2, 1, 1, 0, [1]⟩, ⟨3, 2, 1, 0, [2]⟩]
            ++ [⟨11, 5, 1, 0, [6]⟩, ⟨13, 5, 1, 0, [2]⟩, ⟨17, 6, 1, 0, [3]⟩,
              ⟨19, 6, 1, 0, [4]⟩, ⟨23, 6, 1, 0, [5]⟩] ++ fb_end_entry :: [])
          2 2 4294967295 = some res
        ∧ res.fb_main = [⟨2, 1, 1, 0, [1]⟩, ⟨3, 2, 1, 0, [2]⟩, fb_end_entry]
        ∧ res.fb_dst.length = 2 := by
  refine ⟨by decide, by decide, rfl, ?_⟩
  obtain ⟨res, h1, h2, h3, _⟩ := dispatch_fb_round_robin 2 4294967295
    [⟨2, 1, 1, 0, [1]⟩, ⟨3, 2, 1, 0, [2]⟩]
    [⟨11, 5, 1, 0, [6]⟩, ⟨13, 5, 1, 0, [2]⟩, ⟨17, 6, 1, 0, [3]⟩,
      ⟨19, 6, 1, 0, [4]⟩, ⟨23, 6, 1, 0, [5]⟩] [] fb_end_entry (by decide) (by decide) rfl
  exact ⟨res, h1, h2, h3⟩

/-! ## One call of `sieve_small_bucket_region` and the cursor across regions -/

/-- The offsets decreased on one line come in increasing order, from the
starting offset on and below `I`. -/
theorem sieve_small_line_sorted (I twop : Nat) (ht : 1 ≤ twop) (hw : I + twop ≤ 2 ^ 32) :
    ∀ (fuel i : Nat) (L : List Nat), sieve_small_line I twop fuel i = some L →
      L.Pairwise (fun a b => a < b) ∧ ∀ x ∈ L, i ≤ x ∧ x < I := by
  intro fuel
  induction fuel with
  | zero =>
    intro i L h
    simp [sieve_small_line] at h
  | succ n ih =>
    intro i L h
    unfold sieve_small_line at h
    by_cases hlt : i < I
    · rw [if_pos hlt, Nat.mod_eq_of_lt (by omega)] at h
      cases hrest : sieve_small_line I twop n (i + twop) with
      | none => rw [hrest] at h; cases h
      | some rest =>
        rw [hrest] at h
        obtain ⟨h1, h2⟩ := ih (i + twop) rest hrest
        have hL : L = i :: rest := (Option.some.inj h).symm
        subst hL
        refine ⟨List.pairwise_cons.2 ⟨fun x hx => ?_, h1⟩, ?_⟩
        · have := (h2 x hx).1; omega
        · intro x hx
          rcases List.mem_cons.1 hx with rfl | hx
          · exact ⟨le_refl _, hlt⟩
          · have := h2 x hx; omega
    · rw [if_neg hlt] at h
      have hL : L = [] := (Option.some.inj h).symm
      subst hL
      exact ⟨List.Pairwise.nil, fun x hx => by cases hx⟩

/-- The offsets decreased by the loop over the lines come in increasing order:
no byte is decreased twice. -/
theorem sieve_small_lines_sorted (si : sieve_info) (nj N p r : Nat) (hp1 : 1 ≤ p)
    (hp32 : si.I + 2 * p ≤ 2 ^ 32) (hI : 0 < si.I) :
    ∀ (lines j i0 : Nat) (L : List Nat) (c : Nat),
      sieve_small_lines si nj N p r lines j i0 = some (L, c) →
      L.Pairwise (fun a b => a < b) ∧ ∀ x ∈ L, j * si.I ≤ x := by
  have hImod : si.I % 2 ^ 32 = si.I := Nat.mod_eq_of_lt (by omega)
  intro lines
  induction lines with
  | zero =>
    intro j i0 L c h
    simp only [sieve_small_lines, Option.some.injEq, Prod.mk.injEq] at h
    rw [← h.1]
    exact ⟨List.Pairwise.nil, fun x hx => by cases hx⟩
  | succ n ih =>
    intro j i0 L c h
    unfold sieve_small_lines at h
    simp only [hImod] at h
    generalize htw : (if decide ((((nj &&& N) ^^^ j) &&& 1) = 0) = true
      then (p + p) % 2 ^ 32 else p) = twop at h
    generalize hst : (if decide ((((nj &&& N) ^^^ j) &&& 1) = 0) = true
      then (i0 + (if i0 &&& 1 ≠ 0 then 0 else p)) % 2 ^ 32 else i0) = st at h
    have e1 : (p + p) % 2 ^ 32 = p + p := Nat.mod_eq_of_lt (by omega)
    have ht1 : 1 ≤ twop := by
      rw [← htw, e1]; split_ifs <;> omega
    have ht2 : si.I + twop ≤ 2 ^ 32 := by
      rw [← htw, e1]; split_ifs <;> omega
    cases hh : sieve_small_line si.I twop (si.I + 1) st with
    | none => rw [hh] at h; cases h
    | some hits =>
      rw [hh] at h
      simp only [] at h
      cases hr : sieve_small_lines si nj N p r n (j + 1)
          (if (i0 + r) % 2 ^ 32 ≥ p then (i0 + r) % 2 ^ 32 - p else (i0 + r) % 2 ^ 32) with
      | none => rw [hr] at h; cases h
      | some rc =>
        obtain ⟨rest, c'⟩ := rc
        rw [hr] at h
        simp only [Option.some.injEq, Prod.mk.injEq] at h
        obtain ⟨hL, _⟩ := h
        subst hL
        obtain ⟨s1, s2⟩ := sieve_small_line_sorted si.I twop ht1 ht2 _ _ _ hh
        obtain ⟨r1, r2⟩ := ih _ _ _ _ hr
        refine ⟨List.pairwise_append.2 ⟨?_, r1, ?_⟩, ?_⟩
        · rw [List.pairwise_map]
          exact s1.imp (fun hab => by omega)
        · intro a ha b hb
          obtain ⟨i, hi, rfl⟩ := List.mem_map.1 ha
          have := (s2 i hi).2
          have := r2 b hb
          rw [Nat.add_mul] at this
          omega
        · intro x hx
          rcases List.mem_append.1 hx with hx | hx
          · obtain ⟨i, hi, rfl⟩ := List.mem_map.1 hx
            omega
          · have := r2 x hx
            rw [Nat.add_mul] at this
            omega

/-- One call of `sieve_small_bucket_region` for an ordinary entry with cursor
`c0 < p`: the call returns, the cursor stored back is `c0 + nj * r` modulo `p`,
and the offsets decreased are `j * I + i` with `j < nj`, `i < I`,
`i = c0 + j * r` modulo `p`, and `i` odd or the row `nj * N + j` odd. -/
theorem sieve_small_bucket_region_run (cfg : las_config) (si : sieve_info) (N p r c0 : Nat)
    (hp : p % 2 = 1) (hp3 : p ≠ 3) (hr : r < p) (hc : c0 < p) (hI : 0 < si.I)
    (hp32 : si.I + 2 * p ≤ 2 ^ 32) :
    ∃ L, sieve_small_bucket_region cfg si N p r c0
        = some (L, (c0 + ((1 <<< cfg.LOG_BUCKET_REGION) >>> si.logI) * r) % p)
      ∧ L.Pairwise (fun a b => a < b)
      ∧ (∀ x, x ∈ L ↔ ∃ j i, x = j * si.I + i
          ∧ j < (1 <<< cfg.LOG_BUCKET_REGION) >>> si.logI ∧ i < si.I
          ∧ i % p = (c0 + j * r) % p
          ∧ (i % 2 = 1 ∨ (((1 <<< cfg.LOG_BUCKET_REGION) >>> si.logI) * N + j) % 2 = 1)) := by
  generalize hnj : (1 <<< cfg.LOG_BUCKET_REGION) >>> si.logI = nj
  obtain ⟨L, hL, hmem⟩ := sieve_small_lines_spec si nj N p r hp hp32 hr hI nj 0 c0 hc
  have hrun : sieve_small_bucket_region cfg si N p r c0 = some (L, (c0 + nj * r) % p) := by
    unfold sieve_small_bucket_region
    simp only [hnj, if_neg hp3]
    exact hL
  have hsorted := (sieve_small_lines_sorted si nj N p r (by omega) hp32 hI nj 0 c0 L _ hL).1
  refine ⟨L, hrun, hsorted, ?_⟩
  intro x
  rw [hmem]
  constructor
  · rintro ⟨j, i, h1, _, h3, h4, h5, h6⟩
    exact ⟨j, i, h1, by omega, h4, by simpa using h5, h6.symm⟩
  · rintro ⟨j, i, h1, h3, h4, h5, h6⟩
    exact ⟨j, i, h1, Nat.zero_le _, by omega, h4, by simpa using h5, h6.symm⟩

/-- The pattern sieve of 3 on a region of two lines of 16 bytes, for the entry
`p = 3`, `r = 2` with cursor 1: the bytes 1, 4, 7, 10, 13 of line 0 and
0, 3, ..., 15 of line 1 are decreased, of both parities, and the cursor stored
back is `(1 + 2 * 2) mod 3`. -/
theorem sieve_small_bucket_region_three :
    sieve_small_bucket_region ⟨false, false, false, 5⟩ ⟨16, 64, 4, 0⟩ 0 3 2 1
      = some ([1, 4, 7, 10, 13, 16, 19, 22, 25, 28, 31], 2) := by
  decide

/-- C16 (amended): for an ordinary entry (`p` odd, `p` not 3, `r < p`) with
cursor `c0 < p` and `I + 2p <= 2^32`, one call of `sieve_small_bucket_region`
for the region `N` returns; it decreases exactly the offsets `x = j * I + i`
with `j < nj`, `i < I`, `i = c0 + j * r` modulo `p`, and `i` odd or the row
`nj * N + j` odd, each of them once; and when the cursor is the one that
`small_sieve_start` sets for a row `j0` with `I/2 + j0 * r < 2^32`, these are
the offsets with `i = I/2 + (j0 + j) * r` modulo `p`. -/
theorem sieve_small_bucket_region_hits (cfg : las_config) (si : sieve_info) (N p r c0 : Nat)
    (hp : p % 2 = 1) (hp3 : p ≠ 3) (hr : r < p) (hc : c0 < p) (hI : 0 < si.I)
    (hp32 : si.I + 2 * p ≤ 2 ^ 32) :
    ∃ L c, sieve_small_bucket_region cfg si N p r c0 = some (L, c)
      ∧ L.Nodup
      ∧ (∀ x, x ∈ L ↔ ∃ j i, x = j * si.I + i
          ∧ j < (1 <<< cfg.LOG_BUCKET_REGION) >>> si.logI ∧ i < si.I
          ∧ i % p = (c0 + j * r) % p
          ∧ (i % 2 = 1 ∨ (((1 <<< cfg.LOG_BUCKET_REGION) >>> si.logI) * N + j) % 2 = 1))
      ∧ (∀ j0, si.I / 2 + j0 * r < 2 ^ 32 → c0 = small_sieve_start si j0 p r →
          ∀ x, x ∈ L ↔ ∃ j i, x = j * si.I + i
            ∧ j < (1 <<< cfg.LOG_BUCKET_REGION) >>> si.logI ∧ i < si.I
            ∧ i % p = (si.I / 2 + (j0 + j) * r) % p
            ∧ (i % 2 = 1 ∨ (((1 <<< cfg.LOG_BUCKET_REGION) >>> si.logI) * N + j) % 2 = 1)) := by
  obtain ⟨L, hrun, hsorted, hmem⟩ :=
    sieve_small_bucket_region_run cfg si N p r c0 hp hp3 hr hc hI hp32
  refine ⟨L, _, hrun, hsorted.imp (fun h => Nat.ne_of_lt h), hmem, ?_⟩
  intro j0 hj0 hstart x
  rw [hmem]
  have hcur : ∀ j, (c0 + j * r) % p = (si.I / 2 + (j0 + j) * r) % p := by
    intro j
    rw [hstart]
    unfold small_sieve_start
    rw [Nat.mod_eq_of_lt hj0, Nat.mod_add_mod]
    congr 1
    ring
  simp only [hcur]

/-- Witness of C16: `p = 17`, `r = 3`, region 0 of 2^16 bytes with `I = 2^10`,
from the cursor that `small_sieve_start` sets at row 0. -/
theorem sieve_small_bucket_region_hits_witness :
    (17 % 2 = 1) ∧ (17 ≠ 3) ∧ (3 < 17)
      ∧ small_sieve_start ⟨1024, 512, 10, 0⟩ 0 17 3 < 17
      ∧ (0 < (⟨1024, 512, 10, 0⟩ : sieve_info).I)
      ∧ ((⟨1024, 512, 10, 0⟩ : sieve_info).I + 2 * 17 ≤ 2 ^ 32)
      ∧ ∃ L c, sieve_small_bucket_region ⟨false, false, false, 16⟩ ⟨1024, 512, 10, 0⟩ 0 17 3
            (small_sieve_start ⟨1024, 512, 10, 0⟩ 0 17 3) = some (L, c)
        ∧ L.Nodup
        ∧ ∀ x, x ∈ L ↔ ∃ j i, x = j * 1024 + i ∧ j < 64 ∧ i < 1024
            ∧ i % 17 = (1024 / 2 + (0 + j) * 3) % 17
            ∧ (i % 2 = 1 ∨ (64 * 0 + j) % 2 = 1) := by
  refine ⟨by decide, by decide, by decide, by decide, by decide, by decide, ?_⟩
  obtain ⟨L, c, h1, h2, _, h4⟩ := sieve_small_bucket_region_hits ⟨false, false, false, 16⟩
    ⟨1024, 512, 10, 0⟩ 0 17 3 (small_sieve_start ⟨1024, 512, 10, 0⟩ 0 17 3)
    (by decide) (by decide) (by decide) (by decide) (by decide) (by decide)
  exact ⟨L, c, h1, h2, h4 0 (by decide) rfl⟩

/-- C16 as stated fails when the product `j0 * r` of `small_sieve_start` leaves
32 bits.  For the prime `p = 786433`, `r = 683753`, `I = 2^9`, regions of two
lines and the row `j0 = 8064` (region 4032), `small_sieve_start` computes
`(I/2 + j0 * r) mod 2^32 mod p = 632435`, not `(I/2 + j0 * r) mod p = 102685`;
from that cursor `sieve_small_bucket_region` decreases nothing in the region,
while the offset `517 = 1 * I + 5` has `5 = I/2 + 8065 * r` modulo `p` and is
odd. -/
theorem sieve_small_bucket_region_hits_counterexample :
    Nat.Prime 786433 ∧ 786433 % 2 = 1 ∧ 786433 ≠ 3 ∧ 683753 < 786433
      ∧ small_sieve_start ⟨2 ^ 9, 2 ^ 15, 9, 0⟩ 8064 786433 683753 = 632435
      ∧ (2 ^ 9 / 2 + 8064 * 683753) % 786433 = 102685
      ∧ sieve_small_bucket_region ⟨false, false, false, 10⟩ ⟨2 ^ 9, 2 ^ 15, 9, 0⟩ 4032 786433
          683753 (small_sieve_start ⟨2 ^ 9, 2 ^ 15, 9, 0⟩ 8064 786433 683753)
          = some ([], 427075)
      ∧ (∃ j i, 517 = j * 2 ^ 9 + i ∧ j < (1 <<< 10) >>> 9 ∧ i < 2 ^ 9
          ∧ i % 786433 = (2 ^ 9 / 2 + (8064 + j) * 683753) % 786433
          ∧ (i % 2 = 1 ∨ (((1 <<< 10) >>> 9) * 4032 + j) % 2 = 1)) := by
  refine ⟨by norm_num, by decide, by decide, by decide, by decide, by decide, by decide,
    1, 5, by decide, by decide, by decide, by decide, by decide⟩

/-- The model of `invmod` finds the inverse of a number coprime to `q > 1`. -/
theorem invmod_spec (a q : Nat) (hq : 1 < q) (hco : Nat.Coprime a q) :
    ∃ U, invmod a q = some U ∧ U < q ∧ (U * a) % q = 1 := by
  unfold invmod
  cases h : (List.range q).find? (fun u => (u * a) % q = 1) with
  | none =>
    exfalso
    obtain ⟨m, hm⟩ := Nat.exists_mul_emod_eq_one_of_coprime hco hq
    have h2 := List.find?_eq_none.1 h (m % q) (List.mem_range.2 (Nat.mod_lt _ (by omega)))
    apply h2
    rw [decide_eq_true_eq, Nat.mod_mul_mod, Nat.mul_comm]
    exact hm
  | some U =>
    refine ⟨U, rfl, ?_, ?_⟩
    · exact List.mem_range.1 (List.mem_of_find?_eq_some h)
    · have := List.find?_some h
      simpa using this

/-- The function `ssp_init_op` for `p > 0`: it returns, with `g = gcd (p, v)`,
`q = p / g`, `g * q = p`, `U < q`, `U = 0` when `q = 1`, and `U` the inverse
of `v / g` modulo `q` when `q > 1`. -/
theorem ssp_init_op_spec (p v skip : Nat) (hp : 0 < p) :
    ∃ s, ssp_init_op p v skip = some s
      ∧ s.g = Nat.gcd p v ∧ s.q = p / s.g ∧ s.g * s.q = p ∧ s.U < s.q
      ∧ (1 < s.q → (s.U * (v / s.g)) % s.q = 1) ∧ (s.q = 1 → s.U = 0) := by
  have hg : 0 < Nat.gcd p v := Nat.gcd_pos_of_pos_left _ hp
  have hmul : Nat.gcd p v * (p / Nat.gcd p v) = p := Nat.mul_div_cancel' (Nat.gcd_dvd_left p v)
  have hq0 : 0 < p / Nat.gcd p v := by
    rcases Nat.eq_zero_or_pos (p / Nat.gcd p v) with h | h
    · rw [h, Nat.mul_zero] at hmul; omega
    · exact h
  unfold ssp_init_op gcd_ul
  simp only []
  rw [if_neg (by omega)]
  by_cases hq1 : p / Nat.gcd p v = 1
  · rw [if_pos hq1]
    refine ⟨_, rfl, rfl, rfl, hmul, ?_, ?_, fun _ => rfl⟩
    · simp only [hq1]; omega
    · intro h; simp only [hq1] at h; omega
  · rw [if_neg hq1]
    have hco : Nat.Coprime (v / Nat.gcd p v) (p / Nat.gcd p v) :=
      (Nat.coprime_div_gcd_div_gcd hg).symm
    obtain ⟨U, hU, hlt, hinv⟩ := invmod_spec _ _ (by omega) hco
    rw [hU]
    exact ⟨_, rfl, rfl, rfl, hmul, hlt, fun _ => hinv, fun h => absurd h hq1⟩

/-- C18: for `p > 0` and every residue `v`, `ssp_init_op` stores
`g = gcd (p, v)` and `q = p / g`, with `g * q = p`, and `U` with `0 <= U < q`,
`U * (v / g) = 1` modulo `q` when `q > 1` and `U = 0` when `q = 1`; and for a
transformed root `r`, `small_sieve_init` sets the bit `SSP_PROJ` exactly when
`r >= p`, then stores the result of `ssp_init_op (p, r - p)`, and sets the bit
`SSP_DISCARD` exactly when moreover `g >= J`. -/
theorem small_sieve_init_projective (si : sieve_info) (skiprows p : Nat) (hp : 0 < p) :
    (∀ v, ∃ s, ssp_init_op p v skiprows = some s
        ∧ s.g = Nat.gcd p v ∧ s.q = p / s.g ∧ s.g * s.q = p ∧ s.U < s.q
        ∧ (1 < s.q → (s.U * (v / s.g)) % s.q = 1) ∧ (s.q = 1 → s.U = 0))
      ∧ (∀ r, ∃ event slot, small_sieve_init_root si skiprows p r = some (event, slot)
        ∧ (event &&& SSP_PROJ ≠ 0 ↔ r ≥ p)
        ∧ (event &&& SSP_DISCARD ≠ 0 ↔ (r ≥ p ∧ Nat.gcd p (r - p) ≥ si.J))
        ∧ (r ≥ p → ∃ s, ssp_init_op p (r - p) skiprows = some s ∧ slot = ssp_slot.bad s)
        ∧ (r < p → slot = ssp_slot.ordinary (ssp_init_oa p r skiprows))) := by
  refine ⟨fun v => ssp_init_op_spec p v skiprows hp, ?_⟩
  intro r
  unfold small_sieve_init_root
  simp only []
  have hev : (if p &&& 1 = 0 then 0 ||| SSP_POW2 else 0) = 1
      ∨ (if p &&& 1 = 0 then 0 ||| SSP_POW2 else 0) = 0 := by
    split_ifs
    · left; rfl
    · right; rfl
  generalize (if p &&& 1 = 0 then 0 ||| SSP_POW2 else 0) = event0 at hev
  by_cases hr : r ≥ p
  · rw [if_pos hr]
    obtain ⟨s, hs, hg, _⟩ := ssp_init_op_spec p (r - p) skiprows hp
    rw [hs]
    simp only []
    refine ⟨_, _, rfl, ?_, ?_, fun _ => ⟨s, rfl, rfl⟩, fun h => absurd hr (by omega)⟩
    · simp only [hr, iff_true]
      by_cases hj : s.g ≥ si.J
      · rw [if_pos hj]
        rcases hev with h | h <;> rw [h] <;> decide
      · rw [if_neg hj]
        rcases hev with h | h <;> rw [h] <;> decide
    · rw [← hg]
      by_cases hj : s.g ≥ si.J
      · rw [if_pos hj]
        simp only [hr, hj, and_self, iff_true]
        rcases hev with h | h <;> rw [h] <;> decide
      · rw [if_neg hj]
        simp only [hr, hj, and_false, iff_false, not_not]
        rcases hev with h | h <;> rw [h] <;> decide
  · rw [if_neg hr]
    refine ⟨_, _, rfl, ?_, ?_, fun h => absurd h hr, fun _ => rfl⟩
    · simp only [hr, iff_false, not_not]
      rcases hev with h | h <;> rw [h] <;> decide
    · simp only [hr, false_and, iff_false, not_not]
      rcases hev with h | h <;> rw [h] <;> decide

/-- Witness of C18: `p = 9` with the transformed root `12`, hence `v = 3`,
`g = 3`, `q = 3`, `U = 1`. -/
theorem small_sieve_init_projective_witness :
    (0 < 9)
      ∧ ssp_init_op 9 3 0 = some ⟨3, 3, 1⟩
      ∧ small_sieve_init_root ⟨16, 8, 4, 7⟩ 0 9 12 = some (SSP_PROJ, ssp_slot.bad ⟨3, 3, 1⟩)
      ∧ ∀ v, ∃ s, ssp_init_op 9 v 0 = some s
        ∧ s.g = Nat.gcd 9 v ∧ s.q = 9 / s.g ∧ s.g * s.q = 9 ∧ s.U < s.q
        ∧ (1 < s.q → (s.U * (v / s.g)) % s.q = 1) ∧ (s.q = 1 → s.U = 0) :=
  ⟨by decide, by decide, by decide,
    (small_sieve_init_projective ⟨16, 8, 4, 7⟩ 0 9 (by decide)).1⟩

/-! ## Survivors -/

/-- C19: for bytes `S1`, `S2`, `threshold` and tables of bytes,
`sieve_info_test_lognorm` holds exactly when `C1[S1] + C2[S2] <= threshold`,
the sum being the sum of two numbers (up to 510, not reduced modulo 256); hence
a position that survives at a threshold survives at every larger threshold. -/
theorem sieve_info_test_lognorm_monotone (C1 C2 : Nat → Nat) (S1 S2 threshold : Nat)
    (hS1 : S1 < 256) (hS2 : S2 < 256) (ht : threshold < 256)
    (hC1 : ∀ s, C1 s < 256) (hC2 : ∀ s, C2 s < 256) :
    (sieve_info_test_lognorm C1 C2 S1 S2 threshold = true ↔ C1 S1 + C2 S2 ≤ threshold)
      ∧ (∀ t, threshold ≤ t → t < 256 →
          sieve_info_test_lognorm C1 C2 S1 S2 threshold = true →
          sieve_info_test_lognorm C1 C2 S1 S2 t = true) := by
  have e1 : C1 (S1 % 256) % 256 = C1 S1 := by
    rw [Nat.mod_eq_of_lt hS1, Nat.mod_eq_of_lt (hC1 S1)]
  have e2 : C2 (S2 % 256) % 256 = C2 S2 := by
    rw [Nat.mod_eq_of_lt hS2, Nat.mod_eq_of_lt (hC2 S2)]
  unfold sieve_info_test_lognorm
  simp only [e1, e2, decide_eq_true_eq]
  refine ⟨by rw [Nat.mod_eq_of_lt ht], ?_⟩
  intro t h1 h2 h3
  rw [Nat.mod_eq_of_lt ht] at h3
  rw [Nat.mod_eq_of_lt h2]
  omega

/-- Witness of C19: two table values 200 and 100, whose sum 300 exceeds every
byte although 300 mod 256 = 44 does not; and the values 60 and 66 at the
threshold 126 of `factor_survivors`. -/
theorem sieve_info_test_lognorm_monotone_witness :
    ((3 : Nat) < 256) ∧ ((5 : Nat) < 256) ∧ ((126 : Nat) < 256)
      ∧ (∀ s : Nat, (fun _ => 60) s < 256) ∧ (∀ s : Nat, (fun _ => 66) s < 256)
      ∧ sieve_info_test_lognorm (fun _ => 200) (fun _ => 100) 3 5 255 = false
      ∧ (sieve_info_test_lognorm (fun _ => 60) (fun _ => 66) 3 5 126 = true
          ↔ (fun _ => 60) 3 + (fun _ => 66) 5 ≤ 126) :=
  ⟨by decide, by decide, by decide, fun _ => show (60 : Nat) < 256 by decide,
    fun _ => show (66 : Nat) < 256 by decide, by decide,
    (sieve_info_test_lognorm_monotone (fun _ => 60) (fun _ => 66) 3 5 126 (by decide)
      (by decide) (by decide) (fun _ => show (60 : Nat) < 256 by decide)
      (fun _ => show (66 : Nat) < 256 by decide)).1⟩

/-- A common divisor of `i * a0 + j * a1` and `i * b0 + j * b1`, for coprime
`|i|` and `j`, divides the determinant `a0 * b1 - a1 * b0`. -/
theorem dvd_det_of_coprime (a0 b0 a1 b1 i : Int) (j d : Nat)
    (hco : Nat.gcd i.natAbs j = 1)
    (hA : (d : Int) ∣ i * a0 + (j : Int) * a1) (hC : (d : Int) ∣ i * b0 + (j : Int) * b1) :
    d ∣ (a0 * b1 - a1 * b0).natAbs := by
  have h1 : (d : Int) ∣ i * (a0 * b1 - a1 * b0) := by
    have : i * (a0 * b1 - a1 * b0)
        = b1 * (i * a0 + (j : Int) * a1) - a1 * (i * b0 + (j : Int) * b1) := by ring
    rw [this]
    exact Int.dvd_sub (Dvd.dvd.mul_left hA _) (Dvd.dvd.mul_left hC _)
  have h2 : (d : Int) ∣ (j : Int) * (a0 * b1 - a1 * b0) := by
    have : (j : Int) * (a0 * b1 - a1 * b0)
        = a0 * (i * b0 + (j : Int) * b1) - b0 * (i * a0 + (j : Int) * a1) := by ring
    rw [this]
    exact Int.dvd_sub (Dvd.dvd.mul_left hC _) (Dvd.dvd.mul_left hA _)
  have h3 : d ∣ i.natAbs * (a0 * b1 - a1 * b0).natAbs := by
    have := Int.natAbs_dvd_natAbs.2 h1
    rwa [Int.natAbs_ofNat, Int.natAbs_mul] at this
  have h4 : d ∣ j * (a0 * b1 - a1 * b0).natAbs := by
    have := Int.natAbs_dvd_natAbs.2 h2
    rwa [Int.natAbs_ofNat, Int.natAbs_mul, Int.natAbs_ofNat] at this
  have h5 := Nat.dvd_gcd h3 h4
  rwa [Nat.gcd_mul_right, hco, Nat.one_mul] at h5

/-- The pair of `NxToAB` is, up to a common sign, `(i*a0 + j*a1, i*b0 + j*b1)`
for the coordinates `(i, j)` of the position. -/
theorem NxToAB_cases (cfg : las_config) (si : sieve_info) (ql : qlattice_basis) (N x : Nat) :
    Int.gcd (NxToAB cfg si ql N x).1 ((NxToAB cfg si ql N x).2 : Int)
        = Int.gcd ((region_coords cfg si N x).1 * ql.a0
            + ((region_coords cfg si N x).2 : Int) * ql.a1)
          ((region_coords cfg si N x).1 * ql.b0 + ((region_coords cfg si N x).2 : Int) * ql.b1)
      ∧ (NxToAB cfg si ql N x).2
        = ((region_coords cfg si N x).1 * ql.b0
            + ((region_coords cfg si N x).2 : Int) * ql.b1).natAbs := by
  unfold NxToAB
  simp only []
  generalize (region_coords cfg si N x).1 * ql.a0
    + ((region_coords cfg si N x).2 : Int) * ql.a1 = A
  generalize (region_coords cfg si N x).1 * ql.b0
    + ((region_coords cfg si N x).2 : Int) * ql.b1 = C
  by_cases hc : C ≥ 0
  · rw [if_pos hc]
    simp only []
    rw [Int.toNat_of_nonneg hc]
    refine ⟨rfl, ?_⟩
    omega
  · rw [if_neg hc]
    simp only []
    rw [Int.toNat_of_nonneg (by omega), Int.gcd_neg, Int.neg_gcd]
    refine ⟨rfl, ?_⟩
    omega

/-- C20: when the basis of the q-lattice has determinant `q` in absolute value
and `q` is prime, every position that passes the filters of `factor_survivors`
(the test of the two sieve bytes, `bin_gcd_safe (|i|, j) = 1`, `b` not 0 and
`b` not a multiple of `q`) has `gcd (a, b) = 1`. -/
theorem factor_survivors_coprime (cfg : las_config) (si : sieve_info) (ql : qlattice_basis)
    (alg_Bound rat_Bound : Nat → Nat) (alg_S rat_S N x : Nat) (a : Int) (b : Nat)
    (hq : Nat.Prime si.q) (hdet : (ql.a0 * ql.b1 - ql.a1 * ql.b0).natAbs = si.q)
    (h : factor_survivors_filter cfg si ql alg_Bound rat_Bound alg_S rat_S N x
      = some (some (a, b))) :
    Int.gcd a (b : Int) = 1 := by
  unfold factor_survivors_filter at h
  simp only [] at h
  by_cases c1 : sieve_info_test_lognorm alg_Bound rat_Bound alg_S rat_S 126 = false
  · rw [if_pos c1] at h; cases h
  rw [if_neg c1] at h
  by_cases c2 : bin_gcd_safe (region_coords cfg si N x).1.natAbs (region_coords cfg si N x).2 ≠ 1
  · rw [if_pos c2] at h; cases h
  rw [if_neg c2] at h
  by_cases c3 : rat_S % 256 = 255
  · rw [if_pos c3] at h; cases h
  rw [if_neg c3] at h
  by_cases c4 : (Int.lor (NxToAB cfg si ql N x).1 ((NxToAB cfg si ql N x).2 : Int)) % 2 = 0
  · rw [if_pos c4] at h; cases h
  rw [if_neg c4] at h
  by_cases c5 : (NxToAB cfg si ql N x).2 = 0
      ∨ ((NxToAB cfg si ql N x).2 ≥ si.q ∧ (NxToAB cfg si ql N x).2 % si.q = 0)
  · rw [if_pos c5] at h; cases h
  rw [if_neg c5] at h
  have hab : NxToAB cfg si ql N x = (a, b) := Option.some.inj (Option.some.inj h)
  obtain ⟨hgcd, hb⟩ := NxToAB_cases cfg si ql N x
  rw [hab] at hgcd hb c5
  simp only [] at hgcd hb c5
  have hco : Nat.gcd (region_coords cfg si N x).1.natAbs (region_coords cfg si N x).2 = 1 := by
    unfold bin_gcd_safe at c2
    exact not_not.1 c2
  rw [hgcd]
  generalize hA : (region_coords cfg si N x).1 * ql.a0
    + ((region_coords cfg si N x).2 : Int) * ql.a1 = A at *
  generalize hC : (region_coords cfg si N x).1 * ql.b0
    + ((region_coords cfg si N x).2 : Int) * ql.b1 = C at *
  have hdA : ((Int.gcd A C : Nat) : Int) ∣ A := Int.gcd_dvd_left
  have hdC : ((Int.gcd A C : Nat) : Int) ∣ C := Int.gcd_dvd_right
  have hd : Int.gcd A C ∣ si.q := by
    rw [← hdet]
    exact dvd_det_of_coprime ql.a0 ql.b0 ql.a1 ql.b1 _ _ _ hco (hA ▸ hdA) (hC ▸ hdC)
  rcases (Nat.dvd_prime hq).1 hd with h1 | h1
  · exact h1
  · exfalso
    apply c5
    have hqb : si.q ∣ b := by
      rw [hb, ← h1]
      exact Int.natAbs_dvd_natAbs.2 hdC |>.trans (by simp)
    by_cases hb0 : b = 0
    · left; exact hb0
    · right
      exact ⟨Nat.le_of_dvd (Nat.pos_of_ne_zero hb0) hqb, Nat.mod_eq_zero_of_dvd hqb⟩

/-- Witness of C20: `q = 7` with the basis `(7, 0)`, `(3, 1)`; the position
`x = 25` of region 0, that is `(i, j) = (1, 1)`, passes the filters with
`(a, b) = (10, 1)`. -/
theorem factor_survivors_coprime_witness :
    Nat.Prime (⟨16, 8, 4, 7⟩ : sieve_info).q
      ∧ ((⟨7, 0, 3, 1⟩ : qlattice_basis).a0 * (⟨7, 0, 3, 1⟩ : qlattice_basis).b1
          - (⟨7, 0, 3, 1⟩ : qlattice_basis).a1 * (⟨7, 0, 3, 1⟩ : qlattice_basis).b0).natAbs
        = (⟨16, 8, 4, 7⟩ : sieve_info).q
      ∧ factor_survivors_filter ⟨false, false, false, 7⟩ ⟨16, 8, 4, 7⟩ ⟨7, 0, 3, 1⟩
          (fun _ => 0) (fun _ => 0) 10 10 0 25 = some (some (10, 1))
      ∧ Int.gcd 10 ((1 : Nat) : Int) = 1 :=
  ⟨by norm_num, by decide, by decide,
    factor_survivors_coprime ⟨false, false, false, 7⟩ ⟨16, 8, 4, 7⟩ ⟨7, 0, 3, 1⟩
      (fun _ => 0) (fun _ => 0) 10 10 0 25 10 1 (by norm_num) (by decide) (by decide)⟩

/-! ## `apply_one_bucket` and the log-weight classes -/

/-- C23: `apply_one_bucket` on a bucket whose first log-weight class is empty.
The bucket holds one update at position 5, pushed while the second class
(weight 11) was current; both classes recorded the write pointer 0.  The code
decreases position 5 by 10, the weight of the first class, while the largest
class whose recorded pointer is at most the address of the update is the
second one, of weight 11. -/
theorem apply_one_bucket_empty_class :
    apply_one_bucket ⟨[⟨5, 0⟩], 2, [10, 11], [0, 0]⟩ = some [(5, 10)]
      ∧ logp_at_push ⟨[⟨5, 0⟩], 2, [10, 11], [0, 0]⟩ 0 = some 11 := by
  decide

/-! ## The number of bucket regions -/

theorem bucket_region_pos (cfg : las_config) : 0 < bucket_region cfg := by
  unfold bucket_region
  rw [Nat.one_shiftLeft]
  exact Nat.two_pow_pos _

/-- For `n ≥ 1` and `R ≥ 1`, `1 + (n - 1) / R` is the ceiling of `n / R`. -/
theorem ceil_div_eq (n R : Nat) (hn : 1 ≤ n) (hR : 0 < R) :
    Nat.ceil ((n : ℚ) / (R : ℚ)) = 1 + (n - 1) / R := by
  have hRq : (0 : ℚ) < (R : ℚ) := by exact_mod_cast hR
  have h1 : R * ((n - 1) / R) ≤ n - 1 := Nat.mul_div_le _ _
  have h2 : n - 1 < R * ((n - 1) / R + 1) := by
    have := Nat.lt_succ_iff.2 (Nat.le_refl ((n - 1) / R))
    exact ((Nat.div_lt_iff_lt_mul hR).1 this).trans_eq (Nat.mul_comm _ _)
  generalize (n - 1) / R = k at h1 h2
  rw [Nat.ceil_eq_iff (by omega)]
  have e : 1 + k - 1 = k := by omega
  rw [e]
  constructor
  · rw [lt_div_iff₀ hRq]
    have : R * k < n := by omega
    have h3 : ((R * k : Nat) : ℚ) < (n : ℚ) := by exact_mod_cast this
    push_cast at h3
    linarith
  · rw [div_le_iff₀ hRq]
    have : n ≤ R * (k + 1) := by omega
    have h3 : (n : ℚ) ≤ ((R * (k + 1) : Nat) : ℚ) := by exact_mod_cast this
    push_cast at h3 ⊢
    linarith

theorem sieve_info_update_nb_buckets_eq (cfg : las_config) (si : sieve_info)
    (h1 : 1 ≤ si.I * si.J) (h2 : si.I * si.J < 2 ^ 32) :
    sieve_info_update_nb_buckets cfg si = 1 + (si.I * si.J - 1) / bucket_region cfg := by
  unfold sieve_info_update_nb_buckets
  have hR := bucket_region_pos cfg
  have e1 : (si.I * si.J) % 2 ^ 32 = si.I * si.J := Nat.mod_eq_of_lt h2
  rw [e1]
  have e2 : (si.I * si.J + (2 ^ 32 - 1)) % 2 ^ 32 = si.I * si.J - 1 := by omega
  rw [e2]
  have h3 : (si.I * si.J - 1) / bucket_region cfg ≤ si.I * si.J - 1 := Nat.div_le_self _ _
  apply Nat.mod_eq_of_lt
  omega
theorem sieve_info_init_nb_buckets_eq (cfg : las_config) (s : Bool) (logI : Nat)
    (h1 : 2 ≤ logI) (h2 : logI ≤ cfg.LOG_BUCKET_REGION + 1)
    (h3 : logI ≤ 16 ∨ (s = true ∧ logI ≤ 17)) :
    sieve_info_init_nb_buckets cfg s logI
      = some (2 ^ logI, 2 ^ (logI - 1),
          1 + (2 ^ logI / 2 * (2 ^ (logI - 1) / 2) - 1) / bucket_region cfg) := by
  have hR := bucket_region_pos cfg
  have hl : logI ≤ 17 := by omega
  obtain ⟨k, rfl⟩ : ∃ k, logI = k + 2 := ⟨logI - 2, by omega⟩
  have hk : k ≤ 15 := by omega
  have ha : 2 ^ k ≤ 2 ^ 15 := Nat.pow_le_pow_right (by decide) hk
  have ha1 : 1 ≤ 2 ^ k := Nat.two_pow_pos k
  have eI : 2 ^ (k + 2) = 4 * 2 ^ k := by rw [pow_add]; omega
  have eJ : 2 ^ (k + 2 - 1) = 2 * 2 ^ k := by
    have : k + 2 - 1 = k + 1 := by omega
    rw [this, pow_succ]; omega
  unfold sieve_info_init_nb_buckets
  simp only [Nat.one_shiftLeft]
  rw [eI, eJ]
  have c1 : ¬ cfg.LOG_BUCKET_REGION + 1 < k + 2 := by omega
  have c2 : ¬ (s = false ∧ k + 2 ≥ 17) := by
    rintro ⟨hs, hge⟩
    rcases h3 with h | ⟨h, _⟩
    · omega
    · rw [hs] at h; cases h
  rw [if_neg c1, if_neg c2]
  have norm4 : (2 : Nat) ^ 32 = 4294967296 := by norm_num
  have n15 : (2 : Nat) ^ 15 = 32768 := by norm_num
  rw [norm4]
  rw [n15] at ha
  generalize 2 ^ k = a at ha ha1
  have m1 : 4 * a % 4294967296 = 4 * a := by omega
  have m2 : 2 * a % 4294967296 = 2 * a := by omega
  rw [m1, m2]
  have d1 : 4 * a / 2 = 2 * a := by omega
  have d2 : 2 * a / 2 = a := by omega
  rw [d1, d2]
  have hm1 : 1 ≤ 2 * a * a := by
    have := Nat.mul_le_mul ha1 ha1
    have h5 : a * a ≤ 2 * a * a := by rw [Nat.mul_assoc]; omega
    omega
  have hm2 : 2 * a * a ≤ 2147483648 := by
    have := Nat.mul_le_mul ha ha
    rw [Nat.mul_assoc]; omega
  generalize 2 * a * a = m at hm1 hm2
  have m3 : m % 4294967296 = m := by omega
  rw [m3]
  have m4 : (m + (4294967296 - 1)) % 4294967296 = m - 1 := by omega
  rw [m4]
  have h6 : (m - 1) / bucket_region cfg ≤ m - 1 := Nat.div_le_self _ _
  generalize (m - 1) / bucket_region cfg = t at h6
  have m5 : (1 + t) % 4294967296 = 1 + t := by omega
  rw [m5]

/-- C24, as amended: for `I, J ≥ 1` with `I * J < 2^32`, `sieve_info_update`
sets `nb_buckets` to the ceiling of `I * J / bucket_region` (the value
`nb_buckets` of the region walk); `sieve_info_init`, for `2 ≤ logI` within its
assertions, sets `I = 2^logI`, `J = 2^(logI - 1)` and `nb_buckets` to the
ceiling of `(I / 2) * (J / 2) / bucket_region`, a quarter of the area. -/
theorem nb_buckets_ceil (cfg : las_config) (si : sieve_info) (s : Bool) (logI : Nat)
    (hI : 1 ≤ si.I) (hJ : 1 ≤ si.J) (hIJ : si.I * si.J < 2 ^ 32)
    (h1 : 2 ≤ logI) (h2 : logI ≤ cfg.LOG_BUCKET_REGION + 1)
    (h3 : logI ≤ 16 ∨ (s = true ∧ logI ≤ 17)) :
    sieve_info_update_nb_buckets cfg si
        = Nat.ceil (((si.I * si.J : Nat) : ℚ) / (bucket_region cfg : ℚ))
      ∧ sieve_info_update_nb_buckets cfg si = nb_buckets cfg si
      ∧ ∃ I J nb, sieve_info_init_nb_buckets cfg s logI = some (I, J, nb)
          ∧ I = 2 ^ logI ∧ J = 2 ^ (logI - 1)
          ∧ nb = Nat.ceil ((((I / 2) * (J / 2) : Nat) : ℚ) / (bucket_region cfg : ℚ)) := by
  have hR := bucket_region_pos cfg
  have hp : 1 ≤ si.I * si.J := Nat.mul_le_mul hI hJ
  refine ⟨?_, ?_, ?_⟩
  · rw [sieve_info_update_nb_buckets_eq cfg si hp hIJ, ceil_div_eq _ _ hp hR]
  · rw [sieve_info_update_nb_buckets_eq cfg si hp hIJ]
    rfl
  · refine ⟨_, _, _, sieve_info_init_nb_buckets_eq cfg s logI h1 h2 h3, rfl, rfl, ?_⟩
    have hq : 1 ≤ 2 ^ logI / 2 * (2 ^ (logI - 1) / 2) := by
      obtain ⟨k, rfl⟩ : ∃ k, logI = k + 2 := ⟨logI - 2, by omega⟩
      have ha1 : 1 ≤ 2 ^ k := Nat.two_pow_pos k
      have eI : 2 ^ (k + 2) = 4 * 2 ^ k := by rw [pow_add]; omega
      have eJ : 2 ^ (k + 2 - 1) = 2 * 2 ^ k := by
        have : k + 2 - 1 = k + 1 := by omega
        rw [this, pow_succ]; omega
      rw [eI, eJ]
      generalize 2 ^ k = a at ha1
      have d1 : 4 * a / 2 = 2 * a := by omega
      have d2 : 2 * a / 2 = a := by omega
      rw [d1, d2]
      have h2a : 1 ≤ 2 * a := by omega
      have := Nat.mul_le_mul h2a ha1
      simpa using this
    rw [ceil_div_eq _ _ hq hR]

theorem nb_buckets_ceil_witness :
    sieve_info_update_nb_buckets ⟨false, false, false, 7⟩ ⟨16, 8, 4, 0⟩
        = Nat.ceil ((((16 : Nat) * 8 : Nat) : ℚ)
            / (bucket_region ⟨false, false, false, 7⟩ : ℚ))
      ∧ sieve_info_update_nb_buckets ⟨false, false, false, 7⟩ ⟨16, 8, 4, 0⟩
          = nb_buckets ⟨false, false, false, 7⟩ ⟨16, 8, 4, 0⟩
      ∧ ∃ I J nb, sieve_info_init_nb_buckets ⟨false, false, false, 7⟩ false 4 = some (I, J, nb)
          ∧ I = 2 ^ 4 ∧ J = 2 ^ (4 - 1)
          ∧ nb = Nat.ceil ((((I / 2) * (J / 2) : Nat) : ℚ)
              / (bucket_region ⟨false, false, false, 7⟩ : ℚ)) :=
  nb_buckets_ceil ⟨false, false, false, 7⟩ ⟨16, 8, 4, 0⟩ false 4
    (by decide) (by decide) (by decide) (by decide) (by decide) (Or.inl (by decide))

/-- C24 as stated fails for `sieve_info_init`: with `logI = 10` and
`LOG_BUCKET_REGION = 16` it sets `I = 1024`, `J = 512` and `nb_buckets = 2`,
while the ceiling of `I * J / bucket_region` is 8, the value that
`sieve_info_update` sets.  It also fails for `sieve_info_update` when `I * J`
does not fit 32 bits: for `I = 2^17`, `J = 2^16` the product wraps to 0 and
`nb_buckets` is `2^16`, not `2^17`. -/
theorem nb_buckets_ceil_counterexample :
    sieve_info_init_nb_buckets ⟨false, false, false, 16⟩ false 10 = some (1024, 512, 2)
      ∧ sieve_info_update_nb_buckets ⟨false, false, false, 16⟩ ⟨1024, 512, 10, 0⟩ = 8
      ∧ Nat.ceil ((((1024 : Nat) * 512 : Nat) : ℚ)
          / (bucket_region ⟨false, false, false, 16⟩ : ℚ)) = 8
      ∧ sieve_info_update_nb_buckets ⟨false, false, false, 16⟩ ⟨131072, 65536, 17, 0⟩ = 65536
      ∧ Nat.ceil ((((131072 : Nat) * 65536 : Nat) : ℚ)
          / (bucket_region ⟨false, false, false, 16⟩ : ℚ)) = 131072 := by
  have hR : bucket_region ⟨false, false, false, 16⟩ = 65536 := by decide
  refine ⟨by decide, by decide, ?_, by decide, ?_⟩
  · rw [ceil_div_eq _ _ (by decide) (by rw [hR]; decide), hR]
  · rw [ceil_div_eq _ _ (by decide) (by rw [hR]; decide), hR]

/-! ## The bucket overflow retry -/

/-- C25: one pass of the special-q loop that reaches the fill phase.  When
`max_full ≥ 1` the pass allocates, fills and frees the buckets and runs no
region processing and no report; the multiplier `m` becomes
`m * (1.1 * max_full)`, strictly larger than `m`; the root counter, the roots
and `q0` are as before the pass, so that the next pass takes up the same
`(q, rho)`.  When `max_full < 1` the multiplier is unchanged, the regions of
`(q, rho)` are processed once and the root counter has gone down by one. -/
theorem main_iteration_overflow_retry (rho : Nat) (SkewGauss : Int) (max_full : ℚ)
    (st : main_state) (si_rho : Nat)
    (hn : 0 < st.nroots) (hr : st.roots.get? (st.nroots - 1) = some si_rho)
    (hrho : rho = 0 ∨ si_rho = rho) (hs : SkewGauss = 0)
    (hm : 0 < st.bucket_limit_multiplier) :
    (1 ≤ max_full →
      ∃ st1, main_iteration rho SkewGauss max_full st
          = some (st1, [main_event.thread_buckets_alloc st.bucket_limit_multiplier,
              main_event.fill_in_buckets_both st.q0 si_rho, main_event.thread_buckets_free])
        ∧ st1.bucket_limit_multiplier = st.bucket_limit_multiplier * (11 / 10 * max_full)
        ∧ st.bucket_limit_multiplier < st1.bucket_limit_multiplier
        ∧ st1.nroots = st.nroots ∧ st1.roots = st.roots ∧ st1.q0 = st.q0
        ∧ main_next_pair st1 = some (st.q0, si_rho)
        ∧ main_next_pair st = some (st.q0, si_rho))
    ∧ (max_full < 1 →
      ∃ st1, main_iteration rho SkewGauss max_full st
          = some (st1, [main_event.thread_buckets_alloc st.bucket_limit_multiplier,
              main_event.fill_in_buckets_both st.q0 si_rho,
              main_event.process_bucket_region st.q0 si_rho,
              main_event.report st.q0 si_rho, main_event.thread_buckets_free])
        ∧ st1.bucket_limit_multiplier = st.bucket_limit_multiplier
        ∧ st1.nroots = st.nroots - 1 ∧ st1.roots = st.roots ∧ st1.q0 = st.q0) := by
  have hn0 : ¬ st.nroots = 0 := by omega
  have c1 : ¬ (rho ≠ 0 ∧ si_rho ≠ rho) := by
    rintro ⟨h1, h2⟩
    rcases hrho with h | h
    · exact h1 h
    · exact h2 h
  have c2 : ¬ SkewGauss ≠ 0 := fun h => h hs
  constructor
  · intro hfull
    have c3 : max_full ≥ 1 := hfull
    have e1 : st.nroots - 1 + 1 = st.nroots := by omega
    refine ⟨{ st with
        nroots := st.nroots - 1 + 1
        bucket_limit_multiplier := st.bucket_limit_multiplier * (11 / 10 * max_full)
        sq := st.sq + 1 }, ?_, rfl, ?_, e1, rfl, rfl, ?_, ?_⟩
    · unfold main_iteration
      simp only [if_neg hn0, hr, if_neg c1, if_neg c2, if_pos c3, List.cons_append,
        List.nil_append]
    · show st.bucket_limit_multiplier < st.bucket_limit_multiplier * (11 / 10 * max_full)
      have : (1 : ℚ) < 11 / 10 * max_full := by linarith
      calc st.bucket_limit_multiplier = st.bucket_limit_multiplier * 1 := by ring
        _ < st.bucket_limit_multiplier * (11 / 10 * max_full) :=
          mul_lt_mul_of_pos_left this hm
    · unfold main_next_pair
      simp only []
      have e2 : ¬ st.nroots - 1 + 1 = 0 := by omega
      rw [if_neg e2]
      have e3 : st.nroots - 1 + 1 - 1 = st.nroots - 1 := by omega
      rw [e3, hr]
      rfl
    · unfold main_next_pair
      rw [if_neg hn0, hr]
      rfl
  · intro hfull
    have c3 : ¬ max_full ≥ 1 := not_le.2 hfull
    refine ⟨{ st with nroots := st.nroots - 1, sq := st.sq + 1 }, ?_, rfl, rfl, rfl, rfl⟩
    unfold main_iteration
    simp only [if_neg hn0, hr, if_neg c1, if_neg c2, if_neg c3, List.cons_append,
      List.nil_append]

theorem main_iteration_overflow_retry_witness :
    (1 ≤ (3 / 2 : ℚ) →
      ∃ st1, main_iteration 0 0 (3 / 2) ⟨101, [7, 12], 2, 1, 0⟩
          = some (st1, [main_event.thread_buckets_alloc 1,
              main_event.fill_in_buckets_both 101 12, main_event.thread_buckets_free])
        ∧ st1.bucket_limit_multiplier = 1 * (11 / 10 * (3 / 2))
        ∧ (1 : ℚ) < st1.bucket_limit_multiplier
        ∧ st1.nroots = 2 ∧ st1.roots = [7, 12] ∧ st1.q0 = 101
        ∧ main_next_pair st1 = some (101, 12)
        ∧ main_next_pair ⟨101, [7, 12], 2, 1, 0⟩ = some (101, 12))
    ∧ ((3 / 2 : ℚ) < 1 →
      ∃ st1, main_iteration 0 0 (3 / 2) ⟨101, [7, 12], 2, 1, 0⟩
          = some (st1, [main_event.thread_buckets_alloc 1,
              main_event.fill_in_buckets_both 101 12,
              main_event.process_bucket_region 101 12,
              main_event.report 101 12, main_event.thread_buckets_free])
        ∧ st1.bucket_limit_multiplier = 1
        ∧ st1.nroots = 2 - 1 ∧ st1.roots = [7, 12] ∧ st1.q0 = 101) :=
  main_iteration_overflow_retry 0 0 (3 / 2) ⟨101, [7, 12], 2, 1, 0⟩ 12
    (by decide) rfl (Or.inl rfl) rfl (by norm_num)

/-! ## `double_poly_dichotomy` -/

/-- The body of the loop halves the bracket. -/
theorem double_poly_dichotomy_body_width (p : List ℚ) (sa : ℚ) (ab : ℚ × ℚ) :
    (double_poly_dichotomy_body p sa ab).2 - (double_poly_dichotomy_body p sa ab).1
      = (ab.2 - ab.1) / 2 := by
  unfold double_poly_dichotomy_body
  simp only []
  split_ifs
  · show ab.2 - (ab.1 + ab.2) * (1 / 2) = (ab.2 - ab.1) / 2
    ring
  · show (ab.1 + ab.2) * (1 / 2) - ab.1 = (ab.2 - ab.1) / 2
    ring

/-- The loop of `double_poly_dichotomy` called with `n` runs its body `n + 1`
times: it evaluates the polynomial `n + 1` times and leaves a bracket of width
`(b - a) / 2^(n + 1)`. -/
theorem double_poly_dichotomy_loop_spec (p : List ℚ) (sa : ℚ) (n : Nat) :
    ∀ (ab : ℚ × ℚ) (evals : Nat),
      (double_poly_dichotomy_loop p sa n ab evals).2 = evals + n + 1
        ∧ (double_poly_dichotomy_loop p sa n ab evals).1.2
            - (double_poly_dichotomy_loop p sa n ab evals).1.1
          = (ab.2 - ab.1) / 2 ^ (n + 1) := by
  induction n with
  | zero =>
    intro ab evals
    refine ⟨rfl, ?_⟩
    show (double_poly_dichotomy_body p sa ab).2 - (double_poly_dichotomy_body p sa ab).1 = _
    rw [double_poly_dichotomy_body_width]
    norm_num
  | succ n ih =>
    intro ab evals
    obtain ⟨h1, h2⟩ := ih (double_poly_dichotomy_body p sa ab) (evals + 1)
    constructor
    · show (double_poly_dichotomy_loop p sa n (double_poly_dichotomy_body p sa ab)
        (evals + 1)).2 = _
      rw [h1]; omega
    · show (double_poly_dichotomy_loop p sa n (double_poly_dichotomy_body p sa ab)
          (evals + 1)).1.2
        - (double_poly_dichotomy_loop p sa n (double_poly_dichotomy_body p sa ab)
          (evals + 1)).1.1 = _
      rw [h2, double_poly_dichotomy_body_width, div_div]
      congr 1
      ring

/-- C29: `double_poly_dichotomy` called with `n = 0` on the polynomial `x`, the
bracket `[-1, 3]` and `sa = -1`.  The loop runs its body once (one evaluation)
and leaves the bracket `[-1, 1]`, so the function returns 0; with no iteration
the midpoint of the bracket is 1.  For every `n` the loop evaluates the
polynomial `n + 1` times and the final width is `(b - a) / 2^(n + 1)`. -/
theorem double_poly_dichotomy_off_by_one :
    double_poly_dichotomy_loop [0, 1] (-1) 0 (-1, 3) 0 = ((-1, 1), 1)
      ∧ double_poly_dichotomy [0, 1] (-1) 3 (-1) 0 = 0
      ∧ ((-1 : ℚ) + 3) * (1 / 2) = 1
      ∧ ∀ (p : List ℚ) (a b sa : ℚ) (n : Nat),
          (double_poly_dichotomy_loop p sa n (a, b) 0).2 = n + 1
            ∧ (double_poly_dichotomy_loop p sa n (a, b) 0).1.2
                - (double_poly_dichotomy_loop p sa n (a, b) 0).1.1
              = (b - a) / 2 ^ (n + 1) := by
  have e : double_poly_dichotomy_loop [0, 1] (-1) 0 (-1, 3) 0 = ((-1, 1), 1) := by
    simp only [double_poly_dichotomy_loop, double_poly_dichotomy_body, double_poly_eval]
    norm_num
  refine ⟨e, ?_, by norm_num, ?_⟩
  · unfold double_poly_dichotomy
    rw [e]
    norm_num
  · intro p a b sa n
    have := double_poly_dichotomy_loop_spec p sa n (a, b) 0
    simpa using this

/-! ## The result of `ecm` -/

/-- The modelled `mod_inv` finds an inverse exactly for the residues that are
coprime to the modulus. -/
theorem mod_inv_spec (z m : Nat) (hm : 0 < m) :
    (Nat.Coprime z m → ∃ u, mod_inv z m = some u ∧ u < m ∧ (u * z) % m = 1 % m)
      ∧ (¬ Nat.Coprime z m → mod_inv z m = none) := by
  constructor
  · intro hco
    unfold mod_inv
    cases h : (List.range m).find? (fun u => (u * z) % m = 1 % m) with
    | none =>
      exfalso
      have h0 := List.find?_eq_none.1 h
      by_cases h1 : m = 1
      · subst h1
        have := h0 0 (List.mem_range.2 (by decide))
        simp at this
      · have hm1 : 1 < m := by omega
        obtain ⟨k, hk⟩ := Nat.exists_mul_emod_eq_one_of_coprime hco hm1
        have h2 := h0 (k % m) (List.mem_range.2 (Nat.mod_lt _ hm))
        apply h2
        rw [decide_eq_true_eq, Nat.mod_mul_mod, Nat.mul_comm, hk, Nat.mod_eq_of_lt hm1]
    | some u =>
      refine ⟨u, rfl, ?_, ?_⟩
      · exact List.mem_range.1 (List.mem_of_find?_eq_some h)
      · have := List.find?_some h
        simpa using this
  · intro hnc
    unfold mod_inv
    cases h : (List.range m).find? (fun u => (u * z) % m = 1 % m) with
    | none => rfl
    | some u =>
      exfalso
      apply hnc
      have h1 : (u * z) % m = 1 % m := by
        have := List.find?_some h
        simpa using this
      have h2 : z * u ≡ 1 [MOD m] := by
        unfold Nat.ModEq
        rw [Nat.mul_comm]
        exact h1
      exact Nat.coprime_of_mul_modEq_one u h2

/-- C28: the result of `ecm` once the curve has been set up, with `P` the
point after stage 1.  If `P.z` is not invertible modulo `m` (not coprime to
`m`), `ecm` returns `gcd (P.z, m)`, which divides `m` and is not 1, and `x1`
keeps its content; otherwise it returns 1 and `x1` holds the residue `x < m`
with `x * P.z = P.x` modulo `m`. -/
theorem ecm_result_contract
    (Brent12_curve_from_sigma Monty12_curve_from_k : Nat → Nat → Option (Nat × Nat))
    (ellM_interpret_bytecode : ellM_point_t → List Nat → Nat → Nat → ellM_point_t)
    (x1 m : Nat) (plan : ecm_plan_t) (A Px : Nat) (hm : 0 < m)
    (hcurve : (plan.parameterization = ecm_parameterization.BRENT12
          ∧ Brent12_curve_from_sigma (plan.sigma % m) m = some (A, Px))
        ∨ (plan.parameterization = ecm_parameterization.MONTY12
          ∧ Monty12_curve_from_k plan.sigma m = some (A, Px))) :
    (¬ Nat.Coprime (ellM_interpret_bytecode ⟨Px, 1 % m⟩ plan.bc m
          (mod_div2 (mod_div2 (mod_add_ul A 2 m) m) m)).z m →
        ecm Brent12_curve_from_sigma Monty12_curve_from_k ellM_interpret_bytecode x1 m plan
          = some (Nat.gcd (ellM_interpret_bytecode ⟨Px, 1 % m⟩ plan.bc m
              (mod_div2 (mod_div2 (mod_add_ul A 2 m) m) m)).z m, x1)
        ∧ Nat.gcd (ellM_interpret_bytecode ⟨Px, 1 % m⟩ plan.bc m
              (mod_div2 (mod_div2 (mod_add_ul A 2 m) m) m)).z m ∣ m
        ∧ Nat.gcd (ellM_interpret_bytecode ⟨Px, 1 % m⟩ plan.bc m
              (mod_div2 (mod_div2 (mod_add_ul A 2 m) m) m)).z m ≠ 1)
    ∧ (Nat.Coprime (ellM_interpret_bytecode ⟨Px, 1 % m⟩ plan.bc m
          (mod_div2 (mod_div2 (mod_add_ul A 2 m) m) m)).z m →
        ∃ x, ecm Brent12_curve_from_sigma Monty12_curve_from_k ellM_interpret_bytecode
              x1 m plan = some (1, x)
          ∧ x < m
          ∧ (x * (ellM_interpret_bytecode ⟨Px, 1 % m⟩ plan.bc m
              (mod_div2 (mod_div2 (mod_add_ul A 2 m) m) m)).z) % m
            = (ellM_interpret_bytecode ⟨Px, 1 % m⟩ plan.bc m
              (mod_div2 (mod_div2 (mod_add_ul A 2 m) m) m)).x % m) := by
  generalize hP : ellM_interpret_bytecode ⟨Px, 1 % m⟩ plan.bc m
    (mod_div2 (mod_div2 (mod_add_ul A 2 m) m) m) = P
  have hecm : ecm Brent12_curve_from_sigma Monty12_curve_from_k ellM_interpret_bytecode
      x1 m plan
      = match mod_inv P.z m with
        | none => some (mod_gcd P.z m, x1)
        | some u => some (1, mod_mul P.x u m) := by
    unfold ecm
    rcases hcurve with ⟨h1, h2⟩ | ⟨h1, h2⟩
    · simp only [h1, h2, hP]
    · simp only [h1, h2, hP]
  obtain ⟨hinv, hnone⟩ := mod_inv_spec P.z m hm
  constructor
  · intro hnc
    refine ⟨?_, Nat.gcd_dvd_right _ _, hnc⟩
    rw [hecm, hnone hnc]
    rfl
  · intro hco
    obtain ⟨u, hu, _, hu2⟩ := hinv hco
    refine ⟨mod_mul P.x u m, ?_, Nat.mod_lt _ hm, ?_⟩
    · rw [hecm, hu]
    · unfold mod_mul
      have h1 : (P.x * u) % m * P.z ≡ P.x * u * P.z [MOD m] :=
        Nat.ModEq.mul_right _ (Nat.mod_modEq _ _)
      have h2 : u * P.z ≡ 1 [MOD m] := by
        unfold Nat.ModEq
        rw [hu2]
      have h3 : P.x * (u * P.z) ≡ P.x * 1 [MOD m] := Nat.ModEq.mul_left _ h2
      have h4 : (P.x * u) % m * P.z ≡ P.x [MOD m] := by
        rw [Nat.mul_assoc] at h1
        rw [Nat.mul_one] at h3
        exact h1.trans h3
      exact h4

theorem ecm_result_contract_witness :
    (¬ Nat.Coprime (ellM_point_t.mk 5 7).z 35 →
        ecm (fun _ _ => some (3, 5)) (fun _ _ => none) (fun P _ _ _ => ⟨P.x, 7⟩) 99 35
            ⟨ecm_parameterization.BRENT12, 11, []⟩
          = some (Nat.gcd (ellM_point_t.mk 5 7).z 35, 99)
        ∧ Nat.gcd (ellM_point_t.mk 5 7).z 35 ∣ 35
        ∧ Nat.gcd (ellM_point_t.mk 5 7).z 35 ≠ 1)
    ∧ (Nat.Coprime (ellM_point_t.mk 5 7).z 35 →
        ∃ x, ecm (fun _ _ => some (3, 5)) (fun _ _ => none) (fun P _ _ _ => ⟨P.x, 7⟩) 99 35
              ⟨ecm_parameterization.BRENT12, 11, []⟩ = some (1, x)
          ∧ x < 35
          ∧ (x * (ellM_point_t.mk 5 7).z) % 35 = (ellM_point_t.mk 5 7).x % 35) :=
  ecm_result_contract (fun _ _ => some (3, 5)) (fun _ _ => none) (fun P _ _ _ => ⟨P.x, 7⟩)
    99 35 ⟨ecm_parameterization.BRENT12, 11, []⟩ 3 5 (by decide) (Or.inl ⟨rfl, rfl⟩)

/-! ## `factor_leftover_norm` -/

theorem bitsize_aux_le (fuel : Nat) : ∀ (n l : Nat), n ≤ fuel →
    (bitsize_aux fuel n ≤ l ↔ n < 2 ^ l) := by
  induction fuel with
  | zero =>
    intro n l hn
    have : n = 0 := by omega
    subst this
    simp [bitsize_aux]
  | succ fuel ih =>
    intro n l hn
    unfold bitsize_aux
    by_cases h0 : n = 0
    · subst h0
      simp
    · rw [if_neg h0]
      have hle : n / 2 ≤ fuel := by omega
      cases l with
      | zero =>
        constructor
        · intro h; omega
        · intro h
          have : n < 1 := by simpa using h
          omega
      | succ l =>
        have := ih (n / 2) l hle
        have e : 1 + bitsize_aux fuel (n / 2) ≤ l + 1 ↔ bitsize_aux fuel (n / 2) ≤ l := by omega
        rw [e, this, pow_succ]
        omega

/-- `BITSIZE (n) <= l` says `n < 2^l`, for `n > 0`. -/
theorem BITSIZE_le (n l : Nat) (hn : 0 < n) : BITSIZE n ≤ l ↔ n < 2 ^ l := by
  unfold BITSIZE
  rw [if_neg (by omega)]
  exact bitsize_aux_le n n l (Nat.le_refl n)

theorem shift_bound (l : Nat) (hl : l < 64) : (1 <<< l) % 2 ^ 64 = 2 ^ l := by
  rw [Nat.one_shiftLeft]
  exact Nat.mod_eq_of_lt (Nat.pow_lt_pow_right (by decide) hl)

/-- What the loop over `ul_factors` leaves: the factors appended are at most
`2^l` and their product times the cofactor is the number at entry. -/
theorem factor_leftover_loop_spec (l : Nat) (hl : l < 64) :
    ∀ (k : Nat) (fs : List Nat) (n : Nat) (acc : List Nat) (b : Bool) (n1 : Nat)
      (factors : List Nat),
      factor_leftover_loop l k fs n acc = some (b, n1, factors) →
      ∃ new, factors = acc ++ new ∧ new.prod * n1 = n ∧ ∀ f ∈ new, f ≤ 2 ^ l := by
  intro k
  induction k with
  | zero =>
    intro fs n acc b n1 factors h
    unfold factor_leftover_loop at h
    simp only [Option.some.injEq, Prod.mk.injEq] at h
    obtain ⟨_, h2, h3⟩ := h
    exact ⟨[], by simp [h3], by simp [h2], by simp⟩
  | succ k ih =>
    intro fs n acc b n1 factors h
    cases fs with
    | nil =>
      unfold factor_leftover_loop at h
      cases h
    | cons f rest =>
      unfold factor_leftover_loop at h
      rw [shift_bound l hl] at h
      by_cases c1 : f > 2 ^ l
      · rw [if_pos c1] at h
        simp only [Option.some.injEq, Prod.mk.injEq] at h
        obtain ⟨_, h2, h3⟩ := h
        exact ⟨[], by simp [h3], by simp [h2], by simp⟩
      · rw [if_neg c1] at h
        by_cases c2 : f = 0
        · rw [if_pos c2] at h
          cases h
        · rw [if_neg c2] at h
          by_cases c3 : n % f ≠ 0
          · rw [if_pos c3] at h
            cases h
          · rw [if_neg c3] at h
            obtain ⟨new, e1, e2, e3⟩ := ih rest (n / f) (acc ++ [f]) b n1 factors h
            refine ⟨f :: new, ?_, ?_, ?_⟩
            · rw [e1]; simp
            · have hd : f ∣ n := Nat.dvd_of_mod_eq_zero (by omega)
              rw [List.prod_cons, Nat.mul_assoc, e2]
              exact Nat.mul_div_cancel' hd
            · intro g hg
              rcases List.mem_cons.1 hg with h | h
              · rw [h]; omega
              · exact e3 g h

/-- The loop over `ul_factors` gives a result when `facul` reports at most
what it stored and the reported factors multiply to a divisor of `n`. -/
theorem factor_leftover_loop_returns (l : Nat) :
    ∀ (k : Nat) (fs : List Nat) (n : Nat) (acc : List Nat), 0 < n → k ≤ fs.length →
      (fs.take k).prod ∣ n → ∃ r, factor_leftover_loop l k fs n acc = some r := by
  intro k
  induction k with
  | zero =>
    intro fs n acc _ _ _
    exact ⟨_, by unfold factor_leftover_loop; rfl⟩
  | succ k ih =>
    intro fs n acc hn hk hd
    cases fs with
    | nil => simp at hk
    | cons f rest =>
      unfold factor_leftover_loop
      by_cases c1 : f > (1 <<< l) % 2 ^ 64
      · rw [if_pos c1]; exact ⟨_, rfl⟩
      · rw [if_neg c1]
        rw [List.take_succ_cons, List.prod_cons] at hd
        have hf : f ∣ n := Dvd.dvd.trans (Dvd.intro _ rfl) hd
        have c2 : ¬ f = 0 := by
          intro h0
          rw [h0] at hf
          have := Nat.eq_zero_of_zero_dvd hf
          omega
        have c3 : ¬ n % f ≠ 0 := by
          have := Nat.mod_eq_zero_of_dvd hf
          omega
        rw [if_neg c2, if_neg c3]
        apply ih rest (n / f) (acc ++ [f])
        · exact Nat.div_pos (Nat.le_of_dvd hn hf) (by omega)
        · simpa using hk
        · obtain ⟨c, hc⟩ := hd
          refine ⟨c, ?_⟩
          rw [hc, Nat.mul_assoc, Nat.mul_div_cancel_left _ (by omega)]

theorem zipWith_pow_replicate_one (fs : List Nat) :
    (List.zipWith (fun f e => f ^ e) fs (List.replicate fs.length 1)).prod = fs.prod := by
  induction fs with
  | nil => rfl
  | cons f rest ih =>
    simp only [List.length_cons, List.replicate_succ, List.zipWith_cons_cons, List.prod_cons,
      pow_one, ih]

/-- A prime that divides a product of numbers that are at most `B` is at most
`B`. -/
theorem prime_le_of_dvd_prod (B : Nat) (fs : List Nat) (n : Nat) (hn : 0 < n)
    (hp : fs.prod = n) (hb : ∀ f ∈ fs, f ≤ B) (q : Nat) (hq : q.Prime) (hd : q ∣ n) :
    q ≤ B := by
  rw [← hp] at hd
  obtain ⟨a, ha, hqa⟩ := (Prime.dvd_prod_iff (Nat.Prime.prime hq)).1 hd
  have ha0 : 0 < a := by
    rcases Nat.eq_zero_or_pos a with h | h
    · exfalso
      rw [h] at ha
      have := List.prod_eq_zero ha
      omega
    · exact h
  exact (Nat.le_of_dvd ha0 hqa).trans (hb a ha)
/-- What `factor_leftover_norm` does guarantee: for `n > 0`, a bound `l < 64`
and a `facul` that reports no more factors than it stored, with a product that
divides `n`, it returns 0 or 1; it returns 0 when `n` has a prime factor larger
than `2^l`; and when it returns 1 the product of the output factors raised to
their multiplicities (all 1) is `n`, every output factor is at most `2^l`, and
so is every prime factor of `n`. -/
theorem factor_leftover_norm_contract (facul : Nat → Int × List Nat) (n l : Nat)
    (hn : 0 < n) (hl : l < 64)
    (hfacul : 0 < (facul n).1 → (facul n).1.toNat ≤ (facul n).2.length
      ∧ ((facul n).2.take (facul n).1.toNat).prod ∣ n) :
    ∃ ret factors multis, factor_leftover_norm facul n l = some (ret, factors, multis)
      ∧ (ret = 0 ∨ ret = 1)
      ∧ ((∃ q, q.Prime ∧ q ∣ n ∧ 2 ^ l < q) → ret = 0)
      ∧ (ret = 1 →
          (List.zipWith (fun f e => f ^ e) factors multis).prod = n
          ∧ multis = List.replicate factors.length 1
          ∧ (∀ f ∈ factors, f ≤ 2 ^ l)
          ∧ ∀ q, q.Prime → q ∣ n → q ≤ 2 ^ l) := by
  -- the shape of a result with return value 1
  have key : ∀ (factors : List Nat), factors.prod = n → (∀ f ∈ factors, f ≤ 2 ^ l) →
      ∃ ret fs multis, some ((1 : Nat), factors, List.replicate factors.length 1)
          = some (ret, fs, multis)
        ∧ (ret = 0 ∨ ret = 1)
        ∧ ((∃ q, q.Prime ∧ q ∣ n ∧ 2 ^ l < q) → ret = 0)
        ∧ (ret = 1 →
            (List.zipWith (fun f e => f ^ e) fs multis).prod = n
            ∧ multis = List.replicate fs.length 1
            ∧ (∀ f ∈ fs, f ≤ 2 ^ l)
            ∧ ∀ q, q.Prime → q ∣ n → q ≤ 2 ^ l) := by
    intro factors hp hb
    have hq := prime_le_of_dvd_prod (2 ^ l) factors n hn hp hb
    refine ⟨1, factors, _, rfl, Or.inr rfl, ?_, ?_⟩
    · rintro ⟨q, h1, h2, h3⟩
      have := hq q h1 h2
      omega
    · intro _
      exact ⟨by rw [zipWith_pow_replicate_one, hp], rfl, hb, hq⟩
  have zero : ∀ (factors multis : List Nat),
      ∃ ret fs ms, some ((0 : Nat), factors, multis) = some (ret, fs, ms)
        ∧ (ret = 0 ∨ ret = 1)
        ∧ ((∃ q, q.Prime ∧ q ∣ n ∧ 2 ^ l < q) → ret = 0)
        ∧ (ret = 1 →
            (List.zipWith (fun f e => f ^ e) fs ms).prod = n
            ∧ ms = List.replicate fs.length 1
            ∧ (∀ f ∈ fs, f ≤ 2 ^ l)
            ∧ ∀ q, q.Prime → q ∣ n → q ≤ 2 ^ l) := by
    intro factors multis
    exact ⟨0, factors, multis, rfl, Or.inl rfl, fun _ => rfl, fun h => by cases h⟩
  unfold factor_leftover_norm
  by_cases c1 : n = 1
  · rw [if_pos c1]
    exact key [] (by simp [c1]) (by simp)
  rw [if_neg c1]
  by_cases c2 : BITSIZE n ≤ l
  · rw [if_pos c2]
    have hlt := (BITSIZE_le n l hn).1 c2
    exact key [n] (by simp) (by intro f hf; simp at hf; omega)
  rw [if_neg c2]
  simp only []
  by_cases c3 : (facul n).1 = FACUL_NOT_SMOOTH
  · rw [if_pos c3]
    exact zero [] []
  rw [if_neg c3]
  by_cases c4 : (facul n).1 > 0
  · rw [if_pos c4]
    obtain ⟨hlen, hdvd⟩ := hfacul c4
    obtain ⟨r, hr⟩ := factor_leftover_loop_returns l (facul n).1.toNat (facul n).2 n [] hn
      hlen hdvd
    obtain ⟨b, n1, factors⟩ := r
    obtain ⟨new, e1, e2, e3⟩ := factor_leftover_loop_spec l hl _ _ _ _ _ _ _ hr
    rw [List.nil_append] at e1
    subst e1
    rw [hr]
    cases b with
    | false => exact zero _ _
    | true =>
      simp only []
      have hn1 : 0 < n1 := by
        rcases Nat.eq_zero_or_pos n1 with h | h
        · rw [h, Nat.mul_zero] at e2; omega
        · exact h
      by_cases d1 : n1 = 1
      · rw [if_pos d1]
        exact key factors (by rw [← e2, d1, Nat.mul_one]) e3
      rw [if_neg d1]
      by_cases d2 : BITSIZE n1 ≤ l
      · rw [if_pos d2]
        have hlt := (BITSIZE_le n1 l hn1).1 d2
        have := key (factors ++ [n1]) (by rw [List.prod_append]; simpa using e2)
          (by
            intro f hf
            rcases List.mem_append.1 hf with h | h
            · exact e3 f h
            · simp at h; omega)
        simpa [List.replicate_add] using this
      rw [if_neg d2]
      by_cases d3 : BITSIZE n1 > 2 * l
      · rw [if_pos d3]; exact zero _ _
      · rw [if_neg d3]; exact zero _ _
  · rw [if_neg c4]
    exact zero [] []

/-- C27: `factor_leftover_norm` does not keep the promise of its header comment
("Return value: 1 if all prime factors of n are < 2^l").  `n = 15` is composite
and its prime factors 3 and 5 are below `2^3`, yet with a `facul` that finds no
factor (return value 0) the function returns 0; so it does with a `facul` that
finds the factor 3 of `n = 105` for `l = 4`, where the cofactor 35 has 6 bits:
the body ends in an unconditional `return 0`.  The other half of the comment and
the output contract hold: the function returns 0 or 1, it returns 0 when `n`
has a prime factor larger than `2^l`, and a return value 1 comes with factors
whose product is `n` and which are at most `2^l`. -/
theorem factor_leftover_norm_gives_up :
    (factor_leftover_norm (fun _ => (0, [])) 15 3 = some (0, [], [])
      ∧ ¬ Nat.Prime 15 ∧ (∀ q, q.Prime → q ∣ 15 → q < 2 ^ 3))
    ∧ (factor_leftover_norm (fun _ => (1, [3])) 105 4 = some (0, [3], [1])
      ∧ ¬ Nat.Prime 105 ∧ (∀ q, q.Prime → q ∣ 105 → q < 2 ^ 4))
    ∧ ∀ (facul : Nat → Int × List Nat) (n l : Nat), 0 < n → l < 64 →
        (0 < (facul n).1 → (facul n).1.toNat ≤ (facul n).2.length
          ∧ ((facul n).2.take (facul n).1.toNat).prod ∣ n) →
        ∃ ret factors multis, factor_leftover_norm facul n l = some (ret, factors, multis)
          ∧ (ret = 0 ∨ ret = 1)
          ∧ ((∃ q, q.Prime ∧ q ∣ n ∧ 2 ^ l < q) → ret = 0)
          ∧ (ret = 1 →
              (List.zipWith (fun f e => f ^ e) factors multis).prod = n
              ∧ multis = List.replicate factors.length 1
              ∧ (∀ f ∈ factors, f ≤ 2 ^ l)
              ∧ ∀ q, q.Prime → q ∣ n → q ≤ 2 ^ l) := by
  refine ⟨⟨by decide, by norm_num, ?_⟩, ⟨by decide, by norm_num, ?_⟩,
    fun facul n l hn hl hf => factor_leftover_norm_contract facul n l hn hl hf⟩
  · intro q hq hd
    have h3 : (15 : Nat) = 3 * 5 := by norm_num
    rw [h3] at hd
    rcases (Nat.Prime.dvd_mul hq).1 hd with h | h
    · have := Nat.le_of_dvd (by decide) h; omega
    · have := Nat.le_of_dvd (by decide) h; omega
  · intro q hq hd
    have h3 : (105 : Nat) = 3 * (5 * 7) := by norm_num
    rw [h3] at hd
    rcases (Nat.Prime.dvd_mul hq).1 hd with h | h
    · have := Nat.le_of_dvd (by decide) h; omega
    · rcases (Nat.Prime.dvd_mul hq).1 h with h | h
      · have := Nat.le_of_dvd (by decide) h; omega
      · have := Nat.le_of_dvd (by decide) h; omega

/-! ## `divide_primes_from_bucket` -/

theorem mpz_divisible_ui_p_iff (norm : Int) (p : Nat) :
    mpz_divisible_ui_p norm p = true ↔ (p : Int) ∣ norm := by
  unfold mpz_divisible_ui_p
  rw [decide_eq_true_eq]
  exact Int.dvd_iff_emod_eq_zero.symm

theorem factor_list_add_some (fl : List Nat) (p : Nat) (h : fl.length < FL_MAX_SIZE) :
    factor_list_add fl p = some (fl ++ [p]) := by
  unfold factor_list_add
  rw [if_pos h]

theorem factor_list_add_eq (fl : List Nat) (p : Nat) (fl1 : List Nat)
    (h : factor_list_add fl p = some fl1) : fl1 = fl ++ [p] ∧ fl.length < FL_MAX_SIZE := by
  unfold factor_list_add at h
  by_cases c : fl.length < FL_MAX_SIZE
  · rw [if_pos c] at h
    exact ⟨(Option.some.inj h).symm, c⟩
  · rw [if_neg c] at h
    cases h

/-- What the division loop leaves when it returns: `e ≥ 1` copies of `p`
appended, the norm divided by `p^e`, and `p` no longer a divisor. -/
theorem divide_out_spec (p : Nat) :
    ∀ (fuel : Nat) (fl : List Nat) (norm : Int) (fl1 : List Nat) (norm1 : Int),
      divide_out p fuel fl norm = some (fl1, norm1) → (p : Int) ∣ norm →
      ∃ e, 1 ≤ e ∧ fl1 = fl ++ List.replicate e p ∧ norm1 * (p : Int) ^ e = norm
        ∧ ¬ (p : Int) ∣ norm1 := by
  intro fuel
  induction fuel with
  | zero =>
    intro fl norm fl1 norm1 h _
    unfold divide_out at h
    cases h
  | succ fuel ih =>
    intro fl norm fl1 norm1 h hd
    unfold divide_out at h
    cases hadd : factor_list_add fl p with
    | none =>
      rw [hadd] at h
      cases h
    | some fl2 =>
      rw [hadd] at h
      obtain ⟨e2, _⟩ := factor_list_add_eq fl p fl2 hadd
      subst e2
      simp only [] at h
      have hmul : norm / (p : Int) * (p : Int) = norm := Int.ediv_mul_cancel hd
      by_cases c : mpz_divisible_ui_p (norm / (p : Int)) p = true
      · rw [if_pos c] at h
        obtain ⟨e, he1, he2, he3, he4⟩ :=
          ih (fl ++ [p]) (norm / (p : Int)) fl1 norm1 h ((mpz_divisible_ui_p_iff _ _).1 c)
        refine ⟨e + 1, by omega, ?_, ?_, he4⟩
        · rw [he2, List.append_assoc, List.singleton_append, List.replicate_succ]
        · rw [pow_succ, ← mul_assoc, he3, hmul]
      · rw [if_neg c] at h
        simp only [Option.some.injEq, Prod.mk.injEq] at h
        obtain ⟨h1, h2⟩ := h
        subst h1
        subst h2
        refine ⟨1, le_refl 1, by simp, by rw [pow_one, hmul], ?_⟩
        intro hdvd
        exact c ((mpz_divisible_ui_p_iff _ _).2 hdvd)

/-- The division loop returns when the norm is not zero, `p` divides it, and
the list has room for the copies of `p`. -/
theorem divide_out_returns (p : Nat) :
    ∀ (fuel : Nat) (fl : List Nat) (norm : Int), norm ≠ 0 → (p : Int) ∣ norm →
      (∀ e, (p : Int) ^ e ∣ norm → fl.length + e ≤ FL_MAX_SIZE) →
      FL_MAX_SIZE < fuel + fl.length →
      ∃ r, divide_out p fuel fl norm = some r := by
  intro fuel
  induction fuel with
  | zero =>
    intro fl norm _ hd hroom hfuel
    exfalso
    have := hroom 1 (by rw [pow_one]; exact hd)
    omega
  | succ fuel ih =>
    intro fl norm h0 hd hroom hfuel
    have hlen : fl.length < FL_MAX_SIZE := by
      have := hroom 1 (by rw [pow_one]; exact hd)
      omega
    unfold divide_out
    rw [factor_list_add_some fl p hlen]
    simp only []
    have hmul : norm / (p : Int) * (p : Int) = norm := Int.ediv_mul_cancel hd
    by_cases c : mpz_divisible_ui_p (norm / (p : Int)) p = true
    · rw [if_pos c]
      apply ih
      · intro h
        rw [h, zero_mul] at hmul
        exact h0 hmul.symm
      · exact (mpz_divisible_ui_p_iff _ _).1 c
      · intro e he
        have : (p : Int) ^ (e + 1) ∣ norm := by
          rw [pow_succ, ← hmul]
          exact mul_dvd_mul_right he _
        have := hroom (e + 1) this
        rw [List.length_append, List.length_singleton]
        omega
      · rw [List.length_append, List.length_singleton]
        omega
    · rw [if_neg c]
      exact ⟨_, rfl⟩

/-- A candidate left by the search with `p ≤ fbb` divides the norm and passes
the primality test. -/
theorem bucket_candidate_divides (W fbb : Nat) (isprime : Nat → Bool) (norm : Int) :
    ∀ (fuel p q : Nat), bucket_candidate W fbb isprime norm fuel p = some q → q ≤ fbb →
      (q : Int) ∣ norm ∧ isprime q = true := by
  intro fuel
  induction fuel with
  | zero =>
    intro p q h _
    unfold bucket_candidate at h
    cases h
  | succ fuel ih =>
    intro p q h hq
    unfold bucket_candidate at h
    by_cases c1 : p ≤ fbb
    · rw [if_pos c1] at h
      by_cases c2 : mpz_divisible_ui_p norm p = true ∧ isprime p = true
      · rw [if_pos c2] at h
        have := Option.some.inj h
        subst this
        exact ⟨(mpz_divisible_ui_p_iff _ _).1 c2.1, c2.2⟩
      · rw [if_neg c2] at h
        exact ih _ q h hq
    · rw [if_neg c1] at h
      have := Option.some.inj h
      omega

/-- The search for the candidate, without wrap of `p += BUCKET_P_WRAP`: it
leaves the least `p0 + k * BUCKET_P_WRAP ≤ fbb` that divides the norm and
passes the primality test, or a value above `fbb` when there is none. -/
theorem bucket_candidate_spec (W fbb : Nat) (isprime : Nat → Bool) (norm : Int)
    (hW : 1 ≤ W) (hwrap : fbb + W < 2 ^ 64) :
    ∀ (fuel p : Nat), 0 < fuel → fbb + 2 ≤ fuel + p →
      ∃ q, bucket_candidate W fbb isprime norm fuel p = some q
        ∧ ((q ≤ fbb ∧ (q : Int) ∣ norm ∧ isprime q = true
            ∧ ∃ k, q = p + k * W
              ∧ ∀ j, j < k → ¬ (((p + j * W : Nat) : Int) ∣ norm ∧ isprime (p + j * W) = true))
          ∨ (fbb < q ∧ ∀ k, p + k * W ≤ fbb →
              ¬ (((p + k * W : Nat) : Int) ∣ norm ∧ isprime (p + k * W) = true))) := by
  intro fuel
  induction fuel with
  | zero => intro p h; omega
  | succ fuel ih =>
    intro p _ hfuel
    unfold bucket_candidate
    by_cases c1 : p ≤ fbb
    · rw [if_pos c1]
      by_cases c2 : mpz_divisible_ui_p norm p = true ∧ isprime p = true
      · rw [if_pos c2]
        refine ⟨p, rfl, Or.inl ⟨c1, (mpz_divisible_ui_p_iff _ _).1 c2.1, c2.2, 0, by simp, ?_⟩⟩
        intro j hj; omega
      · rw [if_neg c2]
        have hmod : (p + W) % 2 ^ 64 = p + W := Nat.mod_eq_of_lt (by omega)
        rw [hmod]
        have c2' : ¬ ((p : Int) ∣ norm ∧ isprime p = true) := by
          rintro ⟨h1, h2⟩
          exact c2 ⟨(mpz_divisible_ui_p_iff _ _).2 h1, h2⟩
        obtain ⟨q, hq, hcases⟩ := ih (p + W) (by omega) (by omega)
        refine ⟨q, hq, ?_⟩
        rcases hcases with ⟨h1, h2, h3, k, hk, hmin⟩ | ⟨h1, h2⟩
        · left
          refine ⟨h1, h2, h3, k + 1, ?_, ?_⟩
          · rw [hk, Nat.add_mul]; omega
          · intro j hj
            cases j with
            | zero => simpa using c2'
            | succ j =>
              have := hmin j (by omega)
              have e : p + (j + 1) * W = p + W + j * W := by rw [Nat.add_mul]; omega
              rw [e]
              exact this
        · right
          refine ⟨h1, ?_⟩
          intro k hk
          cases k with
          | zero => simpa using c2'
          | succ k =>
            have e : p + (k + 1) * W = p + W + k * W := by rw [Nat.add_mul]; omega
            rw [e] at hk ⊢
            exact h2 k hk
    · rw [if_neg c1]
      refine ⟨p, rfl, Or.inr ⟨by omega, ?_⟩⟩
      intro k hk
      have : p ≤ p + k * W := Nat.le_add_right _ _
      omega
/-- The treatment of one matching bucket entry: either the least candidate is
divided out with its full multiplicity, or there is no candidate and the
program aborts. -/
theorem divide_bucket_prime_spec (W fbb : Nat) (isprime : Nat → Bool) (fl : List Nat)
    (norm : Int) (p0 : Nat) (hW : 1 ≤ W) (hwrap : fbb + W < 2 ^ 64) (hnorm : norm ≠ 0)
    (hprime : ∀ v, isprime v = true → 2 ≤ v)
    (hroom : ∀ v e, 2 ≤ v → ((v : Nat) : Int) ^ e ∣ norm → fl.length + e ≤ FL_MAX_SIZE) :
    (∃ k e, 1 ≤ e ∧ p0 + k * W ≤ fbb
        ∧ ((p0 + k * W : Nat) : Int) ∣ norm ∧ isprime (p0 + k * W) = true
        ∧ (∀ j, j < k → ¬ (((p0 + j * W : Nat) : Int) ∣ norm ∧ isprime (p0 + j * W) = true))
        ∧ divide_bucket_prime W fbb isprime fl norm p0
            = some (fl ++ List.replicate e (p0 + k * W), norm / ((p0 + k * W : Nat) : Int) ^ e)
        ∧ ((p0 + k * W : Nat) : Int) ^ e ∣ norm
        ∧ ¬ ((p0 + k * W : Nat) : Int) ^ (e + 1) ∣ norm)
    ∨ (divide_bucket_prime W fbb isprime fl norm p0 = none
        ∧ ∀ k, p0 + k * W ≤ fbb →
            ¬ (((p0 + k * W : Nat) : Int) ∣ norm ∧ isprime (p0 + k * W) = true)) := by
  obtain ⟨q, hq, hcases⟩ :=
    bucket_candidate_spec W fbb isprime norm hW hwrap (fbb + 2) p0 (by omega) (by omega)
  rcases hcases with ⟨h1, h2, h3, k, hk, hmin⟩ | ⟨h1, h2⟩
  · left
    have hq2 : 2 ≤ q := hprime q h3
    obtain ⟨r, hr⟩ := divide_out_returns q (FL_MAX_SIZE + 1) fl norm hnorm h2
      (fun e he => hroom q e hq2 he) (by omega)
    obtain ⟨fl1, norm1⟩ := r
    obtain ⟨e, he1, he2, he3, he4⟩ := divide_out_spec q _ fl norm fl1 norm1 hr h2
    have hq0 : ((q : Nat) : Int) ≠ 0 := by
      have : (0 : Int) < (q : Int) := by exact_mod_cast (by omega : 0 < q)
      exact ne_of_gt this
    have hpe : ((q : Nat) : Int) ^ e ≠ 0 := pow_ne_zero _ hq0
    have hdiv : norm / ((q : Nat) : Int) ^ e = norm1 := by
      rw [← he3]
      exact Int.mul_ediv_cancel _ hpe
    subst hk
    refine ⟨k, e, he1, h1, h2, h3, hmin, ?_, ?_, ?_⟩
    · unfold divide_bucket_prime
      rw [hq]
      simp only []
      rw [if_neg (by omega), hr, he2, hdiv]
    · rw [← he3]
      exact Dvd.intro_left _ rfl
    · intro hd
      apply he4
      rw [← he3, pow_succ, mul_comm norm1] at hd
      exact (mul_dvd_mul_iff_left hpe).1 hd
  · right
    refine ⟨?_, h2⟩
    unfold divide_bucket_prime
    rw [hq]
    simp only []
    rw [if_pos h1]

/-- C21: for a bucket entry `(p0, x)` at the position being factored, a
non-zero norm, a step `BUCKET_P_WRAP ≥ 1` that does not wrap, a primality test
that only accepts numbers from 2 on and a factor list with room for the prime
powers that divide the norm.  The program aborts if and only if no candidate
`p0 + k * BUCKET_P_WRAP ≤ fbb` divides the norm and passes the primality test;
otherwise the least such candidate `p` is appended `e ≥ 1` times, where `p^e`
is the exact power of `p` in the norm, and the norm is divided by `p^e`.  When
the entry is the next one to be read and no other entry for `x` follows,
`divide_primes_from_bucket` does this and leaves the read pointer after the
entry. -/
theorem divide_primes_from_bucket_entry (W fbb : Nat) (isprime : Nat → Bool)
    (fl : List Nat) (norm : Int) (p0 x : Nat) (BP : bucket_primes_t)
    (rest : List bucket_prime_t)
    (hW : 1 ≤ W) (hwrap : fbb + W < 2 ^ 64) (hnorm : norm ≠ 0)
    (hprime : ∀ v, isprime v = true → 2 ≤ v)
    (hroom : ∀ v e, 2 ≤ v → ((v : Nat) : Int) ^ e ∣ norm → fl.length + e ≤ FL_MAX_SIZE)
    (hBP : BP.entries.drop BP.read = ⟨p0, x⟩ :: rest)
    (hrest : ∀ e, rest.head? = some e → x < e.x) :
    (divide_bucket_prime W fbb isprime fl norm p0 = none
      ↔ ∀ k, p0 + k * W ≤ fbb →
          ¬ (((p0 + k * W : Nat) : Int) ∣ norm ∧ isprime (p0 + k * W) = true))
    ∧ (∀ k, p0 + k * W ≤ fbb →
        (((p0 + k * W : Nat) : Int) ∣ norm ∧ isprime (p0 + k * W) = true) →
        (∀ j, j < k → ¬ (((p0 + j * W : Nat) : Int) ∣ norm ∧ isprime (p0 + j * W) = true)) →
        ∃ e, 1 ≤ e
          ∧ divide_bucket_prime W fbb isprime fl norm p0
            = some (fl ++ List.replicate e (p0 + k * W), norm / ((p0 + k * W : Nat) : Int) ^ e)
          ∧ ((p0 + k * W : Nat) : Int) ^ e ∣ norm
          ∧ ¬ ((p0 + k * W : Nat) : Int) ^ (e + 1) ∣ norm)
    ∧ divide_primes_from_bucket W fbb isprime fl norm x BP
        = (divide_bucket_prime W fbb isprime fl norm p0).map
            (fun r => (r.1, r.2, { BP with read := BP.read + 1 })) := by
  have hspec := divide_bucket_prime_spec W fbb isprime fl norm p0 hW hwrap hnorm hprime hroom
  refine ⟨?_, ?_, ?_⟩
  · constructor
    · intro hnone
      rcases hspec with ⟨k, e, _, _, _, _, _, hsome, _⟩ | ⟨_, h2⟩
      · rw [hsome] at hnone
        cases hnone
      · exact h2
    · intro hno
      rcases hspec with ⟨k, e, _, h1, h2, h3, _⟩ | ⟨h1, _⟩
      · exact absurd ⟨h2, h3⟩ (hno k h1)
      · exact h1
  · intro k hk hcand hmin
    rcases hspec with ⟨k1, e, he, h1, h2, h3, hmin1, hsome, hd1, hd2⟩ | ⟨_, h2⟩
    · have hkk : k1 = k := by
        rcases Nat.lt_trichotomy k1 k with h | h | h
        · exact absurd ⟨h2, h3⟩ (hmin k1 h)
        · exact h
        · exact absurd hcand (hmin1 k h)
      subst hkk
      exact ⟨e, he, hsome, hd1, hd2⟩
    · exact absurd hcand (h2 k hk)
  · unfold divide_primes_from_bucket
    rw [hBP]
    unfold divide_primes_loop
    simp only []
    rw [if_neg (Nat.lt_irrefl x), if_pos trivial]
    cases hres : divide_bucket_prime W fbb isprime fl norm p0 with
    | none => rfl
    | some r =>
      simp only []
      cases rest with
      | nil =>
        unfold divide_primes_loop
        rfl
      | cons e rest1 =>
        have hx := hrest e rfl
        unfold divide_primes_loop
        rw [if_pos hx]
        rfl
/-- A power `v^e` with `v ≥ 2` that divides a non-zero norm below `2^B` in
absolute value has `e < B`. -/
theorem pow_dvd_bound (norm : Int) (B : Nat) (hnorm : norm ≠ 0) (hB : norm.natAbs < 2 ^ B)
    (v e : Nat) (hv : 2 ≤ v) (hd : ((v : Nat) : Int) ^ e ∣ norm) : e < B := by
  have h1 : v ^ e ∣ norm.natAbs := by
    have := Int.natAbs_dvd_natAbs.2 hd
    rwa [Int.natAbs_pow, Int.natAbs_ofNat] at this
  have h2 : v ^ e ≤ norm.natAbs := Nat.le_of_dvd (Int.natAbs_pos.2 hnorm) h1
  have h3 : 2 ^ e ≤ v ^ e := Nat.pow_le_pow_left hv e
  have h4 : 2 ^ e < 2 ^ B := by omega
  exact (Nat.pow_lt_pow_iff_right (by decide)).1 h4

theorem divide_primes_from_bucket_entry_witness :
    divide_primes_from_bucket 16 100 (fun p => decide (p = 17)) [] 867 3
        ⟨[⟨7, 2⟩, ⟨1, 3⟩, ⟨5, 4⟩], 1⟩
      = some ([17, 17], 3, ⟨[⟨7, 2⟩, ⟨1, 3⟩, ⟨5, 4⟩], 2⟩)
    ∧ (divide_bucket_prime 16 100 (fun p => decide (p = 17)) [] 867 1 = none
      ↔ ∀ k, 1 + k * 16 ≤ 100 →
          ¬ (((1 + k * 16 : Nat) : Int) ∣ 867
            ∧ (fun p => decide (p = 17)) (1 + k * 16) = true)) := by
  have h := divide_primes_from_bucket_entry 16 100 (fun p => decide (p = 17)) [] 867 1 3
    ⟨[⟨7, 2⟩, ⟨1, 3⟩, ⟨5, 4⟩], 1⟩ [⟨5, 4⟩] (by decide) (by decide) (by decide)
    (fun v hv => by
      have : v = 17 := by simpa using hv
      omega)
    (fun v e hv hd => by
      have := pow_dvd_bound 867 10 (by decide) (by decide) v e hv hd
      show 0 + e ≤ 200
      omega)
    rfl
    (fun e he => by
      have : e = ⟨5, 4⟩ := by
        have := Option.some.inj he
        exact this.symm
      rw [this]
      decide)
  refine ⟨?_, h.1⟩
  rw [h.2.2]
  decide

/-! ## `trial_div` -/

/-- The cast of a factor list to the integers, for the products with the
norm. -/
theorem prod_cast_append (a b : List Nat) :
    factor_list_prod (a ++ b) = factor_list_prod a * factor_list_prod b := by
  unfold factor_list_prod
  rw [List.map_append, List.prod_append]

theorem prod_cast_replicate (e p : Nat) :
    factor_list_prod (List.replicate e p) = (p : Int) ^ e := by
  unfold factor_list_prod
  rw [List.map_replicate, List.prod_replicate]

theorem prod_cast_nil : factor_list_prod [] = 1 := rfl

theorem mem_dvd_prod_cast (l : List Nat) (p : Nat) (h : p ∈ l) :
    (p : Int) ∣ factor_list_prod l :=
  List.dvd_prod (List.mem_map.2 ⟨p, h, rfl⟩)

/-- The treatment of one matching bucket entry, when it returns: copies of one
number `p` that the primality test accepts are appended, their product times
the new norm is the old norm, and `p` does not divide the new norm. -/
theorem divide_bucket_prime_some (W fbb : Nat) (isprime : Nat → Bool) (fl : List Nat)
    (norm : Int) (p0 : Nat) (fl1 : List Nat) (norm1 : Int)
    (h : divide_bucket_prime W fbb isprime fl norm p0 = some (fl1, norm1)) :
    ∃ (p e : Nat), 1 ≤ e ∧ fl1 = fl ++ List.replicate e p ∧ norm1 * (p : Int) ^ e = norm
      ∧ ¬ (p : Int) ∣ norm1 ∧ isprime p = true := by
  unfold divide_bucket_prime at h
  cases hc : bucket_candidate W fbb isprime norm (fbb + 2) p0 with
  | none =>
    rw [hc] at h
    cases h
  | some q =>
    rw [hc] at h
    simp only [] at h
    by_cases c : q > fbb
    · rw [if_pos c] at h
      cases h
    · rw [if_neg c] at h
      have hd := bucket_candidate_divides W fbb isprime norm _ _ q hc (by omega)
      obtain ⟨e, he1, he2, he3, he4⟩ := divide_out_spec q _ fl norm fl1 norm1 h hd.1
      exact ⟨q, e, he1, he2, he3, he4, hd.2⟩

/-- The loop over the bucket entries, when it returns: the factors appended
multiply with the new norm to the old norm, none of them divides the new
norm, and the primality test accepts each of them. -/
theorem divide_primes_loop_spec (W fbb : Nat) (isprime : Nat → Bool) (x : Nat) :
    ∀ (entries : List bucket_prime_t) (fl : List Nat) (norm : Int) (read : Nat)
      (fl1 : List Nat) (norm1 : Int) (read1 : Nat),
      divide_primes_loop W fbb isprime x entries fl norm read = some (fl1, norm1, read1) →
      ∃ lb, fl1 = fl ++ lb ∧ factor_list_prod lb * norm1 = norm
        ∧ (∀ p ∈ lb, ¬ (p : Int) ∣ norm1) ∧ ∀ p ∈ lb, isprime p = true := by
  intro entries
  induction entries with
  | nil =>
    intro fl norm read fl1 norm1 read1 h
    unfold divide_primes_loop at h
    simp only [Option.some.injEq, Prod.mk.injEq] at h
    obtain ⟨h1, h2, _⟩ := h
    exact ⟨[], by simp [h1], by simp [h2, prod_cast_nil], by simp, by simp⟩
  | cons prime rest ih =>
    intro fl norm read fl1 norm1 read1 h
    unfold divide_primes_loop at h
    by_cases c1 : prime.x > x
    · rw [if_pos c1] at h
      simp only [Option.some.injEq, Prod.mk.injEq] at h
      obtain ⟨h1, h2, _⟩ := h
      exact ⟨[], by simp [h1], by simp [h2, prod_cast_nil], by simp, by simp⟩
    · rw [if_neg c1] at h
      by_cases c2 : prime.x = x
      · rw [if_pos c2] at h
        cases hres : divide_bucket_prime W fbb isprime fl norm prime.p with
        | none =>
          rw [hres] at h
          cases h
        | some r =>
          obtain ⟨fl2, norm2⟩ := r
          rw [hres] at h
          simp only [] at h
          obtain ⟨p, e, _, e2, e3, e4, e5⟩ :=
            divide_bucket_prime_some W fbb isprime fl norm prime.p fl2 norm2 hres
          obtain ⟨lb, l1, l2, l3, l4⟩ := ih fl2 norm2 (read + 1) fl1 norm1 read1 h
          refine ⟨List.replicate e p ++ lb, ?_, ?_, ?_, ?_⟩
          · rw [l1, e2, List.append_assoc]
          · rw [prod_cast_append, prod_cast_replicate, ← e3, ← l2]
            ring
          · intro q hq
            rcases List.mem_append.1 hq with hq | hq
            · have hqp : q = p := List.eq_of_mem_replicate hq
              subst hqp
              intro hd
              apply e4
              rw [← l2]
              exact Dvd.dvd.mul_left hd _
            · exact l3 q hq
          · intro q hq
            rcases List.mem_append.1 hq with hq | hq
            · have hqp : q = p := List.eq_of_mem_replicate hq
              subst hqp
              exact e5
            · exact l4 q hq
      · rw [if_neg c2] at h
        exact ih fl norm (read + 1) fl1 norm1 read1 h

theorem factor_list_add_all_eq :
    ∀ (fs fl fl1 : List Nat), factor_list_add_all fs fl = some fl1 → fl1 = fl ++ fs := by
  intro fs
  induction fs with
  | nil =>
    intro fl fl1 h
    unfold factor_list_add_all at h
    simp [← Option.some.inj h]
  | cons f rest ih =>
    intro fl fl1 h
    unfold factor_list_add_all at h
    cases hadd : factor_list_add fl f with
    | none =>
      rw [hadd] at h
      cases h
    | some fl2 =>
      rw [hadd] at h
      simp only [] at h
      have e := (factor_list_add_eq fl f fl2 hadd).1
      rw [ih fl2 fl1 h, e, List.append_assoc, List.singleton_append]

/-- The loop around `trialdiv`, when it returns, for a `trialdiv` that removes
the factors it reports: the factors appended multiply with the new norm to the
old norm, each of them was reported by a call of `trialdiv`, and the new norm
is the one left by a call that did not return `TRIALDIV_MAX_FACTORS + 1`. -/
theorem trialdiv_loop_spec (trialdiv : Int → List Nat × Int × Nat)
    (horacle : ∀ n, factor_list_prod ((trialdiv n).1.take
        (min (trialdiv n).2.2 TRIALDIV_MAX_FACTORS))
          * (trialdiv n).2.1 = n) :
    ∀ (fuel : Nat) (fl : List Nat) (norm : Int) (fl1 : List Nat) (norm1 : Int),
      trialdiv_loop trialdiv fuel fl norm = some (fl1, norm1) →
      ∃ lt, fl1 = fl ++ lt ∧ factor_list_prod lt * norm1 = norm
        ∧ (∀ f ∈ lt, ∃ n, f ∈ (trialdiv n).1.take (min (trialdiv n).2.2 TRIALDIV_MAX_FACTORS))
        ∧ ∃ n, norm1 = (trialdiv n).2.1 ∧ (trialdiv n).2.2 ≠ TRIALDIV_MAX_FACTORS + 1 := by
  intro fuel
  induction fuel with
  | zero =>
    intro fl norm fl1 norm1 h
    unfold trialdiv_loop at h
    cases h
  | succ fuel ih =>
    intro fl norm fl1 norm1 h
    unfold trialdiv_loop at h
    simp only [] at h
    by_cases c1 : (trialdiv norm).1.length < min (trialdiv norm).2.2 TRIALDIV_MAX_FACTORS
    · rw [if_pos c1] at h
      cases h
    · rw [if_neg c1] at h
      cases hadd : factor_list_add_all
          ((trialdiv norm).1.take (min (trialdiv norm).2.2 TRIALDIV_MAX_FACTORS)) fl with
      | none =>
        rw [hadd] at h
        cases h
      | some fl2 =>
        rw [hadd] at h
        simp only [] at h
        have e := factor_list_add_all_eq _ fl fl2 hadd
        have ho := horacle norm
        by_cases c2 : (trialdiv norm).2.2 = TRIALDIV_MAX_FACTORS + 1
        · rw [if_pos c2] at h
          obtain ⟨lt, l1, l2, l3, l4⟩ := ih fl2 (trialdiv norm).2.1 fl1 norm1 h
          refine ⟨(trialdiv norm).1.take (min (trialdiv norm).2.2 TRIALDIV_MAX_FACTORS) ++ lt,
            ?_, ?_, ?_, l4⟩
          · rw [l1, e, List.append_assoc]
          · rw [prod_cast_append, mul_assoc, l2, ho]
          · intro f hf
            rcases List.mem_append.1 hf with hf | hf
            · exact ⟨norm, hf⟩
            · exact l3 f hf
        · rw [if_neg c2] at h
          simp only [Option.some.injEq, Prod.mk.injEq] at h
          obtain ⟨h1, h2⟩ := h
          refine ⟨(trialdiv norm).1.take (min (trialdiv norm).2.2 TRIALDIV_MAX_FACTORS),
            ?_, ?_, ?_, ?_⟩
          · rw [← h1, e]
          · rw [← h2, ho]
          · intro f hf
            exact ⟨norm, hf⟩
          · exact ⟨norm, h2.symm, c2⟩

/-- The count of trailing zero bits is the exponent of 2. -/
theorem trailing_zeros_spec :
    ∀ (fuel n : Nat), 0 < n → n ≤ fuel →
      2 ^ trailing_zeros fuel n ∣ n ∧ ¬ 2 ^ (trailing_zeros fuel n + 1) ∣ n := by
  intro fuel
  induction fuel with
  | zero => intro n h1 h2; omega
  | succ fuel ih =>
    intro n h1 h2
    unfold trailing_zeros
    by_cases c : n % 2 = 0 ∧ n ≠ 0
    · rw [if_pos c]
      obtain ⟨i1, i2⟩ := ih (n / 2) (by omega) (by omega)
      have hn : n = 2 * (n / 2) := by omega
      constructor
      · rw [Nat.add_comm, pow_succ, Nat.mul_comm]
        conv_rhs => rw [hn]
        exact Nat.mul_dvd_mul_left 2 i1
      · intro hd
        apply i2
        have e : 2 ^ (1 + trailing_zeros fuel (n / 2) + 1)
            = 2 * 2 ^ (trailing_zeros fuel (n / 2) + 1) := by
          rw [Nat.add_comm 1, pow_succ (2 : Nat) (trailing_zeros fuel (n / 2) + 1)]
          ring
        rw [e] at hd
        conv_rhs at hd => rw [hn]
        exact (Nat.mul_dvd_mul_iff_left (by decide)).1 hd
    · rw [if_neg c]
      constructor
      · simp
      · intro hd
        have h2 : 2 ∣ n := by simpa using hd
        omega

/-- `mpz_scan1 (norm, 0)` is the exponent of 2 in a non-zero norm. -/
theorem mpz_scan1_0_spec (norm : Int) (hnorm : norm ≠ 0) :
    (2 : Int) ^ mpz_scan1_0 norm ∣ norm ∧ ¬ (2 : Int) ^ (mpz_scan1_0 norm + 1) ∣ norm := by
  have hpos : 0 < norm.natAbs := Int.natAbs_pos.2 hnorm
  obtain ⟨h1, h2⟩ := trailing_zeros_spec norm.natAbs norm.natAbs hpos (Nat.le_refl _)
  unfold mpz_scan1_0
  constructor
  · have : ((2 ^ trailing_zeros norm.natAbs norm.natAbs : Nat) : Int) ∣ norm :=
      Int.natCast_dvd.2 h1
    simpa using this
  · intro hd
    apply h2
    have : ((2 ^ (trailing_zeros norm.natAbs norm.natAbs + 1) : Nat) : Int) ∣ norm := by
      simpa using hd
    exact Int.natCast_dvd.1 this
/-- The first step of `trial_div`: the copies of 2 written multiply with the
new norm to the old norm; when 2 heads the factor base and the norm is not
zero, their number is the exponent of 2 and the new norm is odd. -/
theorem trial_div_two_spec (fb_p : Nat) (norm : Int) (l2 : List Nat) (n1 : Int)
    (h : trial_div_two fb_p norm = some (l2, n1)) :
    factor_list_prod l2 * n1 = norm
      ∧ (fb_p = 2 → norm ≠ 0 →
          l2 = List.replicate (mpz_scan1_0 norm) 2 ∧ ¬ (2 : Int) ∣ n1) := by
  unfold trial_div_two at h
  by_cases c : fb_p = 2
  · rw [if_pos c] at h
    simp only [] at h
    by_cases c2 : mpz_scan1_0 norm > FL_MAX_SIZE
    · rw [if_pos c2] at h
      cases h
    · rw [if_neg c2] at h
      simp only [Option.some.injEq, Prod.mk.injEq] at h
      obtain ⟨h1, h2⟩ := h
      have key : norm ≠ 0 → (2 : Int) ^ mpz_scan1_0 norm * n1 = norm ∧ ¬ (2 : Int) ∣ n1 := by
        intro hnorm
        obtain ⟨s1, s2⟩ := mpz_scan1_0_spec norm hnorm
        have hm : (2 : Int) ^ mpz_scan1_0 norm * n1 = norm := by
          rw [← h2]
          exact Int.mul_tdiv_cancel' s1
        refine ⟨hm, ?_⟩
        intro hd
        apply s2
        rw [pow_succ]
        have := mul_dvd_mul_left ((2 : Int) ^ mpz_scan1_0 norm) hd
        rwa [hm] at this
      constructor
      · rw [← h1, prod_cast_replicate]
        by_cases h0 : norm = 0
        · rw [← h2, h0]
          simp
        · exact_mod_cast (key h0).1
      · intro _ hnorm
        exact ⟨h1.symm, (key hnorm).2⟩
  · rw [if_neg c] at h
    simp only [Option.some.injEq, Prod.mk.injEq] at h
    obtain ⟨h1, h2⟩ := h
    constructor
    · rw [← h1, ← h2, prod_cast_nil, one_mul]
    · intro h; exact absurd h c

/-- The product of a factor list is the cast of its product in the natural
numbers. -/
theorem factor_list_prod_cast (l : List Nat) : factor_list_prod l = ((l.prod : Nat) : Int) := by
  unfold factor_list_prod
  rw [Nat.cast_list_prod]

/-- The division by one entry of the table: the copies found multiply with
the cofactor to the norm, they are at most `cap`, and they are copies of `p`. -/
theorem trialdiv_table_div_spec (p : Nat) : ∀ (cap : Nat) (n : Int),
    factor_list_prod (trialdiv_table_div p cap n).1 * (trialdiv_table_div p cap n).2 = n
      ∧ (trialdiv_table_div p cap n).1.length ≤ cap
      ∧ ∀ f ∈ (trialdiv_table_div p cap n).1, f = p := by
  intro cap
  induction cap with
  | zero =>
    intro n
    exact ⟨by simp [trialdiv_table_div, prod_cast_nil], Nat.le_refl _, by simp [trialdiv_table_div]⟩
  | succ cap ih =>
    intro n
    unfold trialdiv_table_div
    by_cases c : mpz_divisible_ui_p n p = true
    · rw [if_pos c]
      obtain ⟨i1, i2, i3⟩ := ih (n / (p : Int))
      have hd := (mpz_divisible_ui_p_iff n p).1 c
      refine ⟨?_, ?_, ?_⟩
      · show factor_list_prod (p :: (trialdiv_table_div p cap (n / (p : Int))).1)
            * (trialdiv_table_div p cap (n / (p : Int))).2 = n
        have e : factor_list_prod (p :: (trialdiv_table_div p cap (n / (p : Int))).1)
            = (p : Int) * factor_list_prod (trialdiv_table_div p cap (n / (p : Int))).1 := by
          unfold factor_list_prod
          rw [List.map_cons, List.prod_cons]
        rw [e, mul_assoc, i1]
        exact Int.mul_ediv_cancel' hd
      · show (trialdiv_table_div p cap (n / (p : Int))).1.length + 1 ≤ cap + 1
        omega
      · intro f hf
        rcases List.mem_cons.1 hf with h | h
        · exact h
        · exact i3 f h
    · rw [if_neg c]
      exact ⟨by simp [prod_cast_nil], Nat.zero_le _, by simp⟩

/-- The divisions by the table: the factors found multiply with the cofactor to
the norm, they are at most `cap`, and they are entries of the table. -/
theorem trialdiv_table_go_spec : ∀ (d : List Nat) (cap : Nat) (n : Int),
    factor_list_prod (trialdiv_table_go d cap n).1 * (trialdiv_table_go d cap n).2 = n
      ∧ (trialdiv_table_go d cap n).1.length ≤ cap
      ∧ ∀ f ∈ (trialdiv_table_go d cap n).1, f ∈ d := by
  intro d
  induction d with
  | nil =>
    intro cap n
    exact ⟨by simp [trialdiv_table_go, prod_cast_nil], Nat.zero_le _, by simp [trialdiv_table_go]⟩
  | cons p d ih =>
    intro cap n
    obtain ⟨a1, a2, a3⟩ := trialdiv_table_div_spec p cap n
    obtain ⟨b1, b2, b3⟩ := ih (cap - (trialdiv_table_div p cap n).1.length)
      (trialdiv_table_div p cap n).2
    have hunf : trialdiv_table_go (p :: d) cap n
        = ((trialdiv_table_div p cap n).1
            ++ (trialdiv_table_go d (cap - (trialdiv_table_div p cap n).1.length)
                (trialdiv_table_div p cap n).2).1,
           (trialdiv_table_go d (cap - (trialdiv_table_div p cap n).1.length)
                (trialdiv_table_div p cap n).2).2) := rfl
    rw [hunf]
    refine ⟨?_, ?_, ?_⟩
    · simp only []
      rw [prod_cast_append, mul_assoc, b1, a1]
    · simp only [List.length_append]
      omega
    · intro f hf
      simp only [] at hf
      rcases List.mem_append.1 hf with h | h
      · rw [a3 f h]; exact List.mem_cons_self _ _
      · exact List.mem_cons_of_mem _ (b3 f h)

/-- The trial division over a table removes the factors it reports, leaves no
entry of the table in the norm unless it returns `TRIALDIV_MAX_FACTORS + 1`,
and reports entries of the table. -/
theorem trialdiv_table_spec (d : List Nat) (n : Int) :
    factor_list_prod ((trialdiv_table d n).1.take
        (min (trialdiv_table d n).2.2 TRIALDIV_MAX_FACTORS)) * (trialdiv_table d n).2.1 = n
      ∧ ((trialdiv_table d n).2.2 ≠ TRIALDIV_MAX_FACTORS + 1 →
          ∀ p ∈ d, ¬ (p : Int) ∣ (trialdiv_table d n).2.1)
      ∧ ∀ f ∈ (trialdiv_table d n).1.take (min (trialdiv_table d n).2.2 TRIALDIV_MAX_FACTORS),
          f ∈ d := by
  obtain ⟨g1, g2, g3⟩ := trialdiv_table_go_spec d TRIALDIV_MAX_FACTORS n
  have h1 : (trialdiv_table d n).1 = (trialdiv_table_go d TRIALDIV_MAX_FACTORS n).1 := rfl
  have h2 : (trialdiv_table d n).2.1 = (trialdiv_table_go d TRIALDIV_MAX_FACTORS n).2 := rfl
  have h3 : (trialdiv_table d n).2.2
      = if d.any (fun p => mpz_divisible_ui_p (trialdiv_table_go d TRIALDIV_MAX_FACTORS n).2 p)
        then TRIALDIV_MAX_FACTORS + 1
        else (trialdiv_table_go d TRIALDIV_MAX_FACTORS n).1.length := rfl
  have htake : (trialdiv_table d n).1.take (min (trialdiv_table d n).2.2 TRIALDIV_MAX_FACTORS)
      = (trialdiv_table_go d TRIALDIV_MAX_FACTORS n).1 := by
    rw [h1, h3]
    apply List.take_of_length_le
    split_ifs
    · rw [Nat.min_eq_right (Nat.le_succ _)]; exact g2
    · rw [Nat.min_eq_left g2]
  refine ⟨by rw [htake, h2]; exact g1, ?_, by rw [htake]; exact g3⟩
  intro hne p hp hd
  rw [h3] at hne
  by_cases c : d.any (fun p => mpz_divisible_ui_p (trialdiv_table_go d TRIALDIV_MAX_FACTORS n).2 p)
      = true
  · rw [if_pos c] at hne
    exact hne rfl
  · apply c
    rw [List.any_eq_true]
    exact ⟨p, hp, (mpz_divisible_ui_p_iff _ _).2 (by rw [← h2]; exact hd)⟩

/-- C22 (amended): for a non-zero norm and a `trialdiv` that removes the
factors it reports and that leaves no prime of its table `tdp` in the norm
unless it returns `TRIALDIV_MAX_FACTORS + 1`, whenever `trial_div` returns, the
product of the factor list times the remaining norm is the norm at entry; no
prime of the table divides the remaining norm; when 2 heads the factor base
the list holds exactly as many copies of 2 as the exponent of 2 in the norm,
and the remaining norm is odd.  The list is made of the copies of 2, the
factors taken from the bucket primes and the factors reported by `trialdiv`,
and no factor taken from the bucket primes divides the remaining norm.  If
every prime factor of the norm is 2 at the head of the factor base, a prime of
the table, or a factor taken from the bucket primes, the remaining norm is 1 or
-1; for a positive norm it is 1, the product of the list is the norm, and, with
a primality test that accepts only primes and a `trialdiv` that reports only
primes, the list is the prime factorisation of the norm up to the order. -/
theorem trial_div_round_trip (W fbb : Nat) (isprime : Nat → Bool)
    (trialdiv : Int → List Nat × Int × Nat) (tdp : List Nat) (fb_p : Nat) (norm : Int) (x : Nat)
    (primes : bucket_primes_t) (fl : List Nat) (norm1 : Int) (primes1 : bucket_primes_t)
    (hnorm : norm ≠ 0)
    (horacle : ∀ n, factor_list_prod ((trialdiv n).1.take
        (min (trialdiv n).2.2 TRIALDIV_MAX_FACTORS)) * (trialdiv n).2.1 = n)
    (hcomplete : ∀ n, (trialdiv n).2.2 ≠ TRIALDIV_MAX_FACTORS + 1 →
        ∀ p ∈ tdp, ¬ (p : Int) ∣ (trialdiv n).2.1)
    (h : trial_div W fbb isprime trialdiv fb_p norm x primes = some (fl, norm1, primes1)) :
    factor_list_prod fl * norm1 = norm
      ∧ (∀ p ∈ tdp, ¬ (p : Int) ∣ norm1)
      ∧ (fb_p = 2 → fl.count 2 = mpz_scan1_0 norm
          ∧ (2 : Int) ^ mpz_scan1_0 norm ∣ norm ∧ ¬ (2 : Int) ^ (mpz_scan1_0 norm + 1) ∣ norm
          ∧ ¬ (2 : Int) ∣ norm1)
      ∧ (∃ l2 lb lt n1 n2, fl = l2 ++ lb ++ lt
          ∧ trial_div_two fb_p norm = some (l2, n1)
          ∧ divide_primes_from_bucket W fbb isprime l2 n1 x primes
              = some (l2 ++ lb, n2, primes1)
          ∧ (∀ p ∈ lb, ¬ (p : Int) ∣ norm1)
          ∧ ((∀ q : Nat, q.Prime → (q : Int) ∣ norm →
                (q = 2 ∧ fb_p = 2) ∨ q ∈ tdp ∨ q ∈ lb) →
              (norm1 = 1 ∨ norm1 = -1)
              ∧ (0 < norm → norm1 = 1 ∧ factor_list_prod fl = norm
                  ∧ ((∀ q, isprime q = true → q.Prime) →
                      (∀ n, ∀ f ∈ (trialdiv n).1.take
                          (min (trialdiv n).2.2 TRIALDIV_MAX_FACTORS), f.Prime) →
                      fl.Perm (Nat.primeFactorsList norm.toNat))))) := by
  unfold trial_div at h
  cases h1 : trial_div_two fb_p norm with
  | none => rw [h1] at h; cases h
  | some r1 =>
    obtain ⟨l2, n1⟩ := r1
    rw [h1] at h
    simp only [] at h
    cases h2 : divide_primes_from_bucket W fbb isprime l2 n1 x primes with
    | none => rw [h2] at h; cases h
    | some r2 =>
      obtain ⟨fl2, n2, BP2⟩ := r2
      rw [h2] at h
      simp only [] at h
      cases h3 : trialdiv_loop trialdiv (FL_MAX_SIZE + 1) fl2 n2 with
      | none => rw [h3] at h; cases h
      | some r3 =>
        obtain ⟨fl3, n3⟩ := r3
        rw [h3] at h
        simp only [Option.some.injEq, Prod.mk.injEq] at h
        obtain ⟨e1, e2, e3⟩ := h
        subst e1
        subst e2
        subst e3
        obtain ⟨t1, t2⟩ := trial_div_two_spec fb_p norm l2 n1 h1
        -- the bucket stage
        have hb : ∃ lb, fl2 = l2 ++ lb ∧ factor_list_prod lb * n2 = n1
            ∧ (∀ p ∈ lb, ¬ (p : Int) ∣ n2) ∧ ∀ p ∈ lb, isprime p = true := by
          have h2' := h2
          unfold divide_primes_from_bucket at h2'
          cases hl : divide_primes_loop W fbb isprime x (primes.entries.drop primes.read)
              l2 n1 primes.read with
          | none => rw [hl] at h2'; cases h2'
          | some r =>
            obtain ⟨a, b, c⟩ := r
            rw [hl] at h2'
            simp only [Option.map_some', Option.some.injEq, Prod.mk.injEq] at h2'
            obtain ⟨a1, a2, _⟩ := h2'
            subst a1
            subst a2
            exact divide_primes_loop_spec W fbb isprime x _ _ _ _ _ _ _ hl
        obtain ⟨lb, b1, b2, b3, b4⟩ := hb
        obtain ⟨lt, c1, c2, c3, nlast, c4, c5⟩ :=
          trialdiv_loop_spec trialdiv horacle _ fl2 n2 fl3 n3 h3
        have hfl : fl3 = l2 ++ lb ++ lt := by rw [c1, b1]
        have hprod : factor_list_prod fl3 * n3 = norm := by
          rw [hfl, prod_cast_append, prod_cast_append, ← t1, ← b2, ← c2]
          ring
        have htab : ∀ p ∈ tdp, ¬ (p : Int) ∣ n3 := by
          intro p hp
          rw [c4]
          exact hcomplete nlast c5 p hp
        have hn3n1 : n3 ∣ n1 := by
          rw [← b2, ← c2]
          exact Dvd.dvd.mul_left (Dvd.dvd.mul_left (dvd_refl _) _) _
        have hbk : ∀ p ∈ lb, ¬ (p : Int) ∣ n3 := by
          intro p hp hd
          apply b3 p hp
          rw [← c2]
          exact Dvd.dvd.mul_left hd _
        refine ⟨hprod, htab, ?_, ?_⟩
        · intro hfb
          obtain ⟨u1, u2⟩ := t2 hfb hnorm
          obtain ⟨s1, s2⟩ := mpz_scan1_0_spec norm hnorm
          refine ⟨?_, s1, s2, fun hd => u2 (dvd_trans hd hn3n1)⟩
          have hlb : ∀ p ∈ lb, (p : Int) ∣ n1 := by
            intro p hp
            rw [← b2]
            exact Dvd.dvd.mul_right (mem_dvd_prod_cast lb p hp) _
          have hlt : ∀ p ∈ lt, (p : Int) ∣ n1 := by
            intro p hp
            rw [← b2, ← c2]
            exact Dvd.dvd.mul_left (Dvd.dvd.mul_right (mem_dvd_prod_cast lt p hp) _) _
          have n2b : (2 : Nat) ∉ lb := fun hmem => u2 (by exact_mod_cast hlb 2 hmem)
          have n2t : (2 : Nat) ∉ lt := fun hmem => u2 (by exact_mod_cast hlt 2 hmem)
          rw [hfl, List.count_append, List.count_append, u1, List.count_replicate_self,
            List.count_eq_zero.2 n2b, List.count_eq_zero.2 n2t]
          rfl
        · refine ⟨l2, lb, lt, n1, n2, hfl, rfl, ?_, hbk, ?_⟩
          · rw [h2, b1]
          · intro hcover
            have hn3 : n3 ≠ 0 := by
              intro h0
              rw [h0, mul_zero] at hprod
              exact hnorm hprod.symm
            have habs : n3.natAbs = 1 := by
              by_contra hne
              obtain ⟨q, hq, hqd⟩ := Nat.exists_prime_and_dvd hne
              have hqn3 : (q : Int) ∣ n3 := Int.natCast_dvd.2 hqd
              have hqnorm : (q : Int) ∣ norm := by
                rw [← hprod]
                exact Dvd.dvd.mul_left hqn3 _
              rcases hcover q hq hqnorm with ⟨hq2, hfb⟩ | hq | hq
              · obtain ⟨_, u2⟩ := t2 hfb hnorm
                apply u2
                subst hq2
                exact dvd_trans hqn3 hn3n1
              · exact htab q hq hqn3
              · exact hbk q hq hqn3
            have hpm : n3 = 1 ∨ n3 = -1 := by
              rcases Int.natAbs_eq n3 with h | h
              · left; rw [h, habs]; rfl
              · right; rw [h, habs]; rfl
            refine ⟨hpm, ?_⟩
            intro hpos
            have hnn : 0 ≤ factor_list_prod fl3 := by
              rw [factor_list_prod_cast]
              exact Int.ofNat_nonneg _
            have hone : n3 = 1 := by
              rcases hpm with h | h
              · exact h
              · rw [h] at hprod
                have : norm = -factor_list_prod fl3 := by rw [← hprod]; ring
                omega
            have hp1 : factor_list_prod fl3 = norm := by
              rw [hone, mul_one] at hprod
              exact hprod
            refine ⟨hone, hp1, ?_⟩
            intro hisprime hreport
            apply Nat.primeFactorsList_unique
            · have : ((fl3.prod : Nat) : Int) = norm := by
                rw [← factor_list_prod_cast]; exact hp1
              rw [← this, Int.toNat_ofNat]
            · intro f hf
              rw [hfl] at hf
              rcases List.mem_append.1 hf with hf | hf
              · rcases List.mem_append.1 hf with hf | hf
                · by_cases hfb : fb_p = 2
                  · obtain ⟨u1, _⟩ := t2 hfb hnorm
                    rw [u1] at hf
                    rw [List.eq_of_mem_replicate hf]
                    exact Nat.prime_two
                  · have hl2 : l2 = [] := by
                      unfold trial_div_two at h1
                      rw [if_neg hfb] at h1
                      simp only [Option.some.injEq, Prod.mk.injEq] at h1
                      exact h1.1.symm
                    rw [hl2] at hf
                    cases hf
                · exact hisprime f (b4 f hf)
              · obtain ⟨n, hn⟩ := c3 f hf
                exact hreport n f hn

/-- Witness of C22: the norm `728280 = 8 * 17^2 * 5 * 9 * 7` at a position
where the bucket primes hold 17, with the trial division over the table
`[3, 5, 7]`: `trial_div` returns the list `[2, 2, 2, 17, 17, 3, 3, 5, 7]` and
the norm 1, and the list is the prime factorisation of the norm. -/
theorem trial_div_round_trip_witness :
    trial_div 131072 1000 (fun p => decide (p = 17)) (trialdiv_table [3, 5, 7]) 2 728280 3
        ⟨[⟨3, 1⟩, ⟨17, 3⟩, ⟨19, 4⟩], 0⟩
      = some ([2, 2, 2, 17, 17, 3, 3, 5, 7], 1, ⟨[⟨3, 1⟩, ⟨17, 3⟩, ⟨19, 4⟩], 2⟩)
    ∧ factor_list_prod [2, 2, 2, 17, 17, 3, 3, 5, 7] * 1 = 728280
    ∧ [2, 2, 2, 17, 17, 3, 3, 5, 7].count 2 = mpz_scan1_0 728280
    ∧ [2, 2, 2, 17, 17, 3, 3, 5, 7].Perm (Nat.primeFactorsList (728280 : Int).toNat) := by
  have hrun : trial_div 131072 1000 (fun p => decide (p = 17)) (trialdiv_table [3, 5, 7]) 2
      728280 3 ⟨[⟨3, 1⟩, ⟨17, 3⟩, ⟨19, 4⟩], 0⟩
      = some ([2, 2, 2, 17, 17, 3, 3, 5, 7], 1, ⟨[⟨3, 1⟩, ⟨17, 3⟩, ⟨19, 4⟩], 2⟩) := by decide
  obtain ⟨h1, _, h3, l2, lb, lt, n1, n2, _, htwo, hbk, _, hrec⟩ :=
    trial_div_round_trip 131072 1000 (fun p => decide (p = 17)) (trialdiv_table [3, 5, 7])
      [3, 5, 7] 2 728280 3 ⟨[⟨3, 1⟩, ⟨17, 3⟩, ⟨19, 4⟩], 0⟩
      [2, 2, 2, 17, 17, 3, 3, 5, 7] 1 ⟨[⟨3, 1⟩, ⟨17, 3⟩, ⟨19, 4⟩], 2⟩ (by decide)
      (fun n => (trialdiv_table_spec [3, 5, 7] n).1)
      (fun n => (trialdiv_table_spec [3, 5, 7] n).2.1) hrun
  refine ⟨hrun, h1, (h3 rfl).1, ?_⟩
  -- the factors taken from the bucket primes are the two copies of 17
  have e2 : trial_div_two 2 728280 = some ([2, 2, 2], 91035) := by decide
  rw [e2] at htwo
  simp only [Option.some.injEq, Prod.mk.injEq] at htwo
  obtain ⟨hl2, hn1⟩ := htwo
  subst hl2
  subst hn1
  have eb : divide_primes_from_bucket 131072 1000 (fun p => decide (p = 17)) [2, 2, 2] 91035 3
      ⟨[⟨3, 1⟩, ⟨17, 3⟩, ⟨19, 4⟩], 0⟩
      = some ([2, 2, 2] ++ [17, 17], 315, ⟨[⟨3, 1⟩, ⟨17, 3⟩, ⟨19, 4⟩], 2⟩) := by decide
  rw [eb] at hbk
  simp only [Option.some.injEq, Prod.mk.injEq] at hbk
  have hlb : lb = [17, 17] := (List.append_cancel_left hbk.1).symm
  subst hlb
  -- every prime factor of the norm is 2, in the table, or 17
  have hcover : ∀ q : Nat, q.Prime → (q : Int) ∣ 728280 →
      (q = 2 ∧ (2 : Nat) = 2) ∨ q ∈ [3, 5, 7] ∨ q ∈ [17, 17] := by
    intro q hq hd
    have hd' : q ∣ [2, 2, 2, 17, 17, 3, 3, 5, 7].prod := by
      have : q ∣ (728280 : Int).natAbs := Int.natCast_dvd.1 hd
      exact this
    obtain ⟨a, ha, hqa⟩ := (Prime.dvd_prod_iff (Nat.Prime.prime hq)).1 hd'
    have hap : a.Prime := by
      simp only [List.mem_cons, List.mem_singleton, List.not_mem_nil, or_false] at ha
      rcases ha with h | h | h | h | h | h | h | h | h <;> subst h <;> norm_num
    have hqe : q = a := (Nat.prime_dvd_prime_iff_eq hq hap).1 hqa
    subst hqe
    simp only [List.mem_cons, List.mem_singleton, List.not_mem_nil, or_false] at ha
    rcases ha with h | h | h | h | h | h | h | h | h <;> subst h <;> simp
  obtain ⟨_, hpos⟩ := hrec hcover
  obtain ⟨_, _, hperm⟩ := hpos (by norm_num)
  apply hperm
  · intro q hq
    have : q = 17 := by simpa using hq
    subst this
    norm_num
  · intro n f hf
    have hmem := (trialdiv_table_spec [3, 5, 7] n).2.2 f hf
    simp only [List.mem_cons, List.mem_singleton, List.not_mem_nil, or_false] at hmem
    rcases hmem with h | h | h <;> subst h <;> norm_num

/-- C22 as stated fails: the assumption that `trialdiv` removes each factor it
reports is met by a routine that reports nothing, and with it the norm
`15 = 3 * 5`, a product of two primes of the factor base, comes back from
`trial_div` unchanged, with an empty factor list (the product of the list
times the remaining norm is still the norm). -/
theorem trial_div_round_trip_counterexample :
    (∀ n : Int, factor_list_prod
        ((([], n, 0) : List Nat × Int × Nat).1.take
          (min (([], n, 0) : List Nat × Int × Nat).2.2 TRIALDIV_MAX_FACTORS))
        * (([], n, 0) : List Nat × Int × Nat).2.1 = n)
      ∧ trial_div 131072 1000 (fun _ => true) (fun n => ([], n, 0)) 2 15 0 ⟨[], 0⟩
          = some ([], 15, ⟨[], 0⟩)
      ∧ factor_list_prod [] * 15 = 15
      ∧ ¬ (factor_list_prod [] = 15)
      ∧ Nat.Prime 3 ∧ Nat.Prime 5 ∧ (15 : Int) = 3 * 5 := by
  refine ⟨fun n => by simp [factor_list_prod], by decide, by decide, by decide,
    by norm_num, by norm_num, by norm_num⟩

/-! ## `init_resieve` -/

theorem resieve_entries_cons (M : List ssp_marker_t) (i : Nat) (e : ssp_slot × Nat × Nat)
    (rest : List (ssp_slot × Nat × Nat)) (st : resieve_state) :
    resieve_entries M i (e :: rest) st
      = match resieve_entry_step M i st e with
        | none => none
        | some st1 => resieve_entries M (i + 1) rest st1 := rfl

theorem resieve_entries_append (M : List ssp_marker_t) :
    ∀ (l1 l2 : List (ssp_slot × Nat × Nat)) (i : Nat) (st : resieve_state),
      resieve_entries M i (l1 ++ l2) st
        = match resieve_entries M i l1 st with
          | none => none
          | some st1 => resieve_entries M (i + l1.length) l2 st1 := by
  intro l1
  induction l1 with
  | nil =>
    intro l2 i st
    simp [resieve_entries]
  | cons e rest ih =>
    intro l2 i st
    rw [List.cons_append, resieve_entries_cons, resieve_entries_cons]
    cases h : resieve_entry_step M i st e with
    | none => rfl
    | some st1 =>
      simp only []
      rw [ih l2 (i + 1) st1]
      have : i + 1 + rest.length = i + (e :: rest).length := by
        rw [List.length_cons]; omega
      rw [this]

/-- The markers with a smaller index do not matter for the event of an
entry. -/
theorem special_event_skip (pre rest : List ssp_marker_t) (j : Nat)
    (h : ∀ m ∈ pre, m.index ≠ j ∨ m.event &&& (2 ^ 32 - 1 - SSP_POW2) = 0) :
    special_event (pre ++ rest) j = special_event rest j := by
  unfold special_event
  congr 1
  induction pre with
  | nil => rfl
  | cons m pre ih =>
    rw [List.cons_append, List.find?_cons]
    have hm := h m (List.mem_cons_self _ _)
    have hfalse : (decide (m.index = j)
        && decide (m.event &&& (2 ^ 32 - 1 - SSP_POW2) ≠ 0)) = false := by
      rcases hm with h1 | h1
      · rw [decide_eq_false h1, Bool.false_and]
      · rw [decide_eq_false (not_not.2 h1), Bool.and_false]
    rw [hfalse]
    exact ih (fun x hx => h x (List.mem_cons_of_mem _ hx))

theorem resieve_entries_congr (M1 M2 : List ssp_marker_t) :
    ∀ (l : List (ssp_slot × Nat × Nat)) (i : Nat) (st : resieve_state),
      (∀ j, i ≤ j → special_event M1 j = special_event M2 j) →
      resieve_entries M1 i l st = resieve_entries M2 i l st := by
  intro l
  induction l with
  | nil => intro i st _; rfl
  | cons e rest ih =>
    intro i st h
    rw [resieve_entries_cons, resieve_entries_cons]
    unfold resieve_entry_step
    rw [h i (Nat.le_refl i)]
    cases special_event M2 i with
    | none =>
      simp only []
      exact ih _ _ (fun j hj => h j (by omega))
    | some ev =>
      simp only []
      cases resieve_special_step ev st e with
      | none => rfl
      | some st1 =>
        simp only []
        exact ih _ _ (fun j hj => h j (by omega))

/-- The inner loop of `init_resieve` over slots that have no special marker is
the treatment of these slots one after the other. -/
theorem resieve_plain_eq (s : small_sieve_data_t) (M : List ssp_marker_t) :
    ∀ (l : List (ssp_slot × Nat × Nat)) (i : Nat) (rest : List (ssp_slot × Nat × Nat))
      (st : resieve_state),
      (ssd_entries s).drop i = l ++ rest →
      (∀ j, i ≤ j → j < i + l.length → special_event M j = none) →
      ∃ td1 r1, resieve_plain s l.length i (st.td, st.r) = some (td1, r1)
        ∧ resieve_entries M i l st = some { td := td1, r := r1, markers := st.markers } := by
  intro l
  induction l with
  | nil =>
    intro i rest st _ _
    exact ⟨st.td, st.r, rfl, rfl⟩
  | cons e l ih =>
    intro i rest st hdrop hnone
    have hget : (ssd_entries s).get? i = some e := by
      have := congrArg List.head? hdrop
      rw [List.head?_drop] at this
      simpa using this
    have hdrop1 : (ssd_entries s).drop (i + 1) = l ++ rest := by
      have := congrArg List.tail hdrop
      rw [List.tail_drop] at this
      simpa using this
    have hs : special_event M i = none := hnone i (Nat.le_refl i) (by simp)
    obtain ⟨td1, r1, h1, h2⟩ := ih (i + 1) rest
      { td := (resieve_plain_step (st.td, st.r) e).1
        r := (resieve_plain_step (st.td, st.r) e).2
        markers := st.markers } hdrop1
      (fun j hj1 hj2 => hnone j (by omega) (by simp at hj2 ⊢; omega))
    refine ⟨td1, r1, ?_, ?_⟩
    · simp only [List.length_cons, resieve_plain, hget]
      exact h1
    · rw [resieve_entries_cons]
      unfold resieve_entry_step
      rw [hs]
      exact h2
theorem ssp_end_special : SSP_END &&& (2 ^ 32 - 1 - SSP_POW2) ≠ 0 := by decide

/-- The events of `small_sieve_init` do not have the bit `SSP_END`; the ones
that are not `SSP_POW2` alone have `SSP_DISCARD` or `SSP_PROJ`. -/
theorem marker_event_ok_bits (ev : Nat) (h : marker_event_ok ev) :
    ev &&& SSP_END = 0
      ∧ (ev &&& (2 ^ 32 - 1 - SSP_POW2) ≠ 0 →
          ev &&& SSP_DISCARD ≠ 0 ∨ ev &&& SSP_PROJ ≠ 0) := by
  rcases h with h | h | h | h | h
  all_goals subst h
  all_goals decide

/-- The loop over the markers stops at the first marker that is not
`SSP_POW2` alone; the closing marker is one. -/
theorem next_special_spec (n : Nat) :
    ∀ (ms : List ssp_marker_t),
      ∃ pw m ms1, ms ++ [{ index := n, event := SSP_END }] = pw ++ m :: ms1
        ∧ (∀ x ∈ pw, x.event &&& (2 ^ 32 - 1 - SSP_POW2) = 0)
        ∧ m.event &&& (2 ^ 32 - 1 - SSP_POW2) ≠ 0
        ∧ next_special (ms ++ [{ index := n, event := SSP_END }]) = some (m, ms1) := by
  intro ms
  induction ms with
  | nil =>
    refine ⟨[], { index := n, event := SSP_END }, [], rfl, by simp, ssp_end_special, ?_⟩
    show next_special [{ index := n, event := SSP_END }] = _
    unfold next_special
    rw [if_neg ssp_end_special]
  | cons x ms ih =>
    obtain ⟨pw, m, ms1, h1, h2, h3, h4⟩ := ih
    by_cases c : x.event &&& (2 ^ 32 - 1 - SSP_POW2) = 0
    · refine ⟨x :: pw, m, ms1, ?_, ?_, h3, ?_⟩
      · rw [List.cons_append, h1, List.cons_append]
      · intro y hy
        rcases List.mem_cons.1 hy with h | h
        · rw [h]; exact c
        · exact h2 y h
      · rw [List.cons_append]
        unfold next_special
        rw [if_pos c]
        exact h4
    · refine ⟨[], x, ms ++ [(⟨n, SSP_END⟩ : ssp_marker_t)], by simp, by simp, c, ?_⟩
      rw [List.cons_append]
      unfold next_special
      rw [if_neg c]

/-- The event of the entry at the index of the marker at which the loop over
the markers stops. -/
theorem special_event_at (pw ms1 : List ssp_marker_t) (m : ssp_marker_t)
    (h2 : ∀ x ∈ pw, x.event &&& (2 ^ 32 - 1 - SSP_POW2) = 0)
    (h3 : m.event &&& (2 ^ 32 - 1 - SSP_POW2) ≠ 0) :
    special_event (pw ++ m :: ms1) m.index = some m.event := by
  rw [special_event_skip pw (m :: ms1) m.index (fun x hx => Or.inr (h2 x hx))]
  unfold special_event
  rw [List.find?_cons]
  have : (decide (m.index = m.index)
      && decide (m.event &&& (2 ^ 32 - 1 - SSP_POW2) ≠ 0)) = true := by
    rw [decide_eq_true rfl, decide_eq_true h3]
    rfl
  rw [this]
  rfl

/-- No entry before the marker at which the loop over the markers stops has a
special marker. -/
theorem special_event_before (pw ms1 : List ssp_marker_t) (m : ssp_marker_t) (j : Nat)
    (h2 : ∀ x ∈ pw, x.event &&& (2 ^ 32 - 1 - SSP_POW2) = 0)
    (hj : j < m.index) (hs : ∀ b ∈ ms1, m.index < b.index) :
    special_event (pw ++ m :: ms1) j = none := by
  rw [special_event_skip pw (m :: ms1) j (fun x hx => Or.inr (h2 x hx))]
  have e : m :: ms1 = (m :: ms1) ++ [] := by simp
  rw [e, special_event_skip (m :: ms1) [] j]
  · rfl
  · intro x hx
    left
    rcases List.mem_cons.1 hx with h | h
    · rw [h]; omega
    · have := hs x h; omega
theorem init_resieve_loop_succ (s : small_sieve_data_t) (fuel i : Nat)
    (next_marker : List ssp_marker_t) (st : resieve_state) :
    init_resieve_loop s (fuel + 1) i next_marker st
      = if ¬ i < s.nb_ssp then some st
        else
          match next_special next_marker with
          | none => none
          | some (m, next_marker1) =>
            match resieve_plain s (m.index - i) i (st.td, st.r) with
            | none => none
            | some (td1, r1) =>
              if m.event &&& SSP_END ≠ 0 then
                if max i m.index = s.nb_ssp then
                  some { td := td1, r := r1, markers := st.markers }
                else none
              else
                match (ssd_entries s).get? (max i m.index) with
                | none => none
                | some e =>
                  match resieve_special_step m.event
                      { td := td1, r := r1, markers := st.markers } e with
                  | none => none
                  | some st2 => init_resieve_loop s fuel (max i m.index + 1) next_marker1 st2 :=
  rfl

/-- The loops of `init_resieve` over a well-formed list are the treatment of
the slots one after the other, each according to its marker. -/
theorem init_resieve_loop_eq (s : small_sieve_data_t)
    (hlen : (ssd_entries s).length = s.nb_ssp) :
    ∀ (fuel i : Nat) (ms : List ssp_marker_t) (st : resieve_state),
      i ≤ s.nb_ssp → s.nb_ssp - i < fuel →
      ms.Pairwise (fun a b => a.index < b.index) →
      (∀ m ∈ ms, i ≤ m.index ∧ m.index < s.nb_ssp ∧ marker_event_ok m.event) →
      init_resieve_loop s fuel i (ms ++ [(⟨s.nb_ssp, SSP_END⟩ : ssp_marker_t)]) st
        = resieve_entries (ms ++ [(⟨s.nb_ssp, SSP_END⟩ : ssp_marker_t)]) i
            ((ssd_entries s).drop i) st := by
  intro fuel
  induction fuel with
  | zero => intro i ms st _ h; omega
  | succ fuel ih =>
    intro i ms st hi hfuel hsorted hms
    rw [init_resieve_loop_succ]
    by_cases c : i < s.nb_ssp
    · rw [if_neg (not_not.2 c)]
      have hfull : (ms ++ [(⟨s.nb_ssp, SSP_END⟩ : ssp_marker_t)]).Pairwise
          (fun a b => a.index < b.index) := by
        refine List.pairwise_append.2 ⟨hsorted, List.pairwise_singleton _ _, ?_⟩
        intro a ha b hb
        rw [List.mem_singleton] at hb
        rw [hb]
        exact (hms a ha).2.1
      obtain ⟨pw, m, ms1, hdec, hpw, hm, hnext⟩ := next_special_spec s.nb_ssp ms
      rw [hnext]
      simp only []
      rw [hdec] at hfull
      have hfull1 := List.pairwise_append.1 hfull
      have hms1 : ∀ b ∈ ms1, m.index < b.index := (List.pairwise_cons.1 hfull1.2.1).1
      have hpwlt : ∀ a ∈ pw, a.index < m.index :=
        fun a ha => hfull1.2.2 a ha m (List.mem_cons_self _ _)
      have hm_mem : m ∈ ms ++ [(⟨s.nb_ssp, SSP_END⟩ : ssp_marker_t)] := by
        rw [hdec]; simp
      have hfence : i ≤ m.index ∧ m.index ≤ s.nb_ssp := by
        rcases List.mem_append.1 hm_mem with h | h
        · have := hms m h; omega
        · rw [List.mem_singleton] at h
          rw [h]; exact ⟨hi, Nat.le_refl _⟩
      have hsplit : (ssd_entries s).drop i
          = ((ssd_entries s).drop i).take (m.index - i)
            ++ (ssd_entries s).drop m.index := by
        have h1 := (List.take_append_drop (m.index - i) ((ssd_entries s).drop i)).symm
        rw [List.drop_drop] at h1
        have e : i + (m.index - i) = m.index := by omega
        rw [e] at h1
        exact h1
      have hLlen : (((ssd_entries s).drop i).take (m.index - i)).length = m.index - i := by
        rw [List.length_take, List.length_drop, hlen]; omega
      obtain ⟨td1, r1, hp1, hp2⟩ := resieve_plain_eq s
        (ms ++ [(⟨s.nb_ssp, SSP_END⟩ : ssp_marker_t)])
        (((ssd_entries s).drop i).take (m.index - i)) i ((ssd_entries s).drop m.index) st
        hsplit
        (fun j hj1 hj2 => by
          rw [hdec]
          exact special_event_before pw ms1 m j hpw (by rw [hLlen] at hj2; omega) hms1)
      rw [hLlen] at hp1
      rw [hp1]
      simp only []
      rw [Nat.max_eq_right hfence.1]
      rw [hsplit, resieve_entries_append, hp2]
      simp only []
      rw [hLlen]
      have e2 : i + (m.index - i) = m.index := by omega
      rw [e2]
      rcases List.eq_nil_or_concat ms1 with h | ⟨ms2, b, h⟩
      · -- the closing marker
        subst h
        have hinj := List.append_inj' hdec rfl
        have hmE : m = (⟨s.nb_ssp, SSP_END⟩ : ssp_marker_t) := by
          have := hinj.2
          simp only [List.cons.injEq, and_true] at this
          exact this.symm
        subst hmE
        have cE : SSP_END &&& SSP_END ≠ 0 := by decide
        rw [if_pos cE, if_pos rfl]
        have hnil : (ssd_entries s).drop s.nb_ssp = [] := by
          rw [← hlen]; exact List.drop_length _
        rw [hnil]
        rfl
      · -- a projective entry
        rw [List.concat_eq_append] at h
        subst h
        have hdec2 : ms ++ [(⟨s.nb_ssp, SSP_END⟩ : ssp_marker_t)]
            = (pw ++ m :: ms2) ++ [b] := by
          rw [hdec]; simp
        have hinj := List.append_inj' hdec2 rfl
        have hbE : b = (⟨s.nb_ssp, SSP_END⟩ : ssp_marker_t) := by
          have := hinj.2
          simp only [List.cons.injEq, and_true] at this
          exact this.symm
        subst hbE
        have hmsdec : ms = pw ++ m :: ms2 := hinj.1
        have hm_ms : m ∈ ms := by rw [hmsdec]; simp
        obtain ⟨_, hmlt, hmok⟩ := hms m hm_ms
        have cE : ¬ m.event &&& SSP_END ≠ 0 := not_not.2 (marker_event_ok_bits m.event hmok).1
        rw [if_neg cE]
        have hlt : m.index < (ssd_entries s).length := by rw [hlen]; exact hmlt
        have hget : (ssd_entries s).get? m.index = some ((ssd_entries s).get ⟨m.index, hlt⟩) :=
          List.get?_eq_get hlt
        have hdropc : (ssd_entries s).drop m.index
            = (ssd_entries s).get ⟨m.index, hlt⟩ :: (ssd_entries s).drop (m.index + 1) := by
          have := List.drop_eq_getElem_cons hlt
          simp only [List.get_eq_getElem]
          exact this
        rw [hget, hdropc, resieve_entries_cons]
        simp only []
        have hstep : resieve_entry_step
            (ms ++ [(⟨s.nb_ssp, SSP_END⟩ : ssp_marker_t)]) m.index
            { td := td1, r := r1, markers := st.markers }
            ((ssd_entries s).get ⟨m.index, hlt⟩)
            = resieve_special_step m.event { td := td1, r := r1, markers := st.markers }
              ((ssd_entries s).get ⟨m.index, hlt⟩) := by
          unfold resieve_entry_step
          rw [hdec, special_event_at pw _ m hpw hm]
        rw [hstep]
        cases hres : resieve_special_step m.event { td := td1, r := r1, markers := st.markers }
            ((ssd_entries s).get ⟨m.index, hlt⟩) with
        | none => rfl
        | some st2 =>
          simp only []
          have hsorted2 : ms2.Pairwise (fun a b => a.index < b.index) := by
            rw [hmsdec] at hsorted
            exact (List.pairwise_cons.1 (List.pairwise_append.1 hsorted).2.1).2
          have hms2 : ∀ x ∈ ms2, m.index + 1 ≤ x.index ∧ x.index < s.nb_ssp
              ∧ marker_event_ok x.event := by
            intro x hx
            have h1 := hms1 x (List.mem_append_left _ hx)
            have h2 := hms x (by rw [hmsdec]; simp [hx])
            exact ⟨by omega, h2.2.1, h2.2.2⟩
          rw [ih (m.index + 1) ms2 st2 (by omega) (by omega) hsorted2 hms2]
          apply (resieve_entries_congr _ _ _ _ _ _).symm
          intro j hj
          have e3 : ms ++ [(⟨s.nb_ssp, SSP_END⟩ : ssp_marker_t)]
              = (pw ++ [m]) ++ (ms2 ++ [(⟨s.nb_ssp, SSP_END⟩ : ssp_marker_t)]) := by
            rw [hmsdec]; simp
          rw [e3]
          apply special_event_skip
          intro x hx
          left
          rcases List.mem_append.1 hx with h | h
          · have := hpwlt x h; omega
          · rw [List.mem_singleton] at h
            rw [h]; omega
    · rw [if_pos c]
      have hi2 : i = s.nb_ssp := by omega
      have hnil : (ssd_entries s).drop i = [] := by
        rw [hi2, ← hlen]; exact List.drop_length _
      rw [hnil]
      rfl

/-- The lookup of `v` in the trial-division primes with the moving pointer: it
misses `v` exactly when `v` is not in the list, provided the primes already
passed are below `v` when `v` is in the list. -/
theorem td_lookup (T dropped td : List Nat) (v : Nat)
    (hT : T.Pairwise (fun a b => a < b)) (hsplit : T = dropped ++ td)
    (hv : v ∈ T → ∀ x ∈ dropped, x < v) :
    (td_miss v (td_skip v td) = true ↔ v ∉ T)
      ∧ ∃ dropped1, T = dropped1 ++ td_skip v td
          ∧ ∀ x ∈ dropped1, x ∈ dropped ∨ x < v := by
  have htd : td = td.takeWhile (fun t => decide (t < v)) ++ td_skip v td :=
    (List.takeWhile_append_dropWhile _ _).symm
  have htw : ∀ x ∈ td.takeWhile (fun t => decide (t < v)), x < v := by
    intro x hx
    have := List.mem_takeWhile_imp hx
    simpa using this
  have hT2 : T = (dropped ++ td.takeWhile (fun t => decide (t < v))) ++ td_skip v td := by
    rw [List.append_assoc, ← htd]; exact hsplit
  constructor
  · have hnot_front : v ∈ T → v ∈ td_skip v td := by
      intro hmem
      have hmem2 := hmem
      rw [hT2] at hmem2
      rcases List.mem_append.1 hmem2 with h | h
      · exfalso
        rcases List.mem_append.1 h with h | h
        · have := hv hmem v h; omega
        · have := htw v h; omega
      · exact h
    cases hskip : td_skip v td with
    | nil =>
      constructor
      · intro _ hmem
        have := hnot_front hmem
        rw [hskip] at this
        cases this
      · intro _; rfl
    | cons t rest =>
      have ht : ¬ t < v := by
        have h1 : (td.dropWhile (fun t => decide (t < v))).head? = some t := by
          show (td_skip v td).head? = some t
          rw [hskip]; rfl
        have := List.head?_dropWhile_not (fun t => decide (t < v)) td
        rw [h1] at this
        simpa using this
      have hsorted : (t :: rest).Pairwise (fun a b => a < b) := by
        rw [hT2, hskip] at hT
        exact (List.pairwise_append.1 hT).2.1
      have hrest : ∀ x ∈ rest, t < x := (List.pairwise_cons.1 hsorted).1
      show decide (t ≠ v) = true ↔ v ∉ T
      rw [decide_eq_true_eq]
      constructor
      · intro hne hmem
        have := hnot_front hmem
        rw [hskip] at this
        rcases List.mem_cons.1 this with h | h
        · exact hne h.symm
        · have := hrest v h; omega
      · intro hnot heq
        apply hnot
        rw [hT2, hskip, heq]
        simp
  · refine ⟨dropped ++ td.takeWhile (fun t => decide (t < v)), hT2, ?_⟩
    intro x hx
    rcases List.mem_append.1 hx with h | h
    · exact Or.inl h
    · exact Or.inr (htw x h)

/-- The treatment of one slot in terms of the number that is looked up. -/
theorem resieve_entry_step_key (M : List ssp_marker_t) (i : Nat) (st : resieve_state)
    (e : ssp_slot × Nat × Nat)
    (hev : ∀ ev, special_event M i = some ev →
      ev &&& SSP_DISCARD ≠ 0 ∨ ev &&& SSP_PROJ ≠ 0) :
    ∃ st1, resieve_entry_step M i st e = some st1
      ∧ match resieve_key M i e with
        | none => st1.td = st.td ∧ st1.r = st.r
        | some v => st1.td = td_skip v st.td
            ∧ st1.r = if td_miss v (td_skip v st.td) = true then st.r ++ [e] else st.r := by
  unfold resieve_entry_step resieve_key
  cases hs : special_event M i with
  | none =>
    simp only []
    unfold resieve_plain_step
    by_cases c : is_prime_power (ssp_slot_p e.1) = true
    · simp only [if_pos c]
      exact ⟨_, rfl, rfl, rfl⟩
    · simp only [if_neg c]
      refine ⟨_, rfl, ?_⟩
      by_cases c2 : td_miss (ssp_slot_p e.1) (td_skip (ssp_slot_p e.1) st.td) = true
      · simp only [if_pos c2]
        exact ⟨trivial, trivial⟩
      · simp only [if_neg c2]
        exact ⟨trivial, trivial⟩
  | some ev =>
    simp only []
    unfold resieve_special_step
    by_cases c1 : ev &&& SSP_DISCARD ≠ 0
    · simp only [if_pos c1]
      exact ⟨_, rfl, rfl, rfl⟩
    · simp only [if_neg c1]
      have c2 : ¬ ev &&& SSP_PROJ = 0 := by
        rcases hev ev hs with h | h
        · exact absurd h c1
        · exact h
      simp only [if_neg c2]
      by_cases c3 : (ssp_slot_bad e.1).q > 1 ∨ is_prime_power (ssp_slot_bad e.1).g = true
      · simp only [if_pos c3]
        exact ⟨_, rfl, rfl, rfl⟩
      · simp only [if_neg c3]
        by_cases c4 : td_miss (ssp_slot_bad e.1).g (td_skip (ssp_slot_bad e.1).g st.td) = true
        · simp only [if_pos c4]
          exact ⟨_, rfl, rfl, rfl⟩
        · simp only [if_neg c4]
          exact ⟨_, rfl, rfl, rfl⟩
/-- The treatment of the slots one after the other, when every number that is
looked up and is a trial-division prime is at least the numbers looked up
before it: the slots copied are those whose number is not a trial-division
prime. -/
theorem resieve_entries_spec (M : List ssp_marker_t) (T : List Nat) (bound : Nat)
    (hT : T.Pairwise (fun a b => a < b))
    (hevall : ∀ j ev, j < bound → special_event M j = some ev →
      ev &&& SSP_DISCARD ≠ 0 ∨ ev &&& SSP_PROJ ≠ 0) :
    ∀ (L : List (ssp_slot × Nat × Nat)) (i : Nat) (st : resieve_state) (dropped : List Nat),
      i + L.length ≤ bound →
      T = dropped ++ st.td →
      (∀ x ∈ dropped,
        ∀ w ∈ (L.enumFrom i).filterMap (fun ie => resieve_key M ie.1 ie.2), w ∈ T → x < w) →
      ((L.enumFrom i).filterMap (fun ie => resieve_key M ie.1 ie.2)).Pairwise
        (fun u v => v ∈ T → u ≤ v) →
      ∃ st1, resieve_entries M i L st = some st1
        ∧ st1.r = st.r ++ ((L.enumFrom i).filter (fun ie =>
            match resieve_key M ie.1 ie.2 with
            | none => false
            | some v => decide (v ∉ T))).map (fun ie => ie.2) := by
  intro L
  induction L with
  | nil =>
    intro i st dropped _ _ _ _
    exact ⟨st, rfl, by simp⟩
  | cons e rest ih =>
    intro i st dropped hb hsplit hdrop hpair
    rw [resieve_entries_cons]
    obtain ⟨st1, hstep, hkey⟩ := resieve_entry_step_key M i st e
      (fun ev h => hevall i ev (by simp at hb; omega) h)
    rw [hstep]
    simp only []
    have hb1 : i + 1 + rest.length ≤ bound := by simp at hb; omega
    rw [List.enumFrom_cons] at hdrop hpair ⊢
    cases hk : resieve_key M i e with
    | none =>
      rw [hk] at hkey
      simp only [] at hkey
      simp only [List.filterMap_cons, hk] at hdrop hpair
      obtain ⟨st2, h1, h2⟩ := ih (i + 1) st1 dropped hb1 (by rw [hkey.1]; exact hsplit)
        hdrop hpair
      refine ⟨st2, h1, ?_⟩
      rw [h2, hkey.2, List.filter_cons]
      simp only [hk]
      rfl
    | some v =>
      rw [hk] at hkey
      simp only [] at hkey
      simp only [List.filterMap_cons, hk] at hdrop hpair
      obtain ⟨hp1, hp2⟩ := List.pairwise_cons.1 hpair
      obtain ⟨hmiss, dropped1, hsplit1, hdropped1⟩ := td_lookup T dropped st.td v hT hsplit
        (fun hm x hx => hdrop x hx v (List.mem_cons_self _ _) hm)
      obtain ⟨st2, h1, h2⟩ := ih (i + 1) st1 dropped1 hb1 (by rw [hkey.1]; exact hsplit1)
        (fun x hx w hw hwT => by
          rcases hdropped1 x hx with h | h
          · exact hdrop x h w (List.mem_cons_of_mem _ hw) hwT
          · have := hp1 w hw hwT
            omega)
        hp2
      refine ⟨st2, h1, ?_⟩
      rw [h2, hkey.2, List.filter_cons]
      simp only [hk]
      by_cases c : v ∈ T
      · have hm : ¬ td_miss v (td_skip v st.td) = true := fun h => (hmiss.1 h) c
        rw [if_neg hm]
        have : decide (v ∉ T) = false := decide_eq_false (not_not.2 c)
        rw [this]
        rfl
      · have hm : td_miss v (td_skip v st.td) = true := hmiss.2 c
        rw [if_pos hm]
        have : decide (v ∉ T) = true := decide_eq_true c
        rw [this]
        simp

theorem special_event_mem (M : List ssp_marker_t) (j ev : Nat)
    (h : special_event M j = some ev) :
    ∃ m ∈ M, m.index = j ∧ m.event = ev := by
  unfold special_event at h
  cases hf : M.find? (fun m => decide (m.index = j)
      && decide (m.event &&& (2 ^ 32 - 1 - SSP_POW2) ≠ 0)) with
  | none =>
    rw [hf] at h
    cases h
  | some m =>
    rw [hf] at h
    have hmem := List.mem_of_find?_eq_some hf
    have hp := List.find?_some hf
    rw [Bool.and_eq_true, decide_eq_true_eq] at hp
    exact ⟨m, hmem, hp.1, Option.some.inj h⟩

/-- C30, as amended: for a small-sieve list as `small_sieve_init` builds it, a
list of trial-division primes in increasing order, and when every number that
`init_resieve` looks up and that is a trial-division prime is at least the
numbers looked up before it (the `p` of an entry without marker or with
`SSP_POW2` alone, the `g` of a projective entry that is not discarded, prime
powers and `q > 1` apart), `init_resieve` returns with, in `r`, in their order
and with their log weight and cursor, exactly the entries whose looked-up
number is not a trial-division prime; `r->nb_ssp` is their number and the last
marker of `r` is `SSP_END` with that index. -/
theorem init_resieve_copies (s : small_sieve_data_t) (T : List Nat)
    (hwf : small_sieve_wf s) (hT : T.Pairwise (fun a b => a < b))
    (hkeys : (resieve_keys s).Pairwise (fun u v => v ∈ T → u ≤ v)) :
    ∃ r, init_resieve s T = some r
      ∧ r.ssp = (resieve_expected s T).map (fun e => e.1)
      ∧ r.logp = (resieve_expected s T).map (fun e => e.2.1)
      ∧ r.next_position = (resieve_expected s T).map (fun e => e.2.2)
      ∧ r.nb_ssp = (resieve_expected s T).length
      ∧ r.markers.getLast? = some { index := (resieve_expected s T).length, event := SSP_END } := by
  obtain ⟨ms, hms, hsorted, hok⟩ := hwf.markers_end
  have hlen : (ssd_entries s).length = s.nb_ssp := by
    unfold ssd_entries
    rw [List.length_zip, List.length_zip, hwf.len_ssp, hwf.len_logp, hwf.len_pos]
    simp
  have hloop := init_resieve_loop_eq s hlen (s.nb_ssp + 1) 0 ms
    { td := T, r := [], markers := [] } (Nat.zero_le _) (by omega) hsorted
    (fun m hm => ⟨Nat.zero_le _, (hok m hm).1, (hok m hm).2⟩)
  rw [← hms, List.drop_zero] at hloop
  have hevall : ∀ j ev, j < s.nb_ssp → special_event s.markers j = some ev →
      ev &&& SSP_DISCARD ≠ 0 ∨ ev &&& SSP_PROJ ≠ 0 := by
    intro j ev hj h
    have hspecial : ev &&& (2 ^ 32 - 1 - SSP_POW2) ≠ 0 := by
      unfold special_event at h
      cases hf : s.markers.find? (fun m => decide (m.index = j)
          && decide (m.event &&& (2 ^ 32 - 1 - SSP_POW2) ≠ 0)) with
      | none => rw [hf] at h; cases h
      | some m =>
        rw [hf] at h
        have hp := List.find?_some hf
        rw [Bool.and_eq_true, decide_eq_true_eq, decide_eq_true_eq] at hp
        rw [← Option.some.inj h]
        exact hp.2
    obtain ⟨m, hmem, hidx, hevent⟩ := special_event_mem s.markers j ev h
    rw [hms] at hmem
    rcases List.mem_append.1 hmem with h1 | h1
    · rw [← hevent]
      rw [← hevent] at hspecial
      exact (marker_event_ok_bits m.event (hok m h1).2).2 hspecial
    · rw [List.mem_singleton] at h1
      rw [h1] at hidx
      simp only [] at hidx
      omega
  obtain ⟨st1, hrun, hr⟩ := resieve_entries_spec s.markers T s.nb_ssp hT hevall
    (ssd_entries s) 0 { td := T, r := [], markers := [] } [] (by rw [hlen]; omega)
    rfl (fun x hx => by cases hx) hkeys
  rw [hrun] at hloop
  have hexp : st1.r = resieve_expected s T := by
    rw [hr]
    rfl
  unfold init_resieve
  rw [hloop]
  simp only []
  rw [hexp]
  refine ⟨_, rfl, rfl, rfl, rfl, rfl, ?_⟩
  simp
theorem init_resieve_copies_witness :
    ∃ r, init_resieve
          { markers := [⟨0, SSP_POW2⟩, ⟨2, SSP_PROJ⟩, ⟨4, SSP_END⟩]
            ssp := [ssp_slot.ordinary ⟨2, 1, 0⟩, ssp_slot.ordinary ⟨5, 1, 0⟩,
              ssp_slot.bad ⟨7, 1, 0⟩, ssp_slot.ordinary ⟨11, 3, 0⟩]
            nb_ssp := 4, logp := [1, 3, 3, 4], next_position := [0, 3, 4, 5] } [2, 5] = some r
      ∧ r.ssp = [ssp_slot.bad ⟨7, 1, 0⟩, ssp_slot.ordinary ⟨11, 3, 0⟩]
      ∧ r.logp = [3, 4]
      ∧ r.next_position = [4, 5]
      ∧ r.nb_ssp = 2
      ∧ r.markers.getLast? = some { index := 2, event := SSP_END } :=
  init_resieve_copies
    { markers := [⟨0, SSP_POW2⟩, ⟨2, SSP_PROJ⟩, ⟨4, SSP_END⟩]
      ssp := [ssp_slot.ordinary ⟨2, 1, 0⟩, ssp_slot.ordinary ⟨5, 1, 0⟩,
        ssp_slot.bad ⟨7, 1, 0⟩, ssp_slot.ordinary ⟨11, 3, 0⟩]
      nb_ssp := 4, logp := [1, 3, 3, 4], next_position := [0, 3, 4, 5] } [2, 5]
    ⟨rfl, rfl, rfl, [⟨0, SSP_POW2⟩, ⟨2, SSP_PROJ⟩], rfl, by decide, by
      intro m hm
      simp only [List.mem_cons, List.mem_singleton, List.not_mem_nil, or_false] at hm
      rcases hm with h | h
      · rw [h]; exact ⟨by decide, Or.inl rfl⟩
      · rw [h]; exact ⟨by decide, Or.inr (Or.inl rfl)⟩⟩
    (by decide) (by decide)

/-- C30 as stated fails.  In the first list the projective entry `g = 13` comes
before the entry `p = 11` without marker, and 11 is the only trial-division
prime: the entries without marker are in order, yet `init_resieve` copies the
entry 11, since the lookup of 13 has moved the pointer past 11.  In the second
list the entry `p = 2` carries the marker `SSP_POW2` and the list of
trial-division primes is empty: `init_resieve` copies the entry, which is
neither without marker nor projective. -/
theorem init_resieve_copies_counterexample :
    (init_resieve
        { markers := [⟨0, SSP_PROJ⟩, ⟨2, SSP_END⟩]
          ssp := [ssp_slot.bad ⟨13, 1, 0⟩, ssp_slot.ordinary ⟨11, 3, 0⟩]
          nb_ssp := 2, logp := [4, 3], next_position := [7, 5] } [11]).map (fun r => r.ssp)
        = some [ssp_slot.bad ⟨13, 1, 0⟩, ssp_slot.ordinary ⟨11, 3, 0⟩]
      ∧ (11 : Nat) ∈ [11] ∧ is_prime_power 11 = false
      ∧ (init_resieve
          { markers := [⟨0, SSP_POW2⟩, ⟨1, SSP_END⟩]
            ssp := [ssp_slot.ordinary ⟨2, 1, 0⟩]
            nb_ssp := 1, logp := [1], next_position := [0] } []).map (fun r => r.ssp)
        = some [ssp_slot.ordinary ⟨2, 1, 0⟩] := by
  decide

/-- The loop with a history is the first inner loop. -/
theorem reduce_loop_a_trace_fst : ∀ (n : Nat) (a0 a1 b0 b1 : Int),
    (reduce_loop_a_trace n a0 a1 b0 b1).map (fun t => t.1) = reduce_loop_a n a0 a1 b0 b1 := by
  intro n
  induction n with
  | zero => intro a0 a1 b0 b1; rfl
  | succ n ih =>
    intro a0 a1 b0 b1
    unfold reduce_loop_a_trace reduce_loop_a
    by_cases hc : (a0 + b0) + b0 ≤ 0
    · rw [if_pos hc, if_pos hc, ← ih, Option.map_map]; rfl
    · rw [if_neg hc, if_neg hc]; rfl

/-- The loop with a history is the second inner loop. -/
theorem reduce_loop_b_trace_fst : ∀ (n : Nat) (a0 a1 b0 b1 : Int),
    (reduce_loop_b_trace n a0 a1 b0 b1).map (fun t => t.1) = reduce_loop_b n a0 a1 b0 b1 := by
  intro n
  induction n with
  | zero => intro a0 a1 b0 b1; rfl
  | succ n ih =>
    intro a0 a1 b0 b1
    unfold reduce_loop_b_trace reduce_loop_b
    by_cases hc : 0 ≤ (b0 + a0) + a0
    · rw [if_pos hc, if_pos hc, ← ih, Option.map_map]; rfl
    · rw [if_neg hc, if_neg hc]; rfl

/-- The loop with a history is the subtractive loop. -/
theorem reduce_loop_trace_fst (lim : Nat) (H : Int) : ∀ (fuel : Nat) (s : plattice_info_t),
    (reduce_loop_trace lim H fuel s).map (fun t => t.1) = reduce_loop lim H fuel s := by
  intro fuel
  induction fuel with
  | zero => intro s; rfl
  | succ n ih =>
    intro s
    unfold reduce_loop_trace reduce_loop
    by_cases h1 : s.b0 < H
    · rw [if_pos h1, if_pos h1]; rfl
    · rw [if_neg h1, if_neg h1, ← reduce_loop_a_trace_fst]
      cases ha : reduce_loop_a_trace lim s.a0 s.a1 s.b0 s.b1 with
      | none => rfl
      | some ra =>
        obtain ⟨⟨a0, a1⟩, ta⟩ := ra
        simp only [Option.map_some']
        by_cases h2 : -a0 < H
        · rw [if_pos h2, if_pos h2]; rfl
        · rw [if_neg h2, if_neg h2, ← reduce_loop_b_trace_fst]
          cases hb : reduce_loop_b_trace lim a0 a1 s.b0 s.b1 with
          | none => rfl
          | some rb =>
            obtain ⟨⟨b0, b1⟩, tb⟩ := rb
            simp only [Option.map_some']
            rw [← ih, Option.map_map]; rfl

/-- Every turn of the first inner loop lowers `|a0| + b0`: the history is
strictly decreasing, stays below the value at the start and above the value
that the loop leaves. -/
theorem reduce_loop_a_trace_spec : ∀ (n : Nat) (a0 a1 b0 b1 : Int),
    0 < b0 → a0 + b0 ≤ 0 → -a0 < (n : Int) →
    ∃ r t, reduce_loop_a_trace n a0 a1 b0 b1 = some (r, t)
      ∧ List.Pairwise (fun x y => reduce_measure y < reduce_measure x) t
      ∧ (∀ x ∈ t, reduce_measure x < reduce_measure (a0, b0)
          ∧ reduce_measure (r.1, b0) ≤ reduce_measure x)
      ∧ reduce_measure (r.1, b0) < reduce_measure (a0, b0) := by
  intro n
  induction n with
  | zero => intro a0 a1 b0 b1 hb h1 h2; simp at h2; omega
  | succ n ih =>
    intro a0 a1 b0 b1 hb h1 h2
    unfold reduce_loop_a_trace
    have hstep : reduce_measure (a0 + b0, b0) < reduce_measure (a0, b0) := by
      simp only [reduce_measure]
      rw [abs_of_nonpos h1, abs_of_nonpos (by omega : a0 ≤ 0)]
      omega
    by_cases hc : (a0 + b0) + b0 ≤ 0
    · rw [if_pos hc]
      obtain ⟨r, t, he, hp, hm, hl⟩ := ih (a0 + b0) (a1 + b1) b0 b1 hb hc
        (by push_cast at h2; omega)
      rw [he]
      refine ⟨r, _, rfl, ?_, ?_, lt_trans hl hstep⟩
      · rw [List.pairwise_cons]
        exact ⟨fun y hy => (hm y hy).1, hp⟩
      · intro x hx
        rw [List.mem_cons] at hx
        rcases hx with rfl | hx
        · exact ⟨hstep, le_of_lt hl⟩
        · exact ⟨lt_trans (hm x hx).1 hstep, (hm x hx).2⟩
    · rw [if_neg hc]
      refine ⟨_, _, rfl, List.pairwise_singleton _ _, ?_, hstep⟩
      intro x hx
      rw [List.mem_singleton] at hx
      subst hx
      exact ⟨hstep, le_refl _⟩

/-- Every turn of the second inner loop lowers `|a0| + b0`. -/
theorem reduce_loop_b_trace_spec : ∀ (n : Nat) (a0 a1 b0 b1 : Int),
    a0 < 0 → 0 ≤ b0 + a0 → b0 < (n : Int) →
    ∃ r t, reduce_loop_b_trace n a0 a1 b0 b1 = some (r, t)
      ∧ List.Pairwise (fun x y => reduce_measure y < reduce_measure x) t
      ∧ (∀ x ∈ t, reduce_measure x < reduce_measure (a0, b0)
          ∧ reduce_measure (a0, r.1) ≤ reduce_measure x)
      ∧ reduce_measure (a0, r.1) < reduce_measure (a0, b0) := by
  intro n
  induction n with
  | zero => intro a0 a1 b0 b1 ha h1 h2; simp at h2; omega
  | succ n ih =>
    intro a0 a1 b0 b1 ha h1 h2
    unfold reduce_loop_b_trace
    have hstep : reduce_measure (a0, b0 + a0) < reduce_measure (a0, b0) := by
      simp only [reduce_measure]; omega
    by_cases hc : 0 ≤ (b0 + a0) + a0
    · rw [if_pos hc]
      obtain ⟨r, t, he, hp, hm, hl⟩ := ih a0 a1 (b0 + a0) (b1 + a1) ha hc
        (by push_cast at h2; omega)
      rw [he]
      refine ⟨r, _, rfl, ?_, ?_, lt_trans hl hstep⟩
      · rw [List.pairwise_cons]
        exact ⟨fun y hy => (hm y hy).1, hp⟩
      · intro x hx
        rw [List.mem_cons] at hx
        rcases hx with rfl | hx
        · exact ⟨hstep, le_of_lt hl⟩
        · exact ⟨lt_trans (hm x hx).1 hstep, (hm x hx).2⟩
    · rw [if_neg hc]
      refine ⟨_, _, rfl, List.pairwise_singleton _ _, ?_, hstep⟩
      intro x hx
      rw [List.mem_singleton] at hx
      subst hx
      exact ⟨hstep, le_refl _⟩

/-- The subtractive loop with its history returns when given more fuel than
`-a0`; the history is strictly decreasing in `|a0| + b0`, below the value at
the start, and the loop is left with `b0 < H` or `-a0 < H`. -/
theorem reduce_loop_trace_spec (p r : Nat) (H : Int) (hH : 1 ≤ H) :
    ∀ (fuel : Nat) (s : plattice_info_t), HeadInv p r H s → -s.a0 < (fuel : Int) →
      ∃ s' t, reduce_loop_trace (p + 1) H fuel s = some (s', t)
        ∧ List.Pairwise (fun x y => reduce_measure y < reduce_measure x) t
        ∧ (∀ x ∈ t, reduce_measure x < reduce_measure (s.a0, s.b0)
            ∧ reduce_measure (s'.a0, s'.b0) ≤ reduce_measure x)
        ∧ reduce_measure (s'.a0, s'.b0) ≤ reduce_measure (s.a0, s.b0)
        ∧ (s'.b0 < H ∨ -s'.a0 < H) := by
  intro fuel
  induction fuel with
  | zero => intro s hs hf; have := hs.a0_neg; simp at hf; omega
  | succ n ih =>
    intro s hs hf
    unfold reduce_loop_trace
    by_cases h1 : s.b0 < H
    · rw [if_pos h1]
      exact ⟨s, [], rfl, List.Pairwise.nil, fun x hx => absurd hx (List.not_mem_nil x),
        le_refl _, Or.inl h1⟩
    · rw [if_neg h1]
      have hb0 : 0 < s.b0 := by omega
      have hlt := hs.b0_lt
      have hge := hs.a0_ge
      obtain ⟨m, hm, he, hl, hu⟩ := reduce_loop_a_spec (p + 1) s.a0 s.a1 s.b0 s.b1 hb0
        (by omega) (by push_cast; omega)
      obtain ⟨ra, ta, hta, hpa, hma, hla⟩ := reduce_loop_a_trace_spec (p + 1) s.a0 s.a1 s.b0 s.b1
        hb0 (by omega) (by push_cast; omega)
      have hra : ra = (s.a0 + m * s.b0, s.a1 + m * s.b1) := by
        have := reduce_loop_a_trace_fst (p + 1) s.a0 s.a1 s.b0 s.b1
        rw [hta, he] at this
        simpa using this
      subst hra
      rw [hta]
      have hmb1 : 1 ≤ m * s.b1 := by have := hs.b1_pos; nlinarith
      have ha1 := hs.a1_nonneg
      simp only []
      by_cases h2 : -(s.a0 + m * s.b0) < H
      · rw [if_pos h2]
        exact ⟨_, ta, rfl, hpa, hma, le_of_lt hla, Or.inr h2⟩
      · rw [if_neg h2]
        obtain ⟨m', hm', he', hl', hu'⟩ := reduce_loop_b_spec (p + 1) (s.a0 + m * s.b0)
          (s.a1 + m * s.b1) s.b0 s.b1 (by omega) (by omega) (by push_cast; omega)
        obtain ⟨rb, tb, htb, hpb, hmb, hlb⟩ := reduce_loop_b_trace_spec (p + 1) (s.a0 + m * s.b0)
          (s.a1 + m * s.b1) s.b0 s.b1 (by omega) (by omega) (by push_cast; omega)
        have hrb : rb = (s.b0 + m' * (s.a0 + m * s.b0), s.b1 + m' * (s.a1 + m * s.b1)) := by
          have := reduce_loop_b_trace_fst (p + 1) (s.a0 + m * s.b0) (s.a1 + m * s.b1) s.b0 s.b1
          rw [htb, he'] at this
          simpa using this
        subst hrb
        rw [htb]
        simp only []
        have hb1 := hs.b1_pos
        have hma' : 0 ≤ m' * (s.a1 + m * s.b1) := by nlinarith
        obtain ⟨s', t, ht, hp, hmt, hlt', hex⟩ := ih
          { a0 := s.a0 + m * s.b0, b0 := s.b0 + m' * (s.a0 + m * s.b0),
            a1 := s.a1 + m * s.b1, b1 := s.b1 + m' * (s.a1 + m * s.b1) }
          ⟨by show s.a0 + m * s.b0 < 0; omega, hl', hu',
            by show 0 ≤ s.a1 + m * s.b1; omega,
            by show 1 ≤ s.b1 + m' * (s.a1 + m * s.b1); omega,
            by show -(s.a0 + m * s.b0) ≤ (p : Int); omega,
            Or.inr ⟨by show 1 ≤ s.a1 + m * s.b1; omega,
              by show H ≤ -(s.a0 + m * s.b0); omega⟩⟩
          (by show -(s.a0 + m * s.b0) < (n : Int); push_cast at hf; omega)
        rw [ht]
        simp only [] at hmt hlt' hma hla hmb hlb
        refine ⟨s', ta ++ tb ++ t, rfl, ?_, ?_, ?_, hex⟩
        · rw [List.pairwise_append, List.pairwise_append]
          refine ⟨⟨hpa, hpb, ?_⟩, hp, ?_⟩
          · intro x hx y hy
            exact lt_of_lt_of_le (hmb y hy).1 (hma x hx).2
          · intro x hx y hy
            rw [List.mem_append] at hx
            rcases hx with hx | hx
            · exact lt_of_lt_of_le (lt_of_lt_of_le (hmt y hy).1 (le_of_lt hlb)) (hma x hx).2
            · exact lt_of_lt_of_le (hmt y hy).1 (hmb x hx).2
        · intro x hx
          rw [List.mem_append, List.mem_append] at hx
          rcases hx with (hx | hx) | hx
          · exact ⟨(hma x hx).1, le_trans hlt' (le_trans (le_of_lt hlb) (hma x hx).2)⟩
          · exact ⟨lt_trans (hmb x hx).1 hla, le_trans hlt' (hmb x hx).2⟩
          · exact ⟨lt_trans (lt_trans (lt_of_lt_of_le (hmt x hx).1 (le_refl _)) hlb) hla,
              (hmt x hx).2⟩
        · exact le_trans hlt' (le_of_lt (lt_trans hlb hla))

/-- C32 (amended): for every `1 <= p < 2^31`, every `r` with `0 <= r < p` and
every half width `H >= 1`, `reduce_plattice` returns (with the fuel `p + 1` of
the model, for each of its three loops); the subtractive loop with its history
is the loop of `reduce_plattice`; the values of `|a0| + b0` after the successive
turns of the two inner loops, preceded by the value at the start, are strictly
decreasing; and the loop is left with `b0 < H` or `-a0 < H`. -/
theorem reduce_plattice_terminates (cfg : las_config) (p r : Nat) (si : sieve_info)
    (_hp : 1 ≤ p) (hp31 : p < 2 ^ 31) (hr : r < p) (hH : 1 ≤ hI cfg si) :
    ∃ (s : plattice_info_t) (t : List (Int × Int)),
      reduce_loop_trace (p + 1) (hI cfg si) (p + 1)
          { a0 := to_int32 (-(to_int32 (p : Int))), b0 := to_int32 (r : Int), a1 := 0, b1 := 1 }
        = some (s, t)
      ∧ reduce_loop (p + 1) (hI cfg si) (p + 1)
          { a0 := to_int32 (-(to_int32 (p : Int))), b0 := to_int32 (r : Int), a1 := 0, b1 := 1 }
        = some s
      ∧ reduce_plattice cfg p r si = some (reduce_finish (hI cfg si) s)
      ∧ List.Pairwise (fun x y => reduce_measure y < reduce_measure x)
          ((to_int32 (-(to_int32 (p : Int))), to_int32 (r : Int)) :: t)
      ∧ (s.b0 < hI cfg si ∨ -s.a0 < hI cfg si) := by
  have e1 : to_int32 (p : Int) = (p : Int) := to_int32_of_range _ (by omega) (by omega)
  have e2 : to_int32 (-(p : Int)) = -(p : Int) := to_int32_of_range _ (by omega) (by omega)
  have e3 : to_int32 (r : Int) = (r : Int) := to_int32_of_range _ (by omega) (by omega)
  rw [e1, e2, e3]
  have hinit : HeadInv p r (hI cfg si) { a0 := -(p : Int), b0 := (r : Int), a1 := 0, b1 := 1 } :=
    ⟨by show -(p : Int) < 0; omega, by show (0 : Int) ≤ r; omega,
     by show (r : Int) < - -(p : Int); omega, le_refl _, le_refl _,
     by show - -(p : Int) ≤ p; omega, Or.inl rfl⟩
  obtain ⟨s, t, ht, hp, hm, _, hex⟩ := reduce_loop_trace_spec p r (hI cfg si) hH (p + 1) _ hinit
    (by show - -(p : Int) < ((p + 1 : Nat) : Int); push_cast; omega)
  have hloop : reduce_loop (p + 1) (hI cfg si) (p + 1)
      { a0 := -(p : Int), b0 := (r : Int), a1 := 0, b1 := 1 } = some s := by
    rw [← reduce_loop_trace_fst, ht]; rfl
  refine ⟨s, t, ht, hloop, ?_, ?_, hex⟩
  · unfold reduce_plattice; rw [e1, e2, e3, hloop]
  · rw [List.pairwise_cons]
    exact ⟨fun y hy => (hm y hy).1, hp⟩

theorem reduce_plattice_terminates_witness :
    ∃ (s : plattice_info_t) (t : List (Int × Int)),
      reduce_loop_trace (17 + 1) (hI ⟨false, false, false, 16⟩ ⟨4, 2, 2, 0⟩) (17 + 1)
          { a0 := to_int32 (-(to_int32 ((17 : Nat) : Int))), b0 := to_int32 ((12 : Nat) : Int),
            a1 := 0, b1 := 1 } = some (s, t)
      ∧ reduce_loop (17 + 1) (hI ⟨false, false, false, 16⟩ ⟨4, 2, 2, 0⟩) (17 + 1)
          { a0 := to_int32 (-(to_int32 ((17 : Nat) : Int))), b0 := to_int32 ((12 : Nat) : Int),
            a1 := 0, b1 := 1 } = some s
      ∧ reduce_plattice ⟨false, false, false, 16⟩ 17 12 ⟨4, 2, 2, 0⟩
          = some (reduce_finish (hI ⟨false, false, false, 16⟩ ⟨4, 2, 2, 0⟩) s)
      ∧ List.Pairwise (fun x y => reduce_measure y < reduce_measure x)
          ((to_int32 (-(to_int32 ((17 : Nat) : Int))), to_int32 ((12 : Nat) : Int)) :: t)
      ∧ (s.b0 < hI ⟨false, false, false, 16⟩ ⟨4, 2, 2, 0⟩
          ∨ -s.a0 < hI ⟨false, false, false, 16⟩ ⟨4, 2, 2, 0⟩) :=
  reduce_plattice_terminates ⟨false, false, false, 16⟩ 17 12 ⟨4, 2, 2, 0⟩
    (by decide) (by norm_num) (by decide) (by decide)

/-- C32 as stated fails for a `p` of 32 bits: for `p = 2^32 - 100`, `r = 50`
and `H = 16` the cast `(int32_t)p` is `-100`, so the run starts from
`a0 = 100 > 0`, `b0 = 50`; the first inner loop makes one turn, to `a0 = 150`,
and the loop is left there: `|a0| + b0` has gone from 150 to 200.  (The function
still returns.) -/
theorem reduce_plattice_terminates_counterexample :
    1 ≤ 2 ^ 32 - 100 ∧ 50 < 2 ^ 32 - 100
      ∧ (1 : Int) ≤ hI ⟨false, false, false, 16⟩ ⟨16, 8, 4, 0⟩
      ∧ to_int32 (-(to_int32 ((2 ^ 32 - 100 : Nat) : Int))) = 100
      ∧ to_int32 ((50 : Nat) : Int) = 50
      ∧ reduce_loop_trace (2 ^ 32 - 100 + 1) (hI ⟨false, false, false, 16⟩ ⟨16, 8, 4, 0⟩)
          (2 ^ 32 - 100 + 1)
          { a0 := to_int32 (-(to_int32 ((2 ^ 32 - 100 : Nat) : Int))),
            b0 := to_int32 ((50 : Nat) : Int), a1 := 0, b1 := 1 }
        = some (⟨150, 50, 1, 1⟩, [(150, 50)])
      ∧ reduce_measure (100, 50) = 150 ∧ reduce_measure (150, 50) = 200
      ∧ ¬ List.Pairwise (fun x y => reduce_measure y < reduce_measure x)
          [((100 : Int), (50 : Int)), (150, 50)] := by
  refine ⟨by norm_num, by norm_num, by decide, by decide, by decide, by decide, ?_, ?_, ?_⟩
  · simp [reduce_measure]
  · simp [reduce_measure]
  · simp [reduce_measure]

/-- For `p < H` and `0 < r < p` the subtractive loop of `reduce_plattice` is
left at once and the closing division is applied to the initial basis: the
function reports success with `a = (-p + k*r, k)`, `b = (r, 1)` and
`k = 1 + (p - H) / r` (truncating division), so that `a1 = k <= 1`, and
`a1 <= 0` as soon as `r <= H - p`. -/
theorem reduce_plattice_below_width (cfg : las_config) (p r : Nat) (si : sieve_info)
    (hr0 : 0 < r) (hrp : r < p) (hpH : (p : Int) < hI cfg si) :
    reduce_plattice cfg p r si
      = some (some { a0 := -(p : Int) + (1 + Int.tdiv ((p : Int) - hI cfg si) (r : Int)) * (r : Int),
                     b0 := (r : Int),
                     a1 := 0 + (1 + Int.tdiv ((p : Int) - hI cfg si) (r : Int)) * 1,
                     b1 := 1 }) := by
  have h1 : (r : Int) < hI cfg si := by omega
  have h2 : ¬ ((r : Int) > (p : Int)) := by omega
  have h3 : ¬ ((r : Int) = 0) := by omega
  have hp31 : p < 2 ^ 31 := by
    have := hI_lt cfg si
    omega
  unfold reduce_plattice
  rw [reduce_plattice_init p r hp31 hrp]
  simp only [reduce_loop, reduce_finish, if_pos h1, if_neg h3, neg_neg]
  rw [if_neg h2]

/-- C33: the precondition `p >= H` is needed for the final assertions of
`reduce_plattice`.  For `p = 7`, `r = 3` and `H = 16` (so `p < H` and
`0 < r < p`) the function reports success and writes the basis
`a = (-13, -2)`, `b = (3, 1)`: `a1 <= 0`, against `ASSERT (a1 > 0)`.  For
`p = 7`, `r = 3` and `H = 8` it writes `a = (-4, 1)`, `b = (3, 1)`, and
`b0 - a0 = 7 < H`, against `ASSERT (b0 - a0 >= hI)`. -/
theorem reduce_plattice_small_prime :
    (((7 : Nat) : Int) < hI ⟨false, false, false, 16⟩ ⟨16, 8, 4, 0⟩ ∧ 0 < 3 ∧ 3 < 7
      ∧ ∃ pli, reduce_plattice ⟨false, false, false, 16⟩ 7 3 ⟨16, 8, 4, 0⟩ = some (some pli)
          ∧ pli = ⟨-13, 3, -2, 1⟩
          ∧ (pli.a1 ≤ 0 ∨ pli.a0 ≤ -(hI ⟨false, false, false, 16⟩ ⟨16, 8, 4, 0⟩))
          ∧ ¬ (pli.a1 > 0))
    ∧ (((7 : Nat) : Int) < hI ⟨false, false, false, 16⟩ ⟨8, 4, 3, 0⟩
      ∧ ∃ pli, reduce_plattice ⟨false, false, false, 16⟩ 7 3 ⟨8, 4, 3, 0⟩ = some (some pli)
          ∧ pli = ⟨-4, 3, 1, 1⟩
          ∧ ¬ (pli.b0 - pli.a0 ≥ hI ⟨false, false, false, 16⟩ ⟨8, 4, 3, 0⟩)) := by
  refine ⟨⟨by decide, by decide, by decide, ⟨-13, 3, -2, 1⟩, by decide, rfl, Or.inl (by decide),
    by decide⟩, by decide, ⟨-4, 3, 1, 1⟩, by decide, rfl, by decide⟩

/-- Both increments of the walk are positive, and none exceeds the sentinel. -/
theorem plattice_increments_pos {cfg : las_config} {si : sieve_info} {pli : plattice_info_t}
    (hf : region_fits cfg si) (hb : WalkBasis cfg si pli) :
    (1 ≤ plattice_a cfg pli si ∧ plattice_a cfg pli si ≤ plattice_sentinel cfg)
    ∧ (1 ≤ plattice_c cfg pli si ∧ plattice_c cfg pli si ≤ plattice_sentinel cfg) := by
  obtain ⟨hM1, hM2⟩ := hf.area_le
  have hI := hf.I_pos
  have hs : 1 ≤ plattice_sentinel cfg := by
    unfold plattice_sentinel; split_ifs <;> norm_num
  constructor
  · rcases plattice_a_cases hf hb with ⟨_, h2, _⟩ | ⟨_, h2, h3, h4⟩
    · rw [h2]; exact ⟨hs, le_refl _⟩
    · constructor <;> omega
  · rcases plattice_c_cases hf hb with ⟨h2, _⟩ | ⟨h2, h3, h4⟩
    · rw [h2]; exact ⟨hs, le_refl _⟩
    · constructor <;> omega

/-- With `b0 - a0 >= I`, every column is at least `bound1 = I - b0` or below
`bound0 = -a0`. -/
theorem fill_walk_bounds_cover {cfg : las_config} {si : sieve_info} {pli : plattice_info_t}
    (hf : region_fits cfg si) (hb : WalkBasis cfg si pli)
    (hw : (si.I : Int) ≤ PLI_COEFF cfg pli.b0 - PLI_COEFF cfg pli.a0) (i : Nat) :
    plattice_bound1 cfg pli si ≤ i ∨ i < plattice_bound0 cfg pli si := by
  have hb0 := plattice_bound0_eq hf hb
  have hb1 := plattice_bound1_eq hf hb
  omega

/-- One pass of the walking loop from a position not above the sentinel moves
`x` forward, and the new `x` is the plain sum: the coordinate does not wrap. -/
theorem fill_walk_step_forward {cfg : las_config} {si : sieve_info} {pli : plattice_info_t}
    (hf : region_fits cfg si) (hb : WalkBasis cfg si pli)
    (hw : (si.I : Int) ≤ PLI_COEFF cfg pli.b0 - PLI_COEFF cfg pli.a0) (x : Nat)
    (hx : x ≤ plattice_sentinel cfg) :
    x < fill_walk_step cfg si (plattice_bound0 cfg pli si) (plattice_bound1 cfg pli si)
        (plattice_a cfg pli si) (plattice_c cfg pli si) x
    ∧ fill_walk_step cfg si (plattice_bound0 cfg pli si) (plattice_bound1 cfg pli si)
        (plattice_a cfg pli si) (plattice_c cfg pli si) x
      = x + (if plattice_bound1 cfg pli si
                ≤ (x &&& ((si.I % 2 ^ 32 + (2 ^ 32 - 1)) % 2 ^ 32)) % 2 ^ 32
              then plattice_a cfg pli si else 0)
          + (if (x &&& ((si.I % 2 ^ 32 + (2 ^ 32 - 1)) % 2 ^ 32)) % 2 ^ 32
                < plattice_bound0 cfg pli si
              then plattice_c cfg pli si else 0) := by
  obtain ⟨hM1, hM2⟩ := hf.area_le
  obtain ⟨⟨ha1, ha2⟩, ⟨hc1, hc2⟩⟩ := plattice_increments_pos hf hb
  have hcov := fill_walk_bounds_cover hf hb hw
    ((x &&& ((si.I % 2 ^ 32 + (2 ^ 32 - 1)) % 2 ^ 32)) % 2 ^ 32)
  have w1 : (x + plattice_a cfg pli si) % 2 ^ x_bits cfg = x + plattice_a cfg pli si :=
    Nat.mod_eq_of_lt (by omega)
  have w2 : (x + plattice_a cfg pli si + plattice_c cfg pli si) % 2 ^ x_bits cfg
      = x + plattice_a cfg pli si + plattice_c cfg pli si := Nat.mod_eq_of_lt (by omega)
  have w3 : (x + plattice_c cfg pli si) % 2 ^ x_bits cfg = x + plattice_c cfg pli si :=
    Nat.mod_eq_of_lt (by omega)
  unfold fill_walk_step
  simp only [ge_iff_le]
  by_cases d1 : plattice_bound1 cfg pli si
      ≤ (x &&& ((si.I % 2 ^ 32 + (2 ^ 32 - 1)) % 2 ^ 32)) % 2 ^ 32
  · simp only [if_pos d1, w1]
    by_cases d0 : (x &&& ((si.I % 2 ^ 32 + (2 ^ 32 - 1)) % 2 ^ 32)) % 2 ^ 32
        < plattice_bound0 cfg pli si
    · simp only [if_pos d0, w2]; exact ⟨by omega, trivial⟩
    · simp only [if_neg d0]; exact ⟨by omega, by omega⟩
  · simp only [if_neg d1]
    have d0 : (x &&& ((si.I % 2 ^ 32 + (2 ^ 32 - 1)) % 2 ^ 32)) % 2 ^ 32
        < plattice_bound0 cfg pli si := by
      rcases hcov with h | h
      · exact absurd h d1
      · exact h
    simp only [if_pos d0, w3]; exact ⟨by omega, by omega⟩

/-- The walking loop returns from every start when it is given more passes
than there are positions below `I * J` from the start on. -/
theorem fill_walk_returns {cfg : las_config} {si : sieve_info} {pli : plattice_info_t}
    (hf : region_fits cfg si) (hb : WalkBasis cfg si pli)
    (hw : (si.I : Int) ≤ PLI_COEFF cfg pli.b0 - PLI_COEFF cfg pli.a0) :
    ∀ (n x : Nat), si.I * si.J - x ≤ n →
      ∃ L, fill_walk cfg si (plattice_bound0 cfg pli si) (plattice_bound1 cfg pli si)
        (plattice_a cfg pli si) (plattice_c cfg pli si) (n + 1) x = some L := by
  obtain ⟨hM1, hM2⟩ := hf.area_le
  have harea : (si.I * si.J) % 2 ^ 32 = si.I * si.J := Nat.mod_eq_of_lt hf.area
  intro n
  induction n with
  | zero =>
    intro x hx
    unfold fill_walk
    rw [harea, if_neg (by omega)]
    exact ⟨[], rfl⟩
  | succ n ih =>
    intro x hx
    unfold fill_walk
    rw [harea]
    by_cases hlt : x < si.I * si.J
    · rw [if_pos hlt]
      have hstep := (fill_walk_step_forward hf hb hw x (by omega)).1
      obtain ⟨L, hL⟩ := ih (fill_walk_step cfg si (plattice_bound0 cfg pli si)
        (plattice_bound1 cfg pli si) (plattice_a cfg pli si) (plattice_c cfg pli si) x)
        (by omega)
      rw [hL]
      exact ⟨_, rfl⟩
    · rw [if_neg hlt]
      exact ⟨[], rfl⟩

/-- C34: the walking loop of `fill_in_buckets` ends.  For a region of the
documented sizes and a basis with `-I < a0 <= 0 <= b0 < I`, `b0 - a0 >= I`,
`a1, b1 > 0` (scaled coefficients): at every `x` the column `i = x & maskI` is
at least `bound1` or below `bound0`, so that at least one increment is added;
`inc_a` and `inc_c` are at least 1; from every `x < I * J` the pass of the loop
leaves a larger `x`, which is the plain sum of `x` and the increments added
(the coordinate does not wrap); and the loop `while (x < IJ)` returns from
every start, in particular from `plattice_starting_vector` for every class. -/
theorem fill_walk_terminates (cfg : las_config) (si : sieve_info) (pli : plattice_info_t)
    (hf : region_fits cfg si) (hb : WalkBasis cfg si pli)
    (hw : (si.I : Int) ≤ PLI_COEFF cfg pli.b0 - PLI_COEFF cfg pli.a0) :
    (∀ x : Nat,
        plattice_bound1 cfg pli si ≤ (x &&& ((si.I % 2 ^ 32 + (2 ^ 32 - 1)) % 2 ^ 32)) % 2 ^ 32
        ∨ (x &&& ((si.I % 2 ^ 32 + (2 ^ 32 - 1)) % 2 ^ 32)) % 2 ^ 32
            < plattice_bound0 cfg pli si)
    ∧ 1 ≤ plattice_a cfg pli si ∧ 1 ≤ plattice_c cfg pli si
    ∧ (∀ x : Nat, x < (si.I * si.J) % 2 ^ 32 →
        x < fill_walk_step cfg si (plattice_bound0 cfg pli si) (plattice_bound1 cfg pli si)
              (plattice_a cfg pli si) (plattice_c cfg pli si) x
        ∧ fill_walk_step cfg si (plattice_bound0 cfg pli si) (plattice_bound1 cfg pli si)
              (plattice_a cfg pli si) (plattice_c cfg pli si) x
            = x + (if plattice_bound1 cfg pli si
                      ≤ (x &&& ((si.I % 2 ^ 32 + (2 ^ 32 - 1)) % 2 ^ 32)) % 2 ^ 32
                    then plattice_a cfg pli si else 0)
                + (if (x &&& ((si.I % 2 ^ 32 + (2 ^ 32 - 1)) % 2 ^ 32)) % 2 ^ 32
                      < plattice_bound0 cfg pli si
                    then plattice_c cfg pli si else 0))
    ∧ (∀ x0 : Nat, ∃ L,
        fill_walk cfg si (plattice_bound0 cfg pli si) (plattice_bound1 cfg pli si)
          (plattice_a cfg pli si) (plattice_c cfg pli si) ((si.I * si.J) % 2 ^ 32 + 1) x0
          = some L)
    ∧ (∀ parity : Nat, ∃ L, fill_in_buckets_walk cfg si pli parity = some L) := by
  obtain ⟨hM1, hM2⟩ := hf.area_le
  have harea : (si.I * si.J) % 2 ^ 32 = si.I * si.J := Nat.mod_eq_of_lt hf.area
  obtain ⟨⟨ha1, _⟩, ⟨hc1, _⟩⟩ := plattice_increments_pos hf hb
  refine ⟨fun x => fill_walk_bounds_cover hf hb hw _, ha1, hc1, ?_, ?_, ?_⟩
  · intro x hx
    exact fill_walk_step_forward hf hb hw x (by omega)
  · intro x0
    rw [harea]
    exact fill_walk_returns hf hb hw _ x0 (by omega)
  · intro parity
    unfold fill_in_buckets_walk
    rw [harea]
    exact fill_walk_returns hf hb hw _ _ (by omega)

theorem fill_walk_terminates_witness :
    (∀ x : Nat,
        plattice_bound1 ⟨false, false, false, 7⟩ ⟨-14, 3, 1, 1⟩ ⟨16, 8, 4, 0⟩
            ≤ (x &&& (((16 : Nat) % 2 ^ 32 + (2 ^ 32 - 1)) % 2 ^ 32)) % 2 ^ 32
        ∨ (x &&& (((16 : Nat) % 2 ^ 32 + (2 ^ 32 - 1)) % 2 ^ 32)) % 2 ^ 32
            < plattice_bound0 ⟨false, false, false, 7⟩ ⟨-14, 3, 1, 1⟩ ⟨16, 8, 4, 0⟩)
    ∧ 1 ≤ plattice_a ⟨false, false, false, 7⟩ ⟨-14, 3, 1, 1⟩ ⟨16, 8, 4, 0⟩
    ∧ 1 ≤ plattice_c ⟨false, false, false, 7⟩ ⟨-14, 3, 1, 1⟩ ⟨16, 8, 4, 0⟩
    ∧ (∀ x : Nat, x < (16 * 8) % 2 ^ 32 →
        x < fill_walk_step ⟨false, false, false, 7⟩ ⟨16, 8, 4, 0⟩
              (plattice_bound0 ⟨false, false, false, 7⟩ ⟨-14, 3, 1, 1⟩ ⟨16, 8, 4, 0⟩)
              (plattice_bound1 ⟨false, false, false, 7⟩ ⟨-14, 3, 1, 1⟩ ⟨16, 8, 4, 0⟩)
              (plattice_a ⟨false, false, false, 7⟩ ⟨-14, 3, 1, 1⟩ ⟨16, 8, 4, 0⟩)
              (plattice_c ⟨false, false, false, 7⟩ ⟨-14, 3, 1, 1⟩ ⟨16, 8, 4, 0⟩) x
        ∧ fill_walk_step ⟨false, false, false, 7⟩ ⟨16, 8, 4, 0⟩
              (plattice_bound0 ⟨false, false, false, 7⟩ ⟨-14, 3, 1, 1⟩ ⟨16, 8, 4, 0⟩)
              (plattice_bound1 ⟨false, false, false, 7⟩ ⟨-14, 3, 1, 1⟩ ⟨16, 8, 4, 0⟩)
              (plattice_a ⟨false, false, false, 7⟩ ⟨-14, 3, 1, 1⟩ ⟨16, 8, 4, 0⟩)
              (plattice_c ⟨false, false, false, 7⟩ ⟨-14, 3, 1, 1⟩ ⟨16, 8, 4, 0⟩) x
            = x + (if plattice_bound1 ⟨false, false, false, 7⟩ ⟨-14, 3, 1, 1⟩ ⟨16, 8, 4, 0⟩
                      ≤ (x &&& (((16 : Nat) % 2 ^ 32 + (2 ^ 32 - 1)) % 2 ^ 32)) % 2 ^ 32
                    then plattice_a ⟨false, false, false, 7⟩ ⟨-14, 3, 1, 1⟩ ⟨16, 8, 4, 0⟩ else 0)
                + (if (x &&& (((16 : Nat) % 2 ^ 32 + (2 ^ 32 - 1)) % 2 ^ 32)) % 2 ^ 32
                      < plattice_bound0 ⟨false, false, false, 7⟩ ⟨-14, 3, 1, 1⟩ ⟨16, 8, 4, 0⟩
                    then plattice_c ⟨false, false, false, 7⟩ ⟨-14, 3, 1, 1⟩ ⟨16, 8, 4, 0⟩
                    else 0))
    ∧ (∀ x0 : Nat, ∃ L,
        fill_walk ⟨false, false, false, 7⟩ ⟨16, 8, 4, 0⟩
          (plattice_bound0 ⟨false, false, false, 7⟩ ⟨-14, 3, 1, 1⟩ ⟨16, 8, 4, 0⟩)
          (plattice_bound1 ⟨false, false, false, 7⟩ ⟨-14, 3, 1, 1⟩ ⟨16, 8, 4, 0⟩)
          (plattice_a ⟨false, false, false, 7⟩ ⟨-14, 3, 1, 1⟩ ⟨16, 8, 4, 0⟩)
          (plattice_c ⟨false, false, false, 7⟩ ⟨-14, 3, 1, 1⟩ ⟨16, 8, 4, 0⟩)
          ((16 * 8) % 2 ^ 32 + 1) x0 = some L)
    ∧ (∀ parity : Nat, ∃ L,
        fill_in_buckets_walk ⟨false, false, false, 7⟩ ⟨16, 8, 4, 0⟩ ⟨-14, 3, 1, 1⟩ parity
          = some L) :=
  fill_walk_terminates ⟨false, false, false, 7⟩ ⟨16, 8, 4, 0⟩ ⟨-14, 3, 1, 1⟩
    ⟨by decide, by decide, by decide, by decide, fun _ => by decide⟩
    ⟨by decide, by decide, by decide, by decide, by decide, by decide, by decide, by decide⟩
    (by decide)

/-- A product of at least one factor, each above `B`, is above `B ^ length`. -/
theorem prod_gt_pow_length (B : Nat) : ∀ (l : List Nat), (∀ x ∈ l, B < x) → l ≠ [] →
    B ^ l.length < l.prod := by
  intro l
  induction l with
  | nil => intro _ h; exact absurd rfl h
  | cons a t ih =>
    intro h _
    have ha : B < a := h a (List.mem_cons_self _ _)
    rw [List.length_cons, List.prod_cons, pow_succ, mul_comm]
    by_cases ht : t = []
    · subst ht; simpa using ha
    · have := ih (fun x hx => h x (List.mem_cons_of_mem _ hx)) ht
      calc B * B ^ t.length ≤ B * t.prod := Nat.mul_le_mul_left _ (le_of_lt this)
        _ < a * t.prod := Nat.mul_lt_mul_of_pos_right ha (by omega)

/-- A product of at least one factor, each below `L`, is below `L ^ length`. -/
theorem prod_lt_pow_length (L : Nat) : ∀ (l : List Nat), (∀ x ∈ l, x < L) → l ≠ [] →
    l.prod < L ^ l.length := by
  intro l
  induction l with
  | nil => intro _ h; exact absurd rfl h
  | cons a t ih =>
    intro h _
    have ha : a < L := h a (List.mem_cons_self _ _)
    rw [List.length_cons, List.prod_cons, pow_succ, mul_comm (L ^ t.length)]
    by_cases ht : t = []
    · subst ht; simpa using ha
    · have := ih (fun x hx => h x (List.mem_cons_of_mem _ hx)) ht
      have hpos : 0 < L ^ t.length := Nat.pow_pos (by omega)
      calc a * t.prod ≤ a * L ^ t.length := Nat.mul_le_mul_left _ (le_of_lt this)
        _ < L * L ^ t.length := Nat.mul_lt_mul_of_pos_right ha hpos

/-- The argument behind the cases (b), (e), (h): a number `n > 1` whose prime
factors all exceed `B`, with `L ^ m <= n < B ^ (m + 1)`, has fewer than
`m + 1` prime factors, hence one of them is at least `L`. -/
theorem large_prime_of_size (n B L m : Nat) (hn : 1 < n)
    (hB : ∀ q : Nat, q.Prime → q ∣ n → B < q) (hlt : n < B ^ (m + 1)) (hge : L ^ m ≤ n) :
    ∃ q : Nat, q.Prime ∧ q ∣ n ∧ L ≤ q := by
  by_contra hcon
  push_neg at hcon
  have hn0 : n ≠ 0 := by omega
  have hprod : n.primeFactorsList.prod = n := Nat.prod_primeFactorsList hn0
  have hne : n.primeFactorsList ≠ [] := by
    intro h
    rw [h] at hprod
    simp at hprod
    omega
  have hall : ∀ x ∈ n.primeFactorsList, B < x ∧ x < L := by
    intro x hx
    have hp := Nat.prime_of_mem_primeFactorsList hx
    have hd := Nat.dvd_of_mem_primeFactorsList hx
    exact ⟨hB x hp hd, hcon x hp hd⟩
  have h1 := prod_gt_pow_length B _ (fun x hx => (hall x hx).1) hne
  have h2 := prod_lt_pow_length L _ (fun x hx => (hall x hx).2) hne
  rw [hprod] at h1 h2
  have hB2 : 2 ≤ B := by
    rcases Nat.lt_or_ge B 2 with h | h
    · have : B ^ (m + 1) ≤ 1 := by
        interval_cases B
        · simp
        · simp
      omega
    · exact h
  have hk : n.primeFactorsList.length < m + 1 :=
    (Nat.pow_lt_pow_iff_right (by omega)).1 (lt_trans h1 hlt)
  have hL : 1 ≤ L := by
    rcases Nat.eq_zero_or_pos L with h | h
    · subst h
      obtain ⟨x, hx⟩ := List.exists_mem_of_ne_nil _ hne
      have := (hall x hx).2
      omega
    · exact h
  have h3 : L ^ n.primeFactorsList.length ≤ L ^ m := Nat.pow_le_pow_right hL (by omega)
  omega

/-- A number of more than `k * lpb` bits is at least `(2 ^ lpb) ^ k`. -/
theorem pow_le_of_bitsize (n lpb k : Nat) (hn : 0 < n) (h : k * lpb < BITSIZE n) :
    (2 ^ lpb) ^ k ≤ n := by
  have h1 : ¬ (BITSIZE n ≤ k * lpb) := by omega
  rw [BITSIZE_le n _ hn] at h1
  rw [← pow_mul, mul_comm]
  omega

/-- C31: soundness of the size tests of `check_leftover_norm`.  With
`BB = B^2`, `BBB = B^3`, `BBBB = B^4` and `L = 2^lpb`, for every `n > 1` all of
whose prime factors exceed `B`: when the function returns 0 by another
`return` than the one of the primality test (that is by the test `s > mfb`
or by one of the cases (b), (e), (h)), `n` has more than `mfb` bits or a prime
factor `>= L`.  And for every `n` of at most `min (lpb, mfb)` bits the function
returns 1 (by its case (a)). -/
theorem check_leftover_norm_sound (mpz_probab_prime_p : Nat → Nat → Nat) (n lpb B mfb : Nat)
    (hn : 1 < n) (hB : ∀ q : Nat, q.Prime → q ∣ n → B < q) :
    ((check_leftover_norm mpz_probab_prime_p n lpb (B ^ 2) (B ^ 3) (B ^ 4) mfb).1 = 0 →
      (check_leftover_norm mpz_probab_prime_p n lpb (B ^ 2) (B ^ 3) (B ^ 4) mfb).2
          ≠ leftover_exit.pseudo_prime →
        (check_leftover_norm mpz_probab_prime_p n lpb (B ^ 2) (B ^ 3) (B ^ 4) mfb).2
            ∈ [leftover_exit.case_0, leftover_exit.case_b, leftover_exit.case_e,
                leftover_exit.case_h]
        ∧ (mfb < BITSIZE n ∨ ∃ q : Nat, q.Prime ∧ q ∣ n ∧ 2 ^ lpb ≤ q))
    ∧ (∀ m : Nat, BITSIZE m ≤ min lpb mfb →
        check_leftover_norm mpz_probab_prime_p m lpb (B ^ 2) (B ^ 3) (B ^ 4) mfb
          = (1, leftover_exit.case_a)) := by
  constructor
  · unfold check_leftover_norm check_leftover_norm_prime
    simp only []
    by_cases h0 : BITSIZE n > mfb
    · rw [if_pos h0]
      intro _ _
      exact ⟨by simp, Or.inl h0⟩
    · rw [if_neg h0]
      by_cases ha : BITSIZE n ≤ lpb
      · rw [if_pos ha]; intro h; simp at h
      · rw [if_neg ha]
        by_cases hb : n < B ^ 2
        · rw [if_pos hb]
          intro _ _
          refine ⟨by simp, Or.inr ?_⟩
          have := pow_le_of_bitsize n lpb 1 (by omega) (by omega)
          exact large_prime_of_size n B (2 ^ lpb) 1 hn hB hb this
        · rw [if_neg hb]
          by_cases h2 : 2 * lpb < BITSIZE n
          · rw [if_pos h2]
            by_cases he : n < B ^ 3
            · rw [if_pos he]
              intro _ _
              refine ⟨by simp, Or.inr ?_⟩
              exact large_prime_of_size n B (2 ^ lpb) 2 hn hB he
                (pow_le_of_bitsize n lpb 2 (by omega) h2)
            · rw [if_neg he]
              by_cases hh : 3 * lpb < BITSIZE n ∧ n < B ^ 4
              · rw [if_pos hh]
                intro _ _
                refine ⟨by simp, Or.inr ?_⟩
                exact large_prime_of_size n B (2 ^ lpb) 3 hn hB hh.2
                  (pow_le_of_bitsize n lpb 3 (by omega) hh.1)
              · rw [if_neg hh]
                by_cases hp : mpz_probab_prime_p n 1 ≠ 0
                · rw [if_pos hp]; intro _ h; exact absurd rfl h
                · rw [if_neg hp]; intro h; simp at h
          · rw [if_neg h2]
            by_cases hp : mpz_probab_prime_p n 1 ≠ 0
            · rw [if_pos hp]; intro _ h; exact absurd rfl h
            · rw [if_neg hp]; intro h; simp at h
  · intro m hm
    have h1 : BITSIZE m ≤ lpb := le_trans hm (min_le_left _ _)
    have h2 : ¬ (BITSIZE m > mfb) := not_lt.2 (le_trans hm (min_le_right _ _))
    unfold check_leftover_norm
    simp only []
    rw [if_neg h2, if_pos h1]

theorem check_leftover_norm_sound_witness :
    ((check_leftover_norm (fun _ _ => 0) 67 6 (10 ^ 2) (10 ^ 3) (10 ^ 4) 20).1 = 0 →
      (check_leftover_norm (fun _ _ => 0) 67 6 (10 ^ 2) (10 ^ 3) (10 ^ 4) 20).2
          ≠ leftover_exit.pseudo_prime →
        (check_leftover_norm (fun _ _ => 0) 67 6 (10 ^ 2) (10 ^ 3) (10 ^ 4) 20).2
            ∈ [leftover_exit.case_0, leftover_exit.case_b, leftover_exit.case_e,
                leftover_exit.case_h]
        ∧ (20 < BITSIZE 67 ∨ ∃ q : Nat, q.Prime ∧ q ∣ 67 ∧ 2 ^ 6 ≤ q))
    ∧ (∀ m : Nat, BITSIZE m ≤ min 6 20 →
        check_leftover_norm (fun _ _ => 0) m 6 (10 ^ 2) (10 ^ 3) (10 ^ 4) 20
          = (1, leftover_exit.case_a)) :=
  check_leftover_norm_sound (fun _ _ => 0) 67 6 10 20 (by decide) (by
    intro q hq hd
    have := (Nat.prime_dvd_prime_iff_eq hq (by norm_num : Nat.Prime 67)).1 hd
    omega)

/-- The size test of case (b) at work: `n = 67` with `B = 10`, `lpb = 6` and
`mfb = 20` is rejected by `n < BB`, and `67 >= 2^6` is its own prime factor. -/
theorem check_leftover_norm_case_b :
    check_leftover_norm (fun _ _ => 0) 67 6 (10 ^ 2) (10 ^ 3) (10 ^ 4) 20
      = (0, leftover_exit.case_b) := by
  decide

/-- The first index below `n` that passes a test is what `find?` returns on
`List.range n`. -/
theorem find_range_first (P : Nat → Bool) : ∀ (n j1 : Nat), j1 < n → P j1 = true →
    (∀ j, j < j1 → P j = false) → (List.range n).find? P = some j1 := by
  intro n
  induction n with
  | zero => intro j1 h; omega
  | succ n ih =>
    intro j1 hlt hp hmin
    rw [List.range_succ, List.find?_append]
    by_cases h : j1 < n
    · rw [ih j1 h hp hmin]; rfl
    · have hj : j1 = n := by omega
      subst hj
      have hnone : (List.range j1).find? P = none := by
        rw [List.find?_eq_none]
        intro x hx
        rw [List.mem_range] at hx
        rw [hmin x hx]
        simp
      rw [hnone]
      simp [hp]

/-- Rounding up: for `g >= 1`, `iceildiv (j0, g) <= k` exactly when
`j0 <= g * k`. -/
theorem iceildiv_le_iff (j0 g k : Nat) (hg : 0 < g) : iceildiv j0 g ≤ k ↔ j0 ≤ g * k := by
  unfold iceildiv
  constructor
  · intro h
    have h1 : j0 + g - 1 < g * (k + 1) := by
      have := Nat.lt_mul_of_div_lt (Nat.lt_succ_of_le h) hg
      rw [mul_comm]
      simpa using this
    rw [Nat.mul_succ] at h1
    omega
  · intro h
    apply Nat.le_of_lt_succ
    apply (Nat.div_lt_iff_lt_mul hg).2
    rw [Nat.succ_mul, mul_comm]
    omega

/-- The first line of a projective entry is `g` times `iceildiv (j0, g)`,
and `g` itself when that is 0. -/
theorem proj_first_line_eq (j0 g : Nat) (hg : 0 < g) :
    proj_first_line j0 g
      = some (g * (if iceildiv j0 g = 0 then iceildiv j0 g + 1 else iceildiv j0 g))
    ∧ j0 ≤ g * (if iceildiv j0 g = 0 then iceildiv j0 g + 1 else iceildiv j0 g)
    ∧ g * (if iceildiv j0 g = 0 then iceildiv j0 g + 1 else iceildiv j0 g) ≤ j0 + g := by
  have hc1 : j0 ≤ g * iceildiv j0 g := (iceildiv_le_iff j0 g _ hg).1 (le_refl _)
  have hc2 : g * iceildiv j0 g < j0 + g := by
    by_contra hcon
    have h1 : 1 ≤ iceildiv j0 g := by
      rcases Nat.eq_zero_or_pos (iceildiv j0 g) with h | h
      · rw [h] at hcon; omega
      · exact h
    have h2 : j0 ≤ g * (iceildiv j0 g - 1) := by
      have : g * (iceildiv j0 g - 1) = g * iceildiv j0 g - g := by
        rw [Nat.mul_sub, Nat.mul_one]
      omega
    have := (iceildiv_le_iff j0 g _ hg).2 h2
    omega
  by_cases h0 : iceildiv j0 g = 0
  · rw [if_pos h0, h0]
    have hj0 : j0 = 0 := by rw [h0] at hc1; omega
    subst hj0
    refine ⟨?_, by omega, by omega⟩
    unfold proj_first_line
    apply find_range_first _ _ _ (by omega)
    · simp; omega
    · intro j hj
      simp only [decide_eq_false_iff_not, not_and]
      intro _ hd hpos
      have := Nat.le_of_dvd hpos hd
      omega
  · rw [if_neg h0]
    refine ⟨?_, hc1, le_of_lt hc2⟩
    unfold proj_first_line
    apply find_range_first _ _ _ (by omega)
    · have hpos : 0 < g * iceildiv j0 g := Nat.mul_pos hg (by omega)
      simp [hc1, hpos]
    · intro j hj
      simp only [decide_eq_false_iff_not, not_and]
      intro hle hd _
      obtain ⟨k, rfl⟩ := hd
      have := (iceildiv_le_iff j0 g k hg).2 hle
      have hk : k < iceildiv j0 g := lt_of_mul_lt_mul_left hj (Nat.zero_le _)
      omega

/-- `ssd_update_positions` computes the cursor of the claim: for `g, q >= 1`
and sizes that do not wrap the `unsigned int`, the value it stores is
`(j1 - j0) * I + ((I/2 + (j1/g) * U) mod q)` for the smallest multiple `j1 > 0`
of `g` from `j0` on. -/
theorem ssd_update_positions_proj_spec (si : sieve_info) (j0 : Nat) (ssp : ssp_bad_t)
    (hg : 0 < ssp.g) (hq : 0 < ssp.q)
    (h1 : (j0 + ssp.g) * si.I + ssp.q ≤ 2 ^ 32) (h2 : si.I / 2 + (j0 + ssp.g) * ssp.U < 2 ^ 32)
    (h3 : j0 + ssp.g < 2 ^ 32) :
    ssd_update_positions_proj si j0 ssp = proj_first_cursor si j0 ssp := by
  obtain ⟨hline, hle, hge⟩ := proj_first_line_eq j0 ssp.g hg
  unfold proj_first_cursor
  rw [hline]
  unfold ssd_update_positions_proj
  rw [if_neg (by omega)]
  simp only [Option.map_some']
  generalize hng : (if iceildiv j0 ssp.g = 0 then iceildiv j0 ssp.g + 1 else iceildiv j0 ssp.g)
    = ng at hle hge
  have hngle : ng ≤ j0 + ssp.g := by
    calc ng = 1 * ng := (Nat.one_mul _).symm
      _ ≤ ssp.g * ng := Nat.mul_le_mul_right _ hg
      _ ≤ j0 + ssp.g := hge
  have e1 : (ng * ssp.g) % 2 ^ 32 = ssp.g * ng := by
    rw [mul_comm]; exact Nat.mod_eq_of_lt (by omega)
  have e2 : (si.I / 2 + ng * ssp.U) % 2 ^ 32 = si.I / 2 + ng * ssp.U := by
    apply Nat.mod_eq_of_lt
    have : ng * ssp.U ≤ (j0 + ssp.g) * ssp.U := Nat.mul_le_mul_right _ hngle
    omega
  have e3 : (ssp.g * ng + 2 ^ 32 - j0) % 2 ^ 32 = ssp.g * ng - j0 := by
    have : ssp.g * ng + 2 ^ 32 - j0 = (ssp.g * ng - j0) + 2 ^ 32 := by omega
    rw [this, Nat.add_mod_right]
    exact Nat.mod_eq_of_lt (by omega)
  have e4 : ssp.g * ng / ssp.g = ng := Nat.mul_div_cancel_left _ hg
  rw [e1, e2, e3, e4]
  congr 1
  apply Nat.mod_eq_of_lt
  have hx : (si.I / 2 + ng * ssp.U) % ssp.q < ssp.q := Nat.mod_lt _ hq
  have hm : (ssp.g * ng - j0) * si.I ≤ (j0 + ssp.g) * si.I :=
    Nat.mul_le_mul_right _ (by omega)
  omega

/-- `small_sieve_start` finds the first line of the claim when `j0` is 0 or not
a multiple of `g`, but it adds `j1 * U`, not `(j1/g) * U`, to `I/2`: the value it
stores is `(j1 - j0) * I + ((I/2 + j1 * U) mod q)`.  When `j0 > 0` is a multiple
of `g` it takes the line `j0 + g`. -/
theorem small_sieve_start_proj_spec (si : sieve_info) (j0 : Nat) (ssp : ssp_bad_t)
    (hg : 0 < ssp.g) (hq : 0 < ssp.q)
    (h1 : (j0 + ssp.g) * si.I + ssp.q ≤ 2 ^ 32) (h2 : si.I / 2 + (j0 + ssp.g) * ssp.U < 2 ^ 32)
    (h3 : j0 + ssp.g < 2 ^ 32) :
    ((j0 = 0 ∨ ¬ ssp.g ∣ j0) →
      ∃ j1, proj_first_line j0 ssp.g = some j1
        ∧ small_sieve_start_proj si j0 ssp
            = some ((j1 - j0) * si.I + (si.I / 2 + j1 * ssp.U) % ssp.q))
    ∧ ((0 < j0 ∧ ssp.g ∣ j0) →
      proj_first_line j0 ssp.g = some j0
        ∧ small_sieve_start_proj si j0 ssp
            = some (ssp.g * si.I + (si.I / 2 + (j0 + ssp.g) * ssp.U) % ssp.q)) := by
  obtain ⟨hline, hle, hge⟩ := proj_first_line_eq j0 ssp.g hg
  have hx : ∀ a : Nat, a % ssp.q < ssp.q := fun a => Nat.mod_lt _ hq
  have hmul : ssp.g * si.I ≤ (j0 + ssp.g) * si.I := Nat.mul_le_mul_right _ (by omega)
  have hmod : ssp.g * (j0 / ssp.g) + j0 % ssp.g = j0 := Nat.div_add_mod j0 ssp.g
  have hcode : ∀ j1 : Nat, j0 ≤ j1 → j1 ≤ j0 + ssp.g → 0 < j1 →
      (if (if j0 ≠ 0 then (j0 - j0 % ssp.g + ssp.g) % 2 ^ 32 else j0 - j0 % ssp.g) = 0
          then ((if j0 ≠ 0 then (j0 - j0 % ssp.g + ssp.g) % 2 ^ 32 else j0 - j0 % ssp.g) + ssp.g)
            % 2 ^ 32
          else (if j0 ≠ 0 then (j0 - j0 % ssp.g + ssp.g) % 2 ^ 32 else j0 - j0 % ssp.g)) = j1 →
      small_sieve_start_proj si j0 ssp
        = some ((j1 - j0) * si.I + (si.I / 2 + j1 * ssp.U) % ssp.q) := by
    intro j1 hj1 hj2 _ hj
    unfold small_sieve_start_proj
    rw [if_neg (by omega)]
    simp only []
    rw [hj]
    have e2 : (si.I / 2 + j1 * ssp.U) % 2 ^ 32 = si.I / 2 + j1 * ssp.U := by
      apply Nat.mod_eq_of_lt
      have : j1 * ssp.U ≤ (j0 + ssp.g) * ssp.U := Nat.mul_le_mul_right _ hj2
      omega
    have e3 : (j1 + 2 ^ 32 - j0) % 2 ^ 32 = j1 - j0 := by
      have : j1 + 2 ^ 32 - j0 = (j1 - j0) + 2 ^ 32 := by omega
      rw [this, Nat.add_mod_right]
      exact Nat.mod_eq_of_lt (by omega)
    rw [e2, e3]
    congr 1
    apply Nat.mod_eq_of_lt
    have hm : (j1 - j0) * si.I ≤ (j0 + ssp.g) * si.I := Nat.mul_le_mul_right _ (by omega)
    have := hx (si.I / 2 + j1 * ssp.U)
    omega
  constructor
  · intro hj
    refine ⟨_, hline, ?_⟩
    rcases hj with hj | hj
    · subst hj
      have hz : iceildiv 0 ssp.g = 0 := by
        have := (iceildiv_le_iff 0 ssp.g 0 hg).2 (Nat.zero_le _)
        omega
      rw [hz] at hle hge ⊢
      simp only [if_true, Nat.zero_add, Nat.mul_one] at hle hge ⊢
      apply hcode ssp.g (by omega) (by omega) hg
      simp only [ne_eq, not_true_eq_false, if_false, Nat.zero_mod, Nat.sub_zero, if_true,
        Nat.zero_add]
      exact Nat.mod_eq_of_lt (by omega)
    · have hpos : 0 < j0 := by
        rcases Nat.eq_zero_or_pos j0 with h | h
        · subst h; exact absurd (dvd_zero _) hj
        · exact h
      have hrem : 0 < j0 % ssp.g := by
        rcases Nat.eq_zero_or_pos (j0 % ssp.g) with h | h
        · exact absurd (Nat.dvd_of_mod_eq_zero h) hj
        · exact h
      have hremlt : j0 % ssp.g < ssp.g := Nat.mod_lt _ hg
      have hceil : iceildiv j0 ssp.g = j0 / ssp.g + 1 := by
        have ha : iceildiv j0 ssp.g ≤ j0 / ssp.g + 1 := by
          apply (iceildiv_le_iff j0 ssp.g _ hg).2
          rw [Nat.mul_succ]; omega
        have hb : ¬ (iceildiv j0 ssp.g ≤ j0 / ssp.g) := by
          intro hc
          have := (iceildiv_le_iff j0 ssp.g _ hg).1 hc
          omega
        omega
      rw [hceil] at hle hge ⊢
      rw [if_neg (Nat.succ_ne_zero _)] at hle hge ⊢
      have hval : j0 - j0 % ssp.g + ssp.g = ssp.g * (j0 / ssp.g + 1) := by
        rw [Nat.mul_succ]; omega
      have hfpos : 0 < ssp.g * (j0 / ssp.g + 1) := Nat.mul_pos hg (Nat.succ_pos _)
      apply hcode _ hle hge hfpos
      have hne0 : j0 ≠ 0 := by omega
      have hfne : ¬ (ssp.g * (j0 / ssp.g + 1) = 0) := by omega
      rw [if_pos hne0, hval]
      have hlt : ssp.g * (j0 / ssp.g + 1) % 2 ^ 32 = ssp.g * (j0 / ssp.g + 1) :=
        Nat.mod_eq_of_lt (by omega)
      rw [hlt, if_neg hfne]
  · rintro ⟨hpos, hd⟩
    have hrem : j0 % ssp.g = 0 := Nat.mod_eq_zero_of_dvd hd
    have hceil : iceildiv j0 ssp.g = j0 / ssp.g := by
      have ha : iceildiv j0 ssp.g ≤ j0 / ssp.g := by
        apply (iceildiv_le_iff j0 ssp.g _ hg).2
        omega
      have hb : ¬ (iceildiv j0 ssp.g ≤ j0 / ssp.g - 1) := by
        intro hc
        have h4 := (iceildiv_le_iff j0 ssp.g _ hg).1 hc
        have h5 : 1 ≤ j0 / ssp.g := by
          rcases Nat.eq_zero_or_pos (j0 / ssp.g) with h | h
          · rw [h] at hmod; omega
          · exact h
        have h6 : ssp.g * (j0 / ssp.g - 1) = ssp.g * (j0 / ssp.g) - ssp.g := by
          rw [Nat.mul_sub, Nat.mul_one]
        omega
      omega
    have hne : j0 / ssp.g ≠ 0 := by
      intro h
      rw [h] at hmod; omega
    constructor
    · rw [hline, hceil, if_neg hne]
      congr 1
      omega
    · have hne0 : j0 ≠ 0 := by omega
      have hsne : ¬ (j0 + ssp.g = 0) := by omega
      have := hcode (j0 + ssp.g) (by omega) (le_refl _) (by omega) (by
        rw [if_pos hne0, hrem, Nat.sub_zero, Nat.mod_eq_of_lt h3, if_neg hsne])
      rw [this, Nat.add_sub_cancel_left]

/-- C35: the first cursor of a projective entry, computed by
`small_sieve_start (j0)` and by `ssd_update_positions (nl = j0)`.  For
`j0 = 0`, `I = 16` and the entry `(g, q, U) = (3, 3, 1)` (that of `p = 9` with
the projective root 3), the first line is `j1 = 3`; `ssd_update_positions`
gives the cursor `3 * 16 + ((8 + 1) mod 3) = 48`, as the claim does, and
`small_sieve_start` gives `3 * 16 + ((8 + 3 * 1) mod 3) = 50`.  For `j0 = 3` and
the entry `(3, 1, 0)` (that of `p = 3`) the smallest multiple of 3 from `j0`
on is `j1 = 3`: `ssd_update_positions` gives the cursor 0 and
`small_sieve_start`, which takes `j1 = 6`, gives `3 * 16 = 48`.  In general
`ssd_update_positions` computes the cursor of the claim, for `g, q >= 1` and
sizes that do not wrap the `unsigned int`. -/
theorem small_sieve_start_proj_diverges :
    (ssp_init_op 9 3 0 = some ⟨3, 3, 1⟩
      ∧ small_sieve_start_proj ⟨16, 8, 4, 0⟩ 0 ⟨3, 3, 1⟩ = some 50
      ∧ ssd_update_positions_proj ⟨16, 8, 4, 0⟩ 0 ⟨3, 3, 1⟩ = some 48
      ∧ proj_first_line 0 3 = some 3
      ∧ proj_first_cursor ⟨16, 8, 4, 0⟩ 0 ⟨3, 3, 1⟩ = some 48)
    ∧ (ssp_init_op 3 0 0 = some ⟨3, 1, 0⟩
      ∧ small_sieve_start_proj ⟨16, 8, 4, 0⟩ 3 ⟨3, 1, 0⟩ = some 48
      ∧ ssd_update_positions_proj ⟨16, 8, 4, 0⟩ 3 ⟨3, 1, 0⟩ = some 0
      ∧ proj_first_line 3 3 = some 3
      ∧ proj_first_cursor ⟨16, 8, 4, 0⟩ 3 ⟨3, 1, 0⟩ = some 0)
    ∧ (∀ (si : sieve_info) (j0 : Nat) (ssp : ssp_bad_t), 0 < ssp.g → 0 < ssp.q →
        (j0 + ssp.g) * si.I + ssp.q ≤ 2 ^ 32 → si.I / 2 + (j0 + ssp.g) * ssp.U < 2 ^ 32 →
        j0 + ssp.g < 2 ^ 32 →
        ssd_update_positions_proj si j0 ssp = proj_first_cursor si j0 ssp) := by
  refine ⟨by decide, by decide, ?_⟩
  intro si j0 ssp hg hq h1 h2 h3
  exact ssd_update_positions_proj_spec si j0 ssp hg hq h1 h2 h3

/-- The test `(i0 & I) == 0` of the sieve and the test `(i0 >> logI) % 2 == 0`
of the resieve read the same bit of `i0`. -/
theorem row_bit_test (i0 logI : Nat) : (i0 &&& 2 ^ logI = 0) ↔ ((i0 >>> logI) % 2 = 0) := by
  rw [Nat.and_two_pow, Nat.shiftRight_eq_div_pow, Nat.testBit_to_div_mod]
  have hpos : 0 < 2 ^ logI := Nat.two_pow_pos _
  by_cases h : i0 / 2 ^ logI % 2 = 1
  · simp [h]
  · have h0 : i0 / 2 ^ logI % 2 = 0 := by omega
    simp [h0]

/-- When `row0_is_oddj` is 0 (an even number of lines per region, or an even
region index), the resieve of a projective line with `q = 1` visits the lines
of the sieve, records `(g, x)` for exactly the positions `x` that the sieve
decreases and whose byte is not 255, and leaves the same cursor. -/
theorem resieve_proj_agrees (cfg : las_config) (si : sieve_info) (sizeof_ul N g : Nat)
    (S : Nat → Nat) (hI : si.I = 2 ^ si.logI) (hlog : si.logI < 32)
    (hs : sizeof_ul % 2 = 0) (hrow : row0_is_oddj cfg si N = 0) :
    ∀ (fuel i0 : Nat),
      resieve_small_bucket_region_proj cfg si S g fuel i0
        = (sieve_small_bucket_region_proj cfg si sizeof_ul N g fuel i0).map
            (fun t => ((t.1.filter (fun x => decide (S x % 256 ≠ 255))).map
              (fun x => ({ p := g, x := x } : bucket_prime_t)), t.2)) := by
  have hI32 : si.I % 2 ^ 32 = 2 ^ si.logI := by
    rw [hI]
    exact Nat.mod_eq_of_lt (Nat.pow_lt_pow_right (by norm_num) hlog)
  have hbr : (1 <<< cfg.LOG_BUCKET_REGION) % 2 ^ 32 = bucket_region cfg % 2 ^ 32 := rfl
  intro fuel
  induction fuel with
  | zero => intro i0; rfl
  | succ f ih =>
    intro i0
    unfold resieve_small_bucket_region_proj sieve_small_bucket_region_proj
    simp only [hI32, hrow, hbr]
    by_cases hlt : i0 < bucket_region cfg % 2 ^ 32
    · rw [if_pos hlt, if_pos hlt, ih]
      have hcols : (if (i0 >>> si.logI) % 2 = 0
            then (List.range (2 ^ si.logI)).filter (fun ii => decide (ii % 2 = 1))
            else List.range (2 ^ si.logI))
          = (List.range (2 ^ si.logI)).filter (fun ii =>
              !(Bool.xor (decide (i0 &&& 2 ^ si.logI = 0)) (decide ((0 : Nat) ≠ 0))
                && decide ((ii % sizeof_ul) % 2 = 0))) := by
        have h2 : ∀ ii : Nat, (ii % sizeof_ul) % 2 = ii % 2 :=
          fun ii => Nat.mod_mod_of_dvd ii (Nat.dvd_of_mod_eq_zero hs)
        by_cases he : (i0 >>> si.logI) % 2 = 0
        · rw [if_pos he]
          have he' : i0 &&& 2 ^ si.logI = 0 := (row_bit_test i0 si.logI).2 he
          apply List.filter_congr
          intro ii _
          rw [h2]
          have : ii % 2 = 0 ∨ ii % 2 = 1 := by omega
          rcases this with h | h <;> simp [he', h]
        · rw [if_neg he]
          have he' : ¬ (i0 &&& 2 ^ si.logI = 0) := fun h => he ((row_bit_test i0 si.logI).1 h)
          rw [List.filter_eq_self.2]
          intro ii _
          simp [he']
      rw [hcols]
      cases hrec : sieve_small_bucket_region_proj cfg si sizeof_ul N g f
          ((i0 + g * 2 ^ si.logI) % 2 ^ 32) with
      | none => rfl
      | some t =>
        simp only [Option.map_some', List.filter_append, List.map_append, List.filter_map,
          List.map_map]
        rfl
    · rw [if_neg hlt, if_neg hlt]
      rfl

/-- C36: sieve and resieve on a projective line when a region is one line.
For `I = bucket_region = 32` (`logI = LOG_BUCKET_REGION = 5`), region `N = 1`
(the row `j = 1`), an entry with `g = 3`, `q = 1` and the cursor 0, and a region
`S` without any byte 255: `row0_is_oddj` is 1, the sieve decreases all 32
columns of the line and leaves the cursor 64; the resieve leaves the same
cursor but takes the line for an even row and records the 16 odd columns
only, so that the column 0, which the sieve decreases, is not recorded.  In
region `N = 0` both treat the line as an even row.  Whenever `row0_is_oddj` is
0, the resieve visits the lines of the sieve, records exactly the positions
that the sieve decreases and whose byte is not 255, and leaves the same
cursor. -/
theorem resieve_proj_row_parity :
    row0_is_oddj ⟨false, false, false, 5⟩ ⟨32, 16, 5, 0⟩ 1 = 1
    ∧ sieve_small_bucket_region_proj ⟨false, false, false, 5⟩ ⟨32, 16, 5, 0⟩ 8 1 3 (2 ^ 5 + 1) 0
        = some (List.range 32, 64)
    ∧ (resieve_small_bucket_region_proj ⟨false, false, false, 5⟩ ⟨32, 16, 5, 0⟩ (fun _ => 0) 3
          (2 ^ 5 + 1) 0).map (fun t => (t.1.map (fun e => e.x), t.2))
        = some ((List.range 32).filter (fun ii => decide (ii % 2 = 1)), 64)
    ∧ (0 ∈ List.range 32 ∧ 0 ∉ (List.range 32).filter (fun ii => decide (ii % 2 = 1)))
    ∧ sieve_small_bucket_region_proj ⟨false, false, false, 5⟩ ⟨32, 16, 5, 0⟩ 8 0 3 (2 ^ 5 + 1) 0
        = some ((List.range 32).filter (fun ii => decide (ii % 2 = 1)), 64)
    ∧ (∀ (cfg : las_config) (si : sieve_info) (sizeof_ul N g : Nat) (S : Nat → Nat),
        si.I = 2 ^ si.logI → si.logI < 32 → sizeof_ul % 2 = 0 → row0_is_oddj cfg si N = 0 →
        ∀ (fuel i0 : Nat),
          resieve_small_bucket_region_proj cfg si S g fuel i0
            = (sieve_small_bucket_region_proj cfg si sizeof_ul N g fuel i0).map
                (fun t => ((t.1.filter (fun x => decide (S x % 256 ≠ 255))).map
                  (fun x => ({ p := g, x := x } : bucket_prime_t)), t.2))) := by
  refine ⟨by decide, by decide, by decide, by decide, by decide, ?_⟩
  intro cfg si sizeof_ul N g S hI hlog hs hrow
  exact resieve_proj_agrees cfg si sizeof_ul N g S hI hlog hs hrow

theorem and_pow2_mask (p k x : Nat) (hp : p = 2 ^ k) : x &&& (p - 1) = x % p := by
  subst hp
  exact Nat.and_pow_two_sub_one_eq_mod x k

/-- The cursor that a power of 2 `(p, r)` must have at the start of the row
`R` of the sieve area: the first position `(I/2 + R * r) mod p` of the row when
`R` is odd, and one line more with the first position of the row `R + 1` when
`R` is even. -/
theorem pow2_cursor_line (si : sieve_info) (p r k R c : Nat) (hI : si.I ≤ 2 ^ 30)
    (hp : p = 2 ^ k) (hpI : p ≤ si.I) (hr : r < p)
    (hc : c = if R % 2 = 1 then (si.I / 2 + R * r) % p
              else si.I + (si.I / 2 + (R + 1) * r) % p) :
    sieve_pow2_line si p r c
        = (if (R + 1) % 2 = 1 then (si.I / 2 + (R + 1) * r) % p
            else si.I + (si.I / 2 + (R + 1 + 1) * r) % p)
      ∧ (c < si.I % 2 ^ 32 ↔ R % 2 = 1)
      ∧ (c < si.I % 2 ^ 32 → c < p) := by
  have hppos : 0 < p := by rw [hp]; exact Nat.two_pow_pos _
  have hI32 : si.I % 2 ^ 32 = si.I := Nat.mod_eq_of_lt (by omega)
  have hlow : ∀ a : Nat, a % p < p := fun a => Nat.mod_lt _ hppos
  have hmask : (p + (2 ^ 32 - 1)) % 2 ^ 32 = p - 1 := by
    have : p + (2 ^ 32 - 1) = (p - 1) + 2 ^ 32 := by omega
    rw [this, Nat.add_mod_right]
    exact Nat.mod_eq_of_lt (by omega)
  unfold sieve_pow2_line
  simp only [hI32, hmask]
  by_cases hodd : R % 2 = 1
  · rw [if_pos hodd] at hc
    have hcp : c < p := by rw [hc]; exact hlow _
    have hnext : ¬ ((R + 1) % 2 = 1) := by omega
    rw [if_pos (by omega : c < si.I), if_neg hnext]
    refine ⟨?_, ⟨fun _ => hodd, fun _ => by omega⟩, fun _ => hcp⟩
    have e1 : (c + 2 * r) % 2 ^ 32 = c + 2 * r := Nat.mod_eq_of_lt (by omega)
    have e2 : (c + 2 * r) &&& (p - 1) = (c + 2 * r) % p := and_pow2_mask p k _ hp
    have e3 : (c + 2 * r) % p = (si.I / 2 + (R + 1 + 1) * r) % p := by
      have hsum : si.I / 2 + R * r + 2 * r = si.I / 2 + (R + 1 + 1) * r := by ring
      rw [hc, Nat.add_mod, Nat.mod_mod, ← Nat.add_mod, hsum]
    rw [e1, e2, e3]
    have := hlow (si.I / 2 + (R + 1 + 1) * r)
    have e4 : ((si.I / 2 + (R + 1 + 1) * r) % p + 2 * si.I) % 2 ^ 32
        = (si.I / 2 + (R + 1 + 1) * r) % p + 2 * si.I := Nat.mod_eq_of_lt (by omega)
    rw [e4]
    have e5 : (si.I / 2 + (R + 1 + 1) * r) % p + 2 * si.I + (2 ^ 32 - si.I)
        = (si.I + (si.I / 2 + (R + 1 + 1) * r) % p) + 2 ^ 32 := by omega
    rw [e5, Nat.add_mod_right]
    exact Nat.mod_eq_of_lt (by omega)
  · rw [if_neg hodd] at hc
    have hnext : (R + 1) % 2 = 1 := by omega
    have := hlow (si.I / 2 + (R + 1) * r)
    rw [if_neg (by omega : ¬ c < si.I), if_pos hnext]
    refine ⟨?_, ⟨fun h => by omega, fun h => absurd h hodd⟩, fun h => by omega⟩
    have e5 : c + (2 ^ 32 - si.I) = (si.I / 2 + (R + 1) * r) % p + 2 ^ 32 := by omega
    rw [e5, Nat.add_mod_right]
    exact Nat.mod_eq_of_lt (by omega)

/-- The lines of one region: from the cursor of the row `nj * N + j` on, every
line met with `i0 < I` passes both assertions, and the cursor left is the one
of the row after the last line. -/
theorem sieve_pow2_lines_spec (si : sieve_info) (nj N p r k : Nat) (hI : si.I ≤ 2 ^ 30)
    (hp : p = 2 ^ k) (hpI : p ≤ si.I) (hr : r < p) :
    ∀ (lines j c : Nat),
      (c = if (nj * N + j) % 2 = 1 then (si.I / 2 + (nj * N + j) * r) % p
            else si.I + (si.I / 2 + (nj * N + j + 1) * r) % p) →
      (sieve_pow2_lines si N p r lines j c).2
          = (if (nj * N + j + lines) % 2 = 1 then (si.I / 2 + (nj * N + j + lines) * r) % p
              else si.I + (si.I / 2 + (nj * N + j + lines + 1) * r) % p)
        ∧ ∀ l ∈ (sieve_pow2_lines si N p r lines j c).1, pow2_asserts nj p l = true := by
  intro lines
  induction lines with
  | zero =>
    intro j c hc
    exact ⟨hc, fun l hl => absurd hl (List.not_mem_nil _)⟩
  | succ n ih =>
    intro j c hc
    obtain ⟨h1, h2, h3⟩ := pow2_cursor_line si p r k (nj * N + j) c hI hp hpI hr hc
    obtain ⟨h4, h5⟩ := ih (j + 1) (sieve_pow2_line si p r c) (by rw [h1]; rfl)
    unfold sieve_pow2_lines
    simp only []
    constructor
    · rw [h4]
      have : nj * N + (j + 1) + n = nj * N + j + (n + 1) := by omega
      rw [this]
    · intro l hl
      by_cases hlt : c < si.I % 2 ^ 32
      · rw [if_pos hlt, List.mem_cons] at hl
        rcases hl with rfl | hl
        · unfold pow2_asserts
          simp only [Bool.and_eq_true, decide_eq_true_eq]
          exact ⟨h3 hlt, h2.1 hlt⟩
        · exact h5 l hl
      · rw [if_neg hlt] at hl
        exact h5 l hl

/-- With one thread, every line of every region on which the cursor of a power
of 2 is below `I` passes `ASSERT (i0 < p)` and
`ASSERT ((nj * N + j) % 2 == 1)`. -/
theorem process_bucket_region_pow2_one_thread (cfg : las_config) (si : sieve_info)
    (p r k : Nat) (hI : si.I ≤ 2 ^ 30) (hp : p = 2 ^ k) (hpI : p ≤ si.I) (hr : r < p) :
    ∃ L, process_bucket_region_pow2 cfg si 1 0 p r = some L
      ∧ ∀ l ∈ L, pow2_asserts ((1 <<< cfg.LOG_BUCKET_REGION) >>> si.logI) p l = true := by
  have hppos : 0 < p := by rw [hp]; exact Nat.two_pow_pos _
  have hloop : ∀ (fuel i c : Nat), nb_buckets cfg si - i < fuel →
      (c = if ((1 <<< cfg.LOG_BUCKET_REGION) >>> si.logI * i + 0) % 2 = 1
            then (si.I / 2 + ((1 <<< cfg.LOG_BUCKET_REGION) >>> si.logI * i + 0) * r) % p
            else si.I + (si.I / 2 + ((1 <<< cfg.LOG_BUCKET_REGION) >>> si.logI * i + 0 + 1) * r)
              % p) →
      ∃ L, process_bucket_region_pow2_loop cfg si 1 0 (ssp_init_oa p r 0) fuel i c = some L
        ∧ ∀ l ∈ L, pow2_asserts ((1 <<< cfg.LOG_BUCKET_REGION) >>> si.logI) p l = true := by
    intro fuel
    induction fuel with
    | zero => intro i c h; omega
    | succ f ih =>
      intro i c hf hc
      unfold process_bucket_region_pow2_loop
      by_cases hlt : i < nb_buckets cfg si
      · rw [if_pos hlt]
        obtain ⟨h4, h5⟩ := sieve_pow2_lines_spec si ((1 <<< cfg.LOG_BUCKET_REGION) >>> si.logI)
          i p r k hI hp hpI hr ((1 <<< cfg.LOG_BUCKET_REGION) >>> si.logI) 0 c hc
        have hskip : ∀ x, small_sieve_skip_stride_pow2 0 (ssp_init_oa p r 0) x = x := by
          intro x; rfl
        simp only [hskip]
        have hp' : (ssp_init_oa p r 0).p = p := rfl
        have hr' : (ssp_init_oa p r 0).r = r := rfl
        rw [hp', hr']
        obtain ⟨L, hL, hall⟩ := ih (i + 1)
          (sieve_pow2_lines si i p r ((1 <<< cfg.LOG_BUCKET_REGION) >>> si.logI) 0 c).2
          (by omega) (by
            rw [h4]
            have : (1 <<< cfg.LOG_BUCKET_REGION) >>> si.logI * i + 0
                + (1 <<< cfg.LOG_BUCKET_REGION) >>> si.logI
                = (1 <<< cfg.LOG_BUCKET_REGION) >>> si.logI * (i + 1) + 0 := by ring
            rw [this])
        rw [hL]
        refine ⟨_, rfl, ?_⟩
        intro l hl
        rw [List.mem_append] at hl
        rcases hl with hl | hl
        · exact h5 l hl
        · exact hall l hl
      · rw [if_neg hlt]
        exact ⟨[], rfl, fun l hl => absurd hl (List.not_mem_nil _)⟩
  unfold process_bucket_region_pow2
  simp only [Nat.mul_zero, Nat.zero_mod, Nat.sub_self]
  apply hloop _ 0 _ (by omega)
  unfold small_sieve_start_pow2
  simp only [Nat.mul_zero, Nat.zero_add, Nat.add_zero]
  have h1 : (0 ||| 1 : Nat) = 1 := by decide
  rw [h1]
  have e1 : (si.I / 2 + 1 * r) % 2 ^ 32 = si.I / 2 + 1 * r := Nat.mod_eq_of_lt (by omega)
  have e2 : (1 + 2 ^ 32 - 0) % 2 ^ 32 = 1 := by norm_num
  have := Nat.mod_lt (si.I / 2 + 1 * r) hppos
  rw [e1, e2, Nat.one_mul, if_neg (by decide)]
  exact Nat.mod_eq_of_lt (by omega)

/-- C37: the cursor of a power of 2 with two threads.  For `p = 4`, `r = 1`,
`I = 16`, `J = 8` and regions of two lines (`LOG_BUCKET_REGION = 5`), thread 0
of 2 sieves the regions 0 and 2; the lines met with `i0 < I` are line 1 of
region 0 with `i0 = 1` and line 1 of region 2 with `i0 = 5`, where
`ASSERT (i0 < p)` fails.  With regions of one line (`LOG_BUCKET_REGION = 4`),
thread 0 of 2 meets `i0 = 2 < I` on line 0 of region 2, where
`ASSERT ((nj * N + j) % 2 == 1)` fails.  With one thread, every line met with
`i0 < I` passes both assertions, for every power of 2 `p <= I` with `r < p`
and `I <= 2^30`. -/
theorem process_bucket_region_pow2_two_threads :
    (process_bucket_region_pow2 ⟨false, false, false, 5⟩ ⟨16, 8, 4, 0⟩ 2 0 4 1
        = some [(0, 1, 1), (2, 1, 5)]
      ∧ pow2_asserts 2 4 (2, 1, 5) = false ∧ ¬ (5 < 4))
    ∧ ((process_bucket_region_pow2 ⟨false, false, false, 4⟩ ⟨16, 8, 4, 0⟩ 2 0 4 1).map
          (fun l => l.head?) = some (some (2, 0, 2))
      ∧ pow2_asserts 1 4 (2, 0, 2) = false ∧ ¬ ((1 * 2 + 0) % 2 = 1))
    ∧ (∀ (cfg : las_config) (si : sieve_info) (p r k : Nat),
        si.I ≤ 2 ^ 30 → p = 2 ^ k → p ≤ si.I → r < p →
        ∃ L, process_bucket_region_pow2 cfg si 1 0 p r = some L
          ∧ ∀ l ∈ L, pow2_asserts ((1 <<< cfg.LOG_BUCKET_REGION) >>> si.logI) p l = true) := by
  refine ⟨by decide, by decide, ?_⟩
  intro cfg si p r k hI hp hpI hr
  exact process_bucket_region_pow2_one_thread cfg si p r k hI hp hpI hr

/-- A decimal digit is printed as a digit character with its value. -/
theorem digit_char (d : Nat) (hd : d < 10) :
    isdigit (Char.ofNat (48 + d)) = true ∧ (Char.ofNat (48 + d)).toNat - 48 = d
      ∧ isspace (Char.ofNat (48 + d)) = false
      ∧ Char.ofNat (48 + d) ≠ '-' ∧ Char.ofNat (48 + d) ≠ '+' := by
  interval_cases d <;> decide

theorem scan_decimal_cons (c : Char) (cs : List Char) (acc : Nat) :
    scan_decimal (c :: cs) acc
      = if isdigit c then scan_decimal cs (acc * 10 + (c.toNat - 48)) else acc := rfl

/-- The text of a number is a non-empty run of digits whose value is the
number: scanning it in front of any string `t` goes on to scan `t` from that
value. -/
theorem print_decimal_spec : ∀ (fuel n : Nat), n < fuel →
    (∃ c cs, print_decimal fuel n = c :: cs ∧ isdigit c = true)
    ∧ (∀ c ∈ print_decimal fuel n, isdigit c = true)
    ∧ (∀ t : List Char, scan_decimal (print_decimal fuel n ++ t) 0 = scan_decimal t n) := by
  intro fuel
  induction fuel with
  | zero => intro n h; omega
  | succ f ih =>
    intro n hn
    unfold print_decimal
    by_cases h10 : n < 10
    · rw [if_pos h10]
      obtain ⟨h1, h2, _⟩ := digit_char n h10
      refine ⟨⟨_, _, rfl, h1⟩, ?_, ?_⟩
      · intro c hc
        rw [List.mem_singleton] at hc
        rw [hc]; exact h1
      · intro t
        show scan_decimal (Char.ofNat (48 + n) :: t) 0 = scan_decimal t n
        rw [scan_decimal_cons, if_pos h1, h2, Nat.zero_mul, Nat.zero_add]
    · rw [if_neg h10]
      obtain ⟨⟨c, cs, hc, hcd⟩, hall, hscan⟩ := ih (n / 10) (by omega)
      obtain ⟨h1, h2, _⟩ := digit_char (n % 10) (Nat.mod_lt _ (by norm_num))
      refine ⟨⟨c, cs ++ [Char.ofNat (48 + n % 10)], by rw [hc]; rfl, hcd⟩, ?_, ?_⟩
      · intro c' hc'
        rw [List.mem_append, List.mem_singleton] at hc'
        rcases hc' with h | h
        · exact hall c' h
        · rw [h]; exact h1
      · intro t
        rw [List.append_assoc, hscan]
        show scan_decimal (Char.ofNat (48 + n % 10) :: t) (n / 10) = scan_decimal t n
        rw [scan_decimal_cons, if_pos h1, h2]
        congr 1
        omega

/-- Dropping a leading run of characters that all satisfy the test. -/
theorem dropWhile_append_all (p : Char → Bool) : ∀ (s t : List Char), (∀ c ∈ s, p c = true) →
    (s ++ t).dropWhile p = t.dropWhile p := by
  intro s
  induction s with
  | nil => intro t _; rfl
  | cons a s ih =>
    intro t h
    rw [List.cons_append, List.dropWhile_cons, if_pos (h a (List.mem_cons_self _ _))]
    exact ih t (fun c hc => h c (List.mem_cons_of_mem _ hc))

/-- A digit is neither white space nor a sign. -/
theorem isdigit_not_space (c : Char) (h : isdigit c = true) :
    isspace c = false ∧ c ≠ '-' ∧ c ≠ '+' := by
  have hb : 48 ≤ c.toNat ∧ c.toNat ≤ 57 := by
    simpa [isdigit] using h
  refine ⟨?_, ?_, ?_⟩
  · simp only [isspace, Bool.or_eq_false_iff, Bool.and_eq_false_iff, decide_eq_false_iff_not]
    constructor <;> omega
  · intro hc; subst hc; revert h; decide
  · intro hc; subst hc; revert h; decide

/-- Scanning a string that does not start with a digit leaves the value. -/
theorem scan_decimal_stop (t : List Char) (n : Nat) (ht : ∀ c ∈ t.head?, isdigit c = false) :
    scan_decimal t n = n ∧ t.dropWhile isdigit = t := by
  cases t with
  | nil => exact ⟨rfl, rfl⟩
  | cons a t =>
    have ha : isdigit a = false := ht a (by simp)
    constructor
    · rw [scan_decimal_cons, ha]; rfl
    · rw [List.dropWhile_cons, ha]; rfl

theorem scan_digits_cons (c : Char) (cs : List Char) :
    scan_digits (c :: cs) = if isdigit c then some (scan_decimal (c :: cs) 0) else none := rfl

/-- On a string that starts with a digit, `abase_p16_sscan` reads the value of
the run of digits. -/
theorem abase_p16_sscan_digit (c : Char) (cs : List Char) (hcd : isdigit c = true) :
    abase_p16_sscan (c :: cs) = some ((scan_decimal (c :: cs) 0 : Nat) : Int) := by
  obtain ⟨hsp, hm, hp⟩ := isdigit_not_space c hcd
  unfold abase_p16_sscan
  rw [List.dropWhile_cons, hsp]
  simp only [Bool.false_eq_true, if_false]
  rw [if_neg hm, if_neg hp, scan_digits_cons, if_pos hcd]
  rfl

/-- The text of a non-negative element, followed by a string that does not
start with a digit: `abase_p16_sscan` reads the element back, the skip of the
digits leaves the string that follows, and white space before the text is
skipped up to the text. -/
theorem abase_p16_asprint_scan (x : Int) (hx : 0 ≤ x) (t : List Char)
    (ht : ∀ c ∈ t.head?, isdigit c = false) :
    abase_p16_sscan (abase_p16_asprint x ++ t) = some x
    ∧ (abase_p16_asprint x ++ t).dropWhile isdigit = t
    ∧ (abase_p16_asprint x ++ t).dropWhile isspace = abase_p16_asprint x ++ t
    ∧ (abase_p16_asprint x ++ t).head? ≠ some ']'
    ∧ 1 ≤ (abase_p16_asprint x).length := by
  have hx' : ¬ (x < 0) := by omega
  have hval : ((x.natAbs : Nat) : Int) = x := by omega
  obtain ⟨⟨c, cs, hc, hcd⟩, hall, hscan⟩ :=
    print_decimal_spec (x.natAbs + 1) x.natAbs (Nat.lt_succ_self _)
  obtain ⟨hsp, hm, hp⟩ := isdigit_not_space c hcd
  have htext : abase_p16_asprint x = c :: cs := by
    unfold abase_p16_asprint
    rw [if_neg hx', hc]
  have hdrop : (abase_p16_asprint x ++ t).dropWhile isspace = abase_p16_asprint x ++ t := by
    rw [htext, List.cons_append, List.dropWhile_cons, hsp]; rfl
  refine ⟨?_, ?_, hdrop, ?_, ?_⟩
  · rw [htext, List.cons_append, abase_p16_sscan_digit c (cs ++ t) hcd, ← List.cons_append,
      ← hc, hscan, (scan_decimal_stop t _ ht).1, hval]
  · have : abase_p16_asprint x = print_decimal (x.natAbs + 1) x.natAbs := by
      rw [htext, hc]
    rw [this, dropWhile_append_all isdigit _ t hall]
    exact (scan_decimal_stop t 0 ht).2
  · rw [htext, List.cons_append, List.head?_cons]
    intro h
    have : c = ']' := by simpa using h
    subst this
    revert hcd; decide
  · rw [htext]; simp

/-- The loop of `abase_p16_vec_sscan` on the text of the elements from `x` on,
when no element is negative: it returns 1 and appends the elements. -/
theorem abase_p16_vec_sscan_loop_spec : ∀ (rest : List Int), (∀ y ∈ rest, 0 ≤ y) →
    ∀ (fuel : Nat) (v : List Int) (x : Int) (i : Nat), 0 ≤ x → rest.length < fuel →
      abase_p16_vec_sscan_loop fuel v
          (abase_p16_asprint x ++ (abase_p16_vec_asprint_loop (i + 1) rest ++ [' ', ']']))
        = some (1, v ++ x :: rest) := by
  intro rest
  induction rest with
  | nil =>
    intro _ fuel v x i hx hf
    obtain ⟨f, rfl⟩ : ∃ f, fuel = f + 1 := ⟨fuel - 1, by simp at hf; omega⟩
    have ht : ∀ c ∈ ([' ', ']'] : List Char).head?, isdigit c = false := by
      intro c hc
      have : c = ' ' := by simpa using hc.symm
      subst this; decide
    obtain ⟨h1, h2, _, _, _⟩ := abase_p16_asprint_scan x hx [' ', ']'] ht
    have hnil : abase_p16_vec_asprint_loop (i + 1) [] ++ [' ', ']'] = [' ', ']'] := rfl
    rw [hnil]
    unfold abase_p16_vec_sscan_loop
    rw [h1]
    simp only []
    rw [h2]
    have h3 : ([' ', ']'] : List Char).dropWhile isspace = [']'] := by decide
    rw [h3]
    simp
  | cons y rest ih =>
    intro hall fuel v x i hx hf
    obtain ⟨f, rfl⟩ : ∃ f, fuel = f + 1 := ⟨fuel - 1, by simp at hf; omega⟩
    have hy : 0 ≤ y := hall y (List.mem_cons_self _ _)
    have hunf : abase_p16_vec_asprint_loop (i + 1) (y :: rest) ++ [' ', ']']
        = ',' :: ' ' :: (abase_p16_asprint y
            ++ (abase_p16_vec_asprint_loop (i + 1 + 1) rest ++ [' ', ']'])) := by
      show ((if i + 1 ≠ 0 then [',', ' '] else []) ++ abase_p16_asprint y
        ++ abase_p16_vec_asprint_loop (i + 1 + 1) rest) ++ [' ', ']'] = _
      rw [if_pos (Nat.succ_ne_zero i)]
      simp
    have ht : ∀ c ∈ (',' :: ' ' :: (abase_p16_asprint y
        ++ (abase_p16_vec_asprint_loop (i + 1 + 1) rest ++ [' ', ']']))).head?,
        isdigit c = false := by
      intro c hc
      have : c = ',' := by simpa using hc.symm
      subst this; decide
    obtain ⟨h1, h2, _, _, _⟩ := abase_p16_asprint_scan x hx _ ht
    have hyt : ∀ c ∈ (abase_p16_vec_asprint_loop (i + 1 + 1) rest ++ [' ', ']']).head?,
        isdigit c = false := by
      intro c hc
      cases rest with
      | nil =>
        have : c = ' ' := by simpa [abase_p16_vec_asprint_loop] using hc.symm
        subst this; decide
      | cons z rest' =>
        have : c = ',' := by
          simpa [abase_p16_vec_asprint_loop] using hc.symm
        subst this; decide
    obtain ⟨_, _, h5, _, _⟩ := abase_p16_asprint_scan y hy _ hyt
    rw [hunf]
    unfold abase_p16_vec_sscan_loop
    rw [h1]
    simp only []
    rw [h2]
    have h3 : (',' :: ' ' :: (abase_p16_asprint y
        ++ (abase_p16_vec_asprint_loop (i + 1 + 1) rest ++ [' ', ']']))).dropWhile isspace
        = ',' :: ' ' :: (abase_p16_asprint y
          ++ (abase_p16_vec_asprint_loop (i + 1 + 1) rest ++ [' ', ']'])) := by
      rw [List.dropWhile_cons]
      have : isspace ',' = false := by decide
      rw [this]; rfl
    rw [h3]
    have h4 : (' ' :: (abase_p16_asprint y
        ++ (abase_p16_vec_asprint_loop (i + 1 + 1) rest ++ [' ', ']']))).dropWhile isspace
        = abase_p16_asprint y ++ (abase_p16_vec_asprint_loop (i + 1 + 1) rest ++ [' ', ']']) := by
      rw [List.dropWhile_cons]
      have : isspace ' ' = true := by decide
      rw [this]
      exact h5
    have hne : (some ',' : Option Char) ≠ some ']' := by decide
    simp only [List.head?_cons, hne, if_false, ne_eq, not_true_eq_false, List.drop_succ_cons,
      List.drop_zero, h4]
    rw [ih (fun z hz => hall z (List.mem_cons_of_mem _ hz)) f (v ++ [x]) y (i + 1) hy
      (by simp at hf; omega)]
    simp

/-- The text of the elements is at least as long as their number. -/
theorem abase_p16_vec_asprint_loop_length : ∀ (rest : List Int) (i : Nat),
    (∀ y ∈ rest, 0 ≤ y) → rest.length ≤ (abase_p16_vec_asprint_loop i rest).length := by
  intro rest
  induction rest with
  | nil => intro _ _; exact Nat.zero_le _
  | cons y rest ih =>
    intro i h
    have h1 := (abase_p16_asprint_scan y (h y (List.mem_cons_self _ _)) [] (by simp)).2.2.2.2
    have h2 := ih (i + 1) (fun z hz => h z (List.mem_cons_of_mem _ hz))
    show (y :: rest).length ≤ ((if i ≠ 0 then [',', ' '] else []) ++ abase_p16_asprint y
      ++ abase_p16_vec_asprint_loop (i + 1) rest).length
    rw [List.length_append, List.length_append, List.length_cons]
    omega

/-- The round trip of a vector without negative elements:
`abase_p16_vec_sscan` applied to the string of `abase_p16_vec_asprint (w, n)`
returns 1 and the vector `w`. -/
theorem abase_p16_vec_round_trip (w : List Int) (hw : ∀ x ∈ w, 0 ≤ x) :
    abase_p16_vec_sscan (abase_p16_vec_asprint w) = some (1, w) := by
  cases w with
  | nil => decide
  | cons x rest =>
    have hx : 0 ≤ x := hw x (List.mem_cons_self _ _)
    have hrest : ∀ y ∈ rest, 0 ≤ y := fun y hy => hw y (List.mem_cons_of_mem _ hy)
    have htext : abase_p16_vec_asprint (x :: rest)
        = '[' :: ' ' :: (abase_p16_asprint x
            ++ (abase_p16_vec_asprint_loop (0 + 1) rest ++ [' ', ']'])) := by
      unfold abase_p16_vec_asprint
      rw [if_neg (by simp)]
      show ['[', ' '] ++ ((if 0 ≠ 0 then [',', ' '] else []) ++ abase_p16_asprint x
        ++ abase_p16_vec_asprint_loop (0 + 1) rest) ++ [' ', ']'] = _
      simp
    have ht : ∀ c ∈ (abase_p16_vec_asprint_loop (0 + 1) rest ++ [' ', ']']).head?,
        isdigit c = false := by
      intro c hc
      cases rest with
      | nil =>
        have : c = ' ' := by simpa [abase_p16_vec_asprint_loop] using hc.symm
        subst this; decide
      | cons z rest' =>
        have : c = ',' := by
          simpa [abase_p16_vec_asprint_loop] using hc.symm
        subst this; decide
    obtain ⟨_, _, _, h4, _⟩ := abase_p16_asprint_scan x hx _ ht
    have hlen := abase_p16_vec_asprint_loop_length rest (0 + 1) hrest
    rw [htext]
    unfold abase_p16_vec_sscan
    have hb : isspace '[' = false := by decide
    simp only [List.dropWhile_cons, hb, Bool.false_eq_true, if_false, List.head?_cons, ne_eq,
      not_true_eq_false, List.drop_succ_cons, List.drop_zero]
    rw [if_neg h4]
    have := abase_p16_vec_sscan_loop_spec rest hrest
      ((abase_p16_asprint x
        ++ (abase_p16_vec_asprint_loop (0 + 1) rest ++ [' ', ']'])).length + 1) [] x 0 hx
      (by rw [List.length_append, List.length_append]; omega)
    rw [this]
    rfl

/-- C39: the text round trip of a vector with a negative element.  The vector
`[-1]` is printed as `"[ -1 ]"`; `abase_p16_sscan` reads `-1` from `"-1 ]"`,
but `abase_p16_vec_sscan` then skips digits only, finds the minus sign where
it expects `]` or `,`, and returns 0.  Every vector without a negative element
comes back: the string is `"[ ]"` for no element, `"[ 3, 0, 12 ]"` for the
elements 3, 0, 12, and `abase_p16_vec_sscan` returns 1 with the vector
printed. -/
theorem abase_p16_vec_sscan_negative :
    abase_p16_vec_asprint [-1] = ['[', ' ', '-', '1', ' ', ']']
    ∧ abase_p16_sscan ['-', '1', ' ', ']'] = some (-1)
    ∧ abase_p16_vec_sscan (abase_p16_vec_asprint [-1]) = some (0, [-1])
    ∧ abase_p16_vec_asprint [] = ['[', ' ', ']']
    ∧ abase_p16_vec_asprint [3, 0, 12]
        = ['[', ' ', '3', ',', ' ', '0', ',', ' ', '1', '2', ' ', ']']
    ∧ (∀ w : List Int, (∀ x ∈ w, 0 ≤ x) →
        abase_p16_vec_sscan (abase_p16_vec_asprint w) = some (1, w)) := by
  refine ⟨by decide, by decide, by decide, by decide, by decide, ?_⟩
  intro w hw
  exact abase_p16_vec_round_trip w hw

/-- The counting loop returns the position of the leading bit. -/
theorem ellM_mul_ui_steps_spec : ∀ (fuel l n : Nat), 0 < l → l < fuel →
    ∃ k, ellM_mul_ui_steps fuel l n = some (n + k) ∧ l / 2 ^ k = 1 := by
  intro fuel
  induction fuel with
  | zero => intro l n _ h; omega
  | succ f ih =>
    intro l n hl hf
    unfold ellM_mul_ui_steps
    by_cases h1 : l > 1
    · rw [if_pos h1]
      obtain ⟨k, hk, hd⟩ := ih (l / 2) (n + 1) (by omega) (by omega)
      refine ⟨k + 1, by rw [hk]; congr 1; omega, ?_⟩
      rw [pow_succ, mul_comm, ← Nat.div_div_eq_div_mul]
      exact hd
    · rw [if_neg h1]
      exact ⟨0, rfl, by simp; omega⟩

/-- The ladder keeps `t1` of index `(e >> n) * p` and `t2` of index
`((e >> n) + 1) * p`, and hands `P` to every `ellM_add`. -/
theorem ellM_mul_ui_loop_spec {α : Type} (add : α → α → α → α) (dbl : α → α)
    (idx : α → Nat → Prop) (P : α) (p e : Nat)
    (hd : ∀ X k, idx X k → idx (dbl X) (2 * k))
    (ha : ∀ X Y D k l, idx X k → idx Y l → idx D (Int.natAbs ((k : Int) - (l : Int))) →
      idx (add X Y D) (k + l))
    (hP : idx P p) : ∀ (n : Nat) (t : α × α),
      idx t.1 ((e / 2 ^ n) * p) → idx t.2 ((e / 2 ^ n + 1) * p) →
      idx (ellM_mul_ui_loop add dbl P e n t).1.1 (e * p)
      ∧ idx (ellM_mul_ui_loop add dbl P e n t).1.2 ((e + 1) * p)
      ∧ (∀ s ∈ (ellM_mul_ui_loop add dbl P e n t).2.pairs,
          ∃ i, idx s.1 (i * p) ∧ idx s.2 ((i + 1) * p))
      ∧ (∀ D ∈ (ellM_mul_ui_loop add dbl P e n t).2.diffs, D = P)
      ∧ (ellM_mul_ui_loop add dbl P e n t).2.diffs.length = n
      ∧ (ellM_mul_ui_loop add dbl P e n t).2.pairs.length = n := by
  intro n
  induction n with
  | zero =>
    intro t h1 h2
    simp only [pow_zero, Nat.div_one] at h1 h2
    refine ⟨h1, h2, ?_, ?_, rfl, rfl⟩
    · intro s hs; exact absurd hs (List.not_mem_nil _)
    · intro D hD; exact absurd hD (List.not_mem_nil _)
  | succ n ih =>
    intro t h1 h2
    have hsplit : e / 2 ^ n = 2 * (e / 2 ^ (n + 1)) + (e / 2 ^ n) % 2 := by
      rw [pow_succ, ← Nat.div_div_eq_div_mul]
      omega
    have hbit : (e >>> n) &&& 1 = (e / 2 ^ n) % 2 := by
      rw [Nat.shiftRight_eq_div_pow, Nat.and_one_is_mod]
    set i := e / 2 ^ (n + 1) with hi
    have hdiff : Int.natAbs (((i * p : Nat) : Int) - (((i + 1) * p : Nat) : Int)) = p := by
      have : ((i * p : Nat) : Int) - (((i + 1) * p : Nat) : Int) = -(p : Int) := by
        push_cast; ring
      rw [this, Int.natAbs_neg, Int.natAbs_ofNat]
    have hsum : idx (add t.1 t.2 P) (i * p + (i + 1) * p) :=
      ha t.1 t.2 P _ _ h1 h2 (by rw [hdiff]; exact hP)
    have hd1 := hd t.1 _ h1
    have hd2 := hd t.2 _ h2
    by_cases hb : (e / 2 ^ n) % 2 ≠ 0
    · have hb1 : (e / 2 ^ n) % 2 = 1 := by omega
      have e1 : i * p + (i + 1) * p = (e / 2 ^ n) * p := by rw [hsplit, hb1]; ring
      have e2 : 2 * ((i + 1) * p) = (e / 2 ^ n + 1) * p := by rw [hsplit, hb1]; ring
      rw [e1] at hsum
      rw [e2] at hd2
      obtain ⟨r1, r2, r3, r4, r5, r6⟩ := ih (add t.1 t.2 P, dbl t.2) hsum hd2
      have hunf : ellM_mul_ui_loop add dbl P e (n + 1) t
          = ((ellM_mul_ui_loop add dbl P e n (add t.1 t.2 P, dbl t.2)).1,
              { pairs := (add t.1 t.2 P, dbl t.2)
                  :: (ellM_mul_ui_loop add dbl P e n (add t.1 t.2 P, dbl t.2)).2.pairs,
                diffs := P :: (ellM_mul_ui_loop add dbl P e n (add t.1 t.2 P, dbl t.2)).2.diffs }) := by
        rw [ellM_mul_ui_loop, hbit, if_pos hb]
      rw [hunf]
      refine ⟨r1, r2, ?_, ?_, by simp [r5], by simp [r6]⟩
      · intro s hs
        rw [List.mem_cons] at hs
        rcases hs with rfl | hs
        · exact ⟨e / 2 ^ n, hsum, hd2⟩
        · exact r3 s hs
      · intro D hD
        rw [List.mem_cons] at hD
        rcases hD with rfl | hD
        · rfl
        · exact r4 D hD
    · have hb0 : (e / 2 ^ n) % 2 = 0 := by omega
      have e1 : 2 * (i * p) = (e / 2 ^ n) * p := by rw [hsplit, hb0]; ring
      have e2 : i * p + (i + 1) * p = (e / 2 ^ n + 1) * p := by rw [hsplit, hb0]; ring
      rw [e2] at hsum
      rw [e1] at hd1
      obtain ⟨r1, r2, r3, r4, r5, r6⟩ := ih (dbl t.1, add t.1 t.2 P) hd1 hsum
      have hunf : ellM_mul_ui_loop add dbl P e (n + 1) t
          = ((ellM_mul_ui_loop add dbl P e n (dbl t.1, add t.1 t.2 P)).1,
              { pairs := (dbl t.1, add t.1 t.2 P)
                  :: (ellM_mul_ui_loop add dbl P e n (dbl t.1, add t.1 t.2 P)).2.pairs,
                diffs := P :: (ellM_mul_ui_loop add dbl P e n (dbl t.1, add t.1 t.2 P)).2.diffs }) := by
        rw [ellM_mul_ui_loop, hbit, if_neg hb]
      rw [hunf]
      refine ⟨r1, r2, ?_, ?_, by simp [r5], by simp [r6]⟩
      · intro s hs
        rw [List.mem_cons] at hs
        rcases hs with rfl | hs
        · exact ⟨e / 2 ^ n, hd1, hsum⟩
        · exact r3 s hs
      · intro D hD
        rw [List.mem_cons] at hD
        rcases hD with rfl | hD
        · rfl
        · exact r4 D hD

/-- C40: the Montgomery ladder on scalar indices.  Let `idx X k` say that the
point `X` has scalar index `k`, and let the two point operations of the ladder
act on indices as the claim states: `dbl` takes a point of index `k` to one of
index `2k`, and `add` takes points of indices `k` and `l` to one of index
`k + l` when its difference argument has index `|k - l|`.  Then for every
`e >= 5` and every point `P` of index `p` the body of `ellM_mul_ui` returns;
every pair `(t1, t2)`, from `(P, 2P)` to the last one, has indices `i * p` and
`(i + 1) * p` for some `i` (so `t2 - t1 = P`); every call of `ellM_add` gets the
point `P` as difference argument, once per step; and `P` is replaced by a point
of index `e * p`, which is `e` for a base point of index 1.  The function
`ellM_mul_ui` is this body at `ellM_add` and `ellM_double`. -/
theorem ellM_mul_ui_index_correct {α : Type} (add : α → α → α → α) (dbl : α → α)
    (idx : α → Nat → Prop) (P : α) (p e : Nat)
    (hd : ∀ X k, idx X k → idx (dbl X) (2 * k))
    (ha : ∀ X Y D k l, idx X k → idx Y l → idx D (Int.natAbs ((k : Int) - (l : Int))) →
      idx (add X Y D) (k + l))
    (hP : idx P p) (he : 5 ≤ e) :
    ∃ Q tr, ellM_mul_ui_ladder add dbl P e = some (Q, tr)
      ∧ idx Q (e * p)
      ∧ (p = 1 → idx Q e)
      ∧ (∀ s ∈ tr.pairs, ∃ i, idx s.1 (i * p) ∧ idx s.2 ((i + 1) * p))
      ∧ (∀ D ∈ tr.diffs, D = P)
      ∧ tr.pairs.length = tr.diffs.length + 1
      ∧ ∀ (m b : Nat) (X : ellM_point_t), ellM_mul_ui X e m b
          = ellM_mul_ui_ladder (fun U V D => ellM_add U V D m) (fun U => ellM_double U m b) X e := by
  obtain ⟨k, hk, hdiv⟩ := ellM_mul_ui_steps_spec (e - 1 + 1) (e - 1) 0 (by omega) (by omega)
  have h1 : idx P (((e - 1) / 2 ^ (0 + k)) * p) := by
    rw [Nat.zero_add, hdiv, Nat.one_mul]; exact hP
  have h2 : idx (dbl P) (((e - 1) / 2 ^ (0 + k) + 1) * p) := by
    rw [Nat.zero_add, hdiv]
    have := hd P p hP
    have e2 : (1 + 1) * p = 2 * p := by ring
    rw [e2]; exact this
  obtain ⟨r1, r2, r3, r4, r5, r6⟩ :=
    ellM_mul_ui_loop_spec add dbl idx P p (e - 1) hd ha hP (0 + k) (P, dbl P) h1 h2
  have hfin : (e - 1 + 1) * p = e * p := by
    have : e - 1 + 1 = e := by omega
    rw [this]
  rw [hfin] at r2
  refine ⟨(ellM_mul_ui_loop add dbl P (e - 1) (0 + k) (P, dbl P)).1.2,
    { pairs := (P, dbl P) :: (ellM_mul_ui_loop add dbl P (e - 1) (0 + k) (P, dbl P)).2.pairs,
      diffs := (ellM_mul_ui_loop add dbl P (e - 1) (0 + k) (P, dbl P)).2.diffs },
    ?_, r2, ?_, ?_, r4, ?_, fun _ _ _ => rfl⟩
  · unfold ellM_mul_ui_ladder
    rw [if_neg (by omega)]
    simp only [hk]
  · intro hp1
    rw [hp1, Nat.mul_one] at r2
    exact r2
  · intro s hs
    rw [List.mem_cons] at hs
    rcases hs with rfl | hs
    · refine ⟨1, ?_, ?_⟩
      · rw [Nat.one_mul]; exact hP
      · have := hd P p hP
        have e2 : (1 + 1) * p = 2 * p := by ring
        rw [e2]; exact this
    · exact r3 s hs
  · show ((ellM_mul_ui_loop add dbl P (e - 1) (0 + k) (P, dbl P)).2.pairs.length + 1
      = (ellM_mul_ui_loop add dbl P (e - 1) (0 + k) (P, dbl P)).2.diffs.length + 1)
    rw [r5, r6]

/-- The ladder for `e = 11` on scalar indices, `k` standing for `k` times the
base point, with an addition that is right only for the right difference
argument: the result is `11 * 3` from the point of index 3. -/
theorem ellM_mul_ui_index_correct_witness :
    ∃ Q tr, ellM_mul_ui_ladder
        (fun (k l d : Nat) => if Int.natAbs ((k : Int) - (l : Int)) = d then k + l else 0)
        (fun (k : Nat) => 2 * k) 3 11 = some (Q, tr)
      ∧ Q = 11 * 3
      ∧ (3 = 1 → Q = 11)
      ∧ (∀ s ∈ tr.pairs, ∃ i, s.1 = i * 3 ∧ s.2 = (i + 1) * 3)
      ∧ (∀ D ∈ tr.diffs, D = 3)
      ∧ tr.pairs.length = tr.diffs.length + 1
      ∧ ∀ (m b : Nat) (X : ellM_point_t), ellM_mul_ui X 11 m b
          = ellM_mul_ui_ladder (fun U V D => ellM_add U V D m) (fun U => ellM_double U m b) X 11 :=
  ellM_mul_ui_index_correct
    (fun (k l d : Nat) => if Int.natAbs ((k : Int) - (l : Int)) = d then k + l else 0)
    (fun (k : Nat) => 2 * k) (fun X k => X = k) 3 3 11
    (fun X k h => by rw [h])
    (fun X Y D k l hX hY hD => by
      subst hX; subst hY
      show (if Int.natAbs ((X : Int) - (Y : Int)) = D then X + Y else 0) = X + Y
      rw [if_pos hD.symm])
    rfl (by decide)

/-- The ladder for `e = 11` on scalar indices from the base point: the pairs
`(t1, t2)` are `(1, 2)`, `(2, 3)`, `(5, 6)`, `(10, 11)`, and the result is 11. -/
theorem ellM_mul_ui_index_eleven :
    (ellM_mul_ui_ladder (fun (k l _d : Nat) => k + l) (fun (k : Nat) => 2 * k) 1 11).map
        (fun r => (r.1, r.2.pairs, r.2.diffs))
      = some (11, [(1, 2), (2, 3), (5, 6), (10, 11)], [1, 1, 1]) := by
  decide

/-- The function `ellM_mul_ui` on residues: the run for `e = 11` from the point
`(2 :: 1)` modulo 101 with `b = 7`. -/
theorem ellM_mul_ui_eleven :
    (ellM_mul_ui ⟨2, 1⟩ 11 101 7).map (fun r => (r.1, r.2.pairs, r.2.diffs))
      = some (⟨49, 74⟩,
          [(⟨2, 1⟩, ⟨9, 52⟩), (⟨9, 52⟩, ⟨79, 86⟩), (⟨82, 8⟩, ⟨17, 80⟩), (⟨36, 85⟩, ⟨49, 74⟩)],
          [⟨2, 1⟩, ⟨2, 1⟩, ⟨2, 1⟩]) := by
  decide

end Las
